import Mathlib

/-! gira: registry, upstream pool and session forwarder

A shallow embedding of the coordination plane of the gira game-server framework:

* `registry/service.go`: the word trie and the service registry,
* `registry/player.go`: the player registry,
* `framework/smallgame/gateway/server/upstream.go`: the upstream pool,
* `framework/smallgame/gateway/server/session.go`: the session forwarder.

Go maps and `sync.Map` values are association lists whose bindings have distinct
keys; the order of the list stands for one iteration order of the map, and the
theorems about enumerations are stated on membership so that they hold for every
iteration order.  The coordination store (etcd v3) is an explicit value that each
transaction turns into a new one.  Revisions are natural numbers.
-/

namespace Gira

/-! ## Go maps -/

/-- The map read `m[k]` (`sync.Map.Load`): the binding of `k`, if any. -/
def GoMap.load {β : Type} : List (String × β) → String → Option β
  | [], _ => none
  | (k', v) :: t, k => if k' = k then some v else GoMap.load t k

/-- The map removal `delete(m, k)` (`sync.Map.Delete`). -/
def GoMap.delete {β : Type} : List (String × β) → String → List (String × β)
  | [], _ => []
  | (k', v) :: t, k => if k' = k then GoMap.delete t k else (k', v) :: GoMap.delete t k

/-- The map write `m[k] = v` (`sync.Map.Store`): an existing binding is replaced
where it is, a new one is added. -/
def GoMap.store {β : Type} : List (String × β) → String → β → List (String × β)
  | [], k, v => [(k, v)]
  | (k', v') :: t, k, v => if k' = k then (k, v) :: t else (k', v') :: GoMap.store t k v

/-- The `sync.Map.LoadOrStore` write: an existing binding is kept. -/
def GoMap.loadOrStore {β : Type} (m : List (String × β)) (k : String) (v : β) :
    List (String × β) :=
  match GoMap.load m k with
  | some _ => m
  | none => GoMap.store m k v

/-! ## Strings -/

/-- The pieces of a character list between the occurrences of `sep`. -/
def splitChars (sep : Char) : List Char → List (List Char)
  | [] => [[]]
  | c :: cs =>
    if c = sep then [] :: splitChars sep cs
    else
      match splitChars sep cs with
      | [] => [[c]]
      | w :: ws => (c :: w) :: ws

/-- The Go call `strings.Split(s, "/")`. -/
def Split (s : String) : List String :=
  (splitChars '/' s.data).map String.mk

/-- The Go call `strings.Join(words, "/")`. -/
def Join : List String → String
  | [] => ""
  | [w] => w
  | w :: ws => w ++ "/" ++ Join ws

/-! ## Errors, peers and the registry handle -/

/-- The error kinds of `gira/errors` that the embedded code returns. -/
inductive Err where
  | ErrInvalidArgs
  | ErrInvalidService
  | ErrPeerNotFound
  | ErrServiceLocked
  | ErrUserNotFound
  | ErrUserLocked
  | ErrUpstreamUnavailable
  | ErrUpstreamUnreachable
  | ErrNullPointer
  | ErrTODO
  | ErrInvalidPlayerKey
  | ErrAtoi
  | ErrRpc
deriving DecidableEq, Repr

/-- Modelled from the spec: the type `gira.Peer`, whose declaration is outside the
embedded files; identity is `(Name, Id)` and `FullName` is the wire name. -/
structure Peer where
  Id : Int
  Name : String
  FullName : String
  Address : String
  Metadata : List (String × String)
deriving DecidableEq, Repr

/-- What a call of type `(*gira.Peer, error)` gives back: the two results, or a
runtime panic of the calling goroutine. -/
inductive Reply where
  | ret (peer : Option Peer) (err : Option Err)
  | panic
deriving DecidableEq, Repr

/-- Modelled from the spec: the fields and methods of `registry.Registry` that the
player and service registries read.  `GetPeer` is the lookup in the discovery set,
`SelfPeer` the peer of the process, and the two handler fields count the
registered watch handlers. -/
structure Registry where
  name : String
  appFullName : String
  appId : Int
  isNotify : Int
  localPlayerWatchHandlers : Nat
  serviceWatchHandlers : Nat
  GetPeer : String → Option Peer
  SelfPeer : Peer

/-! ## The coordination store -/

/-- The etcd record `mvccpb.KeyValue`. -/
structure KeyValue where
  Key : String
  CreateRevision : Nat
  ModRevision : Nat
  Version : Nat
  Value : String
  Lease : Nat
deriving DecidableEq, Repr

/-- The coordination store: its keys and its current revision. -/
structure Etcd where
  kvs : List (String × KeyValue)
  revision : Nat

/-- The empty store. -/
def Etcd.empty : Etcd := { kvs := [], revision := 1 }

/-- The comparison operator of a transaction guard. -/
inductive CmpResult where
  | equal
  | notEqual
deriving DecidableEq, Repr

/-- A transaction guard `clientv3.Compare(target(key), op, v)`. -/
inductive Cmp where
  | CreateRevision (key : String) (op : CmpResult) (v : Nat)
  | Value (key : String) (op : CmpResult) (v : String)

/-- A transaction operation; `lease` is the lease of `clientv3.WithLease`, or `0`
when the put carries no option. -/
inductive Op where
  | OpPut (key val : String) (lease : Nat)
  | OpDelete (key : String)
  | OpGet (key : String)

/-- The response of one transaction operation. -/
inductive ResponseOp where
  | ResponsePut (revision : Nat)
  | ResponseDeleteRange (deleted : Nat)
  | ResponseRange (kvs : List KeyValue)
deriving DecidableEq, Repr

/-- The etcd record `clientv3.TxnResponse`. -/
structure TxnResponse where
  Succeeded : Bool
  Responses : List ResponseOp
deriving DecidableEq, Repr

/-- The create revision of a key as a guard reads it: `0` for a missing key. -/
def createRevisionOf (kvs : List (String × KeyValue)) (key : String) : Nat :=
  match GoMap.load kvs key with
  | some kv => kv.CreateRevision
  | none => 0

/-- Evaluation of a guard; a missing key has create revision `0`, and a value
comparison on a missing key fails. -/
def Cmp.holds (kvs : List (String × KeyValue)) : Cmp → Bool
  | .CreateRevision key op v =>
    match op with
    | .equal => decide (createRevisionOf kvs key = v)
    | .notEqual => decide (createRevisionOf kvs key ≠ v)
  | .Value key op v =>
    match GoMap.load kvs key with
    | none => false
    | some kv =>
      match op with
      | .equal => decide (kv.Value = v)
      | .notEqual => decide (kv.Value ≠ v)

/-- The record that a put of `val` at revision `rev` leaves under `key`, whose
current record is `cur`: an existing key keeps its create revision. -/
def KeyValue.put (rev : Nat) (cur : Option KeyValue) (key val : String) (lease : Nat) :
    KeyValue :=
  match cur with
  | some old =>
    { old with Value := val, ModRevision := rev, Version := old.Version + 1, Lease := lease }
  | none =>
    { Key := key, CreateRevision := rev, ModRevision := rev, Version := 1, Value := val,
      Lease := lease }

/-- One operation applied at revision `rev`: the new keys, the response and
whether the store changed. -/
def Op.apply (rev : Nat) (kvs : List (String × KeyValue)) :
    Op → List (String × KeyValue) × ResponseOp × Bool
  | .OpPut key val lease =>
    (GoMap.store kvs key (KeyValue.put rev (GoMap.load kvs key) key val lease),
      .ResponsePut rev, true)
  | .OpDelete key =>
    match GoMap.load kvs key with
    | some _ => (GoMap.delete kvs key, .ResponseDeleteRange 1, true)
    | none => (kvs, .ResponseDeleteRange 0, false)
  | .OpGet key =>
    match GoMap.load kvs key with
    | some kv => (kvs, .ResponseRange [kv], false)
    | none => (kvs, .ResponseRange [], false)

/-- The operations of one branch, applied in order at the same revision. -/
def Op.applyAll (rev : Nat) :
    List (String × KeyValue) → List Op → List (String × KeyValue) × List ResponseOp × Bool
  | kvs, [] => (kvs, [], false)
  | kvs, op :: ops =>
    let r := Op.apply rev kvs op
    let rs := Op.applyAll rev r.1 ops
    (rs.1, r.2.1 :: rs.2.1, r.2.2 || rs.2.2)

/-- The committed transaction `Txn.If(cmps).Then(thenOps).Else(elseOps)`: all
writes of the chosen branch happen at revision `revision + 1`, and the revision of
the store advances only when the branch changed a key.  The commit itself is
taken to reach the store; the keys of one branch are distinct in every call of the
registries. -/
def Etcd.Txn (s : Etcd) (cmps : List Cmp) (thenOps elseOps : List Op) : Etcd × TxnResponse :=
  let ok := cmps.all (Cmp.holds s.kvs)
  let r := Op.applyAll (s.revision + 1) s.kvs (if ok then thenOps else elseOps)
  ({ kvs := r.1, revision := if r.2.2 then s.revision + 1 else s.revision },
   { Succeeded := ok, Responses := r.2.1 })

/-- What one operation at revision `rev` does to the record `cur` of the key `k`. -/
def Op.effect (rev : Nat) (k : String) (cur : Option KeyValue) : Op → Option KeyValue
  | .OpPut key val lease => if key = k then some (KeyValue.put rev cur key val lease) else cur
  | .OpDelete key => if key = k then none else cur
  | .OpGet _ => cur

/-- The value of the first key of the first response when it is a range response
with a key, as the failure branches read it; `none` when that response is not a
range response. -/
def firstRangeValue (resp : TxnResponse) : Option (Option String) :=
  match resp.Responses with
  | [] => some none
  | .ResponseRange kvs :: _ =>
    match kvs with
    | [] => some none
    | kv :: _ => some (some kv.Value)
  | _ :: _ => none

/-! ## The word trie (`registry/service.go`) -/

/-- The Go struct `word_trie_node`. -/
inductive word_trie_node where
  | mk (value path : String) (set : Bool) (nodes : List (String × word_trie_node))

/-- The field `value`. -/
def word_trie_node.value : word_trie_node → String
  | .mk v _ _ _ => v

/-- The field `path`. -/
def word_trie_node.path : word_trie_node → String
  | .mk _ p _ _ => p

/-- The field `set`. -/
def word_trie_node.set : word_trie_node → Bool
  | .mk _ _ s _ => s

/-- The field `nodes`. -/
def word_trie_node.nodes : word_trie_node → List (String × word_trie_node)
  | .mk _ _ _ n => n

/-- The Go struct `word_trie_header_node`. -/
structure word_trie_header_node where
  value : String
  path : String
  set : Bool
  nodes : List (String × word_trie_node)

/-- The Go struct `word_trie`. -/
structure word_trie where
  headers : List (String × word_trie_header_node)

/-- The constructor `newWordTrie`. -/
def newWordTrie : word_trie := { headers := [] }

/-- The words of a path as `add`, `delete` and `search` compute them: the path is
split on the slash and a leading empty word is dropped. -/
def pathWords (path : String) : List String :=
  match Split path with
  | [] => []
  | w :: ws => if w.length ≤ 0 then ws else w :: ws

mutual
/-- The method `word_trie_node.collect`. -/
def word_trie_node.collect : word_trie_node → List String → List String
  | .mk _ path set nodes, result =>
    collectNodes nodes (if set then result ++ [path] else result)
/-- The loop `for _, c := range nodes { result = c.collect(result) }`. -/
def collectNodes : List (String × word_trie_node) → List String → List String
  | [], result => result
  | (_, c) :: rest, result => collectNodes rest (c.collect result)
end

/-- The method `word_trie_header_node.collect`. -/
def word_trie_header_node.collect (header : word_trie_header_node) (result : List String) :
    List String :=
  collectNodes header.nodes (if header.set then result ++ [header.path] else result)

/-- The node `lastNode` of one turn of the loop of `word_trie_header_node.add`:
the node under `v`, or a new one with the value `v` when there is none. -/
def lookupOrNew (nodes : List (String × word_trie_node)) (v : String) : word_trie_node :=
  match GoMap.load nodes v with
  | some n => n
  | none => .mk v "" false []

/-- The loop of `word_trie_header_node.add` over `words`, from the map `nodes`:
each word is looked up and created when missing, and the node reached by the last
word gets the path and the set bit. -/
def addWords (path : String) :
    List (String × word_trie_node) → List String → List (String × word_trie_node)
  | nodes, [] => nodes
  | nodes, [v] =>
    GoMap.store nodes v (.mk (lookupOrNew nodes v).value path true (lookupOrNew nodes v).nodes)
  | nodes, v :: w :: rest =>
    GoMap.store nodes v
      (.mk (lookupOrNew nodes v).value (lookupOrNew nodes v).path (lookupOrNew nodes v).set
        (addWords path (lookupOrNew nodes v).nodes (w :: rest)))

/-- The method `word_trie_header_node.add`. -/
def word_trie_header_node.add (header : word_trie_header_node) (path : String)
    (words : List String) : word_trie_header_node × Option Err :=
  match words with
  | [] => ({ header with path := path, set := true }, none)
  | _ :: _ => ({ header with nodes := addWords path header.nodes words }, none)

/-- The method `word_trie.add`. -/
def word_trie.add (trie : word_trie) (path : String) : word_trie × Option Err :=
  match pathWords path with
  | [] => (trie, none)
  | w0 :: rest =>
    if rest.any (fun w => decide (w.length ≤ 0)) then (trie, some .ErrInvalidArgs)
    else
      match GoMap.load trie.headers w0 with
      | none =>
        let header : word_trie_header_node := { value := w0, path := "", set := false, nodes := [] }
        let r := header.add path rest
        ({ headers := GoMap.store trie.headers w0 r.1 }, r.2)
      | some header =>
        let r := header.add path rest
        ({ headers := GoMap.store trie.headers w0 r.1 }, r.2)

/-- The method `word_trie_node.delete`. -/
def word_trie_node.delete : word_trie_node → List String → word_trie_node × Option Err
  | node, [] => (.mk node.value node.path false node.nodes, none)
  | node, w :: rest =>
    match GoMap.load node.nodes w with
    | none => (node, some .ErrTODO)
    | some c =>
      let r := word_trie_node.delete c rest
      match r.2 with
      | some e => (.mk node.value node.path node.set (GoMap.store node.nodes w r.1), some e)
      | none =>
        if r.1.nodes.length ≤ 0 && !r.1.set then
          (.mk node.value node.path node.set (GoMap.delete node.nodes w), none)
        else (.mk node.value node.path node.set (GoMap.store node.nodes w r.1), none)

/-- The method `word_trie_header_node.delete`; the error of the child is dropped. -/
def word_trie_header_node.delete (header : word_trie_header_node) (words : List String) :
    word_trie_header_node × Option Err :=
  match words with
  | [] => ({ header with set := false }, none)
  | w :: rest =>
    match GoMap.load header.nodes w with
    | none => (header, none)
    | some c =>
      let r := word_trie_node.delete c rest
      if r.1.nodes.length ≤ 0 && !r.1.set then
        ({ header with nodes := GoMap.delete header.nodes w }, none)
      else ({ header with nodes := GoMap.store header.nodes w r.1 }, none)

/-- The method `word_trie.delete`. -/
def word_trie.delete (trie : word_trie) (path : String) : word_trie × Option Err :=
  match pathWords path with
  | [] => (trie, some .ErrTODO)
  | w0 :: rest =>
    match GoMap.load trie.headers w0 with
    | none => (trie, some .ErrTODO)
    | some header =>
      let r := header.delete rest
      match r.2 with
      | some e => ({ headers := GoMap.store trie.headers w0 r.1 }, some e)
      | none =>
        if r.1.nodes.length ≤ 0 && !r.1.set then
          ({ headers := GoMap.delete trie.headers w0 }, none)
        else ({ headers := GoMap.store trie.headers w0 r.1 }, none)

/-- The walk of `word_trie_header_node.search` along `words`: the map reached, or
`none` when a word is missing; an empty last word stops the walk. -/
def searchWalk :
    List (String × word_trie_node) → List String → Option (List (String × word_trie_node))
  | nodes, [] => some nodes
  | nodes, v :: rest =>
    if rest.length = 0 ∧ v.length ≤ 0 then some nodes
    else
      match GoMap.load nodes v with
      | none => none
      | some lastNode => searchWalk lastNode.nodes rest

/-- The method `word_trie_header_node.search`. -/
def word_trie_header_node.search (header : word_trie_header_node) (words : List String)
    (found : List String) : List String :=
  match searchWalk header.nodes words with
  | none => []
  | some nodes => collectNodes nodes found

/-- The loop `for _, header := range wt.headers { matches = header.collect(matches) }`. -/
def collectHeaders : List (String × word_trie_header_node) → List String → List String
  | [], result => result
  | (_, h) :: rest, result => collectHeaders rest (h.collect result)

/-- The method `word_trie.search`. -/
def word_trie.search (wt : word_trie) (path : String) : List String :=
  match pathWords path with
  | [] => []
  | w0 :: rest =>
    if w0.length ≤ 0 then collectHeaders wt.headers []
    else
      match GoMap.load wt.headers w0 with
      | none => []
      | some header => header.search rest []

/-! ## Watch handlers -/

/-- Modelled from the spec: the record `gira.LocalPlayer`, whose declaration is
outside the embedded files; the fields are those that `player.go` fills. -/
structure LocalPlayer where
  LoginTime : Int
  UserId : String
  CreateRevision : Nat
deriving DecidableEq, Repr

/-- Modelled from the spec: the record `gira.ServiceName`, whose declaration is
outside the embedded files; `Peer` is the pointer to the owning peer, `none` for
a nil pointer. -/
structure ServiceName where
  IsSelf : Bool
  ServiceFullName : String
  ServiceTypeName : String
  Peer : Option Peer
  CreateRevision : Nat
deriving DecidableEq, Repr

/-- One call of a watch handler; `handler` is the position of the handler in the
registry's handler list. -/
inductive Event where
  | OnLocalPlayerAdd (handler : Nat) (player : LocalPlayer)
  | OnLocalPlayerDelete (handler : Nat) (player : LocalPlayer)
  | OnServiceAdd (handler : Nat) (service : ServiceName)
  | OnServiceDelete (handler : Nat) (service : ServiceName)
deriving DecidableEq, Repr

/-- The outcome of a registry call: the store and the registry after the call,
the handler calls it made and what it returned. -/
structure Out (σ : Type) where
  etcd : Etcd
  self : σ
  fired : List Event
  reply : Reply

/-! ## The service registry (`registry/service.go`) -/

/-- The Go struct `service_registry`. -/
structure service_registry where
  peerServicePrefix : String
  servicePrefix : String
  services : List (String × ServiceName)
  selfServices : List (String × ServiceName)
  watchStartRevision : Nat
  prefixIndex : word_trie

/-- The constructor `newConfigServiceRegistry`. -/
def newConfigServiceRegistry (r : Registry) : service_registry :=
  { prefixIndex := newWordTrie
    servicePrefix := "/service/"
    peerServicePrefix := "/peer/service/" ++ r.appFullName ++ "/"
    services := []
    selfServices := []
    watchStartRevision := 0 }

/-- The method `service_registry.onServiceAdd`: the handler calls it makes, or
`none` for the runtime panic of the log line, which reads `service.Peer.FullName`
and so dereferences a nil `Peer`; the log line comes after the check of
`isNotify`. -/
def service_registry.onServiceAdd (r : Registry) (service : ServiceName) :
    Option (List Event) :=
  if r.isNotify = 0 then some []
  else
    match service.Peer with
    | none => none
    | some _ =>
      some ((List.range r.serviceWatchHandlers).map (fun h => Event.OnServiceAdd h service))

/-- The method `service_registry.onServiceDelete`: the handler calls it makes, or
`none` for the runtime panic of the log line, which reads `service.Peer.FullName`
and so dereferences a nil `Peer`. -/
def service_registry.onServiceDelete (r : Registry) (service : ServiceName) :
    Option (List Event) :=
  match service.Peer with
  | none => none
  | some _ =>
    some ((List.range r.serviceWatchHandlers).map (fun h => Event.OnServiceDelete h service))

/-- The method `service_registry.NewServiceName`; `AsAppService` is the option of
the same name. -/
def service_registry.NewServiceName (r : Registry) (serviceName : String)
    (AsAppService : Bool) : String :=
  if AsAppService then serviceName ++ "/" ++ toString r.appId else serviceName

/-- The part of `service_registry.RegisterService` after the check of the name:
the transaction and its two outcomes.  After a successful transaction the maps and
the trie are updated before `onServiceAdd` is called, so a panic of `onServiceAdd`
(the peer found under the own full name is nil) leaves them updated. -/
def service_registry.registerTxn (self : service_registry) (r : Registry) (etcd : Etcd)
    (serviceKey peerKey serviceFullName serviceTypeName : String) : Out service_registry :=
  let value := r.appFullName
  let t := etcd.Txn [Cmp.CreateRevision serviceKey .equal 0]
    [Op.OpPut serviceKey value 0, Op.OpPut peerKey value 0] [Op.OpGet serviceKey]
  let txnResp := t.2
  if txnResp.Succeeded then
    match txnResp.Responses with
    | _ :: .ResponsePut createRevision :: _ =>
      let peer := r.GetPeer value
      let service : ServiceName :=
        { IsSelf := true
          ServiceFullName := serviceFullName
          ServiceTypeName := serviceTypeName
          Peer := peer
          CreateRevision := createRevision }
      let self : service_registry :=
        { self with
          services := GoMap.loadOrStore self.services serviceFullName service
          prefixIndex := (self.prefixIndex.add serviceFullName).1
          selfServices := GoMap.store self.selfServices serviceFullName service }
      match service_registry.onServiceAdd r service with
      | some fired => { etcd := t.1, self := self, fired := fired, reply := .ret none none }
      | none => { etcd := t.1, self := self, fired := [], reply := .panic }
    | _ => { etcd := t.1, self := self, fired := [], reply := .panic }
  else
    match firstRangeValue txnResp with
    | some (some appFullName) =>
      { etcd := t.1, self := self, fired := [],
        reply := .ret (r.GetPeer appFullName) (some .ErrServiceLocked) }
    | _ => { etcd := t.1, self := self, fired := [], reply := .panic }

/-- The method `service_registry.RegisterService`. -/
def service_registry.RegisterService (self : service_registry) (r : Registry) (etcd : Etcd)
    (serviceFullName : String) (AsAppService : Bool) : Out service_registry :=
  let serviceFullName := service_registry.NewServiceName r serviceFullName AsAppService
  let serviceKey := self.servicePrefix ++ serviceFullName
  let peerKey := self.peerServicePrefix ++ serviceFullName
  match Split serviceFullName with
  | [w0, w1] => self.registerTxn r etcd serviceKey peerKey (w0 ++ "/" ++ w1) w0
  | [_] => self.registerTxn r etcd serviceKey peerKey serviceFullName ""
  | _ => { etcd := etcd, self := self, fired := [], reply := .ret none (some .ErrInvalidService) }

/-- The method `service_registry.UnregisterService`.  In the failure branch the
log line reads `Kvs[0]` of the first response without a check, after the guarded
read of the same value. -/
def service_registry.UnregisterService (self : service_registry) (r : Registry) (etcd : Etcd)
    (serviceName : String) : Out service_registry :=
  let serviceKey := self.servicePrefix ++ serviceName
  let peerKey := self.peerServicePrefix ++ serviceName
  let t := etcd.Txn
    [Cmp.Value serviceKey .equal r.appFullName, Cmp.CreateRevision serviceKey .notEqual 0]
    [Op.OpDelete peerKey, Op.OpDelete serviceKey] [Op.OpGet serviceKey]
  let txnResp := t.2
  if txnResp.Succeeded then { etcd := t.1, self := self, fired := [], reply := .ret none none }
  else
    match firstRangeValue txnResp with
    | some (some appFullName) =>
      { etcd := t.1, self := self, fired := [],
        reply := .ret (r.GetPeer appFullName) (some .ErrServiceLocked) }
    | _ => { etcd := t.1, self := self, fired := [], reply := .panic }

/-- The loop of `service_registry.WhereIsService` over the names found by the
trie, with the counter `multicastCount`. -/
def whereLoop (services : List (String × ServiceName)) :
    List String → Int → List (Option Peer) → List (Option Peer)
  | [], _, peers => peers
  | name :: arr, multicastCount, peers =>
    match GoMap.load services name with
    | some service =>
      if multicastCount > 0 then
        if multicastCount - 1 ≤ 0 then peers ++ [service.Peer]
        else whereLoop services arr (multicastCount - 1) (peers ++ [service.Peer])
      else whereLoop services arr multicastCount (peers ++ [service.Peer])
    | none => whereLoop services arr multicastCount peers

/-- The method `service_registry.WhereIsService`; `Catalog`, `Prefix` and
`MaxCount` are the fields of the options.  The error result is always nil. -/
def service_registry.WhereIsService (self : service_registry) (serviceName : String)
    (Catalog Prefix : Bool) (MaxCount : Int) : List (Option Peer) :=
  if Catalog || Prefix then
    whereLoop self.services (self.prefixIndex.search serviceName) MaxCount []
  else
    match GoMap.load self.services serviceName with
    | some service => [service.Peer]
    | none => []

/-- The result of a handler of the watch on the service keys: the registry after
it, the handler calls it made, and what it gave back: `.ret none err` for the
returned error `err`, or the runtime panic of the goroutine. -/
structure WatchOut where
  self : service_registry
  fired : List Event
  reply : Reply

/-- The method `service_registry.onKvDelete`, the handler of a delete event of
the watch on the service keys.  The log line that reads
`lastService.Peer.FullName` comes before `services.Delete`, so with a nil `Peer`
the handler panics with the registry as it was; `onServiceDelete` reads the same
field after the service map and the trie are updated. -/
def service_registry.onKvDelete (self : service_registry) (r : Registry) (key : String) :
    WatchOut :=
  let words := Split key
  if words.length ≤ 2 then
    { self := self, fired := [], reply := .ret none (some .ErrInvalidService) }
  else
    let words := words.drop 2
    let serviceFullName : String :=
      match words with
      | [w0, w1] => w0 ++ "/" ++ w1
      | [w0] => w0
      | _ => ""
    match GoMap.load self.services serviceFullName with
    | some lastService =>
      match lastService.Peer with
      | none => { self := self, fired := [], reply := .panic }
      | some _ =>
        let deleted : service_registry :=
          { self with
            services := GoMap.delete self.services serviceFullName
            prefixIndex := (self.prefixIndex.delete (Join words)).1 }
        match service_registry.onServiceDelete r lastService with
        | none => { self := deleted, fired := [], reply := .panic }
        | some fired =>
          { self :=
              { deleted with
                selfServices :=
                  if lastService.IsSelf then GoMap.delete deleted.selfServices serviceFullName
                  else deleted.selfServices }
            fired := fired
            reply := .ret none none }
    | none => { self := self, fired := [], reply := .ret none none }

/-- The method `service_registry.onKvAdd`, the handler of a put event of the
watch on the service keys. -/
def service_registry.onKvAdd (self : service_registry) (r : Registry) (kv : KeyValue) :
    WatchOut :=
  let words := Split kv.Key
  if words.length ≤ 2 then
    { self := self, fired := [], reply := .ret none (some .ErrInvalidService) }
  else
    match words.drop 2 with
    | [] => { self := self, fired := [], reply := .ret none (some .ErrInvalidService) }
    | _ :: _ :: _ :: _ =>
      { self := self, fired := [], reply := .ret none (some .ErrInvalidService) }
    | w0 :: rest =>
      let serviceFullName : String :=
        match rest with
        | [w1] => w0 ++ "/" ++ w1
        | _ => w0
      let serviceTypeName : String :=
        match rest with
        | [_] => w0
        | _ => ""
      let value := kv.Value
      match GoMap.load self.services serviceFullName with
      | some _ => { self := self, fired := [], reply := .ret none none }
      | none =>
        match r.GetPeer value with
        | none => { self := self, fired := [], reply := .ret none (some .ErrPeerNotFound) }
        | some peer =>
          let service : ServiceName :=
            { ServiceFullName := serviceFullName
              ServiceTypeName := serviceTypeName
              Peer := some peer
              IsSelf := decide (peer = r.SelfPeer)
              CreateRevision := 0 }
          let added : service_registry :=
            { self with
              services := GoMap.loadOrStore self.services serviceFullName service
              prefixIndex := (self.prefixIndex.add serviceFullName).1
              selfServices :=
                if service.IsSelf then GoMap.store self.selfServices serviceFullName service
                else self.selfServices }
          match service_registry.onServiceAdd r service with
          | some fired => { self := added, fired := fired, reply := .ret none none }
          | none => { self := added, fired := [], reply := .panic }

/-! ## The player registry (`registry/player.go`) -/

/-- The Go struct `player_registry`. -/
structure player_registry where
  peerTypePrefix : String
  peerPrefix : String
  userPrefix : String
  localPlayers : List (String × LocalPlayer)
  watchStartRevision : Nat

/-- The constructor `newConfigPlayerRegistry`. -/
def newConfigPlayerRegistry (r : Registry) : player_registry :=
  { peerTypePrefix := "/peer_type/user/" ++ r.name ++ "/"
    peerPrefix := "/peer/user/" ++ r.appFullName ++ "/"
    userPrefix := "/user/"
    localPlayers := []
    watchStartRevision := 0 }

/-- The method `player_registry.onLocalPlayerAdd`. -/
def player_registry.onLocalPlayerAdd (r : Registry) (player : LocalPlayer) : List Event :=
  if r.isNotify = 0 then []
  else (List.range r.localPlayerWatchHandlers).map (fun h => Event.OnLocalPlayerAdd h player)

/-- The method `player_registry.onLocalPlayerDelete`. -/
def player_registry.onLocalPlayerDelete (r : Registry) (player : LocalPlayer) : List Event :=
  (List.range r.localPlayerWatchHandlers).map (fun h => Event.OnLocalPlayerDelete h player)

/-- The method `player_registry.LockLocalUser`; `loginTime` is the reading of
`time.Now().Unix()`. -/
def player_registry.LockLocalUser (self : player_registry) (r : Registry) (etcd : Etcd)
    (loginTime : Int) (userId : String) : Out player_registry :=
  let localKey := self.peerPrefix ++ userId
  let peerKey := self.peerTypePrefix ++ userId
  let userKey := self.userPrefix ++ userId
  let value := toString loginTime
  let t := etcd.Txn [Cmp.CreateRevision peerKey .equal 0]
    [Op.OpPut userKey r.appFullName 0, Op.OpPut localKey value 0, Op.OpPut peerKey r.appFullName 0]
    [Op.OpGet peerKey]
  let txnResp := t.2
  if txnResp.Succeeded then
    match txnResp.Responses with
    | _ :: .ResponsePut createRevision :: _ =>
      let player : LocalPlayer :=
        { LoginTime := loginTime, UserId := userId, CreateRevision := createRevision }
      { etcd := t.1
        self := { self with localPlayers := GoMap.store self.localPlayers userId player }
        fired := player_registry.onLocalPlayerAdd r player
        reply := .ret none none }
    | _ => { etcd := t.1, self := self, fired := [], reply := .panic }
  else
    match firstRangeValue txnResp with
    | some fullName =>
      { etcd := t.1, self := self, fired := [],
        reply := .ret (r.GetPeer (fullName.getD "")) (some .ErrUserLocked) }
    | none => { etcd := t.1, self := self, fired := [], reply := .panic }

/-- The method `player_registry.UnlockLocalUser`. -/
def player_registry.UnlockLocalUser (self : player_registry) (r : Registry) (etcd : Etcd)
    (userId : String) : Out player_registry :=
  let localKey := self.peerPrefix ++ userId
  let peerKey := self.peerTypePrefix ++ userId
  let userKey := self.userPrefix ++ userId
  match GoMap.load self.localPlayers userId with
  | none => { etcd := etcd, self := self, fired := [], reply := .ret none (some .ErrUserNotFound) }
  | some player =>
    let t := etcd.Txn [Cmp.CreateRevision userKey .equal player.CreateRevision]
      [Op.OpDelete localKey, Op.OpDelete peerKey, Op.OpDelete userKey] [Op.OpGet peerKey]
    let txnResp := t.2
    if txnResp.Succeeded then
      { etcd := t.1
        self := { self with localPlayers := GoMap.delete self.localPlayers userId }
        fired := player_registry.onLocalPlayerDelete r player
        reply := .ret none none }
    else
      match firstRangeValue txnResp with
      | some appFullName =>
        { etcd := t.1, self := self, fired := [],
          reply := .ret (r.GetPeer (appFullName.getD "")) (some .ErrUserLocked) }
      | none => { etcd := t.1, self := self, fired := [], reply := .panic }

/-- The method `player_registry.WhereIsUser`. -/
def player_registry.WhereIsUser (self : player_registry) (r : Registry) (etcd : Etcd)
    (userId : String) : Reply :=
  match GoMap.load self.localPlayers userId with
  | some _ => .ret (some r.SelfPeer) none
  | none =>
    let userKey := self.userPrefix ++ userId
    match GoMap.load etcd.kvs userKey with
    | none => .ret none (some .ErrUserNotFound)
    | some kv =>
      match r.GetPeer kv.Value with
      | none => .ret none (some .ErrPeerNotFound)
      | some peer => .ret (some peer) none

/-! ## The fleet: peers sharing one coordination store -/

/-- The registries of one peer and the handler calls made so far. -/
structure Node where
  players : player_registry
  services : service_registry
  fired : List Event

/-- A fleet: the shared store and the peers, numbered. -/
structure Fleet where
  etcd : Etcd
  nodes : Nat → Node

/-- The fleet at start: an empty store and freshly configured registries;
`cfg i` is the registry handle of peer `i`. -/
def Fleet.init (cfg : Nat → Registry) : Fleet :=
  { etcd := Etcd.empty
    nodes := fun i =>
      { players := newConfigPlayerRegistry (cfg i)
        services := newConfigServiceRegistry (cfg i)
        fired := [] } }

/-- A registry call made by one peer of the fleet. -/
inductive Call where
  | LockLocalUser (peer : Nat) (loginTime : Int) (userId : String)
  | UnlockLocalUser (peer : Nat) (userId : String)
  | RegisterService (peer : Nat) (serviceFullName : String) (AsAppService : Bool)
  | UnregisterService (peer : Nat) (serviceName : String)
deriving DecidableEq, Repr

/-- One call, run as a whole against the shared store. -/
def Fleet.step (cfg : Nat → Registry) (f : Fleet) : Call → Fleet × Reply
  | .LockLocalUser i loginTime userId =>
    let o := (f.nodes i).players.LockLocalUser (cfg i) f.etcd loginTime userId
    ({ etcd := o.etcd
       nodes := Function.update f.nodes i
        { f.nodes i with players := o.self, fired := (f.nodes i).fired ++ o.fired } }, o.reply)
  | .UnlockLocalUser i userId =>
    let o := (f.nodes i).players.UnlockLocalUser (cfg i) f.etcd userId
    ({ etcd := o.etcd
       nodes := Function.update f.nodes i
        { f.nodes i with players := o.self, fired := (f.nodes i).fired ++ o.fired } }, o.reply)
  | .RegisterService i serviceFullName AsAppService =>
    let o := (f.nodes i).services.RegisterService (cfg i) f.etcd serviceFullName AsAppService
    ({ etcd := o.etcd
       nodes := Function.update f.nodes i
        { f.nodes i with services := o.self, fired := (f.nodes i).fired ++ o.fired } }, o.reply)
  | .UnregisterService i serviceName =>
    let o := (f.nodes i).services.UnregisterService (cfg i) f.etcd serviceName
    ({ etcd := o.etcd
       nodes := Function.update f.nodes i
        { f.nodes i with services := o.self, fired := (f.nodes i).fired ++ o.fired } }, o.reply)

/-- The fleet after a sequence of calls, one after the other. -/
def Fleet.run (cfg : Nat → Registry) : Fleet → List Call → Fleet
  | f, [] => f
  | f, c :: cs => Fleet.run cfg (f.step cfg c).1 cs

/-- The calls of a sequence with what each returned. -/
def Fleet.trace (cfg : Nat → Registry) : Fleet → List Call → List (Call × Reply)
  | _, [] => []
  | f, c :: cs => (c, (f.step cfg c).2) :: Fleet.trace cfg (f.step cfg c).1 cs

/-! ## The upstream pool (`gateway/server/upstream.go`) -/

/-- Modelled from the spec: the generated enum `hallpb.HallStatus`. -/
inductive HallStatus where
  | OK
  | UnAvailable
deriving DecidableEq, Repr

/-- Modelled from the spec: the generated record `hallpb.HealthCheckResponse`. -/
structure HealthCheckResponse where
  Status : HallStatus
  PlayerCount : Int
deriving DecidableEq, Repr

/-- Modelled from the spec: the generated client `hallpb.HallClient`, reduced
to what its unary `HealthCheck` call answers at the time of the call: a response
or an error. -/
structure HallClient where
  HealthCheck : Except Err HealthCheckResponse

/-- The Go struct `Upstream`; `client` is `none` for a nil handle and `ctxDone`
tells whether the scope `ctx` of the agent is cancelled. -/
structure Upstream where
  Id : Int
  FullName : String
  Address : String
  client : Option HallClient
  ctxDone : Bool
  playerCount : Int
  buildTime : Int
  status : HallStatus
  appVersion : String

/-- The first `Range` of `SelectPeer`: the largest build time. -/
def maxBuildTime (peers : List Upstream) : Int :=
  peers.foldl
    (fun m server =>
      if server.client.isSome && decide (server.buildTime > m) then server.buildTime else m)
    0

/-- The second `Range` of `SelectPeer`: the running minimum and the selection. -/
def selectLoop (maxBuildTime : Int) (peers : List Upstream) : Int × Option Upstream :=
  peers.foldl
    (fun (acc : Int × Option Upstream) server =>
      if server.client.isSome && decide (server.buildTime = maxBuildTime) &&
          decide (server.playerCount < acc.1) then
        if server.ctxDone then acc else (server.playerCount, some server)
      else acc)
    (0xffffffff, none)

/-- The method `Upstream.HealthCheck`: the agent with the status written and the
error returned. -/
def Upstream.HealthCheck (server : Upstream) : Upstream × Option Err :=
  match server.client with
  | none => (server, some .ErrNullPointer)
  | some client =>
    match client.HealthCheck with
    | .error e => (server, some e)
    | .ok resp =>
      if resp.Status ≠ HallStatus.OK then
        ({ server with status := resp.Status }, some .ErrUpstreamUnavailable)
      else ({ server with status := resp.Status }, none)

/-- The method `upstream_map.SelectPeer` on the pool `peers`, listed in the order
of the second `Range`; the result is the selected agent after its health check. -/
def upstream_map.SelectPeer (peers : List Upstream) : Option Upstream :=
  match (selectLoop (maxBuildTime peers) peers).2 with
  | some selected =>
    match selected.HealthCheck with
    | (_, some _) => none
    | (server, none) => some server
  | none => none

/-! ## The session forwarder (`gateway/server/session.go`) -/

/-- Modelled from the spec: a frame of the interface `gira.GatewayMessage`, with
its `ReqId()` and `Payload()`. -/
structure GatewayMessage where
  ReqId : Nat
  Payload : List Nat
deriving DecidableEq, Repr

/-- Modelled from the spec: the generated record `hallpb.ClientMessageRequest`. -/
structure ClientMessageRequest where
  MemberId : String
  SessionId : Nat
  ReqId : Nat
  Data : List Nat
deriving DecidableEq, Repr

/-- What the stream of the session does with one send: `session.stream` is nil,
`Send` returns an error, or `Send` accepts the frame. -/
inductive SendOutcome where
  | streamNil
  | sendError
  | sent
deriving DecidableEq, Repr

/-- The Go struct `client_session` as the client to upstream flow uses it,
together with `upstream`, the frames that `stream.Send` has accepted so far, and
`attempts`, the number of sends tried. -/
structure client_session where
  sessionId : Nat
  memberId : String
  pendingMessages : List GatewayMessage
  upstream : List ClientMessageRequest
  attempts : Nat

/-- The constructor `newSession`. -/
def newSession (sessionId : Nat) (memberId : String) : client_session :=
  { sessionId := sessionId, memberId := memberId, pendingMessages := [], upstream := [],
    attempts := 0 }

/-- The method `client_session.processClientMessage`; `env n` is what the stream
does with the send number `n` of the session. -/
def client_session.processClientMessage (self : client_session) (env : Nat → SendOutcome)
    (message : GatewayMessage) : client_session × Option Err :=
  match env self.attempts with
  | .streamNil => ({ self with attempts := self.attempts + 1 }, some .ErrUpstreamUnavailable)
  | .sendError => ({ self with attempts := self.attempts + 1 }, some .ErrRpc)
  | .sent =>
    let data : ClientMessageRequest :=
      { MemberId := self.memberId, SessionId := self.sessionId, ReqId := message.ReqId,
        Data := message.Payload }
    ({ self with attempts := self.attempts + 1, upstream := self.upstream ++ [data] }, none)

/-- The loop `for len(session.pendingMessages) > 0` of `serve`, on the queue
`pending`: the head is sent and dropped until a send fails. -/
def drainPending (env : Nat → SendOutcome) :
    List GatewayMessage → client_session → client_session
  | [], session => { session with pendingMessages := [] }
  | p :: rest, session =>
    match session.processClientMessage env p with
    | (session, some _) => { session with pendingMessages := p :: rest }
    | (session, none) => drainPending env rest session

/-- The first step of the client to upstream flow of `serve`: the login frame. -/
def client_session.firstFrame (session : client_session) (env : Nat → SendOutcome)
    (message : GatewayMessage) : client_session :=
  match session.processClientMessage env message with
  | (session, some _) =>
    { session with pendingMessages := session.pendingMessages ++ [message] }
  | (session, none) => session

/-- One turn of the receive loop of the flow, for a frame that `client.Recv`
returned. -/
def client_session.nextFrame (env : Nat → SendOutcome) (session : client_session)
    (message : GatewayMessage) : client_session :=
  let session := drainPending env session.pendingMessages session
  if session.pendingMessages.length > 0 then
    { session with pendingMessages := session.pendingMessages ++ [message] }
  else
    match session.processClientMessage env message with
    | (session, some _) =>
      { session with pendingMessages := session.pendingMessages ++ [message] }
    | (session, none) => session

/-- The client to upstream flow of `serve` after the login frame `message` and
the frames `frames` received from the client afterwards. -/
def client_session.forward (session : client_session) (env : Nat → SendOutcome)
    (message : GatewayMessage) (frames : List GatewayMessage) : client_session :=
  frames.foldl (client_session.nextFrame env) (session.firstFrame env message)

/-- The number of sends among the first `n` of the session that the stream
accepts. -/
def acceptedSends (env : Nat → SendOutcome) (n : Nat) : Nat :=
  ((List.range n).filter (fun k => decide (env k = .sent))).length

/-- The frame that `processClientMessage` builds from a client frame. -/
def client_session.request (session : client_session) (message : GatewayMessage) :
    ClientMessageRequest :=
  { MemberId := session.memberId, SessionId := session.sessionId, ReqId := message.ReqId,
    Data := message.Payload }

/-! ## Predicates of the statements -/

/-- Peer `i` of the fleet has a LocalPlayer for the user `u`. -/
def Fleet.holds (f : Fleet) (i : Nat) (u : String) : Prop :=
  (GoMap.load (f.nodes i).players.localPlayers u).isSome = true

/-- The key `/peer_type/user/<type>/<user_id>` that `LockLocalUser` guards on. -/
def peerTypeKey (r : Registry) (u : String) : String :=
  "/peer_type/user/" ++ r.name ++ "/" ++ u

/-- A service name that `RegisterService` accepts: one or two words. -/
def validServiceName (n : String) : Prop :=
  (Split n).length = 1 ∨ (Split n).length = 2

/-- The facts that every fleet reached from `Fleet.init` satisfies: existing keys
have a create revision, the key prefixes of the registries are those of their
constructors, a peer that has a LocalPlayer also has its name under the guard key
of that user, no two LocalPlayers share a guard key, and the names under
`/service/` are names that `RegisterService` accepts. -/
structure Fleet.Good (cfg : Nat → Registry) (f : Fleet) : Prop where
  rev_ne : ∀ k kv, GoMap.load f.etcd.kvs k = some kv → kv.CreateRevision ≠ 0
  players_cfg : ∀ i,
    (f.nodes i).players.peerTypePrefix = "/peer_type/user/" ++ (cfg i).name ++ "/" ∧
    (f.nodes i).players.peerPrefix = "/peer/user/" ++ (cfg i).appFullName ++ "/" ∧
    (f.nodes i).players.userPrefix = "/user/"
  services_cfg : ∀ i,
    (f.nodes i).services.servicePrefix = "/service/" ∧
    (f.nodes i).services.peerServicePrefix = "/peer/service/" ++ (cfg i).appFullName ++ "/"
  holder : ∀ i u, f.holds i u →
    ∃ kv, GoMap.load f.etcd.kvs (peerTypeKey (cfg i) u) = some kv ∧
      kv.Value = (cfg i).appFullName
  unique : ∀ i j u v, f.holds i u → f.holds j v →
    peerTypeKey (cfg i) u = peerTypeKey (cfg j) v → i = j
  service_valid : ∀ n, (GoMap.load f.etcd.kvs ("/service/" ++ n)).isSome = true →
    validServiceName n

instance (f : Fleet) (i : Nat) (u : String) : Decidable (f.holds i u) := by
  unfold Fleet.holds
  infer_instance

/-! ## Example fleets -/

/-- The peer `hall/1`. -/
def hall1 : Peer :=
  { Id := 1, Name := "hall", FullName := "hall/1", Address := "10.0.0.1:9000", Metadata := [] }

/-- The peer `hall/2`. -/
def hall2 : Peer :=
  { Id := 2, Name := "hall", FullName := "hall/2", Address := "10.0.0.2:9000", Metadata := [] }

/-- The peer `game/1`. -/
def game1 : Peer :=
  { Id := 1, Name := "game", FullName := "game/1", Address := "10.0.0.3:9000", Metadata := [] }

/-- A discovery set that knows the three example peers. -/
def discovery (fullName : String) : Option Peer :=
  if fullName = "hall/1" then some hall1
  else if fullName = "hall/2" then some hall2
  else if fullName = "game/1" then some game1
  else none

/-- The registry handle of an example peer, with one handler of each kind. -/
def registryOf (p : Peer) : Registry :=
  { name := p.Name, appFullName := p.FullName, appId := p.Id, isNotify := 1,
    localPlayerWatchHandlers := 1, serviceWatchHandlers := 1, GetPeer := discovery,
    SelfPeer := p }

/-- A fleet of one application type: peer `0` is `hall/1`, the others `hall/2`. -/
def hallFleet (i : Nat) : Registry :=
  if i = 0 then registryOf hall1 else registryOf hall2

/-- A fleet of two application types: peer `0` is `hall/1`, the others `game/1`. -/
def mixedFleet (i : Nat) : Registry :=
  if i = 0 then registryOf hall1 else registryOf game1

/-- The store after `hall/1` and then `game/1` have locked `u`: the create
revision of `/user/u` is the one recorded by `hall/1`. -/
def twoLocksStore : Etcd :=
  (Fleet.run mixedFleet (Fleet.init mixedFleet)
    [.LockLocalUser 0 100 "u", .LockLocalUser 1 101 "u"]).etcd

/-- The key `/service/<name>` holds the full name `owner` in the store of `f`. -/
def Fleet.ownedBy (f : Fleet) (n owner : String) : Prop :=
  ∃ kv, GoMap.load f.etcd.kvs ("/service/" ++ n) = some kv ∧ kv.Value = owner

/-- The record of `/service/chat` after `hall/1` has registered `chat` in an empty
store. -/
def chatRecord : KeyValue :=
  { Key := "/service/chat", CreateRevision := 2, ModRevision := 2, Version := 1,
    Value := "hall/1", Lease := 0 }

/-- The service registry of the peer `r` in a given local state: the prefixes are
those of the constructor. -/
def service_registry.inState (r : Registry) (services selfServices : List (String × ServiceName))
    (prefixIndex : word_trie) (watchStartRevision : Nat) : service_registry :=
  { newConfigServiceRegistry r with
    services := services
    selfServices := selfServices
    prefixIndex := prefixIndex
    watchStartRevision := watchStartRevision }

/-- The outcome of `RegisterService("chat")` by `hall/1` on an empty store and an
empty service registry. -/
def chatRegistered : Out service_registry :=
  (service_registry.inState (registryOf hall1) [] [] newWordTrie 0).RegisterService
    (registryOf hall1) Etcd.empty "chat" false

/-- The outcome of `UnregisterService("chat")` by `hall/1` right after
`chatRegistered`. -/
def chatUnregistered : Out service_registry :=
  chatRegistered.self.UnregisterService (registryOf hall1) chatRegistered.etcd "chat"

/-- An agent that the second pass of `SelectPeer` may choose for the build time
`M`: live client handle, scope not cancelled, build time `M`. -/
def Upstream.eligible (M : Int) (server : Upstream) : Prop :=
  server.client.isSome = true ∧ server.ctxDone = false ∧ server.buildTime = M

/-- The number `M` is the largest build time among the agents of `peers` with a
live client handle. -/
def IsMaxLiveBuildTime (peers : List Upstream) (M : Int) : Prop :=
  (∃ a ∈ peers, a.client.isSome = true ∧ a.buildTime = M) ∧
  ∀ b ∈ peers, b.client.isSome = true → b.buildTime ≤ M

/-- A client handle whose health check answers `OK` with `n` players. -/
def healthyClient (n : Int) : HallClient :=
  { HealthCheck := .ok { Status := .OK, PlayerCount := n } }

/-- The agent `H1` of the rollout scenario: build time `100`, `5` players. -/
def upstreamH1 : Upstream :=
  { Id := 1, FullName := "hall/1", Address := "10.0.0.1:9000", client := some (healthyClient 5),
    ctxDone := false, playerCount := 5, buildTime := 100, status := .OK, appVersion := "v1" }

/-- The agent `H2` of the rollout scenario: build time `200`, `50` players. -/
def upstreamH2 : Upstream :=
  { Id := 2, FullName := "hall/2", Address := "10.0.0.2:9000", client := some (healthyClient 50),
    ctxDone := false, playerCount := 50, buildTime := 200, status := .OK, appVersion := "v2" }

/-- The state of the second pass after the agents `seen`: nothing chosen and no
eligible agent below the bound so far, or the chosen agent is an eligible one of
least player count so far. -/
def SelectInv (M : Int) (seen : List Upstream) (acc : Int × Option Upstream) : Prop :=
  (acc.2 = none ∧ acc.1 = 0xffffffff ∧
      ∀ b ∈ seen, b.eligible M → (0xffffffff : Int) ≤ b.playerCount) ∨
  (∃ c ∈ seen, acc.2 = some c ∧ c.eligible M ∧ acc.1 = c.playerCount ∧
      c.playerCount < 0xffffffff ∧
      ∀ b ∈ seen, b.eligible M → c.playerCount ≤ b.playerCount)

/-! ## The word trie: what is currently added -/

/-- A call on the word trie. -/
inductive TrieOp where
  | add (path : String)
  | delete (path : String)
deriving DecidableEq, Repr

/-- The trie after one call; the error result is dropped. -/
def word_trie.apply (t : word_trie) : TrieOp → word_trie
  | .add path => (t.add path).1
  | .delete path => (t.delete path).1

/-- The trie after a sequence of calls. -/
def word_trie.run (t : word_trie) (ops : List TrieOp) : word_trie :=
  ops.foldl word_trie.apply t

/-- The statement side of the trie, after the words of the specification: the
paths that are added, by their words, after one more call.  A path is known by
its words; `add` of a path without words adds nothing, `add` of a path
with an empty word after the first is refused, any other `add` makes the path the
one added under its words, and `delete` removes what is added under the words of
its path. -/
def addedStep (cur : List String → Option String) : TrieOp → List String → Option String
  | .add path => fun ws =>
    match pathWords path with
    | [] => cur ws
    | w0 :: rest =>
      if rest.any (fun w => decide (w.length ≤ 0)) then cur ws
      else if ws = w0 :: rest then some path else cur ws
  | .delete path => fun ws =>
    match pathWords path with
    | [] => cur ws
    | w0 :: rest => if ws = w0 :: rest then none else cur ws

/-- The path currently added under the words `ws`, after the calls `ops` on an
empty trie: added and not deleted since. -/
def currentlyAdded (ops : List TrieOp) : List String → Option String :=
  ops.foldl addedStep (fun _ => none)

/-- The words without an empty last word, as the walk of `search` takes them. -/
def stripLastEmpty : List String → List String
  | [] => []
  | v :: rest => if rest.length = 0 ∧ v.length ≤ 0 then [] else v :: stripLastEmpty rest

/-- The path `p` has a first word and it is not empty. -/
def firstWordNonempty (p : String) : Prop :=
  match pathWords p with
  | w0 :: _ => 0 < w0.length
  | [] => False

instance (p : String) : Decidable (firstWordNonempty p) := by
  unfold firstWordNonempty
  split <;> infer_instance

/-- The node reached from `node` along `ws`, then its path when it is set. -/
def word_trie_node.liveAt : word_trie_node → List String → Option String
  | node, [] => if node.set then some node.path else none
  | node, w :: rest =>
    match GoMap.load node.nodes w with
    | none => none
    | some c => word_trie_node.liveAt c rest

/-- The set path found from the map `nodes` along the words `ws`. -/
def nodesLiveAt (nodes : List (String × word_trie_node)) : List String → Option String
  | [] => none
  | w :: rest =>
    match GoMap.load nodes w with
    | none => none
    | some c => c.liveAt rest

/-- The set path found from a header along the words `ws`. -/
def word_trie_header_node.liveAt (header : word_trie_header_node) :
    List String → Option String
  | [] => if header.set then some header.path else none
  | w :: rest => nodesLiveAt header.nodes (w :: rest)

/-- The set path found in the trie under the words `ws`. -/
def word_trie.liveAt (t : word_trie) : List String → Option String
  | [] => none
  | w0 :: rest =>
    match GoMap.load t.headers w0 with
    | none => none
    | some header => header.liveAt rest

/-- The map reached from `nodes` along the words `ws`. -/
def nodesAt :
    List (String × word_trie_node) → List String → Option (List (String × word_trie_node))
  | nodes, [] => some nodes
  | nodes, v :: rest =>
    match GoMap.load nodes v with
    | none => none
    | some c => nodesAt c.nodes rest

mutual
/-- The maps below a node have distinct keys. -/
def word_trie_node.WF : word_trie_node → Prop
  | .mk _ _ _ nodes => NodesWF nodes
/-- The map `nodes` has distinct keys, and so have the maps below it. -/
def NodesWF : List (String × word_trie_node) → Prop
  | [] => True
  | (k, c) :: rest => c.WF ∧ GoMap.load rest k = none ∧ NodesWF rest
end

/-- The map of headers has distinct keys, and so have the maps below it. -/
def HeadersWF : List (String × word_trie_header_node) → Prop
  | [] => True
  | (k, h) :: rest => NodesWF h.nodes ∧ GoMap.load rest k = none ∧ HeadersWF rest

/-- The names that the trie search yields and that are in the service map, as
the peers of their services, in the order of the search. -/
def presentPeers (services : List (String × ServiceName)) (names : List String) :
    List (Option Peer) :=
  names.filterMap (fun name => (GoMap.load services name).map ServiceName.Peer)

/-- A client handle whose health check call fails. -/
def failingClient : HallClient :=
  { HealthCheck := .error .ErrRpc }

/-- An agent with the newest build and the fewest players whose health check call
fails. -/
def upstreamBroken : Upstream :=
  { Id := 3, FullName := "hall/3", Address := "10.0.0.3:9000", client := some failingClient,
    ctxDone := false, playerCount := 0, buildTime := 300, status := .OK, appVersion := "v3" }

/-! ## The session forwarder: from the upstream to the client -/

/-- A call that the session makes on its client connection. -/
inductive ClientCall where
  | Response (reqId : Nat) (data : List Nat)
  | Push (route : String) (data : List Nat)
  | Kick (reason : List Nat)
deriving DecidableEq, Repr

/-- Modelled from the spec: the interface `gira.GatewayConn` of the client
connection, whose implementation is outside the embedded files.  `calls` is the
record of the calls made on it, oldest first; `closed` is the reason the
connection was closed with, `none` while it is open; `delivered` are the
responses and pushes that reached the client.  The reason of `Kick` is kept as
the bytes that `string(message.Data)` holds. -/
structure GatewayConn where
  calls : List ClientCall
  closed : Option (List Nat)
  delivered : List ClientCall
deriving DecidableEq, Repr

/-- A client connection that is open and on which nothing has been called. -/
def GatewayConn.fresh : GatewayConn :=
  { calls := [], closed := none, delivered := [] }

/-- Modelled from the spec: `Response(req_id, data)` on the client connection;
the frame reaches the client while the connection is open. -/
def GatewayConn.Response (client : GatewayConn) (reqId : Nat) (data : List Nat) : GatewayConn :=
  { client with
    calls := client.calls ++ [.Response reqId data]
    delivered :=
      match client.closed with
      | none => client.delivered ++ [.Response reqId data]
      | some _ => client.delivered }

/-- Modelled from the spec: `Push(route, data)` on the client connection; the
frame reaches the client while the connection is open. -/
def GatewayConn.Push (client : GatewayConn) (route : String) (data : List Nat) : GatewayConn :=
  { client with
    calls := client.calls ++ [.Push route data]
    delivered :=
      match client.closed with
      | none => client.delivered ++ [.Push route data]
      | some _ => client.delivered }

/-- Modelled from the spec: `Kick(reason)` on the client connection: the
connection is closed with the reason. -/
def GatewayConn.Kick (client : GatewayConn) (reason : List Nat) : GatewayConn :=
  { client with
    calls := client.calls ++ [.Kick reason]
    closed :=
      match client.closed with
      | none => some reason
      | some first => some first }

/-- The service registry of the peer `r` as its constructor leaves it, on the
store `etcd`, before any call. -/
def freshServices (r : Registry) (etcd : Etcd) : Out service_registry :=
  { etcd := etcd, self := newConfigServiceRegistry r, fired := [], reply := .ret none none }

/-- The outcome of `RegisterService(name)`, without options, called after the
outcome `o` of an earlier call. -/
def thenRegister (r : Registry) (o : Out service_registry) (name : String) :
    Out service_registry :=
  o.self.RegisterService r o.etcd name false

/-! ## Leases -/

/-- The lease that an operation attaches to its key: that of a put, `0` for a put
without `clientv3.WithLease` and for the other operations. -/
def Op.lease : Op → Nat
  | .OpPut _ _ lease => lease
  | .OpDelete _ => 0
  | .OpGet _ => 0

/-- Modelled from the spec: the expiry of the lease `lease` in the coordination
store, which is outside the embedded files: every key attached to the lease is
deleted, in one revision. -/
def Etcd.expireLease (s : Etcd) (lease : Nat) : Etcd :=
  { kvs := s.kvs.filter (fun p => decide (p.2.Lease ≠ lease))
    revision := if s.kvs.any (fun p => decide (p.2.Lease = lease)) then s.revision + 1
      else s.revision }

/-- No key of the store is attached to a lease. -/
def Etcd.NoLease (s : Etcd) : Prop :=
  ∀ p ∈ s.kvs, p.2.Lease = 0

/-- The store after `hall/1` has registered `chat` and locked the user `u`. -/
def chatAndUserStore : Etcd :=
  (Fleet.run hallFleet (Fleet.init hallFleet)
    [.RegisterService 0 "chat" false, .LockLocalUser 0 100 "u"]).etcd

/-! ## The service registry: startup cleanup, shutdown pass and the watch -/

/-- The order in which the store returns keys: the first differing character
decides, by its code point, and a key comes before the keys it is a proper start
of.  For UTF-8 strings this is the order of the bytes. -/
def keyLe : List Char → List Char → Bool
  | [], _ => true
  | _ :: _, [] => false
  | a :: as, b :: bs =>
    if a.toNat < b.toNat then true
    else if b.toNat < a.toNat then false
    else keyLe as bs

/-- The read `kv.Get(ctx, pfx, clientv3.WithPrefix())`: the records of the keys
that start with `pfx`, each under its key, in ascending order of the keys. -/
def Etcd.getPrefix (s : Etcd) (pfx : String) : List KeyValue :=
  ((s.kvs.filter (fun p => pfx.data.isPrefixOf p.1.data)).map
    (fun p => { p.2 with Key := p.1 })).insertionSort
    (fun v w => keyLe v.Key.data w.Key.data = true)

/-- The service name that the first loop of `initServices` reads from a key: the
fifth word, or the fifth and the sixth, of a key of five or six words, the empty
string otherwise. -/
def initServiceName (key : String) : String :=
  match Split key with
  | [_, _, _, _, w4, w5] => w4 ++ "/" ++ w5
  | [_, _, _, _, w4] => w4
  | _ => ""

/-- One turn of the first loop of `initServices`, for the record `v` of the
snapshot: the transaction that deletes the two keys of the name read from the
key of `v` when the service key exists. -/
def service_registry.cleanupOne (self : service_registry) (etcd : Etcd) (v : KeyValue) : Etcd :=
  let serviceName := initServiceName v.Key
  let serviceKey := self.servicePrefix ++ serviceName
  let peerKey := self.peerServicePrefix ++ serviceName
  (etcd.Txn [Cmp.CreateRevision serviceKey .notEqual 0]
    [Op.OpDelete peerKey, Op.OpDelete serviceKey] []).1

/-- The second loop of `initServices`: `onKvAdd` on each record, until one
returns an error (or panics). -/
def addAll (r : Registry) : List KeyValue → service_registry → WatchOut
  | [], self => { self := self, fired := [], reply := .ret none none }
  | kv :: rest, self =>
    let o := self.onKvAdd r kv
    match o.reply with
    | .ret _ none =>
      let t := addAll r rest o.self
      { t with fired := o.fired ++ t.fired }
    | _ => o

/-- The second part of `initServices`: the read of the service keys, `onKvAdd`
on each record, and the start revision of the watch. -/
def service_registry.loadServices (self : service_registry) (r : Registry) (etcd : Etcd) :
    Out service_registry :=
  let t := addAll r (etcd.getPrefix self.servicePrefix) self
  match t.reply with
  | .ret _ none =>
    { etcd := etcd, self := { t.self with watchStartRevision := etcd.revision + 1 },
      fired := t.fired, reply := .ret none none }
  | reply => { etcd := etcd, self := t.self, fired := t.fired, reply := reply }

/-- The method `service_registry.initServices`, run with no request of another
process in between: the read of the own keys, one transaction for each record of
that read, then the second part. -/
def service_registry.initServices (self : service_registry) (r : Registry) (etcd : Etcd) :
    Out service_registry :=
  self.loadServices r ((etcd.getPrefix self.peerServicePrefix).foldl self.cleanupOne etcd)

/-- One call of the function that `unregisterServices` passes to
`selfServices.Range`, for the binding `entry` of the map. -/
def service_registry.unregisterOne (self : service_registry) (etcd : Etcd)
    (entry : String × ServiceName) : Etcd :=
  let serviceKey := self.servicePrefix ++ entry.1
  let peerKey := self.peerServicePrefix ++ entry.1
  (etcd.Txn [Cmp.CreateRevision serviceKey .equal entry.2.CreateRevision]
    [Op.OpDelete serviceKey, Op.OpDelete peerKey] []).1

/-- The method `service_registry.unregisterServices`, the shutdown pass that
`stop` runs, with no request of another process in between. -/
def service_registry.unregisterServices (self : service_registry) (etcd : Etcd) :
    Out service_registry :=
  { etcd := self.selfServices.foldl self.unregisterOne etcd, self := self, fired := [],
    reply := .ret none none }

/-- The service registries of a fleet at the grain of single requests to the
store: the shared store, the registry of each peer, and for each peer the records
of the first read of its `initServices` whose transaction has not run yet. -/
structure ServiceFleet where
  etcd : Etcd
  services : Nat → service_registry
  cleanup : Nat → List KeyValue

/-- The fleet at start: an empty store and freshly configured registries. -/
def ServiceFleet.init (cfg : Nat → Registry) : ServiceFleet :=
  { etcd := Etcd.empty
    services := fun i => newConfigServiceRegistry (cfg i)
    cleanup := fun _ => [] }

/-- A step of the service registries of the fleet.  `RegisterService` and
`UnregisterService` are one transaction each.  `unregisterTxn` is one call of the
function that the shutdown pass hands to `selfServices.Range`, for the binding of
`serviceName`.  `initServices` is cut at its requests: `initGet` is the first
read, `initTxn` the transaction for the next record of that read, `initLoad` the
second read with the loop over `onKvAdd`.  `restart` is the start of the process
anew; `onKvAdd` and `onKvDelete` are deliveries of watch events, which are not
tied to the store, so that every delivery order, delay and loss is among the
sequences.  Steps of different peers follow each other in any order. -/
inductive ServiceCall where
  | RegisterService (peer : Nat) (serviceFullName : String) (AsAppService : Bool)
  | UnregisterService (peer : Nat) (serviceName : String)
  | unregisterTxn (peer : Nat) (serviceName : String)
  | initGet (peer : Nat)
  | initTxn (peer : Nat)
  | initLoad (peer : Nat)
  | restart (peer : Nat)
  | onKvAdd (peer : Nat) (kv : KeyValue)
  | onKvDelete (peer : Nat) (key : String)
deriving DecidableEq, Repr

/-- One step of the service registries against the shared store.  A call that
panics leaves the registry as it was at the panic. -/
def ServiceFleet.step (cfg : Nat → Registry) (f : ServiceFleet) : ServiceCall → ServiceFleet
  | .RegisterService i serviceFullName AsAppService =>
    let o := (f.services i).RegisterService (cfg i) f.etcd serviceFullName AsAppService
    { f with etcd := o.etcd, services := Function.update f.services i o.self }
  | .UnregisterService i serviceName =>
    let o := (f.services i).UnregisterService (cfg i) f.etcd serviceName
    { f with etcd := o.etcd, services := Function.update f.services i o.self }
  | .unregisterTxn i serviceName =>
    match GoMap.load (f.services i).selfServices serviceName with
    | some service =>
      { f with etcd := (f.services i).unregisterOne f.etcd (serviceName, service) }
    | none => f
  | .initGet i =>
    { f with
      cleanup := Function.update f.cleanup i
        (f.etcd.getPrefix (f.services i).peerServicePrefix) }
  | .initTxn i =>
    match f.cleanup i with
    | [] => f
    | v :: rest =>
      { f with
        etcd := (f.services i).cleanupOne f.etcd v
        cleanup := Function.update f.cleanup i rest }
  | .initLoad i =>
    let o := (f.services i).loadServices (cfg i) f.etcd
    { f with services := Function.update f.services i o.self }
  | .restart i =>
    { f with
      services := Function.update f.services i (newConfigServiceRegistry (cfg i))
      cleanup := Function.update f.cleanup i [] }
  | .onKvAdd i kv =>
    { f with services := Function.update f.services i ((f.services i).onKvAdd (cfg i) kv).self }
  | .onKvDelete i key =>
    { f with
      services := Function.update f.services i ((f.services i).onKvDelete (cfg i) key).self }

/-- The fleet after a sequence of steps of the service registries. -/
def ServiceFleet.run (cfg : Nat → Registry) (f : ServiceFleet) (calls : List ServiceCall) :
    ServiceFleet :=
  calls.foldl (ServiceFleet.step cfg) f

/-- The peer that a step may take service keys from outside of its startup
cleanup: that of an `UnregisterService` or of a transaction of the shutdown
pass. -/
def ServiceCall.unregisters : ServiceCall → Option Nat
  | .UnregisterService i _ => some i
  | .unregisterTxn i _ => some i
  | _ => none

/-- In the run of `calls` from `f`, no peer runs `UnregisterService` or a
transaction of its shutdown pass while records of the first read of its own
`initServices` still wait for their transaction. -/
def ServiceFleet.orderly (cfg : Nat → Registry) : ServiceFleet → List ServiceCall → Bool
  | _, [] => true
  | f, c :: cs =>
    (match c.unregisters with
      | some i => (f.cleanup i).isEmpty
      | none => true) &&
    ServiceFleet.orderly cfg (f.step cfg c) cs

/-- The string has no slash. -/
def noSlash (s : String) : Prop :=
  '/' ∉ s.data

instance (s : String) : Decidable (noSlash s) := by
  unfold noSlash
  infer_instance

/-- The key `/peer/service/<P>/<n>`. -/
def peerServiceKey (P n : String) : String :=
  "/peer/service/" ++ P ++ "/" ++ n

/-- The key `/service/<n>` is in the store with the value `P`. -/
def Etcd.serviceOwner (s : Etcd) (n P : String) : Prop :=
  ∃ kv, GoMap.load s.kvs ("/service/" ++ n) = some kv ∧ kv.Value = P

/-- The key `k` is in the store. -/
def Etcd.has (s : Etcd) (k : String) : Prop :=
  (GoMap.load s.kvs k).isSome = true

instance (s : Etcd) (k : String) : Decidable (s.has k) := by
  unfold Etcd.has
  infer_instance

/-- The facts about the store that every orderly sequence of steps of the
service registries keeps, for peers whose full names have no slash and differ
from each other: create revisions are
positive and at most the revision of the store, every key is a service key or a
peer service key of a name that `RegisterService` accepts, the value of a service
key is the full name of a peer, and the peer service key of `P` and `n` is there
exactly when the service key of `n` is there with the value `P`. -/
structure ServiceStore (cfg : Nat → Registry) (s : Etcd) : Prop where
  rev : ∀ k kv, GoMap.load s.kvs k = some kv →
    kv.CreateRevision ≠ 0 ∧ kv.CreateRevision ≤ s.revision
  form : ∀ k, s.has k →
    (∃ n, k = "/service/" ++ n) ∨ ∃ i n, validServiceName n ∧
      k = peerServiceKey (cfg i).appFullName n
  owner : ∀ n kv, GoMap.load s.kvs ("/service/" ++ n) = some kv →
    ∃ i, kv.Value = (cfg i).appFullName
  peer_service : ∀ i n, s.has (peerServiceKey (cfg i).appFullName n) →
    s.serviceOwner n (cfg i).appFullName
  service_peer : ∀ i n, s.serviceOwner n (cfg i).appFullName →
    s.has (peerServiceKey (cfg i).appFullName n)

/-- The facts about the registry of peer `i` in memory: the prefixes are those of
the constructor, and a service of the peer's own map whose recorded create
revision is that of the service key in the store is owned by the peer. -/
structure ServiceNode (cfg : Nat → Registry) (s : Etcd) (i : Nat) (reg : service_registry) :
    Prop where
  servicePrefix_eq : reg.servicePrefix = "/service/"
  peerServicePrefix_eq : reg.peerServicePrefix = "/peer/service/" ++ (cfg i).appFullName ++ "/"
  own : ∀ e ∈ reg.selfServices, e.2.CreateRevision ≤ s.revision ∧
    ∀ kv, GoMap.load s.kvs ("/service/" ++ e.1) = some kv →
      kv.CreateRevision = e.2.CreateRevision → kv.Value = (cfg i).appFullName

/-- The facts about the records of the first read of `initServices` of peer `i`
that still wait for their transaction: their keys are distinct, each is the peer
service key of the peer for a name that `RegisterService` accepts, and each is
still in the store. -/
structure CleanupPending (cfg : Nat → Registry) (s : Etcd) (i : Nat) (l : List KeyValue) :
    Prop where
  nodup : (l.map KeyValue.Key).Nodup
  owned : ∀ v ∈ l, ∃ n, validServiceName n ∧
    v.Key = peerServiceKey (cfg i).appFullName n ∧ s.has v.Key

/-- The facts that every fleet reached by an orderly sequence of steps of the
service registries satisfies. -/
structure ServiceFleet.Good (cfg : Nat → Registry) (f : ServiceFleet) : Prop where
  store : ServiceStore cfg f.etcd
  keys : (f.etcd.kvs.map Prod.fst).Nodup
  node : ∀ i, ServiceNode cfg f.etcd i (f.services i)
  pending : ∀ i, CleanupPending cfg f.etcd i (f.cleanup i)

/-- The store `t` is a later state of the store `s`: its revision is not smaller,
and every record of `t` is a record of `s` under the same key or was created
after the revision of `s`. -/
def Etcd.Later (s t : Etcd) : Prop :=
  s.revision ≤ t.revision ∧
  ∀ k kv, GoMap.load t.kvs k = some kv →
    GoMap.load s.kvs k = some kv ∨ s.revision < kv.CreateRevision

/-- The steps of the example with full names of the form `<type>/<id>`: `game/1`
registers `1/chat`, `hall/1` registers `chat`, then `hall/1` starts anew and its
`initServices` reads its keys and runs the transaction for the one it finds. -/
def slashCalls : List ServiceCall :=
  [.RegisterService 1 "1/chat" false, .RegisterService 0 "chat" false, .restart 0,
    .initGet 0, .initTxn 0, .initLoad 0]

/-- The fleet of `hall/1` and `game/1` after the steps of `slashCalls`. -/
def slashFleetAfterInit : ServiceFleet :=
  ServiceFleet.run mixedFleet (ServiceFleet.init mixedFleet) slashCalls

/-- The peer `hall_1`, whose full name has no slash. -/
def hallPlain : Peer :=
  { Id := 1, Name := "hall", FullName := "hall_1", Address := "10.0.0.1:9000", Metadata := [] }

/-- The peer `game_1`, whose full name has no slash. -/
def gamePlain : Peer :=
  { Id := 1, Name := "game", FullName := "game_1", Address := "10.0.0.3:9000", Metadata := [] }

/-- A fleet of peers whose full names have no slash: peer `0` is `hall_1`, the
others `game_1`. -/
def plainFleet (i : Nat) : Registry :=
  if i = 0 then registryOf hallPlain else registryOf gamePlain

/-- The peer number `i` of `distinctFleet` for `i` from `2` on: its full name is
`idle_` followed by `i` times the letter `x`. -/
def idlePlain (i : Nat) : Peer :=
  { Id := i, Name := "idle", FullName := "idle_" ++ String.mk (List.replicate i 'x'),
    Address := "", Metadata := [] }

/-- The peer number `i` of `distinctFleet`. -/
def distinctPeer (i : Nat) : Peer :=
  if i = 0 then hallPlain else if i = 1 then gamePlain else idlePlain i

/-- A discovery set that knows the peers `hall_1` and `game_1`. -/
def plainDiscovery (fullName : String) : Option Peer :=
  if fullName = "hall_1" then some hallPlain
  else if fullName = "game_1" then some gamePlain
  else none

/-- A fleet of peers whose full names have no slash and differ from each other:
peer `0` is `hall_1`, peer `1` is `game_1`, and the others are `idle_xx`,
`idle_xxx` and so on.  The discovery set knows `hall_1` and `game_1`. -/
def distinctFleet (i : Nat) : Registry :=
  { name := (distinctPeer i).Name, appFullName := (distinctPeer i).FullName,
    appId := (distinctPeer i).Id, isNotify := 1, localPlayerWatchHandlers := 1,
    serviceWatchHandlers := 1, GetPeer := plainDiscovery, SelfPeer := distinctPeer i }

/-- The steps of the example with slashes in the names, for the peers of
`distinctFleet`: `game_1` registers `1/chat`, `hall_1` registers `chat`, then
`hall_1` starts anew and its `initServices` reads its keys and runs the
transaction for the one it finds. -/
def plainCalls : List ServiceCall :=
  [.RegisterService 1 "1/chat" false, .RegisterService 0 "chat" false, .restart 0,
    .initGet 0, .initTxn 0, .initLoad 0]

/-- A fleet in which two peers run under the same full name: peer `0` is
`hall_1`, the others are all `game_1`. -/
def twinFleet (i : Nat) : Registry :=
  if i = 0 then distinctFleet 0 else distinctFleet 1

/-- The steps of an example with two peers under the full name `game_1`: peer `1`
registers `chat`; peer `2` starts and `initServices` reads the keys under its
full name; peer `1` unregisters `chat` and `hall_1` registers it; then the
transaction of the cleanup of peer `2` runs. -/
def twinCalls : List ServiceCall :=
  [.RegisterService 1 "chat" false, .initGet 2, .UnregisterService 1 "chat",
    .RegisterService 0 "chat" false, .initTxn 2]

/-- The steps of an example in which `hall_1` unregisters during its own startup
cleanup: `hall_1` registers `chat`, starts anew and reads its keys; before the
transaction of the cleanup it unregisters `chat`, and `game_1` registers
`chat`; then the transaction of the cleanup runs. -/
def staleCalls : List ServiceCall :=
  [.RegisterService 0 "chat" false, .restart 0, .initGet 0, .UnregisterService 0 "chat",
    .RegisterService 1 "chat" false, .initTxn 0]

/-! ## The player registry: watch events and startup recovery -/

/-- The value of a string of decimal digits after the value `acc` of the digits
before it; `none` when a character is not a digit. -/
def parseDigits : List Char → Nat → Option Nat
  | [], acc => some acc
  | c :: cs, acc =>
    if c.isDigit then parseDigits cs (acc * 10 + (c.toNat - '0'.toNat)) else none

/-- The digits `cs` after the sign, as a 64-bit `int`. -/
def atoiBody (cs : List Char) (neg : Bool) : Except Err Int :=
  if cs.isEmpty then .error .ErrAtoi
  else
    match parseDigits cs 0 with
    | none => .error .ErrAtoi
    | some n =>
      let v : Int := if neg then -(n : Int) else (n : Int)
      if -(2 ^ 63 : Int) ≤ v ∧ v ≤ 2 ^ 63 - 1 then .ok v else .error .ErrAtoi

/-- The Go call `strconv.Atoi(s)` on a 64-bit platform: an optional sign and at
least one decimal digit, within the range of `int`. -/
def Atoi (s : String) : Except Err Int :=
  match s.data with
  | '-' :: cs => atoiBody cs true
  | '+' :: cs => atoiBody cs false
  | cs => atoiBody cs false

/-- The method `player_registry.onLocalKvAdd`, the handler of a put event of the
watch on the keys of the peer. -/
def player_registry.onLocalKvAdd (self : player_registry) (r : Registry) (kv : KeyValue) :
    player_registry × List Event × Option Err :=
  match Split kv.Key with
  | [_, _, _, _, userId] =>
    match Atoi kv.Value with
    | .error err => (self, [], some err)
    | .ok loginTime =>
      match GoMap.load self.localPlayers userId with
      | some _ => (self, [], none)
      | none =>
        let player : LocalPlayer :=
          { LoginTime := loginTime, UserId := userId, CreateRevision := kv.CreateRevision }
        ({ self with localPlayers := GoMap.store self.localPlayers userId player },
          player_registry.onLocalPlayerAdd r player, none)
  | _ => (self, [], some .ErrInvalidPlayerKey)

/-- The method `player_registry.onLocalKvDelete`, the handler of a delete event
of the watch on the keys of the peer. -/
def player_registry.onLocalKvDelete (self : player_registry) (r : Registry) (kv : KeyValue) :
    player_registry × List Event × Option Err :=
  match Split kv.Key with
  | [_, _, _, _, userId] =>
    match GoMap.load self.localPlayers userId with
    | some lastPlayer =>
      ({ self with localPlayers := GoMap.delete self.localPlayers userId },
        player_registry.onLocalPlayerDelete r lastPlayer, none)
    | none => (self, [], none)
  | _ => (self, [], some .ErrInvalidPlayerKey)

/-- The loop of `recoverSelfPeerPlayers`: `onLocalKvAdd` on each record, until one
returns an error. -/
def recoverLoop (r : Registry) :
    List KeyValue → player_registry → player_registry × List Event × Option Err
  | [], self => (self, [], none)
  | kv :: rest, self =>
    match self.onLocalKvAdd r kv with
    | (self, fired, some err) => (self, fired, some err)
    | (self, fired, none) =>
      let t := recoverLoop r rest self
      (t.1, fired ++ t.2.1, t.2.2)

/-- The method `player_registry.recoverSelfPeerPlayers`. -/
def player_registry.recoverSelfPeerPlayers (self : player_registry) (r : Registry)
    (etcd : Etcd) : Out player_registry :=
  let t := recoverLoop r (etcd.getPrefix self.peerPrefix) self
  match t.2.2 with
  | some err => { etcd := etcd, self := t.1, fired := t.2.1, reply := .ret none (some err) }
  | none =>
    { etcd := etcd, self := { t.1 with watchStartRevision := etcd.revision + 1 },
      fired := t.2.1, reply := .ret none none }

/-- The user id that the watch handlers read from a key: the fifth word of a key
of five words. -/
def playerKeyUser (key : String) : Option String :=
  match Split key with
  | [_, _, _, _, userId] => some userId
  | _ => none

/-- The login time that `Atoi` reads from a value, `0` when it reads none. -/
def loginTimeOf (value : String) : Int :=
  match Atoi value with
  | .ok t => t
  | .error _ => 0

/-- The record under a key that starts with `pfx` has a user id without a slash
after `pfx` and a decimal login time as its value. -/
def recoverable (pfx : String) (p : String × KeyValue) : Bool :=
  !(pfx.data.isPrefixOf p.1.data) ||
    (decide ('/' ∉ p.1.data.drop pfx.data.length) &&
      match Atoi p.2.Value with
      | .ok _ => true
      | .error _ => false)

/-- A player registry of `hall_1` that knows the user `u`. -/
def knowsU : player_registry :=
  { newConfigPlayerRegistry (registryOf hallPlain) with
    localPlayers := [("u", { LoginTime := 100, UserId := "u", CreateRevision := 2 })] }

/-- The store after `hall_1` has locked the users `u` and `v`. -/
def plainLockedStore : Etcd :=
  (Fleet.run plainFleet (Fleet.init plainFleet)
    [.LockLocalUser 0 100 "u", .LockLocalUser 0 101 "v"]).etcd

/-- The store after `hall/1` has locked the user `u`. -/
def slashLockedStore : Etcd :=
  (Fleet.run hallFleet (Fleet.init hallFleet) [.LockLocalUser 0 100 "u"]).etcd

/-- The LocalPlayer that `onLocalKvAdd` makes of the record `kv` for the user
`u`. -/
def playerOf (u : String) (kv : KeyValue) : LocalPlayer :=
  { LoginTime := loginTimeOf kv.Value, UserId := u, CreateRevision := kv.CreateRevision }

/-! ## The service container (`service/service.go`) -/

/-- The constant `service_status_started`. -/
def service_status_started : Int := 1

/-- The constant `service_status_stopped`. -/
def service_status_stopped : Int := 2

/-- Modelled from the spec: a worker, a value of the interface `gira.Service`,
whose declaration is outside the embedded files.  `id` is the identity of the
instance, under which the container stores it, and `OnStart` is what its
`OnStart` returns. -/
structure Worker where
  id : String
  OnStart : Option Err
deriving DecidableEq, Repr

/-- The errors that the container returns: the two made by `errors.New`, each
with the name it carries, `errors.ErrServiceNotFound`, and the error of the
worker's `OnStart`. -/
inductive ContainerErr where
  | alreadyStart (name : String)
  | alreadyStop (name : String)
  | ErrServiceNotFound
  | onStart (err : Err)
deriving DecidableEq, Repr

/-- The Go struct `Service`; `hasCtx` tells whether `ctx` and `cancelFunc` are
set, and `cancelCalls` counts the calls of `cancelFunc`. -/
structure Service where
  status : Int
  name : String
  handler : Worker
  hasCtx : Bool
  cancelCalls : Nat
deriving DecidableEq, Repr

/-- The Go struct `ServiceContainer`; `launched` lists the workers whose `Serve`
was handed to `errGroup.Go`, oldest first. -/
structure ServiceContainer where
  Services : List (String × Service)
  launched : List String
deriving DecidableEq, Repr

/-- The constructor `NewContainer`. -/
def NewContainer : ServiceContainer :=
  { Services := [], launched := [] }

/-- The method `ServiceContainer.StartService`. -/
def ServiceContainer.StartService (self : ServiceContainer) (name : String) (service : Worker) :
    ServiceContainer × Option ContainerErr :=
  let s : Service :=
    { status := 0, name := name, handler := service, hasCtx := false, cancelCalls := 0 }
  match GoMap.load self.Services service.id with
  | some _ => (self, some (.alreadyStart name))
  | none =>
    let s := { s with hasCtx := true }
    match service.OnStart with
    | some err =>
      ({ self with Services := GoMap.store self.Services service.id s }, some (.onStart err))
    | none =>
      ({ Services := GoMap.store self.Services service.id { s with status := service_status_started }
         launched := self.launched ++ [service.id] }, none)

/-- The method `ServiceContainer.StopService`. -/
def ServiceContainer.StopService (self : ServiceContainer) (service : Worker) :
    ServiceContainer × Option ContainerErr :=
  match GoMap.load self.Services service.id with
  | none => (self, some .ErrServiceNotFound)
  | some s =>
    if s.status = service_status_started then
      ({ self with
          Services := GoMap.store self.Services service.id
            { s with status := service_status_stopped, cancelCalls := s.cancelCalls + 1 } },
        none)
    else (self, some (.alreadyStop s.name))

/-- A worker whose `OnStart` succeeds. -/
def goodWorker : Worker := { id := "w1", OnStart := none }

/-- A worker whose `OnStart` returns an error. -/
def failingWorker : Worker := { id := "w2", OnStart := some .ErrNullPointer }

/-! ## The session forwarder: opening a session -/

/-- Modelled from the spec: the part of the struct `Server` of the gateway that
`serve` uses; its declaration is outside the embedded files.  `SelectPeer` is
what `hall.SelectPeer()` returns at the call, `SessionCount` the counter of the
same name, `loginErrors` the login error responses that `loginErrResponse` has
sent to clients, oldest first, each with the frame it answers, and `streams` the
agents on which a client stream was asked for. -/
structure Server where
  SelectPeer : Option Upstream
  SessionCount : Int
  loginErrors : List (GatewayMessage × Err)
  streams : List Int

/-- Modelled from the spec: the method `Server.loginErrResponse`, outside the
embedded files: it answers the login frame `message` with the error `err`. -/
def Server.loginErrResponse (hall : Server) (message : GatewayMessage) (err : Err) : Server :=
  { hall with loginErrors := hall.loginErrors ++ [(message, err)] }

/-- The method `Upstream.NewClientStream`; `ClientStream` is what the call
`client.ClientStream(ctx)` of the generated client returns, `none` for a stream.
The result is the error and whether the call of the client was made. -/
def Upstream.NewClientStream (server : Upstream) (ClientStream : Option Err) :
    Option Err × Bool :=
  match server.client with
  | none => (some .ErrNullPointer, false)
  | some _ => (ClientStream, true)

/-- How `serve` gets to its forwarding flows: it returns `err` before them, or the
session is open on the agent `upstream`. -/
inductive ServeOpen where
  | refused (hall : Server) (err : Err)
  | opened (hall : Server) (upstream : Upstream)

/-- The method `client_session.serve` up to the start of its flows, for the
login frame `message`. -/
def client_session.serveOpen (hall : Server) (ClientStream : Option Err)
    (message : GatewayMessage) : ServeOpen :=
  match hall.SelectPeer with
  | none => .refused (hall.loginErrResponse message .ErrUpstreamUnavailable) .ErrUpstreamUnavailable
  | some server =>
    match server.NewClientStream ClientStream with
    | (some err, asked) =>
      .refused
        ({ hall with streams := if asked then hall.streams ++ [server.Id] else hall.streams
          }.loginErrResponse message .ErrUpstreamUnreachable) err
    | (none, _) =>
      .opened
        { hall with
          streams := hall.streams ++ [server.Id]
          SessionCount := hall.SessionCount + 1 } server

/-- The gateway of the example: no upstream to select, three sessions open. -/
def idleHall : Server :=
  { SelectPeer := none, SessionCount := 3, loginErrors := [], streams := [] }

/-- The login frame of the example. -/
def loginFrame : GatewayMessage := { ReqId := 1, Payload := [108, 111, 103] }

/-! ## The upstream pool: peer events -/

/-- The read `servers.Load(id)` of the pool, a `sync.Map` from peer ids to
agents. -/
def upstream_map.Load : List (Int × Upstream) → Int → Option Upstream
  | [], _ => none
  | (k, v) :: t, id => if k = id then some v else upstream_map.Load t id

/-- The pool after the agent under `id` has changed to `server`: the map holds a
pointer to the agent, so that a change of the agent shows in the map. -/
def upstream_map.update : List (Int × Upstream) → Int → Upstream → List (Int × Upstream)
  | [], _, _ => []
  | (k, v) :: t, id, server =>
    if k = id then (k, server) :: t else (k, v) :: upstream_map.update t id server

/-- The constructor `newUpstream`; `ctxDone` tells whether the scope handed to it
is cancelled. -/
def newUpstream (ctxDone : Bool) (peer : Peer) : Upstream :=
  { Id := peer.Id, FullName := peer.FullName, Address := peer.Address, client := none,
    ctxDone := ctxDone, playerCount := 0, buildTime := 0, status := .UnAvailable,
    appVersion := "" }

/-- The method `Upstream.close`: the scope of the agent is cancelled. -/
def Upstream.close (server : Upstream) : Upstream :=
  { server with ctxDone := true }

/-- The pool of the gateway with the agents whose `serve` task was started,
oldest first. -/
structure UpstreamPool where
  servers : List (Int × Upstream)
  serving : List Upstream

/-- The method `upstream_map.OnPeerAdd`: `LoadOrStore` keeps an agent that is
already under the id, and that agent is the one closed. -/
def upstream_map.OnPeerAdd (pool : UpstreamPool) (ctxDone : Bool) (peer : Peer) : UpstreamPool :=
  let upstream := newUpstream ctxDone peer
  match upstream_map.Load pool.servers peer.Id with
  | some lastHall =>
    { servers := upstream_map.update pool.servers peer.Id lastHall.close
      serving := pool.serving ++ [upstream] }
  | none =>
    { servers := pool.servers ++ [(peer.Id, upstream)]
      serving := pool.serving ++ [upstream] }

/-- The peer `hall/1` after a move to another address. -/
def hall1Moved : Peer :=
  { hall1 with Address := "10.0.0.9:9000" }

/-- The pool after the peer event for `hall/1` on the empty pool, with a live
scope. -/
def poolAfterFirstAdd : UpstreamPool :=
  upstream_map.OnPeerAdd { servers := [], serving := [] } false hall1

/-- The pool after a second peer event for the id of `hall/1`, with the new
address. -/
def poolAfterSecondAdd : UpstreamPool :=
  upstream_map.OnPeerAdd poolAfterFirstAdd false hall1Moved

/-! ## The registry client (`registryclient/peer.go`) -/

/-- Modelled from the spec: the constant `GRPC_KEY`, declared outside the
embedded files: the last word of the key `/peer/attribute/<full_name>/grpc`. -/
def GRPC_KEY : String := "grpc"

/-- Modelled from the spec: the field of the struct `RegistryClient` that the
peer registry of the client reads, the full name of the application that runs the
client. -/
structure RegistryClient where
  appFullName : String

/-- The Go struct `peer_registry` of the registry client; `keyPrefix` is its
field `prefix`. -/
structure peer_registry where
  keyPrefix : String

/-- The constructor `newConfigPeerRegistry` of the registry client. -/
def newConfigPeerRegistry : peer_registry :=
  { keyPrefix := "/peer/attribute/" }

/-- The write `kv.Delete(ctx, pfx, clientv3.WithPrefix())`: every key that starts
with `pfx` is deleted, in one revision. -/
def Etcd.deletePrefix (s : Etcd) (pfx : String) : Etcd :=
  { kvs := s.kvs.filter (fun p => !(pfx.data.isPrefixOf p.1.data))
    revision := if s.kvs.any (fun p => pfx.data.isPrefixOf p.1.data) then s.revision + 1
      else s.revision }

/-- The method `peer_registry.UnregisterPeer` of the registry client. -/
def peer_registry.UnregisterPeer (self : peer_registry) (etcd : Etcd) (fullName : String) :
    Etcd × Option Err :=
  let key := self.keyPrefix ++ fullName
  (etcd.deletePrefix key, none)

/-- One turn of the loop of `GetPeer` over the records of the read. -/
def getPeerStep (peer : Peer) (kv : KeyValue) : Peer :=
  if (Split kv.Key).getLast? = some GRPC_KEY then { peer with Address := kv.Value }
  else { peer with Metadata := GoMap.store peer.Metadata kv.Key kv.Value }

/-- The method `peer_registry.GetPeer` of the registry client;
`ParseAppFullName` is the function `gira.ParseAppFullName`, declared outside the
embedded files. -/
def peer_registry.GetPeer (self : peer_registry) (r : RegistryClient)
    (ParseAppFullName : String → Except Err (String × Int)) (etcd : Etcd)
    (appFullName : String) : Option Peer :=
  match ParseAppFullName appFullName with
  | .error _ => none
  | .ok (appType, appId) =>
    let key := self.keyPrefix ++ appFullName
    let peer : Peer :=
      { Id := appId, Name := appType, FullName := r.appFullName, Address := "", Metadata := [] }
    some ((etcd.getPrefix key).foldl getPeerStep peer)

/-- The record of the key `key` with the value `val`, created at the revision
`rev`. -/
def recordOf (key val : String) (rev : Nat) : KeyValue :=
  { Key := key, CreateRevision := rev, ModRevision := rev, Version := 1, Value := val,
    Lease := 0 }

/-- A store with the address attributes of the peers `hall_1` and `hall_10`, in
the order of their keys. -/
def attributeStore : Etcd :=
  { kvs :=
      [("/peer/attribute/hall_1/grpc", recordOf "/peer/attribute/hall_1/grpc" "10.0.0.1:9000" 2),
        ("/peer/attribute/hall_10/grpc",
          recordOf "/peer/attribute/hall_10/grpc" "10.0.0.10:9000" 3)]
    revision := 3 }

/-- A parse of full names of the form `<type>_<id>` that knows the two peers of
the example. -/
def parseExample (appFullName : String) : Except Err (String × Int) :=
  if appFullName = "hall_1" then .ok ("hall", 1)
  else if appFullName = "hall_10" then .ok ("hall", 10)
  else .error .ErrInvalidArgs

/-! ## The word trie: pruning -/

mutual
/-- The node is set or has a child, and so is every node below it: no node that
`delete` would remove is left. -/
def word_trie_node.Live : word_trie_node → Prop
  | .mk _ _ set nodes => (set = true ∨ nodes ≠ []) ∧ AllLive nodes
/-- Every node of the map `nodes`, and every node below, is set or has a child. -/
def AllLive : List (String × word_trie_node) → Prop
  | [] => True
  | (_, c) :: rest => c.Live ∧ AllLive rest
end

/-- The header is set or has a child, and so is every node below it. -/
def word_trie_header_node.Live (header : word_trie_header_node) : Prop :=
  (header.set = true ∨ header.nodes ≠ []) ∧ AllLive header.nodes

/-- Every header of the map is set or has a child, and so is every node below. -/
def HeadersLive : List (String × word_trie_header_node) → Prop
  | [] => True
  | (_, h) :: rest => h.Live ∧ HeadersLive rest

/-- No header and no node of the trie is unset and childless. -/
def word_trie.Pruned (t : word_trie) : Prop :=
  HeadersLive t.headers

/-- The set bit of the node reached from `node` along `ws`, `none` when there is
no such node. -/
def word_trie_node.flagAt : word_trie_node → List String → Option Bool
  | node, [] => some node.set
  | node, w :: rest =>
    match GoMap.load node.nodes w with
    | none => none
    | some c => word_trie_node.flagAt c rest

/-- The set bit of the node reached from the map `nodes` along `ws`. -/
def nodesFlagAt (nodes : List (String × word_trie_node)) : List String → Option Bool
  | [] => none
  | w :: rest =>
    match GoMap.load nodes w with
    | none => none
    | some c => c.flagAt rest

/-- The set bit of the header, or of the node reached from it along `ws`. -/
def word_trie_header_node.flagAt (header : word_trie_header_node) :
    List String → Option Bool
  | [] => some header.set
  | w :: rest => nodesFlagAt header.nodes (w :: rest)

/-- The set bit of the header or node of the trie under the words `ws`, `none`
when the trie has no header or node there. -/
def word_trie.flagAt (t : word_trie) : List String → Option Bool
  | [] => none
  | w0 :: rest =>
    match GoMap.load t.headers w0 with
    | none => none
    | some header => header.flagAt rest

/-- The node after the loop of `add` has reached it with the words `ws` left: the
last node gets the path and the set bit, another one the words below it. -/
def addAt (path : String) (node : word_trie_node) : List String → word_trie_node
  | [] => .mk node.value path true node.nodes
  | w :: rest => .mk node.value node.path node.set (addWords path node.nodes (w :: rest))

/-- A path with at least one word and no empty word, once the leading empty word
is dropped. -/
def validPath (p : String) : Prop :=
  pathWords p ≠ [] ∧ ∀ w ∈ pathWords p, w ≠ ""

instance (p : String) : Decidable (validPath p) := by
  unfold validPath
  infer_instance

/-- The header as a node with the same fields. -/
def word_trie_header_node.asNode (header : word_trie_header_node) : word_trie_node :=
  .mk header.value header.path header.set header.nodes

/-! # Theorems

Lemmas first, then for each claim its theorem with the witness and, where the
claim fails on the code, the counterexample. -/

/-! ## Lemmas on Go maps, keys and transactions -/


theorem GoMap.load_store {β : Type} (m : List (String × β)) (k : String) (v : β) (k' : String) :
    GoMap.load (GoMap.store m k v) k' = if k = k' then some v else GoMap.load m k' := by
  induction m with
  | nil => simp [GoMap.store, GoMap.load]
  | cons e t ih =>
    obtain ⟨a, b⟩ := e
    by_cases h : a = k
    · subst h
      by_cases h' : a = k' <;> simp [GoMap.store, GoMap.load, h']
    · by_cases h' : a = k'
      · subst h'
        have : ¬ k = a := fun e => h e.symm
        simp [GoMap.store, GoMap.load, h, this]
      · simp [GoMap.store, GoMap.load, h, h', ih]

theorem GoMap.load_delete {β : Type} (m : List (String × β)) (k k' : String) :
    GoMap.load (GoMap.delete m k) k' = if k = k' then none else GoMap.load m k' := by
  induction m with
  | nil => simp [GoMap.delete, GoMap.load]
  | cons e t ih =>
    obtain ⟨a, b⟩ := e
    by_cases h : a = k
    · subst h
      by_cases h' : a = k'
      · subst h'
        simpa [GoMap.delete, GoMap.load] using ih
      · simp [GoMap.delete, GoMap.load, h', ih]
    · by_cases h' : a = k'
      · subst h'
        have : ¬ k = a := fun e => h e.symm
        simp [GoMap.delete, GoMap.load, h, this]
      · simp [GoMap.delete, GoMap.load, h, h', ih]

/-! ## Lemmas on keys -/

theorem key_ne (p q a b : String) (n : Nat) (hp : n ≤ p.data.length) (hq : n ≤ q.data.length)
    (h : p.data.take n ≠ q.data.take n) : p ++ a ≠ q ++ b := by
  intro e
  apply h
  have e' := congrArg (fun s : String => s.data.take n) e
  simp only [String.data_append] at e'
  rwa [List.take_append_of_le_length hp, List.take_append_of_le_length hq] at e'

theorem key_inj (p a b : String) (h : p ++ a = p ++ b) : a = b := by
  have e' := congrArg String.data h
  simp only [String.data_append] at e'
  exact String.ext (List.append_cancel_left e')


theorem Op.load_apply (rev : Nat) (kvs : List (String × KeyValue)) (op : Op) (k : String) :
    GoMap.load (Op.apply rev kvs op).1 k = Op.effect rev k (GoMap.load kvs k) op := by
  cases op with
  | OpPut key val lease =>
    by_cases h : key = k
    · subst h; simp [Op.apply, Op.effect, GoMap.load_store]
    · simp [Op.apply, Op.effect, GoMap.load_store, h]
  | OpDelete key =>
    by_cases h : key = k
    · subst h
      cases hl : GoMap.load kvs key <;> simp [Op.apply, Op.effect, GoMap.load_delete, hl]
    · cases hl : GoMap.load kvs key <;> simp [Op.apply, Op.effect, GoMap.load_delete, hl, h]
  | OpGet key =>
    cases hl : GoMap.load kvs key <;> simp [Op.apply, Op.effect, hl]

theorem Op.load_applyAll (rev : Nat) (ops : List Op) (kvs : List (String × KeyValue))
    (k : String) :
    GoMap.load (Op.applyAll rev kvs ops).1 k =
      ops.foldl (Op.effect rev k) (GoMap.load kvs k) := by
  induction ops generalizing kvs with
  | nil => simp [Op.applyAll]
  | cons op ops ih => simp [Op.applyAll, ih, Op.load_apply]

theorem Etcd.Txn_else_get (s : Etcd) (cmps : List Cmp) (thenOps : List Op) (key : String)
    (h : cmps.all (Cmp.holds s.kvs) = false) :
    s.Txn cmps thenOps [Op.OpGet key] =
      (s, { Succeeded := false
            Responses := [ResponseOp.ResponseRange (GoMap.load s.kvs key).toList] }) := by
  cases hl : GoMap.load s.kvs key <;> simp [Etcd.Txn, h, Op.applyAll, Op.apply, hl]

theorem Etcd.Txn_then_load (s : Etcd) (cmps : List Cmp) (thenOps elseOps : List Op)
    (h : cmps.all (Cmp.holds s.kvs) = true) (k : String) :
    GoMap.load (s.Txn cmps thenOps elseOps).1.kvs k =
      thenOps.foldl (Op.effect (s.revision + 1) k) (GoMap.load s.kvs k) := by
  simp [Etcd.Txn, h, Op.load_applyAll]


theorem player_registry.LockLocalUser_locked (self : player_registry) (r : Registry)
    (etcd : Etcd) (t : Int) (u : String) (kv : KeyValue)
    (h : GoMap.load etcd.kvs (self.peerTypePrefix ++ u) = some kv) (h0 : kv.CreateRevision ≠ 0) :
    self.LockLocalUser r etcd t u =
      { etcd := etcd, self := self, fired := [],
        reply := .ret (r.GetPeer kv.Value) (some .ErrUserLocked) } := by
  have hg : [Cmp.CreateRevision (self.peerTypePrefix ++ u) .equal 0].all (Cmp.holds etcd.kvs)
      = false := by
    simp [Cmp.holds, createRevisionOf, h, h0]
  simp only [player_registry.LockLocalUser]
  rw [Etcd.Txn_else_get _ _ _ _ hg]
  simp [firstRangeValue, h]

theorem player_registry.LockLocalUser_free (self : player_registry) (r : Registry)
    (etcd : Etcd) (t : Int) (u : String)
    (h : GoMap.load etcd.kvs (self.peerTypePrefix ++ u) = none) :
    (self.LockLocalUser r etcd t u).reply = .ret none none ∧
    (self.LockLocalUser r etcd t u).self =
      { self with localPlayers := (GoMap.store self.localPlayers u
          { LoginTime := t, UserId := u, CreateRevision := etcd.revision + 1 }) } ∧
    (self.LockLocalUser r etcd t u).fired =
      player_registry.onLocalPlayerAdd r
        { LoginTime := t, UserId := u, CreateRevision := etcd.revision + 1 } ∧
    (self.LockLocalUser r etcd t u).etcd.revision = etcd.revision + 1 ∧
    ∀ k, GoMap.load (self.LockLocalUser r etcd t u).etcd.kvs k =
      [Op.OpPut (self.userPrefix ++ u) r.appFullName 0,
        Op.OpPut (self.peerPrefix ++ u) (toString t) 0,
        Op.OpPut (self.peerTypePrefix ++ u) r.appFullName 0].foldl
        (Op.effect (etcd.revision + 1) k) (GoMap.load etcd.kvs k) := by
  have hg : [Cmp.CreateRevision (self.peerTypePrefix ++ u) .equal 0].all (Cmp.holds etcd.kvs)
      = true := by
    simp [Cmp.holds, createRevisionOf, h]
  have hl := Etcd.Txn_then_load etcd [Cmp.CreateRevision (self.peerTypePrefix ++ u) .equal 0]
    [Op.OpPut (self.userPrefix ++ u) r.appFullName 0,
        Op.OpPut (self.peerPrefix ++ u) (toString t) 0,
        Op.OpPut (self.peerTypePrefix ++ u) r.appFullName 0] [Op.OpGet (self.peerTypePrefix ++ u)] hg
  refine ⟨?_, ?_, ?_, ?_, ?_⟩
  · simp [player_registry.LockLocalUser, Etcd.Txn, hg, Op.applyAll, Op.apply]
  · simp [player_registry.LockLocalUser, Etcd.Txn, hg, Op.applyAll, Op.apply]
  · simp [player_registry.LockLocalUser, Etcd.Txn, hg, Op.applyAll, Op.apply]
  · simp [player_registry.LockLocalUser, Etcd.Txn, hg, Op.applyAll, Op.apply]
  · intro k
    rw [← hl]
    simp [player_registry.LockLocalUser, Etcd.Txn, hg, Op.applyAll, Op.apply]

theorem player_registry.UnlockLocalUser_unknown (self : player_registry) (r : Registry)
    (etcd : Etcd) (u : String) (h : GoMap.load self.localPlayers u = none) :
    self.UnlockLocalUser r etcd u =
      { etcd := etcd, self := self, fired := [], reply := .ret none (some .ErrUserNotFound) } := by
  simp [player_registry.UnlockLocalUser, h]

theorem player_registry.UnlockLocalUser_stale (self : player_registry) (r : Registry)
    (etcd : Etcd) (u : String) (player : LocalPlayer)
    (h : GoMap.load self.localPlayers u = some player)
    (hne : createRevisionOf etcd.kvs (self.userPrefix ++ u) ≠ player.CreateRevision) :
    self.UnlockLocalUser r etcd u =
      { etcd := etcd, self := self, fired := [],
        reply := .ret
          (r.GetPeer (((GoMap.load etcd.kvs (self.peerTypePrefix ++ u)).map
            KeyValue.Value).getD ""))
          (some .ErrUserLocked) } := by
  have hg : [Cmp.CreateRevision (self.userPrefix ++ u) .equal player.CreateRevision].all
      (Cmp.holds etcd.kvs) = false := by
    simp [Cmp.holds, hne]
  simp only [player_registry.UnlockLocalUser, h]
  rw [Etcd.Txn_else_get _ _ _ _ hg]
  cases hl : GoMap.load etcd.kvs (self.peerTypePrefix ++ u) <;> simp [firstRangeValue, hl]

theorem player_registry.UnlockLocalUser_ok (self : player_registry) (r : Registry)
    (etcd : Etcd) (u : String) (player : LocalPlayer)
    (h : GoMap.load self.localPlayers u = some player)
    (heq : createRevisionOf etcd.kvs (self.userPrefix ++ u) = player.CreateRevision) :
    (self.UnlockLocalUser r etcd u).reply = .ret none none ∧
    (self.UnlockLocalUser r etcd u).self =
      { self with localPlayers := GoMap.delete self.localPlayers u } ∧
    (self.UnlockLocalUser r etcd u).fired = player_registry.onLocalPlayerDelete r player ∧
    ∀ k, GoMap.load (self.UnlockLocalUser r etcd u).etcd.kvs k =
      [Op.OpDelete (self.peerPrefix ++ u), Op.OpDelete (self.peerTypePrefix ++ u),
        Op.OpDelete (self.userPrefix ++ u)].foldl
        (Op.effect (etcd.revision + 1) k) (GoMap.load etcd.kvs k) := by
  have hg : [Cmp.CreateRevision (self.userPrefix ++ u) .equal player.CreateRevision].all
      (Cmp.holds etcd.kvs) = true := by
    simp [Cmp.holds, heq]
  have hl := Etcd.Txn_then_load etcd
    [Cmp.CreateRevision (self.userPrefix ++ u) .equal player.CreateRevision]
    [Op.OpDelete (self.peerPrefix ++ u), Op.OpDelete (self.peerTypePrefix ++ u),
        Op.OpDelete (self.userPrefix ++ u)] [Op.OpGet (self.peerTypePrefix ++ u)] hg
  refine ⟨?_, ?_, ?_, ?_⟩
  · simp [player_registry.UnlockLocalUser, h, Etcd.Txn, hg]
  · simp [player_registry.UnlockLocalUser, h, Etcd.Txn, hg]
  · simp [player_registry.UnlockLocalUser, h, Etcd.Txn, hg]
  · intro k
    rw [← hl]
    simp [player_registry.UnlockLocalUser, h, Etcd.Txn, hg]

theorem service_registry.registerTxn_locked (self : service_registry) (r : Registry)
    (etcd : Etcd) (serviceKey peerKey full ty : String) (kv : KeyValue)
    (h : GoMap.load etcd.kvs serviceKey = some kv) (h0 : kv.CreateRevision ≠ 0) :
    self.registerTxn r etcd serviceKey peerKey full ty =
      { etcd := etcd, self := self, fired := [],
        reply := .ret (r.GetPeer kv.Value) (some .ErrServiceLocked) } := by
  have hg : [Cmp.CreateRevision serviceKey .equal 0].all (Cmp.holds etcd.kvs) = false := by
    simp [Cmp.holds, createRevisionOf, h, h0]
  simp only [service_registry.registerTxn]
  rw [Etcd.Txn_else_get _ _ _ _ hg]
  simp [firstRangeValue, h]

theorem service_registry.registerTxn_free (self : service_registry) (r : Registry)
    (etcd : Etcd) (serviceKey peerKey full ty : String)
    (h : GoMap.load etcd.kvs serviceKey = none) :
    (r.isNotify = 0 ∨ (r.GetPeer r.appFullName).isSome = true →
      (self.registerTxn r etcd serviceKey peerKey full ty).reply = .ret none none) ∧
    (self.registerTxn r etcd serviceKey peerKey full ty).self =
      { self with
        services := GoMap.loadOrStore self.services full
          { IsSelf := true, ServiceFullName := full, ServiceTypeName := ty,
            Peer := r.GetPeer r.appFullName, CreateRevision := etcd.revision + 1 }
        prefixIndex := (self.prefixIndex.add full).1
        selfServices := GoMap.store self.selfServices full
          { IsSelf := true, ServiceFullName := full, ServiceTypeName := ty,
            Peer := r.GetPeer r.appFullName, CreateRevision := etcd.revision + 1 } } ∧
    ∀ k, GoMap.load (self.registerTxn r etcd serviceKey peerKey full ty).etcd.kvs k =
      [Op.OpPut serviceKey r.appFullName 0, Op.OpPut peerKey r.appFullName 0].foldl
        (Op.effect (etcd.revision + 1) k) (GoMap.load etcd.kvs k) := by
  have hg : [Cmp.CreateRevision serviceKey .equal 0].all (Cmp.holds etcd.kvs) = true := by
    simp [Cmp.holds, createRevisionOf, h]
  have hl := Etcd.Txn_then_load etcd [Cmp.CreateRevision serviceKey .equal 0]
    [Op.OpPut serviceKey r.appFullName 0, Op.OpPut peerKey r.appFullName 0]
    [Op.OpGet serviceKey] hg
  refine ⟨?_, ?_, ?_⟩
  · intro hn
    rcases hn with hn | hn
    · simp [service_registry.registerTxn, service_registry.onServiceAdd, Etcd.Txn, hg,
        Op.applyAll, Op.apply, hn]
    · obtain ⟨p, hp⟩ := Option.isSome_iff_exists.1 hn
      by_cases h0 : r.isNotify = 0 <;>
        simp [service_registry.registerTxn, service_registry.onServiceAdd, Etcd.Txn, hg,
          Op.applyAll, Op.apply, hp, h0]
  · by_cases h0 : r.isNotify = 0 <;> cases hp : r.GetPeer r.appFullName <;>
      simp [service_registry.registerTxn, service_registry.onServiceAdd, Etcd.Txn, hg,
        Op.applyAll, Op.apply, hp, h0]
  · intro k
    rw [← hl]
    by_cases h0 : r.isNotify = 0 <;> cases hp : r.GetPeer r.appFullName <;>
      simp [service_registry.registerTxn, service_registry.onServiceAdd, Etcd.Txn, hg,
        Op.applyAll, Op.apply, hp, h0]

/-- With a nil peer under the own full name and handlers to notify, the
registration is stored and the call panics in `onServiceAdd`. -/
theorem service_registry.registerTxn_free_panic (self : service_registry) (r : Registry)
    (etcd : Etcd) (serviceKey peerKey full ty : String)
    (h : GoMap.load etcd.kvs serviceKey = none) (h0 : r.isNotify ≠ 0)
    (hp : r.GetPeer r.appFullName = none) :
    (self.registerTxn r etcd serviceKey peerKey full ty).reply = .panic := by
  have hg : [Cmp.CreateRevision serviceKey .equal 0].all (Cmp.holds etcd.kvs) = true := by
    simp [Cmp.holds, createRevisionOf, h]
  simp [service_registry.registerTxn, service_registry.onServiceAdd, Etcd.Txn, hg,
    Op.applyAll, Op.apply, hp, h0]

theorem service_registry.UnregisterService_absent (self : service_registry) (r : Registry)
    (etcd : Etcd) (n : String) (h : GoMap.load etcd.kvs (self.servicePrefix ++ n) = none) :
    self.UnregisterService r etcd n =
      { etcd := etcd, self := self, fired := [], reply := .panic } := by
  have hg : [Cmp.Value (self.servicePrefix ++ n) .equal r.appFullName,
      Cmp.CreateRevision (self.servicePrefix ++ n) .notEqual 0].all (Cmp.holds etcd.kvs)
      = false := by
    simp [Cmp.holds, h]
  simp only [service_registry.UnregisterService]
  rw [Etcd.Txn_else_get _ _ _ _ hg]
  simp [firstRangeValue, h]

theorem service_registry.UnregisterService_locked (self : service_registry) (r : Registry)
    (etcd : Etcd) (n : String) (kv : KeyValue)
    (h : GoMap.load etcd.kvs (self.servicePrefix ++ n) = some kv)
    (hv : kv.Value ≠ r.appFullName) :
    self.UnregisterService r etcd n =
      { etcd := etcd, self := self, fired := [],
        reply := .ret (r.GetPeer kv.Value) (some .ErrServiceLocked) } := by
  have hg : [Cmp.Value (self.servicePrefix ++ n) .equal r.appFullName,
      Cmp.CreateRevision (self.servicePrefix ++ n) .notEqual 0].all (Cmp.holds etcd.kvs)
      = false := by
    simp [Cmp.holds, h, hv]
  simp only [service_registry.UnregisterService]
  rw [Etcd.Txn_else_get _ _ _ _ hg]
  simp [firstRangeValue, h]

theorem service_registry.UnregisterService_own (self : service_registry) (r : Registry)
    (etcd : Etcd) (n : String) (kv : KeyValue)
    (h : GoMap.load etcd.kvs (self.servicePrefix ++ n) = some kv)
    (hv : kv.Value = r.appFullName) (h0 : kv.CreateRevision ≠ 0) :
    (self.UnregisterService r etcd n).reply = .ret none none ∧
    (self.UnregisterService r etcd n).self = self ∧
    (self.UnregisterService r etcd n).fired = [] ∧
    (self.UnregisterService r etcd n).etcd.revision = etcd.revision + 1 ∧
    ∀ k, GoMap.load (self.UnregisterService r etcd n).etcd.kvs k =
      [Op.OpDelete (self.peerServicePrefix ++ n), Op.OpDelete (self.servicePrefix ++ n)].foldl
        (Op.effect (etcd.revision + 1) k) (GoMap.load etcd.kvs k) := by
  have hg : [Cmp.Value (self.servicePrefix ++ n) .equal r.appFullName,
      Cmp.CreateRevision (self.servicePrefix ++ n) .notEqual 0].all (Cmp.holds etcd.kvs)
      = true := by
    simp [Cmp.holds, createRevisionOf, h, hv, h0]
  have hl := Etcd.Txn_then_load etcd [Cmp.Value (self.servicePrefix ++ n) .equal r.appFullName,
      Cmp.CreateRevision (self.servicePrefix ++ n) .notEqual 0]
    [Op.OpDelete (self.peerServicePrefix ++ n), Op.OpDelete (self.servicePrefix ++ n)]
    [Op.OpGet (self.servicePrefix ++ n)] hg
  refine ⟨?_, ?_, ?_, ?_, ?_⟩
  · simp [service_registry.UnregisterService, Etcd.Txn, hg]
  · simp [service_registry.UnregisterService, Etcd.Txn, hg]
  · simp [service_registry.UnregisterService, Etcd.Txn, hg]
  · cases hp : GoMap.load etcd.kvs (self.peerServicePrefix ++ n) <;>
      simp [service_registry.UnregisterService, Etcd.Txn, hg, Op.applyAll, Op.apply, hp, h]
  · intro k
    rw [← hl]
    simp [service_registry.UnregisterService, Etcd.Txn, hg]
/-! ## The facts of every reachable fleet -/

theorem KeyValue.put_value (rev : Nat) (cur : Option KeyValue) (key val : String) (lease : Nat) :
    (KeyValue.put rev cur key val lease).Value = val := by
  cases cur <;> rfl

theorem Op.effect_rev_ne (rev : Nat) (hrev : rev ≠ 0) (k : String) (ops : List Op) :
    ∀ cur : Option KeyValue, (∀ kv, cur = some kv → kv.CreateRevision ≠ 0) →
      ∀ kv, ops.foldl (Op.effect rev k) cur = some kv → kv.CreateRevision ≠ 0 := by
  induction ops with
  | nil => intro cur hc kv h; exact hc kv h
  | cons op ops ih =>
    intro cur hc kv h
    refine ih (Op.effect rev k cur op) ?_ kv h
    intro kv' h'
    cases op with
    | OpPut key val lease =>
      by_cases hk : key = k
      · simp only [Op.effect, hk, if_true, Option.some.injEq] at h'
        subst h'
        cases cur with
        | none => simpa [KeyValue.put] using hrev
        | some old => simpa [KeyValue.put] using hc old rfl
      · simp only [Op.effect, hk, if_false] at h'
        exact hc kv' h'
    | OpDelete key =>
      by_cases hk : key = k
      · simp [Op.effect, hk] at h'
      · simp only [Op.effect, hk, if_false] at h'
        exact hc kv' h'
    | OpGet key => exact hc kv' h'

theorem Fleet.update_self (f : Fleet) (i : Nat) :
    ({ etcd := f.etcd, nodes := Function.update f.nodes i (f.nodes i) } : Fleet) = f := by
  cases f
  simp

theorem Fleet.Good_init (cfg : Nat → Registry) : Fleet.Good cfg (Fleet.init cfg) where
  rev_ne := by intro k kv h; simp [Fleet.init, Etcd.empty, GoMap.load] at h
  players_cfg := by intro i; simp [Fleet.init, newConfigPlayerRegistry]
  services_cfg := by intro i; simp [Fleet.init, newConfigServiceRegistry]
  holder := by intro i u h; simp [Fleet.holds, Fleet.init, newConfigPlayerRegistry, GoMap.load] at h
  unique := by
    intro i j u v h
    simp [Fleet.holds, Fleet.init, newConfigPlayerRegistry, GoMap.load] at h
  service_valid := by intro n h; simp [Fleet.init, Etcd.empty, GoMap.load] at h
theorem ne_peerType_user (a b c : String) :
    "/peer_type/user/" ++ a ++ "/" ++ b ≠ "/user/" ++ c := by
  rw [String.append_assoc, String.append_assoc]
  exact key_ne _ _ _ _ 2 (by decide) (by decide) (by decide)

theorem ne_peerType_local (a b c d : String) :
    "/peer_type/user/" ++ a ++ "/" ++ b ≠ "/peer/user/" ++ c ++ "/" ++ d := by
  rw [String.append_assoc, String.append_assoc, String.append_assoc, String.append_assoc]
  exact key_ne _ _ _ _ 7 (by decide) (by decide) (by decide)

theorem ne_peerType_service (a b c : String) :
    "/peer_type/user/" ++ a ++ "/" ++ b ≠ "/service/" ++ c := by
  rw [String.append_assoc, String.append_assoc]
  exact key_ne _ _ _ _ 2 (by decide) (by decide) (by decide)

theorem ne_peerType_peerService (a b c d : String) :
    "/peer_type/user/" ++ a ++ "/" ++ b ≠ "/peer/service/" ++ c ++ "/" ++ d := by
  rw [String.append_assoc, String.append_assoc, String.append_assoc, String.append_assoc]
  exact key_ne _ _ _ _ 7 (by decide) (by decide) (by decide)

theorem ne_service_user (a c : String) : "/service/" ++ a ≠ "/user/" ++ c :=
  key_ne _ _ _ _ 2 (by decide) (by decide) (by decide)

theorem ne_service_local (a c d : String) :
    "/service/" ++ a ≠ "/peer/user/" ++ c ++ "/" ++ d := by
  rw [String.append_assoc, String.append_assoc]
  exact key_ne _ _ _ _ 2 (by decide) (by decide) (by decide)

theorem ne_service_peerService (a c d : String) :
    "/service/" ++ a ≠ "/peer/service/" ++ c ++ "/" ++ d := by
  rw [String.append_assoc, String.append_assoc]
  exact key_ne _ _ _ _ 2 (by decide) (by decide) (by decide)

theorem Fleet.Good_lock (cfg : Nat → Registry) (f : Fleet) (hg : Fleet.Good cfg f) (i : Nat)
    (t : Int) (u : String) : Fleet.Good cfg (f.step cfg (.LockLocalUser i t u)).1 := by
  obtain ⟨hp1, hp2, hp3⟩ := hg.players_cfg i
  cases hK : GoMap.load f.etcd.kvs ((f.nodes i).players.peerTypePrefix ++ u) with
  | some kv =>
    have h0 := hg.rev_ne _ _ hK
    have e := player_registry.LockLocalUser_locked (f.nodes i).players (cfg i) f.etcd t u kv hK h0
    simp only [Fleet.step, e, List.append_nil]
    rw [Fleet.update_self]
    exact hg
  | none =>
    obtain ⟨_, hs, _, _, hl⟩ :=
      player_registry.LockLocalUser_free (f.nodes i).players (cfg i) f.etcd t u hK
    rw [hp1, hp2, hp3] at hl
    rw [hp1] at hK
    simp only [List.foldl, Op.effect] at hl
    have hholds : ∀ j v, (f.step cfg (.LockLocalUser i t u)).1.holds j v →
        (j = i ∧ v = u) ∨ f.holds j v := by
      intro j v h
      simp only [Fleet.holds, Fleet.step, Function.update_apply] at h
      by_cases hj : j = i
      · subst hj
        simp only [if_true, hs, GoMap.load_store] at h
        by_cases hv : u = v
        · exact Or.inl ⟨rfl, hv.symm⟩
        · simp only [hv, if_false] at h
          exact Or.inr h
      · simp only [hj, if_false] at h
        exact Or.inr h
    have hold : ∀ j v, f.holds j v →
        GoMap.load (f.step cfg (.LockLocalUser i t u)).1.etcd.kvs (peerTypeKey (cfg j) v) =
          GoMap.load f.etcd.kvs (peerTypeKey (cfg j) v) := by
      intro j v h
      obtain ⟨kv, hkv, _⟩ := hg.holder j v h
      simp only [Fleet.step]
      rw [hl]
      have n1 : ¬ ("/peer_type/user/" ++ (cfg i).name ++ "/" ++ u = peerTypeKey (cfg j) v) := by
        intro e
        rw [e, hkv] at hK
        exact Option.noConfusion hK
      have n2 : ¬ ("/peer/user/" ++ (cfg i).appFullName ++ "/" ++ u = peerTypeKey (cfg j) v) :=
        fun e => ne_peerType_local _ _ _ _ e.symm
      have n3 : ¬ ("/user/" ++ u = peerTypeKey (cfg j) v) :=
        fun e => ne_peerType_user _ _ _ e.symm
      simp only [n1, n2, n3, if_false]
    refine ⟨?_, ?_, ?_, ?_, ?_, ?_⟩
    · intro k kv h
      simp only [Fleet.step] at h
      rw [((player_registry.LockLocalUser_free (f.nodes i).players (cfg i) f.etcd t u
        (by rw [hp1]; exact hK)).2.2.2.2 k)] at h
      exact Op.effect_rev_ne _ (Nat.succ_ne_zero _) k _ _ (fun kv h => hg.rev_ne k kv h) kv h
    · intro j
      simp only [Fleet.step, Function.update_apply]
      by_cases hj : j = i
      · subst hj
        simp only [if_true, hs]
        exact ⟨hp1, hp2, hp3⟩
      · simp only [hj, if_false]
        exact hg.players_cfg j
    · intro j
      simp only [Fleet.step, Function.update_apply]
      by_cases hj : j = i
      · subst hj
        simp only [if_true]
        exact hg.services_cfg j
      · simp only [hj, if_false]
        exact hg.services_cfg j
    · intro j v h
      rcases hholds j v h with ⟨rfl, rfl⟩ | h'
      · simp only [Fleet.step]
        rw [hl]
        simp [peerTypeKey, KeyValue.put_value]
      · rw [hold j v h']
        exact hg.holder j v h'
    · intro j j' v v' h h' e
      rcases hholds j v h with ⟨rfl, rfl⟩ | h1
      · rcases hholds j' v' h' with ⟨rfl, rfl⟩ | h2
        · rfl
        · exfalso
          obtain ⟨kv, hkv, _⟩ := hg.holder j' v' h2
          rw [← e, peerTypeKey, hK] at hkv
          exact Option.noConfusion hkv
      · rcases hholds j' v' h' with ⟨rfl, rfl⟩ | h2
        · exfalso
          obtain ⟨kv, hkv, _⟩ := hg.holder j v h1
          rw [e, peerTypeKey, hK] at hkv
          exact Option.noConfusion hkv
        · exact hg.unique j j' v v' h1 h2 e
    · intro n h
      apply hg.service_valid n
      simp only [Fleet.step] at h
      rw [hl] at h
      have n1 : ¬ ("/peer_type/user/" ++ (cfg i).name ++ "/" ++ u = "/service/" ++ n) :=
        ne_peerType_service _ _ _
      have n2 : ¬ ("/peer/user/" ++ (cfg i).appFullName ++ "/" ++ u = "/service/" ++ n) :=
        fun e => ne_service_local _ _ _ e.symm
      have n3 : ¬ ("/user/" ++ u = "/service/" ++ n) := fun e => ne_service_user _ _ e.symm
      simpa only [n1, n2, n3, if_false] using h
theorem Fleet.Good_unlock (cfg : Nat → Registry) (f : Fleet) (hg : Fleet.Good cfg f) (i : Nat)
    (u : String) : Fleet.Good cfg (f.step cfg (.UnlockLocalUser i u)).1 := by
  obtain ⟨hp1, hp2, hp3⟩ := hg.players_cfg i
  cases hP : GoMap.load (f.nodes i).players.localPlayers u with
  | none =>
    have e := player_registry.UnlockLocalUser_unknown (f.nodes i).players (cfg i) f.etcd u hP
    simp only [Fleet.step, e, List.append_nil]
    rw [Fleet.update_self]
    exact hg
  | some player =>
    by_cases hc : createRevisionOf f.etcd.kvs ((f.nodes i).players.userPrefix ++ u)
        = player.CreateRevision
    · obtain ⟨_, hs, _, hl⟩ :=
        player_registry.UnlockLocalUser_ok (f.nodes i).players (cfg i) f.etcd u player hP hc
      have hl0 := hl
      rw [hp1, hp2, hp3] at hl
      simp only [List.foldl, Op.effect] at hl
      have hiu : f.holds i u := by simp [Fleet.holds, hP]
      have hholds : ∀ j v, (f.step cfg (.UnlockLocalUser i u)).1.holds j v →
          f.holds j v ∧ ¬ (j = i ∧ v = u) := by
        intro j v h
        simp only [Fleet.holds, Fleet.step, Function.update_apply] at h
        by_cases hj : j = i
        · subst hj
          simp only [if_true, hs, GoMap.load_delete] at h
          by_cases hv : u = v
          · simp [hv] at h
          · simp only [hv, if_false] at h
            exact ⟨h, fun e => hv e.2.symm⟩
        · simp only [hj, if_false] at h
          exact ⟨h, fun e => hj e.1⟩
      have hold : ∀ j v, f.holds j v → ¬ (j = i ∧ v = u) →
          GoMap.load (f.step cfg (.UnlockLocalUser i u)).1.etcd.kvs (peerTypeKey (cfg j) v) =
            GoMap.load f.etcd.kvs (peerTypeKey (cfg j) v) := by
        intro j v h hne
        simp only [Fleet.step]
        rw [hl]
        have n1 : ¬ ("/peer_type/user/" ++ (cfg i).name ++ "/" ++ u = peerTypeKey (cfg j) v) := by
          intro e
          have hji : j = i := hg.unique j i v u h hiu e.symm
          subst hji
          exact hne ⟨rfl, (key_inj _ _ _ e).symm⟩
        have n2 : ¬ ("/peer/user/" ++ (cfg i).appFullName ++ "/" ++ u = peerTypeKey (cfg j) v) :=
          fun e => ne_peerType_local _ _ _ _ e.symm
        have n3 : ¬ ("/user/" ++ u = peerTypeKey (cfg j) v) :=
          fun e => ne_peerType_user _ _ _ e.symm
        simp only [n1, n2, n3, if_false]
      refine ⟨?_, ?_, ?_, ?_, ?_, ?_⟩
      · intro k kv h
        simp only [Fleet.step] at h
        rw [hl0 k] at h
        exact Op.effect_rev_ne _ (Nat.succ_ne_zero _) k _ _ (fun kv h => hg.rev_ne k kv h) kv h
      · intro j
        simp only [Fleet.step, Function.update_apply]
        by_cases hj : j = i
        · subst hj
          simp only [if_true, hs]
          exact ⟨hp1, hp2, hp3⟩
        · simp only [hj, if_false]
          exact hg.players_cfg j
      · intro j
        simp only [Fleet.step, Function.update_apply]
        by_cases hj : j = i
        · subst hj
          simp only [if_true]
          exact hg.services_cfg j
        · simp only [hj, if_false]
          exact hg.services_cfg j
      · intro j v h
        obtain ⟨h1, h2⟩ := hholds j v h
        rw [hold j v h1 h2]
        exact hg.holder j v h1
      · intro j j' v v' h h' e
        exact hg.unique j j' v v' (hholds j v h).1 (hholds j' v' h').1 e
      · intro n h
        apply hg.service_valid n
        simp only [Fleet.step] at h
        rw [hl] at h
        have n1 : ¬ ("/peer_type/user/" ++ (cfg i).name ++ "/" ++ u = "/service/" ++ n) :=
          ne_peerType_service _ _ _
        have n2 : ¬ ("/peer/user/" ++ (cfg i).appFullName ++ "/" ++ u = "/service/" ++ n) :=
          fun e => ne_service_local _ _ _ e.symm
        have n3 : ¬ ("/user/" ++ u = "/service/" ++ n) := fun e => ne_service_user _ _ e.symm
        simpa only [n1, n2, n3, if_false] using h
    · have e := player_registry.UnlockLocalUser_stale (f.nodes i).players (cfg i) f.etcd u
        player hP hc
      simp only [Fleet.step, e, List.append_nil]
      rw [Fleet.update_self]
      exact hg
theorem splitChars_ne_nil (sep : Char) (cs : List Char) : splitChars sep cs ≠ [] := by
  cases cs with
  | nil => simp [splitChars]
  | cons c cs =>
    by_cases h : c = sep
    · simp [splitChars, h]
    · cases hs : splitChars sep cs <;> simp [splitChars, h, hs]

theorem Join_cons_cons (a b : String) (l : List String) :
    Join (a :: b :: l) = a ++ "/" ++ Join (b :: l) := rfl

theorem Join_splitChars (cs : List Char) :
    Join ((splitChars '/' cs).map String.mk) = String.mk cs := by
  induction cs with
  | nil => rfl
  | cons c cs ih =>
    by_cases h : c = '/'
    · subst h
      cases hs : splitChars '/' cs with
      | nil => exact absurd hs (splitChars_ne_nil _ _)
      | cons w ws =>
        rw [hs] at ih
        simp only [splitChars, if_true, hs, List.map_cons] at ih ⊢
        rw [Join_cons_cons, ih]
        apply String.ext
        simp
    · cases hs : splitChars '/' cs with
      | nil => exact absurd hs (splitChars_ne_nil _ _)
      | cons w ws =>
        rw [hs] at ih
        simp only [splitChars, h, if_false, hs, List.map_cons] at ih ⊢
        cases ws with
        | nil =>
          simp only [List.map_nil, Join] at ih ⊢
          have := congrArg String.data ih
          simp only at this
          rw [this]
        | cons w2 ws2 =>
          simp only [List.map_cons] at ih ⊢
          rw [Join_cons_cons] at ih ⊢
          have e := congrArg String.data ih
          apply String.ext
          simp only [String.data_append] at e ⊢
          rw [← e]
          simp

theorem Join_Split (s : String) : Join (Split s) = s := by
  unfold Split
  rw [Join_splitChars]

theorem Split_two (n w0 w1 : String) (h : Split n = [w0, w1]) : w0 ++ "/" ++ w1 = n := by
  have := Join_Split n
  rw [h] at this
  exact this

theorem service_registry.RegisterService_invalid (self : service_registry) (r : Registry)
    (etcd : Etcd) (n : String) (a : Bool)
    (h : ¬ validServiceName (service_registry.NewServiceName r n a)) :
    self.RegisterService r etcd n a =
      { etcd := etcd, self := self, fired := [], reply := .ret none (some .ErrInvalidService) } := by
  unfold validServiceName at h
  rcases hs : Split (service_registry.NewServiceName r n a) with _ | ⟨w0, _ | ⟨w1, _ | ⟨w2, l⟩⟩⟩
  · simp only [service_registry.RegisterService, hs]
  · rw [hs] at h; simp at h
  · rw [hs] at h; simp at h
  · simp only [service_registry.RegisterService, hs]

theorem service_registry.RegisterService_valid (self : service_registry) (r : Registry)
    (etcd : Etcd) (n : String) (a : Bool)
    (h : validServiceName (service_registry.NewServiceName r n a)) :
    ∃ ty, self.RegisterService r etcd n a =
      self.registerTxn r etcd (self.servicePrefix ++ service_registry.NewServiceName r n a)
        (self.peerServicePrefix ++ service_registry.NewServiceName r n a)
        (service_registry.NewServiceName r n a) ty := by
  unfold validServiceName at h
  rcases hs : Split (service_registry.NewServiceName r n a) with _ | ⟨w0, _ | ⟨w1, _ | ⟨w2, l⟩⟩⟩
  · rw [hs] at h; simp at h
  · exact ⟨"", by simp only [service_registry.RegisterService, hs]⟩
  · refine ⟨w0, ?_⟩
    simp only [service_registry.RegisterService, hs]
    rw [Split_two _ _ _ hs]
  · rw [hs] at h; simp at h
theorem Fleet.Good_register (cfg : Nat → Registry) (f : Fleet) (hg : Fleet.Good cfg f) (i : Nat)
    (n : String) (a : Bool) : Fleet.Good cfg (f.step cfg (.RegisterService i n a)).1 := by
  obtain ⟨hs1, hs2⟩ := hg.services_cfg i
  by_cases hv : validServiceName (service_registry.NewServiceName (cfg i) n a)
  · obtain ⟨ty, e⟩ := service_registry.RegisterService_valid (f.nodes i).services (cfg i)
      f.etcd n a hv
    cases hK : GoMap.load f.etcd.kvs
        ((f.nodes i).services.servicePrefix ++ service_registry.NewServiceName (cfg i) n a) with
    | some kv =>
      have h0 := hg.rev_ne _ _ hK
      rw [service_registry.registerTxn_locked _ _ _ _ _ _ _ kv hK h0] at e
      simp only [Fleet.step, e, List.append_nil]
      rw [Fleet.update_self]
      exact hg
    | none =>
      obtain ⟨_, hs, hl⟩ := service_registry.registerTxn_free (f.nodes i).services (cfg i)
        f.etcd _ ((f.nodes i).services.peerServicePrefix ++
          service_registry.NewServiceName (cfg i) n a)
        (service_registry.NewServiceName (cfg i) n a) ty hK
      rw [← e] at hs hl
      have hl0 := hl
      rw [hs1, hs2] at hl
      simp only [List.foldl, Op.effect] at hl
      have hholds : ∀ j v, (f.step cfg (.RegisterService i n a)).1.holds j v → f.holds j v := by
        intro j v h
        simp only [Fleet.holds, Fleet.step, Function.update_apply] at h
        by_cases hj : j = i
        · subst hj
          simpa only [if_true] using h
        · simpa only [hj, if_false] using h
      have hold : ∀ j v,
          GoMap.load (f.step cfg (.RegisterService i n a)).1.etcd.kvs (peerTypeKey (cfg j) v) =
            GoMap.load f.etcd.kvs (peerTypeKey (cfg j) v) := by
        intro j v
        simp only [Fleet.step]
        rw [hl]
        have n1 : ¬ ("/service/" ++ service_registry.NewServiceName (cfg i) n a
            = peerTypeKey (cfg j) v) := fun e => ne_peerType_service _ _ _ e.symm
        have n2 : ¬ ("/peer/service/" ++ (cfg i).appFullName ++ "/" ++
            service_registry.NewServiceName (cfg i) n a = peerTypeKey (cfg j) v) :=
          fun e => ne_peerType_peerService _ _ _ _ e.symm
        simp only [n1, n2, if_false]
      refine ⟨?_, ?_, ?_, ?_, ?_, ?_⟩
      · intro k kv h
        simp only [Fleet.step] at h
        rw [hl0 k] at h
        exact Op.effect_rev_ne _ (Nat.succ_ne_zero _) k _ _ (fun kv h => hg.rev_ne k kv h) kv h
      · intro j
        simp only [Fleet.step, Function.update_apply]
        by_cases hj : j = i
        · subst hj
          simp only [if_true]
          exact hg.players_cfg j
        · simp only [hj, if_false]
          exact hg.players_cfg j
      · intro j
        simp only [Fleet.step, Function.update_apply]
        by_cases hj : j = i
        · subst hj
          simp only [if_true, hs]
          exact ⟨hs1, hs2⟩
        · simp only [hj, if_false]
          exact hg.services_cfg j
      · intro j v h
        rw [hold j v]
        exact hg.holder j v (hholds j v h)
      · intro j j' v v' h h' e
        exact hg.unique j j' v v' (hholds j v h) (hholds j' v' h') e
      · intro m h
        simp only [Fleet.step] at h
        rw [hl] at h
        have n2 : ¬ ("/peer/service/" ++ (cfg i).appFullName ++ "/" ++
            service_registry.NewServiceName (cfg i) n a = "/service/" ++ m) :=
          fun e => ne_service_peerService _ _ _ e.symm
        simp only [n2, if_false] at h
        by_cases hm : "/service/" ++ service_registry.NewServiceName (cfg i) n a = "/service/" ++ m
        · rw [← key_inj _ _ _ hm]
          exact hv
        · simp only [hm, if_false] at h
          exact hg.service_valid m h
  · have e := service_registry.RegisterService_invalid (f.nodes i).services (cfg i) f.etcd n a hv
    simp only [Fleet.step, e, List.append_nil]
    rw [Fleet.update_self]
    exact hg

theorem Fleet.Good_unregister (cfg : Nat → Registry) (f : Fleet) (hg : Fleet.Good cfg f)
    (i : Nat) (n : String) : Fleet.Good cfg (f.step cfg (.UnregisterService i n)).1 := by
  obtain ⟨hs1, hs2⟩ := hg.services_cfg i
  cases hK : GoMap.load f.etcd.kvs ((f.nodes i).services.servicePrefix ++ n) with
  | none =>
    have e := service_registry.UnregisterService_absent (f.nodes i).services (cfg i) f.etcd n hK
    simp only [Fleet.step, e, List.append_nil]
    rw [Fleet.update_self]
    exact hg
  | some kv =>
    by_cases hv : kv.Value = (cfg i).appFullName
    · obtain ⟨_, hs, hf, _, hl⟩ := service_registry.UnregisterService_own (f.nodes i).services
        (cfg i) f.etcd n kv hK hv (hg.rev_ne _ _ hK)
      have hl0 := hl
      rw [hs1, hs2] at hl
      simp only [List.foldl, Op.effect] at hl
      have hholds : ∀ j v, (f.step cfg (.UnregisterService i n)).1.holds j v → f.holds j v := by
        intro j v h
        simp only [Fleet.holds, Fleet.step, Function.update_apply] at h
        by_cases hj : j = i
        · subst hj
          simpa only [if_true] using h
        · simpa only [hj, if_false] using h
      have hold : ∀ j v,
          GoMap.load (f.step cfg (.UnregisterService i n)).1.etcd.kvs (peerTypeKey (cfg j) v) =
            GoMap.load f.etcd.kvs (peerTypeKey (cfg j) v) := by
        intro j v
        simp only [Fleet.step]
        rw [hl]
        have n1 : ¬ ("/service/" ++ n = peerTypeKey (cfg j) v) :=
          fun e => ne_peerType_service _ _ _ e.symm
        have n2 : ¬ ("/peer/service/" ++ (cfg i).appFullName ++ "/" ++ n
            = peerTypeKey (cfg j) v) :=
          fun e => ne_peerType_peerService _ _ _ _ e.symm
        simp only [n1, n2, if_false]
      refine ⟨?_, ?_, ?_, ?_, ?_, ?_⟩
      · intro k kv h
        simp only [Fleet.step] at h
        rw [hl0 k] at h
        exact Op.effect_rev_ne _ (Nat.succ_ne_zero _) k _ _ (fun kv h => hg.rev_ne k kv h) kv h
      · intro j
        simp only [Fleet.step, Function.update_apply]
        by_cases hj : j = i
        · subst hj
          simp only [if_true]
          exact hg.players_cfg j
        · simp only [hj, if_false]
          exact hg.players_cfg j
      · intro j
        simp only [Fleet.step, Function.update_apply]
        by_cases hj : j = i
        · subst hj
          simp only [if_true, hs]
          exact ⟨hs1, hs2⟩
        · simp only [hj, if_false]
          exact hg.services_cfg j
      · intro j v h
        rw [hold j v]
        exact hg.holder j v (hholds j v h)
      · intro j j' v v' h h' e
        exact hg.unique j j' v v' (hholds j v h) (hholds j' v' h') e
      · intro m h
        apply hg.service_valid m
        simp only [Fleet.step] at h
        rw [hl] at h
        by_cases h1 : "/service/" ++ n = "/service/" ++ m
        · simp [h1] at h
        · simp only [h1, if_false] at h
          by_cases h2 : "/peer/service/" ++ (cfg i).appFullName ++ "/" ++ n = "/service/" ++ m
          · simp [h2] at h
          · simpa only [h2, if_false] using h
    · have e := service_registry.UnregisterService_locked (f.nodes i).services (cfg i) f.etcd n
        kv hK hv
      simp only [Fleet.step, e, List.append_nil]
      rw [Fleet.update_self]
      exact hg

theorem Fleet.Good_step (cfg : Nat → Registry) (f : Fleet) (hg : Fleet.Good cfg f) (c : Call) :
    Fleet.Good cfg (f.step cfg c).1 := by
  cases c with
  | LockLocalUser i t u => exact Fleet.Good_lock cfg f hg i t u
  | UnlockLocalUser i u => exact Fleet.Good_unlock cfg f hg i u
  | RegisterService i n a => exact Fleet.Good_register cfg f hg i n a
  | UnregisterService i n => exact Fleet.Good_unregister cfg f hg i n

theorem Fleet.Good_run (cfg : Nat → Registry) (calls : List Call) :
    ∀ f, Fleet.Good cfg f → Fleet.Good cfg (Fleet.run cfg f calls) := by
  induction calls with
  | nil => intro f hg; exact hg
  | cons c cs ih => intro f hg; exact ih _ (Fleet.Good_step cfg f hg c)
/-! ## The player lock (C1, C6, C9) -/

theorem Fleet.holds_step (cfg : Nat → Registry) (f : Fleet) (hg : Fleet.Good cfg f) (A : Nat)
    (u : String) (h : f.holds A u) (c : Call)
    (hc : (c, (f.step cfg c).2) ≠ (Call.UnlockLocalUser A u, Reply.ret none none)) :
    (f.step cfg c).1.holds A u := by
  cases c with
  | LockLocalUser i t v =>
    by_cases hi : A = i
    · subst hi
      cases hK : GoMap.load f.etcd.kvs ((f.nodes A).players.peerTypePrefix ++ v) with
      | some kv =>
        have e := player_registry.LockLocalUser_locked (f.nodes A).players (cfg A) f.etcd t v
          kv hK (hg.rev_ne _ _ hK)
        simpa only [Fleet.holds, Fleet.step, e, Function.update_same] using h
      | none =>
        obtain ⟨_, hs, _, _, _⟩ :=
          player_registry.LockLocalUser_free (f.nodes A).players (cfg A) f.etcd t v hK
        simp only [Fleet.holds, Fleet.step, Function.update_same, hs, GoMap.load_store]
        by_cases hv : v = u
        · simp [hv]
        · simpa only [hv, if_false] using h
    · simpa only [Fleet.holds, Fleet.step, Function.update_apply, hi, if_false] using h
  | UnlockLocalUser i v =>
    by_cases hi : A = i
    · subst hi
      cases hP : GoMap.load (f.nodes A).players.localPlayers v with
      | none =>
        have e := player_registry.UnlockLocalUser_unknown (f.nodes A).players (cfg A) f.etcd v hP
        simpa only [Fleet.holds, Fleet.step, e, Function.update_same] using h
      | some player =>
        by_cases hr : createRevisionOf f.etcd.kvs ((f.nodes A).players.userPrefix ++ v)
            = player.CreateRevision
        · obtain ⟨hrep, hs, _, _⟩ :=
            player_registry.UnlockLocalUser_ok (f.nodes A).players (cfg A) f.etcd v player hP hr
          have hv : ¬ v = u := by
            intro e
            subst e
            apply hc
            simp only [Fleet.step, hrep]
          simp only [Fleet.holds, Fleet.step, Function.update_same, hs, GoMap.load_delete, hv,
            if_false]
          exact h
        · have e := player_registry.UnlockLocalUser_stale (f.nodes A).players (cfg A) f.etcd v
            player hP hr
          simpa only [Fleet.holds, Fleet.step, e, Function.update_same] using h
    · simpa only [Fleet.holds, Fleet.step, Function.update_apply, hi, if_false] using h
  | RegisterService i n a =>
    by_cases hi : A = i
    · subst hi
      simpa only [Fleet.holds, Fleet.step, Function.update_same] using h
    · simpa only [Fleet.holds, Fleet.step, Function.update_apply, hi, if_false] using h
  | UnregisterService i n =>
    by_cases hi : A = i
    · subst hi
      simpa only [Fleet.holds, Fleet.step, Function.update_same] using h
    · simpa only [Fleet.holds, Fleet.step, Function.update_apply, hi, if_false] using h

theorem Fleet.holds_run (cfg : Nat → Registry) (A : Nat) (u : String) (calls : List Call) :
    ∀ f, Fleet.Good cfg f → f.holds A u →
      (Call.UnlockLocalUser A u, Reply.ret none none) ∉ Fleet.trace cfg f calls →
      (Fleet.run cfg f calls).holds A u := by
  induction calls with
  | nil => intro f _ h _; exact h
  | cons c cs ih =>
    intro f hg h hn
    simp only [Fleet.trace, List.mem_cons, not_or] at hn
    exact ih _ (Fleet.Good_step cfg f hg c)
      (Fleet.holds_step cfg f hg A u h c (fun e => hn.1 e.symm)) hn.2

theorem Fleet.holds_of_lock (cfg : Nat → Registry) (f : Fleet) (hg : Fleet.Good cfg f) (A : Nat)
    (t : Int) (u : String)
    (h : (f.step cfg (.LockLocalUser A t u)).2 = .ret none none) :
    (f.step cfg (.LockLocalUser A t u)).1.holds A u ∧
      GoMap.load f.etcd.kvs ((f.nodes A).players.peerTypePrefix ++ u) = none := by
  cases hK : GoMap.load f.etcd.kvs ((f.nodes A).players.peerTypePrefix ++ u) with
  | some kv =>
    have e := player_registry.LockLocalUser_locked (f.nodes A).players (cfg A) f.etcd t u
      kv hK (hg.rev_ne _ _ hK)
    simp [Fleet.step, e] at h
  | none =>
    obtain ⟨_, hs, _, _, _⟩ :=
      player_registry.LockLocalUser_free (f.nodes A).players (cfg A) f.etcd t u hK
    simp [Fleet.holds, Fleet.step, hs, GoMap.load_store]

theorem Fleet.lock_of_held (cfg : Nat → Registry) (f : Fleet) (hg : Fleet.Good cfg f)
    (A B : Nat) (t : Int) (u : String) (h : f.holds A u) (hAB : (cfg B).name = (cfg A).name) :
    (f.step cfg (.LockLocalUser B t u)).2 =
      .ret ((cfg B).GetPeer (cfg A).appFullName) (some .ErrUserLocked) := by
  obtain ⟨kv, hkv, hval⟩ := hg.holder A u h
  have hK : GoMap.load f.etcd.kvs ((f.nodes B).players.peerTypePrefix ++ u) = some kv := by
    rw [(hg.players_cfg B).1, hAB]
    exact hkv
  have e := player_registry.LockLocalUser_locked (f.nodes B).players (cfg B) f.etcd t u
    kv hK (hg.rev_ne _ _ hK)
  simp only [Fleet.step, e, hval]

/-- C1, amended: in every interleaving of registry calls made by the peers of a
fleet against one store, started from the empty fleet, once the Lock of `u` by
peer `A` has succeeded, every Lock of `u` by a peer `B` of the application type of
`A` returns `UserLocked` together with the peer that `B` finds under the full name
of `A`, as long as no Unlock of `u` by `A` has succeeded; and at every moment two
peers of one application type that both have a LocalPlayer for a user are the
same peer. -/
theorem lock_excludes_same_type (cfg : Nat → Registry) (before between : List Call)
    (A B : Nat) (u : String) (tA tB : Int)
    (hA : ((Fleet.run cfg (Fleet.init cfg) before).step cfg (.LockLocalUser A tA u)).2
      = .ret none none)
    (hBetween : (Call.UnlockLocalUser A u, Reply.ret none none) ∉
      Fleet.trace cfg
        ((Fleet.run cfg (Fleet.init cfg) before).step cfg (.LockLocalUser A tA u)).1 between)
    (hAB : (cfg B).name = (cfg A).name) :
    ((Fleet.run cfg
        ((Fleet.run cfg (Fleet.init cfg) before).step cfg (.LockLocalUser A tA u)).1
        between).step cfg (.LockLocalUser B tB u)).2
      = .ret ((cfg B).GetPeer (cfg A).appFullName) (some .ErrUserLocked) ∧
    ∀ (calls : List Call) (i j : Nat) (v : String), (cfg i).name = (cfg j).name →
      (Fleet.run cfg (Fleet.init cfg) calls).holds i v →
      (Fleet.run cfg (Fleet.init cfg) calls).holds j v → i = j := by
  have hg1 := Fleet.Good_run cfg before _ (Fleet.Good_init cfg)
  have hg2 := Fleet.Good_step cfg _ hg1 (.LockLocalUser A tA u)
  have hg3 := Fleet.Good_run cfg between _ hg2
  have h2 := (Fleet.holds_of_lock cfg _ hg1 A tA u hA).1
  have h3 := Fleet.holds_run cfg A u between _ hg2 h2 hBetween
  refine ⟨Fleet.lock_of_held cfg _ hg3 A B tB u h3 hAB, ?_⟩
  intro calls i j v hij hi hj
  have hg := Fleet.Good_run cfg calls _ (Fleet.Good_init cfg)
  exact hg.unique i j v v hi hj (by simp only [peerTypeKey, hij])
/-- Witness of `lock_excludes_same_type`: `hall/1` locks `u`, `hall/2` registers a
service, and the Lock of `u` by `hall/2` then returns `UserLocked` with `hall/1`. -/
theorem lock_excludes_same_type_witness :
    ((Fleet.run hallFleet (Fleet.init hallFleet) []).step hallFleet
        (.LockLocalUser 0 100 "u")).2 = .ret none none ∧
    (Call.UnlockLocalUser 0 "u", Reply.ret none none) ∉
      Fleet.trace hallFleet
        ((Fleet.run hallFleet (Fleet.init hallFleet) []).step hallFleet
          (.LockLocalUser 0 100 "u")).1
        [.RegisterService 1 "chat" false, .UnlockLocalUser 1 "u"] ∧
    ((Fleet.run hallFleet
        ((Fleet.run hallFleet (Fleet.init hallFleet) []).step hallFleet
          (.LockLocalUser 0 100 "u")).1
        [.RegisterService 1 "chat" false, .UnlockLocalUser 1 "u"]).step hallFleet
        (.LockLocalUser 1 101 "u")).2
      = .ret (some hall1) (some .ErrUserLocked) :=
  ⟨by decide, by decide,
    (lock_excludes_same_type hallFleet [] [.RegisterService 1 "chat" false, .UnlockLocalUser 1 "u"]
      0 1 "u" 100 101 (by decide) (by decide) (by decide)).1⟩

/-- C1 as stated fails across application types: after the Lock of `u` by `hall/1`
has succeeded and before any Unlock, the Lock of `u` by `game/1` succeeds too, and
both peers have a LocalPlayer for `u`. -/
theorem lock_not_exclusive_across_types :
    Fleet.trace mixedFleet (Fleet.init mixedFleet)
        [.LockLocalUser 0 100 "u", .LockLocalUser 1 101 "u"] =
      [(.LockLocalUser 0 100 "u", .ret none none), (.LockLocalUser 1 101 "u", .ret none none)] ∧
    (Fleet.run mixedFleet (Fleet.init mixedFleet)
        [.LockLocalUser 0 100 "u", .LockLocalUser 1 101 "u"]).holds 0 "u" ∧
    (Fleet.run mixedFleet (Fleet.init mixedFleet)
        [.LockLocalUser 0 100 "u", .LockLocalUser 1 101 "u"]).holds 1 "u" := by
  decide
theorem ne_local_user (a b c : String) : "/peer/user/" ++ a ++ "/" ++ b ≠ "/user/" ++ c := by
  rw [String.append_assoc, String.append_assoc]
  exact key_ne _ _ _ _ 2 (by decide) (by decide) (by decide)

/-- C6: for a player registry with the prefixes of its constructor, a LocalPlayer
for `u` in the local map and a create revision of `/user/<u>` in the store that
differs from the recorded one (`0` standing for a missing key), `UnlockLocalUser`
returns `UserLocked` with the peer found under the value of the guard key
`/peer_type/user/<type>/<u>` (under the empty name when that key is missing),
leaves the whole store as it was, keeps the local map and calls no handler. -/
theorem unlock_stale_keeps_all (r : Registry) (etcd : Etcd)
    (localPlayers : List (String × LocalPlayer)) (w : Nat) (u : String) (player : LocalPlayer)
    (h : GoMap.load localPlayers u = some player)
    (hne : createRevisionOf etcd.kvs ("/user/" ++ u) ≠ player.CreateRevision) :
    (player_registry.UnlockLocalUser
        { newConfigPlayerRegistry r with localPlayers := localPlayers, watchStartRevision := w }
        r etcd u).reply =
      .ret (r.GetPeer (((GoMap.load etcd.kvs ("/peer_type/user/" ++ r.name ++ "/" ++ u)).map
        KeyValue.Value).getD "")) (some .ErrUserLocked) ∧
    (player_registry.UnlockLocalUser
        { newConfigPlayerRegistry r with localPlayers := localPlayers, watchStartRevision := w }
        r etcd u).etcd = etcd ∧
    (player_registry.UnlockLocalUser
        { newConfigPlayerRegistry r with localPlayers := localPlayers, watchStartRevision := w }
        r etcd u).self =
      { newConfigPlayerRegistry r with localPlayers := localPlayers, watchStartRevision := w } ∧
    (player_registry.UnlockLocalUser
        { newConfigPlayerRegistry r with localPlayers := localPlayers, watchStartRevision := w }
        r etcd u).fired = [] := by
  have e := player_registry.UnlockLocalUser_stale
    { newConfigPlayerRegistry r with localPlayers := localPlayers, watchStartRevision := w }
    r etcd u player h hne
  rw [e]
  exact ⟨rfl, rfl, rfl, rfl⟩

/-- Witness of `unlock_stale_keeps_all`: `game/1` recorded revision `3` for `u`
while `/user/u` was created at revision `2`. -/
theorem unlock_stale_keeps_all_witness :
    GoMap.load [("u", ({ LoginTime := 101, UserId := "u", CreateRevision := 3 } : LocalPlayer))]
      "u" = some { LoginTime := 101, UserId := "u", CreateRevision := 3 } ∧
    createRevisionOf twoLocksStore.kvs ("/user/" ++ "u") ≠ 3 ∧
    (player_registry.UnlockLocalUser
        { newConfigPlayerRegistry (registryOf game1) with
          localPlayers := [("u", { LoginTime := 101, UserId := "u", CreateRevision := 3 })]
          watchStartRevision := 0 }
        (registryOf game1) twoLocksStore "u").etcd = twoLocksStore :=
  ⟨by decide, by decide,
    (unlock_stale_keeps_all (registryOf game1) twoLocksStore
      [("u", { LoginTime := 101, UserId := "u", CreateRevision := 3 })] 0 "u"
      { LoginTime := 101, UserId := "u", CreateRevision := 3 } (by decide) (by decide)).2.1⟩
/-- C9, amended: after a Lock of `u` by peer `A` has succeeded (in a fleet reached
from the empty one), `WhereIsUser(u)` at `A` returns the peer of `A` whatever the
store holds; `/user/<u>` holds the full name of `A`; a peer `B` that has no
LocalPlayer for `u` of its own and finds `p` under the full name of `A` returns
`p`; and every other peer of the application type of `A` has no LocalPlayer for
`u`. -/
theorem whereIsUser_after_lock (cfg : Nat → Registry) (before : List Call) (A : Nat)
    (tA : Int) (u : String)
    (hA : ((Fleet.run cfg (Fleet.init cfg) before).step cfg (.LockLocalUser A tA u)).2
      = .ret none none) :
    (∀ etcd : Etcd,
      player_registry.WhereIsUser
        (((Fleet.run cfg (Fleet.init cfg) before).step cfg (.LockLocalUser A tA u)).1.nodes
          A).players (cfg A) etcd u = .ret (some (cfg A).SelfPeer) none) ∧
    (∃ kv, GoMap.load
        ((Fleet.run cfg (Fleet.init cfg) before).step cfg (.LockLocalUser A tA u)).1.etcd.kvs
        ("/user/" ++ u) = some kv ∧ kv.Value = (cfg A).appFullName) ∧
    (∀ (B : Nat) (p : Peer),
      ¬ ((Fleet.run cfg (Fleet.init cfg) before).step cfg (.LockLocalUser A tA u)).1.holds B u →
      (cfg B).GetPeer (cfg A).appFullName = some p →
      player_registry.WhereIsUser
        (((Fleet.run cfg (Fleet.init cfg) before).step cfg (.LockLocalUser A tA u)).1.nodes
          B).players (cfg B)
        ((Fleet.run cfg (Fleet.init cfg) before).step cfg (.LockLocalUser A tA u)).1.etcd u
        = .ret (some p) none) ∧
    (∀ B : Nat, B ≠ A → (cfg B).name = (cfg A).name →
      ¬ ((Fleet.run cfg (Fleet.init cfg) before).step cfg (.LockLocalUser A tA u)).1.holds
        B u) := by
  have hg1 := Fleet.Good_run cfg before _ (Fleet.Good_init cfg)
  have hg2 := Fleet.Good_step cfg _ hg1 (.LockLocalUser A tA u)
  obtain ⟨h2, hK⟩ := Fleet.holds_of_lock cfg _ hg1 A tA u hA
  obtain ⟨hp1, hp2, hp3⟩ := hg1.players_cfg A
  have hstore : ∃ kv, GoMap.load
      ((Fleet.run cfg (Fleet.init cfg) before).step cfg (.LockLocalUser A tA u)).1.etcd.kvs
      ("/user/" ++ u) = some kv ∧ kv.Value = (cfg A).appFullName := by
    obtain ⟨_, _, _, _, hl⟩ := player_registry.LockLocalUser_free _ (cfg A) _ tA u hK
    rw [hp1, hp2, hp3] at hl
    simp only [List.foldl, Op.effect] at hl
    have n1 : ¬ ("/peer_type/user/" ++ (cfg A).name ++ "/" ++ u = "/user/" ++ u) :=
      ne_peerType_user _ _ _
    have n2 : ¬ ("/peer/user/" ++ (cfg A).appFullName ++ "/" ++ u = "/user/" ++ u) :=
      ne_local_user _ _ _
    have hload := hl ("/user/" ++ u)
    simp only [n1, n2, if_false, if_true] at hload
    exact ⟨_, hload, KeyValue.put_value _ _ _ _ _⟩
  refine ⟨?_, hstore, ?_, ?_⟩
  · intro etcd
    unfold Fleet.holds at h2
    cases hl : GoMap.load
        (((Fleet.run cfg (Fleet.init cfg) before).step cfg (.LockLocalUser A tA u)).1.nodes
          A).players.localPlayers u with
    | none => rw [hl] at h2; simp at h2
    | some pl => simp [player_registry.WhereIsUser, hl]
  · intro B p hB hp
    obtain ⟨kv, hkv, hval⟩ := hstore
    unfold Fleet.holds at hB
    cases hl : GoMap.load
        (((Fleet.run cfg (Fleet.init cfg) before).step cfg (.LockLocalUser A tA u)).1.nodes
          B).players.localPlayers u with
    | some pl => rw [hl] at hB; simp at hB
    | none =>
      simp only [player_registry.WhereIsUser, hl, (hg2.players_cfg B).2.2, hkv, hval, hp]
  · intro B hne hty hB
    exact hne (hg2.unique B A u u hB h2 (by simp only [peerTypeKey, hty]))

/-- Witness of `whereIsUser_after_lock`: after the Lock of `u` by `hall/1`, the
peer `hall/2` answers `hall/1`. -/
theorem whereIsUser_after_lock_witness :
    ((Fleet.run hallFleet (Fleet.init hallFleet) []).step hallFleet
        (.LockLocalUser 0 100 "u")).2 = .ret none none ∧
    player_registry.WhereIsUser
        (((Fleet.run hallFleet (Fleet.init hallFleet) []).step hallFleet
          (.LockLocalUser 0 100 "u")).1.nodes 1).players (hallFleet 1)
        ((Fleet.run hallFleet (Fleet.init hallFleet) []).step hallFleet
          (.LockLocalUser 0 100 "u")).1.etcd "u" = .ret (some hall1) none :=
  ⟨by decide,
    (whereIsUser_after_lock hallFleet [] 0 100 "u" (by decide)).2.2.1 1 hall1 (by decide)
      (by decide)⟩

/-- C9 as stated fails at a peer of another application type that holds the user
itself: `game/1` has locked `u`, the later Lock of `u` by `hall/1` succeeds, and
`WhereIsUser(u)` at `game/1`, which has `hall/1` in its discovery set, still
returns `game/1`. -/
theorem whereIsUser_other_type_answers_itself :
    ((Fleet.run mixedFleet (Fleet.init mixedFleet) [.LockLocalUser 1 100 "u"]).step mixedFleet
        (.LockLocalUser 0 101 "u")).2 = .ret none none ∧
    (mixedFleet 1).GetPeer (mixedFleet 0).appFullName = some hall1 ∧
    player_registry.WhereIsUser
        (((Fleet.run mixedFleet (Fleet.init mixedFleet) [.LockLocalUser 1 100 "u"]).step
          mixedFleet (.LockLocalUser 0 101 "u")).1.nodes 1).players (mixedFleet 1)
        ((Fleet.run mixedFleet (Fleet.init mixedFleet) [.LockLocalUser 1 100 "u"]).step
          mixedFleet (.LockLocalUser 0 101 "u")).1.etcd "u" = .ret (some game1) none := by
  decide
/-! ## The service lock (C2, C7, C10) -/

theorem Fleet.register_success (cfg : Nat → Registry) (f : Fleet) (hg : Fleet.Good cfg f)
    (A : Nat) (n : String) (a : Bool)
    (h : (f.step cfg (.RegisterService A n a)).2 = .ret none none) :
    (f.step cfg (.RegisterService A n a)).1.ownedBy
      (service_registry.NewServiceName (cfg A) n a) (cfg A).appFullName := by
  obtain ⟨hs1, hs2⟩ := hg.services_cfg A
  by_cases hv : validServiceName (service_registry.NewServiceName (cfg A) n a)
  · obtain ⟨ty, e⟩ := service_registry.RegisterService_valid (f.nodes A).services (cfg A)
      f.etcd n a hv
    cases hK : GoMap.load f.etcd.kvs
        ((f.nodes A).services.servicePrefix ++ service_registry.NewServiceName (cfg A) n a) with
    | some kv =>
      rw [service_registry.registerTxn_locked _ _ _ _ _ _ _ kv hK (hg.rev_ne _ _ hK)] at e
      simp [Fleet.step, e] at h
    | none =>
      obtain ⟨_, _, hl⟩ := service_registry.registerTxn_free (f.nodes A).services (cfg A)
        f.etcd _ ((f.nodes A).services.peerServicePrefix ++
          service_registry.NewServiceName (cfg A) n a)
        (service_registry.NewServiceName (cfg A) n a) ty hK
      rw [← e, hs1, hs2] at hl
      simp only [List.foldl, Op.effect] at hl
      have hload := hl ("/service/" ++ service_registry.NewServiceName (cfg A) n a)
      have n2 : ¬ ("/peer/service/" ++ (cfg A).appFullName ++ "/" ++
          service_registry.NewServiceName (cfg A) n a =
          "/service/" ++ service_registry.NewServiceName (cfg A) n a) :=
        fun e => ne_service_peerService _ _ _ e.symm
      simp only [n2, if_false, if_true] at hload
      exact ⟨_, hload, KeyValue.put_value _ _ _ _ _⟩
  · have e := service_registry.RegisterService_invalid (f.nodes A).services (cfg A) f.etcd n a hv
    simp [Fleet.step, e] at h

theorem Fleet.ownedBy_step (cfg : Nat → Registry) (f : Fleet) (hg : Fleet.Good cfg f)
    (n owner : String) (h : f.ownedBy n owner) (c : Call)
    (hc : ∀ C, (cfg C).appFullName = owner →
      (c, (f.step cfg c).2) ≠ (Call.UnregisterService C n, Reply.ret none none)) :
    (f.step cfg c).1.ownedBy n owner := by
  obtain ⟨kv, hkv, hval⟩ := h
  cases c with
  | LockLocalUser i t u =>
    obtain ⟨hp1, hp2, hp3⟩ := hg.players_cfg i
    cases hK : GoMap.load f.etcd.kvs ((f.nodes i).players.peerTypePrefix ++ u) with
    | some kv' =>
      have e := player_registry.LockLocalUser_locked (f.nodes i).players (cfg i) f.etcd t u
        kv' hK (hg.rev_ne _ _ hK)
      exact ⟨kv, by simpa only [Fleet.step, e] using hkv, hval⟩
    | none =>
      obtain ⟨_, _, _, _, hl⟩ :=
        player_registry.LockLocalUser_free (f.nodes i).players (cfg i) f.etcd t u hK
      rw [hp1, hp2, hp3] at hl
      simp only [List.foldl, Op.effect] at hl
      have hload := hl ("/service/" ++ n)
      have n1 : ¬ ("/peer_type/user/" ++ (cfg i).name ++ "/" ++ u = "/service/" ++ n) :=
        ne_peerType_service _ _ _
      have n2 : ¬ ("/peer/user/" ++ (cfg i).appFullName ++ "/" ++ u = "/service/" ++ n) :=
        fun e => ne_service_local _ _ _ e.symm
      have n3 : ¬ ("/user/" ++ u = "/service/" ++ n) := fun e => ne_service_user _ _ e.symm
      simp only [n1, n2, n3, if_false] at hload
      exact ⟨kv, by simp only [Fleet.step]; rw [hload]; exact hkv, hval⟩
  | UnlockLocalUser i u =>
    obtain ⟨hp1, hp2, hp3⟩ := hg.players_cfg i
    cases hP : GoMap.load (f.nodes i).players.localPlayers u with
    | none =>
      have e := player_registry.UnlockLocalUser_unknown (f.nodes i).players (cfg i) f.etcd u hP
      exact ⟨kv, by simpa only [Fleet.step, e] using hkv, hval⟩
    | some player =>
      by_cases hr : createRevisionOf f.etcd.kvs ((f.nodes i).players.userPrefix ++ u)
          = player.CreateRevision
      · obtain ⟨_, _, _, hl⟩ :=
          player_registry.UnlockLocalUser_ok (f.nodes i).players (cfg i) f.etcd u player hP hr
        rw [hp1, hp2, hp3] at hl
        simp only [List.foldl, Op.effect] at hl
        have hload := hl ("/service/" ++ n)
        have n1 : ¬ ("/peer_type/user/" ++ (cfg i).name ++ "/" ++ u = "/service/" ++ n) :=
          ne_peerType_service _ _ _
        have n2 : ¬ ("/peer/user/" ++ (cfg i).appFullName ++ "/" ++ u = "/service/" ++ n) :=
          fun e => ne_service_local _ _ _ e.symm
        have n3 : ¬ ("/user/" ++ u = "/service/" ++ n) := fun e => ne_service_user _ _ e.symm
        simp only [n1, n2, n3, if_false] at hload
        exact ⟨kv, by simp only [Fleet.step]; rw [hload]; exact hkv, hval⟩
      · have e := player_registry.UnlockLocalUser_stale (f.nodes i).players (cfg i) f.etcd u
          player hP hr
        exact ⟨kv, by simpa only [Fleet.step, e] using hkv, hval⟩
  | RegisterService i m a =>
    obtain ⟨hs1, hs2⟩ := hg.services_cfg i
    by_cases hv : validServiceName (service_registry.NewServiceName (cfg i) m a)
    · obtain ⟨ty, e⟩ := service_registry.RegisterService_valid (f.nodes i).services (cfg i)
        f.etcd m a hv
      cases hK : GoMap.load f.etcd.kvs
          ((f.nodes i).services.servicePrefix ++ service_registry.NewServiceName (cfg i) m a) with
      | some kv' =>
        rw [service_registry.registerTxn_locked _ _ _ _ _ _ _ kv' hK (hg.rev_ne _ _ hK)] at e
        exact ⟨kv, by simpa only [Fleet.step, e] using hkv, hval⟩
      | none =>
        obtain ⟨_, _, hl⟩ := service_registry.registerTxn_free (f.nodes i).services (cfg i)
          f.etcd _ ((f.nodes i).services.peerServicePrefix ++
            service_registry.NewServiceName (cfg i) m a)
          (service_registry.NewServiceName (cfg i) m a) ty hK
        rw [← e, hs1, hs2] at hl
        rw [hs1] at hK
        simp only [List.foldl, Op.effect] at hl
        have hload := hl ("/service/" ++ n)
        have n1 : ¬ ("/service/" ++ service_registry.NewServiceName (cfg i) m a
            = "/service/" ++ n) := by
          intro e'
          rw [e', hkv] at hK
          exact Option.noConfusion hK
        have n2 : ¬ ("/peer/service/" ++ (cfg i).appFullName ++ "/" ++
            service_registry.NewServiceName (cfg i) m a = "/service/" ++ n) :=
          fun e => ne_service_peerService _ _ _ e.symm
        simp only [n1, n2, if_false] at hload
        exact ⟨kv, by simp only [Fleet.step]; rw [hload]; exact hkv, hval⟩
    · have e := service_registry.RegisterService_invalid (f.nodes i).services (cfg i) f.etcd
        m a hv
      exact ⟨kv, by simpa only [Fleet.step, e] using hkv, hval⟩
  | UnregisterService i m =>
    obtain ⟨hs1, hs2⟩ := hg.services_cfg i
    cases hK : GoMap.load f.etcd.kvs ((f.nodes i).services.servicePrefix ++ m) with
    | none =>
      have e := service_registry.UnregisterService_absent (f.nodes i).services (cfg i) f.etcd
        m hK
      exact ⟨kv, by simpa only [Fleet.step, e] using hkv, hval⟩
    | some kv' =>
      by_cases hv : kv'.Value = (cfg i).appFullName
      · obtain ⟨hrep, _, _, _, hl⟩ := service_registry.UnregisterService_own
          (f.nodes i).services (cfg i) f.etcd m kv' hK hv (hg.rev_ne _ _ hK)
        rw [hs1, hs2] at hl
        rw [hs1] at hK
        simp only [List.foldl, Op.effect] at hl
        have hload := hl ("/service/" ++ n)
        have n1 : ¬ ("/service/" ++ m = "/service/" ++ n) := by
          intro e'
          have hmn : m = n := key_inj _ _ _ e'
          subst hmn
          rw [hkv] at hK
          have hkk : kv = kv' := Option.some.inj hK
          subst hkk
          refine hc i (by rw [← hv, hval]) ?_
          simp only [Fleet.step, hrep]
        have n2 : ¬ ("/peer/service/" ++ (cfg i).appFullName ++ "/" ++ m = "/service/" ++ n) :=
          fun e => ne_service_peerService _ _ _ e.symm
        simp only [n1, n2, if_false] at hload
        exact ⟨kv, by simp only [Fleet.step]; rw [hload]; exact hkv, hval⟩
      · have e := service_registry.UnregisterService_locked (f.nodes i).services (cfg i)
          f.etcd m kv' hK hv
        exact ⟨kv, by simpa only [Fleet.step, e] using hkv, hval⟩

theorem Fleet.ownedBy_run (cfg : Nat → Registry) (n owner : String) (calls : List Call) :
    ∀ f, Fleet.Good cfg f → f.ownedBy n owner →
      (∀ C, (cfg C).appFullName = owner →
        (Call.UnregisterService C n, Reply.ret none none) ∉ Fleet.trace cfg f calls) →
      (Fleet.run cfg f calls).ownedBy n owner := by
  induction calls with
  | nil => intro f _ h _; exact h
  | cons c cs ih =>
    intro f hg h hn
    refine ih _ (Fleet.Good_step cfg f hg c) (Fleet.ownedBy_step cfg f hg n owner h c ?_) ?_
    · intro C hC e
      apply hn C hC
      simp only [Fleet.trace, List.mem_cons]
      exact Or.inl e.symm
    · intro C hC hmem
      apply hn C hC
      simp only [Fleet.trace, List.mem_cons]
      exact Or.inr hmem

theorem Fleet.register_of_owned (cfg : Nat → Registry) (f : Fleet) (hg : Fleet.Good cfg f)
    (B : Nat) (n : String) (a : Bool) (owner : String)
    (h : f.ownedBy (service_registry.NewServiceName (cfg B) n a) owner) :
    (f.nodes B).services.RegisterService (cfg B) f.etcd n a =
      { etcd := f.etcd, self := (f.nodes B).services, fired := [],
        reply := .ret ((cfg B).GetPeer owner) (some .ErrServiceLocked) } := by
  obtain ⟨kv, hkv, hval⟩ := h
  have hv := hg.service_valid _ (by rw [hkv]; rfl)
  obtain ⟨ty, e⟩ := service_registry.RegisterService_valid (f.nodes B).services (cfg B)
    f.etcd n a hv
  have hK : GoMap.load f.etcd.kvs
      ((f.nodes B).services.servicePrefix ++ service_registry.NewServiceName (cfg B) n a)
      = some kv := by
    rw [(hg.services_cfg B).1]
    exact hkv
  rw [e, service_registry.registerTxn_locked _ _ _ _ _ _ _ kv hK (hg.rev_ne _ _ hK), hval]

theorem Fleet.step_register_reply (cfg : Nat → Registry) (f : Fleet) (B : Nat) (n : String)
    (a : Bool) :
    (f.step cfg (.RegisterService B n a)).2 =
      ((f.nodes B).services.RegisterService (cfg B) f.etcd n a).reply := rfl

/-- C2: in every interleaving of registry calls made by the peers of a fleet
against one store, started from the empty fleet, once the Register of the name
`n` by peer `A` has succeeded, and as long as no Unregister of `n` made under the
full name of `A` has succeeded, `/service/<n>` stays in the store with the full
name of `A` as its value, whatever the other peers register or unregister, and
every Register of `n` returns `ServiceLocked` with the peer found under the full
name of `A`.  The name `n` is the name after `NewServiceName`. -/
theorem register_excludes (cfg : Nat → Registry) (before between : List Call) (A B : Nat)
    (nA nB : String) (aA aB : Bool)
    (hA : ((Fleet.run cfg (Fleet.init cfg) before).step cfg (.RegisterService A nA aA)).2
      = .ret none none)
    (hBetween : ∀ C, (cfg C).appFullName = (cfg A).appFullName →
      (Call.UnregisterService C (service_registry.NewServiceName (cfg A) nA aA),
        Reply.ret none none) ∉
      Fleet.trace cfg
        ((Fleet.run cfg (Fleet.init cfg) before).step cfg (.RegisterService A nA aA)).1 between)
    (hname : service_registry.NewServiceName (cfg B) nB aB =
      service_registry.NewServiceName (cfg A) nA aA) :
    (Fleet.run cfg
        ((Fleet.run cfg (Fleet.init cfg) before).step cfg (.RegisterService A nA aA)).1
        between).ownedBy (service_registry.NewServiceName (cfg A) nA aA) (cfg A).appFullName ∧
    ((Fleet.run cfg
        ((Fleet.run cfg (Fleet.init cfg) before).step cfg (.RegisterService A nA aA)).1
        between).step cfg (.RegisterService B nB aB)).2
      = .ret ((cfg B).GetPeer (cfg A).appFullName) (some .ErrServiceLocked) := by
  have hg1 := Fleet.Good_run cfg before _ (Fleet.Good_init cfg)
  have hg2 := Fleet.Good_step cfg _ hg1 (.RegisterService A nA aA)
  have hg3 := Fleet.Good_run cfg between _ hg2
  have h2 := Fleet.register_success cfg _ hg1 A nA aA hA
  have h3 := Fleet.ownedBy_run cfg _ _ between _ hg2 h2 hBetween
  refine ⟨h3, ?_⟩
  have e := Fleet.register_of_owned cfg _ hg3 B nB aB (cfg A).appFullName (by rw [hname]; exact h3)
  rw [Fleet.step_register_reply, e]

/-- Witness of `register_excludes`: `hall/1` registers `chat`; `hall/2` fails to
register and to unregister it; its next Register returns `ServiceLocked` with
`hall/1`. -/
theorem register_excludes_witness :
    ((Fleet.run hallFleet (Fleet.init hallFleet) []).step hallFleet
        (.RegisterService 0 "chat" false)).2 = .ret none none ∧
    ((Fleet.run hallFleet
        ((Fleet.run hallFleet (Fleet.init hallFleet) []).step hallFleet
          (.RegisterService 0 "chat" false)).1
        [.RegisterService 1 "chat" false, .UnregisterService 1 "chat"]).step hallFleet
        (.RegisterService 1 "chat" false)).2
      = .ret (some hall1) (some .ErrServiceLocked) :=
  ⟨by decide,
    (register_excludes hallFleet [] [.RegisterService 1 "chat" false, .UnregisterService 1 "chat"]
      0 1 "chat" "chat" false false (by decide)
      (by
        intro C hC
        have h0 : C = 0 := by
          by_contra hne
          simp [hallFleet, hne, registryOf, hall1, hall2] at hC
        subst h0
        decide)
      (by decide)).2⟩
/-- C7: in every fleet reached from the empty one, when `/service/<name>` exists
in the store (`name` being the name after `NewServiceName`), `RegisterService`
leaves the store and the whole service registry of the caller (service map, own
services and trie) as they were, calls no handler, and returns `ServiceLocked`
with the peer that the discovery lookup gives for the current value of the key,
which is the nil peer when that name is not in the discovery set. -/
theorem register_conflict_changes_nothing (cfg : Nat → Registry) (calls : List Call) (i : Nat)
    (n : String) (a : Bool) (kv : KeyValue)
    (h : GoMap.load (Fleet.run cfg (Fleet.init cfg) calls).etcd.kvs
      ("/service/" ++ service_registry.NewServiceName (cfg i) n a) = some kv) :
    ((Fleet.run cfg (Fleet.init cfg) calls).nodes i).services.RegisterService (cfg i)
        (Fleet.run cfg (Fleet.init cfg) calls).etcd n a =
      { etcd := (Fleet.run cfg (Fleet.init cfg) calls).etcd
        self := ((Fleet.run cfg (Fleet.init cfg) calls).nodes i).services
        fired := []
        reply := .ret ((cfg i).GetPeer kv.Value) (some .ErrServiceLocked) } ∧
    ((cfg i).GetPeer kv.Value = none →
      (((Fleet.run cfg (Fleet.init cfg) calls).nodes i).services.RegisterService (cfg i)
        (Fleet.run cfg (Fleet.init cfg) calls).etcd n a).reply
        = .ret none (some .ErrServiceLocked)) := by
  have hg := Fleet.Good_run cfg calls _ (Fleet.Good_init cfg)
  have e := Fleet.register_of_owned cfg _ hg i n a kv.Value ⟨kv, h, rfl⟩
  refine ⟨e, ?_⟩
  intro hnone
  rw [e, hnone]

/-- Witness of `register_conflict_changes_nothing`: `chat` is held by `hall/1`
when `hall/2` registers it. -/
theorem register_conflict_changes_nothing_witness :
    GoMap.load (Fleet.run hallFleet (Fleet.init hallFleet)
        [.RegisterService 0 "chat" false]).etcd.kvs
      ("/service/" ++ service_registry.NewServiceName (hallFleet 1) "chat" false) =
      some chatRecord ∧
    (((Fleet.run hallFleet (Fleet.init hallFleet)
        [.RegisterService 0 "chat" false]).nodes 1).services.RegisterService (hallFleet 1)
        (Fleet.run hallFleet (Fleet.init hallFleet) [.RegisterService 0 "chat" false]).etcd
        "chat" false).reply = .ret (some hall1) (some .ErrServiceLocked) :=
  ⟨by decide,
    congrArg Out.reply
      (register_conflict_changes_nothing hallFleet [.RegisterService 0 "chat" false] 1 "chat"
        false chatRecord (by decide)).1⟩

/-- C10: in every fleet reached from the empty one, with `/service/<n>` in the
store: when its value is not the full name of the caller, `UnregisterService(n)`
leaves the store as it was and returns `ServiceLocked` with the peer found under
that value; when its value is the full name of the caller, the call returns
success, and in the store after it, one revision later, `/service/<n>` and
`/peer/service/<self>/<n>` are both missing and every other key is as before. -/
theorem unregister_outcomes (cfg : Nat → Registry) (calls : List Call) (i : Nat) (n : String)
    (kv : KeyValue)
    (h : GoMap.load (Fleet.run cfg (Fleet.init cfg) calls).etcd.kvs ("/service/" ++ n)
      = some kv) :
    (kv.Value ≠ (cfg i).appFullName →
      ((Fleet.run cfg (Fleet.init cfg) calls).nodes i).services.UnregisterService (cfg i)
          (Fleet.run cfg (Fleet.init cfg) calls).etcd n =
        { etcd := (Fleet.run cfg (Fleet.init cfg) calls).etcd
          self := ((Fleet.run cfg (Fleet.init cfg) calls).nodes i).services
          fired := []
          reply := .ret ((cfg i).GetPeer kv.Value) (some .ErrServiceLocked) }) ∧
    (kv.Value = (cfg i).appFullName →
      (((Fleet.run cfg (Fleet.init cfg) calls).nodes i).services.UnregisterService (cfg i)
          (Fleet.run cfg (Fleet.init cfg) calls).etcd n).reply = .ret none none ∧
      (((Fleet.run cfg (Fleet.init cfg) calls).nodes i).services.UnregisterService (cfg i)
          (Fleet.run cfg (Fleet.init cfg) calls).etcd n).etcd.revision =
        (Fleet.run cfg (Fleet.init cfg) calls).etcd.revision + 1 ∧
      ∀ k, GoMap.load
          (((Fleet.run cfg (Fleet.init cfg) calls).nodes i).services.UnregisterService (cfg i)
            (Fleet.run cfg (Fleet.init cfg) calls).etcd n).etcd.kvs k =
        if k = "/service/" ++ n ∨ k = "/peer/service/" ++ (cfg i).appFullName ++ "/" ++ n
        then none
        else GoMap.load (Fleet.run cfg (Fleet.init cfg) calls).etcd.kvs k) := by
  have hg := Fleet.Good_run cfg calls _ (Fleet.Good_init cfg)
  obtain ⟨hs1, hs2⟩ := hg.services_cfg i
  have hK : GoMap.load (Fleet.run cfg (Fleet.init cfg) calls).etcd.kvs
      (((Fleet.run cfg (Fleet.init cfg) calls).nodes i).services.servicePrefix ++ n)
      = some kv := by
    rw [hs1]; exact h
  constructor
  · intro hv
    exact service_registry.UnregisterService_locked _ (cfg i) _ n kv hK hv
  · intro hv
    obtain ⟨hrep, _, _, hrev, hl⟩ := service_registry.UnregisterService_own _ (cfg i) _ n kv hK
      hv (hg.rev_ne _ _ hK)
    refine ⟨hrep, hrev, ?_⟩
    intro k
    rw [hl k, hs1, hs2]
    simp only [List.foldl, Op.effect]
    by_cases h1 : "/service/" ++ n = k
    · simp [h1]
    · by_cases h2 : "/peer/service/" ++ (cfg i).appFullName ++ "/" ++ n = k
      · simp [h2]
      · have h1' : ¬ k = "/service/" ++ n := fun e => h1 e.symm
        have h2' : ¬ k = "/peer/service/" ++ (cfg i).appFullName ++ "/" ++ n :=
          fun e => h2 e.symm
        simp [h1, h2, h1', h2']

/-- Witness of `unregister_outcomes`: `hall/1` unregisters its own `chat`. -/
theorem unregister_outcomes_witness :
    GoMap.load (Fleet.run hallFleet (Fleet.init hallFleet)
        [.RegisterService 0 "chat" false]).etcd.kvs ("/service/" ++ "chat") =
      some chatRecord ∧
    (((Fleet.run hallFleet (Fleet.init hallFleet)
        [.RegisterService 0 "chat" false]).nodes 0).services.UnregisterService (hallFleet 0)
        (Fleet.run hallFleet (Fleet.init hallFleet) [.RegisterService 0 "chat" false]).etcd
        "chat").reply = .ret none none :=
  ⟨by decide,
    ((unregister_outcomes hallFleet [.RegisterService 0 "chat" false] 0 "chat" chatRecord
      (by decide)).2 (by decide)).1⟩
theorem Split_service_key (n : String) :
    Split ("/service/" ++ n) = "" :: "service" :: Split n := by
  unfold Split
  have hd : ("/service/" ++ n).data =
      '/' :: 's' :: 'e' :: 'r' :: 'v' :: 'i' :: 'c' :: 'e' :: '/' :: n.data := by
    simp [String.data_append]
  rw [hd]
  cases hs : splitChars '/' n.data with
  | nil => exact absurd hs (splitChars_ne_nil _ _)
  | cons w ws =>
    simp [splitChars, hs]

/-! ## Register, WhereIs, Unregister, WhereIs (C8) -/

theorem service_registry.onKvDelete_services (self : service_registry) (r : Registry)
    (n : String) (hv : validServiceName n)
    (hp : ∀ s, GoMap.load self.services n = some s → s.Peer.isSome = true) :
    (self.onKvDelete r ("/service/" ++ n)).reply = .ret none none ∧
    (self.onKvDelete r ("/service/" ++ n)).self.services = GoMap.delete self.services n := by
  have hname : (match Split n with
      | [w0, w1] => w0 ++ "/" ++ w1
      | [w0] => w0
      | _ => "") = n := by
    unfold validServiceName at hv
    rcases hs : Split n with _ | ⟨w0, _ | ⟨w1, _ | ⟨w2, l⟩⟩⟩
    · rw [hs] at hv; simp at hv
    · have := Join_Split n
      rw [hs] at this
      simpa [Join] using this
    · simp only
      exact Split_two _ _ _ hs
    · rw [hs] at hv; simp at hv
  simp only [service_registry.onKvDelete, Split_service_key, List.length_cons, List.drop_succ_cons,
    List.drop_zero, hname]
  have hlen : ¬ ((Split n).length + 1 + 1 ≤ 2) := by
    have : (Split n).length ≠ 0 := by
      unfold validServiceName at hv
      omega
    omega
  simp only [hlen, if_false]
  cases hl : GoMap.load self.services n with
  | some s =>
    obtain ⟨q, hq⟩ := Option.isSome_iff_exists.1 (hp s hl)
    simp [service_registry.onServiceDelete, hq]
  | none =>
    simp only
    have : ∀ m : List (String × ServiceName), GoMap.load m n = none → GoMap.delete m n = m := by
      intro m
      induction m with
      | nil => intro _; rfl
      | cons e t ih =>
        obtain ⟨k, v⟩ := e
        intro h
        by_cases hk : k = n
        · simp [GoMap.load, hk] at h
        · simp only [GoMap.load, hk, if_false] at h
          simp [GoMap.delete, hk, ih h]
    exact ⟨trivial, (this _ hl).symm⟩

/-- C8, amended: for a peer whose discovery set holds a peer under its own full
name, and a name `N` (the name after `NewServiceName`) that `RegisterService`
accepts, that has no key `/service/<N>` in the store and no entry in the local
service map of the peer: `RegisterService` succeeds and exact-mode
`WhereIsService(N)` then returns exactly the peer that the registry finds under
its own full name; `UnregisterService(N)` then succeeds and removes
`/service/<N>` from the store, but leaves the local service map alone, so that
`WhereIsService(N)` still returns the same peer; `onKvDelete` on the delete event
of `/service/<N>` returns no error, and after it `WhereIsService(N)` returns the
empty list. -/
theorem register_whereIs_unregister (r : Registry) (etcd : Etcd)
    (services selfServices : List (String × ServiceName)) (trie : word_trie) (w : Nat)
    (n : String) (a : Bool) (peer : Peer)
    (hself : r.GetPeer r.appFullName = some peer)
    (hv : validServiceName (service_registry.NewServiceName r n a))
    (hfree : GoMap.load etcd.kvs ("/service/" ++ service_registry.NewServiceName r n a) = none)
    (hmirror : GoMap.load services (service_registry.NewServiceName r n a) = none) :
    ((service_registry.inState r services selfServices trie w).RegisterService
        r etcd n a).reply = .ret none none ∧
    ((service_registry.inState r services selfServices trie w).RegisterService
        r etcd n a).self.WhereIsService (service_registry.NewServiceName r n a) false false 0
      = [some peer] ∧
    (((service_registry.inState r services selfServices trie w).RegisterService
        r etcd n a).self.UnregisterService r
        ((service_registry.inState r services selfServices trie w).RegisterService
          r etcd n a).etcd (service_registry.NewServiceName r n a)).reply = .ret none none ∧
    GoMap.load
      (((service_registry.inState r services selfServices trie w).RegisterService
        r etcd n a).self.UnregisterService r
        ((service_registry.inState r services selfServices trie w).RegisterService
          r etcd n a).etcd (service_registry.NewServiceName r n a)).etcd.kvs
      ("/service/" ++ service_registry.NewServiceName r n a) = none ∧
    (((service_registry.inState r services selfServices trie w).RegisterService
        r etcd n a).self.UnregisterService r
        ((service_registry.inState r services selfServices trie w).RegisterService
          r etcd n a).etcd (service_registry.NewServiceName r n a)).self.WhereIsService
        (service_registry.NewServiceName r n a) false false 0
      = [some peer] ∧
    ((((service_registry.inState r services selfServices trie w).RegisterService
        r etcd n a).self.UnregisterService r
        ((service_registry.inState r services selfServices trie w).RegisterService
          r etcd n a).etcd (service_registry.NewServiceName r n a)).self.onKvDelete r
        ("/service/" ++ service_registry.NewServiceName r n a)).reply = .ret none none ∧
    ((((service_registry.inState r services selfServices trie w).RegisterService
        r etcd n a).self.UnregisterService r
        ((service_registry.inState r services selfServices trie w).RegisterService
          r etcd n a).etcd (service_registry.NewServiceName r n a)).self.onKvDelete r
        ("/service/" ++ service_registry.NewServiceName r n a)).self.WhereIsService
        (service_registry.NewServiceName r n a) false false 0 = [] := by
  obtain ⟨ty, e⟩ := service_registry.RegisterService_valid
    (service_registry.inState r services selfServices trie w) r etcd n a hv
  have hK : GoMap.load etcd.kvs
      ((service_registry.inState r services selfServices trie w).servicePrefix ++
        service_registry.NewServiceName r n a) = none := hfree
  obtain ⟨hrep, hs, hl⟩ := service_registry.registerTxn_free
    (service_registry.inState r services selfServices trie w) r etcd _
    ((service_registry.inState r services selfServices trie w).peerServicePrefix ++
      service_registry.NewServiceName r n a)
    (service_registry.NewServiceName r n a) ty hK
  rw [← e] at hrep hs hl
  have hrep := hrep (Or.inr (by rw [hself]; rfl))
  rw [hself] at hs
  have hwhere : ((service_registry.inState r services selfServices trie w).RegisterService
        r etcd n a).self.WhereIsService (service_registry.NewServiceName r n a) false false 0
      = [some peer] := by
    rw [hs]
    simp [service_registry.WhereIsService, service_registry.inState, GoMap.loadOrStore, hmirror,
      GoMap.load_store]
  have hload := hl ("/service/" ++ service_registry.NewServiceName r n a)
  have n2 : ¬ ("/peer/service/" ++ r.appFullName ++ "/" ++
      service_registry.NewServiceName r n a =
      "/service/" ++ service_registry.NewServiceName r n a) :=
    fun e => ne_service_peerService _ _ _ e.symm
  simp only [List.foldl, Op.effect, service_registry.inState, newConfigServiceRegistry, n2,
    if_false, if_true] at hload
  have hpre : ((service_registry.inState r services selfServices trie w).RegisterService
        r etcd n a).self.servicePrefix = "/service/" := by
    rw [hs]; rfl
  have hpre2 : ((service_registry.inState r services selfServices trie w).RegisterService
        r etcd n a).self.peerServicePrefix = "/peer/service/" ++ r.appFullName ++ "/" := by
    rw [hs]; rfl
  obtain ⟨hrep2, hs2, _, _, hl2⟩ := service_registry.UnregisterService_own
    ((service_registry.inState r services selfServices trie w).RegisterService r etcd n a).self
    r ((service_registry.inState r services selfServices trie w).RegisterService r etcd n a).etcd
    (service_registry.NewServiceName r n a) _ (by rw [hpre]; exact hload)
    (KeyValue.put_value _ _ _ _ _) (by rw [hfree]; simp [KeyValue.put])
  have hd := service_registry.onKvDelete_services
    ((service_registry.inState r services selfServices trie w).RegisterService r etcd n a).self
    r (service_registry.NewServiceName r n a) hv (by
      intro s hsome
      rw [hs] at hsome
      simp only [service_registry.inState, GoMap.loadOrStore, hmirror, GoMap.load_store,
        if_true, Option.some.injEq] at hsome
      rw [← hsome]
      rfl)
  refine ⟨hrep, hwhere, hrep2, ?_, ?_, ?_, ?_⟩
  · rw [hl2, hpre, hpre2]
    simp [List.foldl, Op.effect]
  · rw [hs2]; exact hwhere
  · rw [hs2]; exact hd.1
  · rw [hs2]
    simp [service_registry.WhereIsService, hd.2, GoMap.load_delete]

/-- Witness of `register_whereIs_unregister`: `hall/1` registers and unregisters
`chat` on an empty store. -/
theorem register_whereIs_unregister_witness :
    (registryOf hall1).GetPeer (registryOf hall1).appFullName = some hall1 ∧
    validServiceName (service_registry.NewServiceName (registryOf hall1) "chat" false) ∧
    GoMap.load Etcd.empty.kvs
      ("/service/" ++ service_registry.NewServiceName (registryOf hall1) "chat" false) = none ∧
    GoMap.load ([] : List (String × ServiceName))
      (service_registry.NewServiceName (registryOf hall1) "chat" false) = none ∧
    ((service_registry.inState (registryOf hall1) [] [] newWordTrie 0).RegisterService
        (registryOf hall1) Etcd.empty "chat" false).reply = .ret none none :=
  ⟨by decide, by unfold validServiceName; decide, by decide, by decide,
    (register_whereIs_unregister (registryOf hall1) Etcd.empty [] [] newWordTrie 0 "chat" false
      hall1 (by decide) (by unfold validServiceName; decide) (by decide) (by decide)).1⟩

/-- C8 as stated fails after the Unregister: `hall/1` registers `chat`, which
nobody owned, and unregisters it; both calls succeed and `/service/chat` is gone
from the store, yet exact-mode `WhereIsService("chat")` still returns `hall/1`,
not the empty list. -/
theorem whereIs_after_unregister_not_empty :
    chatRegistered.reply = .ret none none ∧
    chatUnregistered.reply = .ret none none ∧
    GoMap.load chatUnregistered.etcd.kvs "/service/chat" = none ∧
    chatUnregistered.self.WhereIsService "chat" false false 0 = [some hall1] := by
  decide
/-! ## The client to upstream flow (C3) -/

/-- The frames accepted upstream followed by the queue, as upstream frames. -/
theorem client_session.processClientMessage_spec (s : client_session) (env : Nat → SendOutcome)
    (m : GatewayMessage) :
    (s.processClientMessage env m).1.sessionId = s.sessionId ∧
    (s.processClientMessage env m).1.memberId = s.memberId ∧
    (s.processClientMessage env m).1.pendingMessages = s.pendingMessages ∧
    (((s.processClientMessage env m).2 = none ∧
        (s.processClientMessage env m).1.upstream = s.upstream ++ [s.request m]) ∨
      ((s.processClientMessage env m).2 ≠ none ∧
        (s.processClientMessage env m).1.upstream = s.upstream)) := by
  unfold client_session.processClientMessage
  cases env s.attempts <;> simp [client_session.request]

theorem drainPending_spec (env : Nat → SendOutcome) (pending : List GatewayMessage) :
    ∀ s : client_session,
      (drainPending env pending s).sessionId = s.sessionId ∧
      (drainPending env pending s).memberId = s.memberId ∧
      (drainPending env pending s).upstream ++
          (drainPending env pending s).pendingMessages.map s.request =
        s.upstream ++ pending.map s.request := by
  induction pending with
  | nil => intro s; simp [drainPending]
  | cons p rest ih =>
    intro s
    obtain ⟨h1, h2, _, h4⟩ := client_session.processClientMessage_spec s env p
    have hreq : (s.processClientMessage env p).1.request = s.request := by
      funext m
      simp [client_session.request, h1, h2]
    unfold drainPending
    rcases hr : s.processClientMessage env p with ⟨s', e⟩
    rw [hr] at h1 h2 h4 hreq
    simp only at h1 h2 h4 hreq
    cases e with
    | none =>
      simp only
      obtain ⟨i1, i2, i3⟩ := ih s'
      rcases h4 with ⟨_, hu⟩ | ⟨hne, _⟩
      · refine ⟨i1.trans h1, i2.trans h2, ?_⟩
        rw [← hreq, i3, hu, hreq]
        simp
      · exact absurd rfl hne
    | some err =>
      simp only
      rcases h4 with ⟨he, _⟩ | ⟨_, hu⟩
      · exact Option.noConfusion he
      · exact ⟨h1, h2, by rw [hu]⟩

theorem client_session.nextFrame_spec (env : Nat → SendOutcome) (s : client_session)
    (m : GatewayMessage) :
    (client_session.nextFrame env s m).sessionId = s.sessionId ∧
    (client_session.nextFrame env s m).memberId = s.memberId ∧
    (client_session.nextFrame env s m).upstream ++
        (client_session.nextFrame env s m).pendingMessages.map s.request =
      s.upstream ++ s.pendingMessages.map s.request ++ [s.request m] := by
  obtain ⟨d1, d2, d3⟩ := drainPending_spec env s.pendingMessages s
  have hreq : (drainPending env s.pendingMessages s).request = s.request := by
    funext x
    simp [client_session.request, d1, d2]
  unfold client_session.nextFrame
  simp only
  by_cases hlen : (drainPending env s.pendingMessages s).pendingMessages.length > 0
  · simp only [hlen, if_true, List.map_append, List.map_cons, List.map_nil]
    refine ⟨d1, d2, ?_⟩
    rw [← List.append_assoc, d3]
  · simp only [hlen, if_false]
    have hnil : (drainPending env s.pendingMessages s).pendingMessages = [] := by
      cases hp : (drainPending env s.pendingMessages s).pendingMessages with
      | nil => rfl
      | cons a b => rw [hp] at hlen; simp at hlen
    rw [hnil] at d3
    simp only [List.map_nil, List.append_nil] at d3
    obtain ⟨h1, h2, h3, h4⟩ := client_session.processClientMessage_spec
      (drainPending env s.pendingMessages s) env m
    rcases hr : (drainPending env s.pendingMessages s).processClientMessage env m with ⟨s', e⟩
    rw [hr] at h1 h2 h3 h4
    simp only at h1 h2 h3 h4
    cases e with
    | none =>
      simp only
      rcases h4 with ⟨_, hu⟩ | ⟨hne, _⟩
      · refine ⟨h1.trans d1, h2.trans d2, ?_⟩
        rw [h3, hnil, hu, hreq, d3]
        simp
      · exact absurd rfl hne
    | some err =>
      simp only
      rcases h4 with ⟨he, _⟩ | ⟨_, hu⟩
      · exact Option.noConfusion he
      · refine ⟨h1.trans d1, h2.trans d2, ?_⟩
        rw [h3, hnil, hu, d3]
        simp

theorem client_session.foldl_nextFrame_spec (env : Nat → SendOutcome)
    (frames : List GatewayMessage) :
    ∀ s : client_session,
      (frames.foldl (client_session.nextFrame env) s).upstream ++
          (frames.foldl (client_session.nextFrame env) s).pendingMessages.map s.request =
        s.upstream ++ s.pendingMessages.map s.request ++ frames.map s.request := by
  induction frames with
  | nil => intro s; simp
  | cons m rest ih =>
    intro s
    obtain ⟨n1, n2, n3⟩ := client_session.nextFrame_spec env s m
    have hreq : (client_session.nextFrame env s m).request = s.request := by
      funext x
      simp [client_session.request, n1, n2]
    have := ih (client_session.nextFrame env s m)
    rw [hreq, n3] at this
    simp only [List.foldl_cons, List.map_cons]
    rw [this]
    simp

theorem acceptedSends_succ (env : Nat → SendOutcome) (n : Nat) :
    acceptedSends env (n + 1) = acceptedSends env n + if env n = .sent then 1 else 0 := by
  unfold acceptedSends
  rw [List.range_succ, List.filter_append, List.length_append]
  by_cases h : env n = .sent <;> simp [h]

/-- One send: the count of sends goes up by one, the send succeeds exactly when
the stream accepts it, and the number of frames accepted stays the number of
accepted sends. -/
theorem client_session.processClientMessage_count (s : client_session)
    (env : Nat → SendOutcome) (m : GatewayMessage)
    (hinv : s.upstream.length = acceptedSends env s.attempts) :
    (s.processClientMessage env m).1.attempts = s.attempts + 1 ∧
    ((s.processClientMessage env m).2 = none ↔ env s.attempts = .sent) ∧
    (s.processClientMessage env m).1.upstream.length =
      acceptedSends env (s.processClientMessage env m).1.attempts := by
  unfold client_session.processClientMessage
  cases h : env s.attempts <;> simp [acceptedSends_succ, h, hinv]

theorem drainPending_count (env : Nat → SendOutcome) (pending : List GatewayMessage) :
    ∀ s : client_session, s.upstream.length = acceptedSends env s.attempts →
      (drainPending env pending s).upstream.length =
        acceptedSends env (drainPending env pending s).attempts ∧
      s.attempts ≤ (drainPending env pending s).attempts ∧
      (pending ≠ [] → s.attempts < (drainPending env pending s).attempts) ∧
      ((drainPending env pending s).pendingMessages ≠ [] →
        s.attempts < (drainPending env pending s).attempts ∧
        env ((drainPending env pending s).attempts - 1) ≠ .sent) := by
  induction pending with
  | nil =>
    intro s h
    simp [drainPending, h]
  | cons p rest ih =>
    intro s h
    obtain ⟨c1, c2, c3⟩ := client_session.processClientMessage_count s env p h
    unfold drainPending
    rcases hr : s.processClientMessage env p with ⟨s', e⟩
    rw [hr] at c1 c2 c3
    simp only at c1 c2 c3
    cases e with
    | none =>
      simp only
      obtain ⟨i1, i2, _, i4⟩ := ih s' c3
      refine ⟨i1, by omega, fun _ => by omega, ?_⟩
      intro hne
      obtain ⟨j1, j2⟩ := i4 hne
      exact ⟨by omega, j2⟩
    | some err =>
      simp only
      refine ⟨c3, by omega, fun _ => by omega, fun _ => ⟨by omega, ?_⟩⟩
      rw [c1, Nat.add_sub_cancel]
      intro hs
      have := c2.2 hs
      exact Option.noConfusion this

theorem client_session.nextFrame_count (env : Nat → SendOutcome) (s : client_session)
    (m : GatewayMessage) (hinv : s.upstream.length = acceptedSends env s.attempts) :
    (client_session.nextFrame env s m).upstream.length =
      acceptedSends env (client_session.nextFrame env s m).attempts ∧
    s.attempts < (client_session.nextFrame env s m).attempts ∧
    ((client_session.nextFrame env s m).pendingMessages ≠ [] →
      env ((client_session.nextFrame env s m).attempts - 1) ≠ .sent) := by
  obtain ⟨d1, d2, _, d4⟩ := drainPending_count env s.pendingMessages s hinv
  unfold client_session.nextFrame
  simp only
  by_cases hlen : (drainPending env s.pendingMessages s).pendingMessages.length > 0
  · simp only [hlen, if_true]
    have hne : (drainPending env s.pendingMessages s).pendingMessages ≠ [] := by
      intro e
      rw [e] at hlen
      simp at hlen
    obtain ⟨j1, j2⟩ := d4 hne
    exact ⟨d1, j1, fun _ => j2⟩
  · simp only [hlen, if_false]
    have hnil : (drainPending env s.pendingMessages s).pendingMessages = [] := by
      cases hp : (drainPending env s.pendingMessages s).pendingMessages with
      | nil => rfl
      | cons a b => rw [hp] at hlen; simp at hlen
    obtain ⟨c1, c2, c3⟩ := client_session.processClientMessage_count
      (drainPending env s.pendingMessages s) env m d1
    obtain ⟨_, _, h3, _⟩ := client_session.processClientMessage_spec
      (drainPending env s.pendingMessages s) env m
    rcases hr : (drainPending env s.pendingMessages s).processClientMessage env m with ⟨s', e⟩
    rw [hr] at c1 c2 c3 h3
    simp only at c1 c2 c3 h3
    cases e with
    | none =>
      simp only
      refine ⟨c3, by omega, ?_⟩
      intro hne
      rw [h3, hnil] at hne
      exact absurd rfl hne
    | some err =>
      simp only
      refine ⟨c3, by omega, fun _ => ?_⟩
      rw [c1, Nat.add_sub_cancel]
      intro hs
      have := c2.2 hs
      exact Option.noConfusion this

theorem client_session.foldl_nextFrame_count (env : Nat → SendOutcome)
    (frames : List GatewayMessage) :
    ∀ s : client_session, s.upstream.length = acceptedSends env s.attempts →
      (s.pendingMessages ≠ [] → env (s.attempts - 1) ≠ .sent) →
      (frames.foldl (client_session.nextFrame env) s).upstream.length =
        acceptedSends env (frames.foldl (client_session.nextFrame env) s).attempts ∧
      s.attempts + frames.length ≤ (frames.foldl (client_session.nextFrame env) s).attempts ∧
      ((frames.foldl (client_session.nextFrame env) s).pendingMessages ≠ [] →
        env ((frames.foldl (client_session.nextFrame env) s).attempts - 1) ≠ .sent) := by
  induction frames with
  | nil => intro s h1 h2; exact ⟨h1, by simp, h2⟩
  | cons m rest ih =>
    intro s h1 _
    obtain ⟨n1, n2, n3⟩ := client_session.nextFrame_count env s m h1
    obtain ⟨i1, i2, i3⟩ := ih (client_session.nextFrame env s m) n1 n3
    simp only [List.foldl_cons, List.length_cons]
    exact ⟨i1, by omega, i3⟩

/-- C3: for every pattern `env` of stream failures, every login frame and every
sequence of frames received from the client afterwards, the frames that the
upstream stream has accepted, followed by the pending queue, are exactly the
frames received from the client so far, in the order of their reception; so the
upstream has received a leading part of the client's frames in the client's
order, with no frame repeated or skipped.  Every send that the stream accepts
hands over one frame: the number of frames accepted is the number of accepted
sends among those tried.  Every reception tries at least one send, and frames
are left in the queue only when the last send tried has failed; so with a stream
that accepts every send, all frames received are upstream and the queue is
empty. -/
theorem forward_keeps_client_order (env : Nat → SendOutcome) (sessionId : Nat)
    (memberId : String) (message : GatewayMessage) (frames : List GatewayMessage) :
    ((newSession sessionId memberId).forward env message frames).upstream ++
        ((newSession sessionId memberId).forward env message frames).pendingMessages.map
          (newSession sessionId memberId).request =
      (message :: frames).map (newSession sessionId memberId).request ∧
    ((newSession sessionId memberId).forward env message frames).upstream <+:
      (message :: frames).map (newSession sessionId memberId).request ∧
    ((newSession sessionId memberId).forward env message frames).upstream.length =
      acceptedSends env ((newSession sessionId memberId).forward env message frames).attempts ∧
    frames.length + 1 ≤ ((newSession sessionId memberId).forward env message frames).attempts ∧
    (((newSession sessionId memberId).forward env message frames).pendingMessages ≠ [] →
      env (((newSession sessionId memberId).forward env message frames).attempts - 1) ≠ .sent) ∧
    ((∀ n, env n = .sent) →
      ((newSession sessionId memberId).forward env message frames).upstream =
        (message :: frames).map (newSession sessionId memberId).request ∧
      ((newSession sessionId memberId).forward env message frames).pendingMessages = []) := by
  have hfirst : ((newSession sessionId memberId).firstFrame env message).upstream ++
      ((newSession sessionId memberId).firstFrame env message).pendingMessages.map
        (newSession sessionId memberId).request =
      [(newSession sessionId memberId).request message] ∧
      ((newSession sessionId memberId).firstFrame env message).request =
        (newSession sessionId memberId).request := by
    unfold client_session.firstFrame client_session.processClientMessage
    cases env (newSession sessionId memberId).attempts <;>
      exact ⟨by simp [newSession, client_session.request], by funext x; rfl⟩
  have h := client_session.foldl_nextFrame_spec env frames
    ((newSession sessionId memberId).firstFrame env message)
  rw [hfirst.2, hfirst.1] at h
  have heq : ((newSession sessionId memberId).forward env message frames).upstream ++
        ((newSession sessionId memberId).forward env message frames).pendingMessages.map
          (newSession sessionId memberId).request =
      (message :: frames).map (newSession sessionId memberId).request := by
    unfold client_session.forward
    rw [h]
    simp
  have hcount : ((newSession sessionId memberId).firstFrame env message).upstream.length =
        acceptedSends env ((newSession sessionId memberId).firstFrame env message).attempts ∧
      ((newSession sessionId memberId).firstFrame env message).attempts = 1 ∧
      (((newSession sessionId memberId).firstFrame env message).pendingMessages ≠ [] →
        env (((newSession sessionId memberId).firstFrame env message).attempts - 1) ≠ .sent) := by
    have h0 : (newSession sessionId memberId).upstream.length =
        acceptedSends env (newSession sessionId memberId).attempts := by
      simp [newSession, acceptedSends]
    obtain ⟨c1, c2, c3⟩ := client_session.processClientMessage_count
      (newSession sessionId memberId) env message h0
    obtain ⟨_, _, p3, _⟩ := client_session.processClientMessage_spec
      (newSession sessionId memberId) env message
    unfold client_session.firstFrame
    rcases hr : (newSession sessionId memberId).processClientMessage env message with ⟨s', e⟩
    rw [hr] at c1 c2 c3 p3
    simp only at c1 c2 c3 p3
    have ha : s'.attempts = 1 := by
      rw [c1]
      rfl
    cases e with
    | none =>
      simp only
      refine ⟨c3, ha, ?_⟩
      intro hne
      rw [p3] at hne
      exact absurd rfl hne
    | some err =>
      simp only
      refine ⟨c3, ha, fun _ => ?_⟩
      rw [ha]
      intro hs
      have := c2.2 hs
      exact Option.noConfusion this
  obtain ⟨f1, f2, f3⟩ := client_session.foldl_nextFrame_count env frames
    ((newSession sessionId memberId).firstFrame env message) hcount.1 hcount.2.2
  rw [hcount.2.1] at f2
  have g1 : ((newSession sessionId memberId).forward env message frames).upstream.length =
      acceptedSends env ((newSession sessionId memberId).forward env message frames).attempts :=
    f1
  have g2 : frames.length + 1 ≤
      ((newSession sessionId memberId).forward env message frames).attempts := by
    have : 1 + frames.length ≤
        ((newSession sessionId memberId).forward env message frames).attempts := f2
    omega
  have g3 : ((newSession sessionId memberId).forward env message frames).pendingMessages ≠ [] →
      env (((newSession sessionId memberId).forward env message frames).attempts - 1) ≠ .sent :=
    f3
  refine ⟨heq, ⟨_, heq⟩, g1, g2, g3, ?_⟩
  intro hall
  have hnil : ((newSession sessionId memberId).forward env message frames).pendingMessages = [] := by
    by_contra hne
    exact g3 hne (hall _)
  rw [hnil] at heq
  simp only [List.map_nil, List.append_nil] at heq
  exact ⟨heq, hnil⟩

/-- Witness of `forward_keeps_client_order`: a stream that accepts every send, a
login frame and two frames after it; the three frames are upstream in the order
of their reception and the queue is empty. -/
theorem forward_keeps_client_order_witness :
    ((newSession 1 "m").forward (fun _ => .sent) { ReqId := 1, Payload := [1] }
        [{ ReqId := 2, Payload := [2] }, { ReqId := 3, Payload := [3] }]).upstream =
      [{ MemberId := "m", SessionId := 1, ReqId := 1, Data := [1] },
        { MemberId := "m", SessionId := 1, ReqId := 2, Data := [2] },
        { MemberId := "m", SessionId := 1, ReqId := 3, Data := [3] }] ∧
    ((newSession 1 "m").forward (fun _ => .sent) { ReqId := 1, Payload := [1] }
        [{ ReqId := 2, Payload := [2] }, { ReqId := 3, Payload := [3] }]).pendingMessages = [] :=
  (forward_keeps_client_order (fun _ => .sent) 1 "m" { ReqId := 1, Payload := [1] }
    [{ ReqId := 2, Payload := [2] }, { ReqId := 3, Payload := [3] }]).2.2.2.2.2 (fun _ => rfl)

/-! ## The selection policy (C5) -/

theorem maxBuildTime_foldl (peers : List Upstream) :
    ∀ m0 : Int,
      m0 ≤ peers.foldl (fun m server =>
        if server.client.isSome && decide (server.buildTime > m) then server.buildTime else m) m0 ∧
      (∀ b ∈ peers, b.client.isSome = true → b.buildTime ≤ peers.foldl (fun m server =>
        if server.client.isSome && decide (server.buildTime > m) then server.buildTime else m) m0) ∧
      (peers.foldl (fun m server =>
        if server.client.isSome && decide (server.buildTime > m) then server.buildTime else m) m0
          = m0 ∨
        ∃ a ∈ peers, a.client.isSome = true ∧ a.buildTime = peers.foldl (fun m server =>
          if server.client.isSome && decide (server.buildTime > m) then server.buildTime else m)
          m0) := by
  induction peers with
  | nil => intro m0; simp
  | cons s rest ih =>
    intro m0
    simp only [List.foldl_cons]
    by_cases hc : s.client.isSome = true ∧ s.buildTime > m0
    · have hcond : (s.client.isSome && decide (s.buildTime > m0)) = true := by
        simp [hc.1, hc.2]
      simp only [hcond, if_true]
      obtain ⟨i1, i2, i3⟩ := ih s.buildTime
      refine ⟨le_trans (le_of_lt hc.2) i1, ?_, ?_⟩
      · intro b hb hl
        rcases List.mem_cons.mp hb with rfl | hb
        · exact i1
        · exact i2 b hb hl
      · right
        rcases i3 with h | ⟨a, ha, hl, he⟩
        · exact ⟨s, List.mem_cons_self _ _, hc.1, h.symm⟩
        · exact ⟨a, List.mem_cons_of_mem _ ha, hl, he⟩
    · have hcond : (s.client.isSome && decide (s.buildTime > m0)) = false := by
        by_cases h1 : s.client.isSome = true
        · have : ¬ s.buildTime > m0 := fun h => hc ⟨h1, h⟩
          simp [this]
        · simp [h1]
      simp only [hcond, Bool.false_eq_true, if_false]
      obtain ⟨i1, i2, i3⟩ := ih m0
      refine ⟨i1, ?_, ?_⟩
      · intro b hb hl
        rcases List.mem_cons.mp hb with rfl | hb
        · have : ¬ b.buildTime > m0 := fun h => hc ⟨hl, h⟩
          exact le_trans (not_lt.mp this) i1
        · exact i2 b hb hl
      · rcases i3 with h | ⟨a, ha, hl, he⟩
        · exact Or.inl h
        · exact Or.inr ⟨a, List.mem_cons_of_mem _ ha, hl, he⟩

theorem maxBuildTime_eq (peers : List Upstream) (M : Int) (hM : IsMaxLiveBuildTime peers M)
    (h0 : 0 ≤ M) : maxBuildTime peers = M := by
  obtain ⟨i1, i2, i3⟩ := maxBuildTime_foldl peers 0
  obtain ⟨⟨a, ha, hla, hea⟩, hmax⟩ := hM
  unfold maxBuildTime
  apply le_antisymm
  · rcases i3 with h | ⟨b, hb, hlb, heb⟩
    · rw [h]; exact h0
    · rw [← heb]; exact hmax b hb hlb
  · rw [← hea]; exact i2 a ha hla

theorem selectLoop_foldl (M : Int) (rest : List Upstream) :
    ∀ (seen : List Upstream) (acc : Int × Option Upstream), SelectInv M seen acc →
      SelectInv M (seen ++ rest)
        (rest.foldl
          (fun (acc : Int × Option Upstream) server =>
            if server.client.isSome && decide (server.buildTime = M) &&
                decide (server.playerCount < acc.1) then
              if server.ctxDone then acc else (server.playerCount, some server)
            else acc) acc) := by
  induction rest with
  | nil => intro seen acc h; simpa using h
  | cons s rest ih =>
    intro seen acc h
    simp only [List.foldl_cons]
    have happ : seen ++ s :: rest = (seen ++ [s]) ++ rest := by simp
    rw [happ]
    apply ih
    by_cases hel : s.eligible M
    · obtain ⟨e1, e2, e3⟩ := hel
      by_cases hlt : s.playerCount < acc.1
      · have hcond : (s.client.isSome && decide (s.buildTime = M) &&
            decide (s.playerCount < acc.1)) = true := by simp [e1, e3, hlt]
        simp only [hcond, if_true, e2, Bool.false_eq_true, if_false]
        right
        refine ⟨s, by simp, rfl, ⟨e1, e2, e3⟩, rfl, ?_, ?_⟩
        · rcases h with ⟨_, h1, _⟩ | ⟨c, _, _, _, h1, h2, _⟩
          · rw [h1] at hlt; exact hlt
          · rw [h1] at hlt; exact lt_trans hlt h2
        · intro b hb hbel
          rcases List.mem_append.mp hb with hb | hb
          · rcases h with ⟨_, h1, h2⟩ | ⟨c, _, _, _, h1, _, h3⟩
            · rw [h1] at hlt
              exact le_trans (le_of_lt hlt) (h2 b hb hbel)
            · rw [h1] at hlt
              exact le_trans (le_of_lt hlt) (h3 b hb hbel)
          · simp only [List.mem_singleton] at hb
            subst hb
            exact le_refl _
      · have hcond : (s.client.isSome && decide (s.buildTime = M) &&
            decide (s.playerCount < acc.1)) = false := by simp [e1, e3, hlt]
        simp only [hcond, Bool.false_eq_true, if_false]
        rcases h with ⟨h0, h1, h2⟩ | ⟨c, hc, h0, hce, h1, h2, h3⟩
        · left
          refine ⟨h0, h1, ?_⟩
          intro b hb hbel
          rcases List.mem_append.mp hb with hb | hb
          · exact h2 b hb hbel
          · simp only [List.mem_singleton] at hb
            subst hb
            rw [h1] at hlt
            exact not_lt.mp hlt
        · right
          refine ⟨c, by simp [hc], h0, hce, h1, h2, ?_⟩
          intro b hb hbel
          rcases List.mem_append.mp hb with hb | hb
          · exact h3 b hb hbel
          · simp only [List.mem_singleton] at hb
            subst hb
            rw [h1] at hlt
            exact not_lt.mp hlt
    · have hkeep : (if s.client.isSome && decide (s.buildTime = M) &&
            decide (s.playerCount < acc.1) then
            if s.ctxDone then acc else (s.playerCount, some s)
          else acc) = acc := by
        by_cases hcond : (s.client.isSome && decide (s.buildTime = M) &&
            decide (s.playerCount < acc.1)) = true
        · simp only [hcond, if_true]
          by_cases hd : s.ctxDone = true
          · simp [hd]
          · exfalso
            apply hel
            simp only [Bool.and_eq_true, decide_eq_true_eq] at hcond
            exact ⟨hcond.1.1, by simpa using hd, hcond.1.2⟩
        · simp only [hcond, Bool.false_eq_true, if_false]
      rw [hkeep]
      rcases h with ⟨h0, h1, h2⟩ | ⟨c, hc, h0, hce, h1, h2, h3⟩
      · left
        refine ⟨h0, h1, ?_⟩
        intro b hb hbel
        rcases List.mem_append.mp hb with hb | hb
        · exact h2 b hb hbel
        · simp only [List.mem_singleton] at hb
          subst hb
          exact absurd hbel hel
      · right
        refine ⟨c, by simp [hc], h0, hce, h1, h2, ?_⟩
        intro b hb hbel
        rcases List.mem_append.mp hb with hb | hb
        · exact h3 b hb hbel
        · simp only [List.mem_singleton] at hb
          subst hb
          exact absurd hbel hel

theorem selectLoop_spec (M : Int) (peers : List Upstream) :
    SelectInv M peers (selectLoop M peers) := by
  have h := selectLoop_foldl M peers [] (0xffffffff, none)
    (Or.inl ⟨rfl, rfl, by intro b hb; simp at hb⟩)
  simpa [selectLoop] using h

/-- C5, amended: let `M` be the largest build time among the agents with a live
client handle.  When `M` is not negative and some agent with a live client
handle, an uncancelled scope and build time `M` has fewer than `0xffffffff`
players, the candidate of `SelectPeer` is an agent of the pool with a live client
handle, an uncancelled scope and build time `M`, whose player count is the
smallest among the agents of the pool with a live client handle, an uncancelled
scope and build time `M`; and when the health check of the candidate answers
`OK`, `SelectPeer` returns the candidate, with the status `OK` written. -/
theorem selectPeer_freshest_least_loaded (peers : List Upstream) (M : Int)
    (hM : IsMaxLiveBuildTime peers M) (h0 : 0 ≤ M)
    (hsome : ∃ a ∈ peers, a.eligible M ∧ a.playerCount < 0xffffffff) :
    ∃ c ∈ peers, (selectLoop (maxBuildTime peers) peers).2 = some c ∧
      c.client.isSome = true ∧ c.ctxDone = false ∧ c.buildTime = M ∧
      (∀ b ∈ peers, b.eligible M → c.playerCount ≤ b.playerCount) ∧
      (∀ cl resp, c.client = some cl → cl.HealthCheck = .ok resp → resp.Status = .OK →
        upstream_map.SelectPeer peers = some { c with status := .OK }) := by
  rw [maxBuildTime_eq peers M hM h0]
  rcases selectLoop_spec M peers with ⟨_, _, h2⟩ | ⟨c, hc, hsel, hce, _, _, h3⟩
  · obtain ⟨a, ha, hae, hlt⟩ := hsome
    exact absurd (h2 a ha hae) (not_le.mpr hlt)
  · refine ⟨c, hc, hsel, hce.1, hce.2.1, hce.2.2, h3, ?_⟩
    intro cl resp hcl hresp hok
    unfold upstream_map.SelectPeer
    rw [maxBuildTime_eq peers M hM h0, hsel]
    simp [Upstream.HealthCheck, hcl, hresp, hok]

/-- Witness of `selectPeer_freshest_least_loaded`, the rollout scenario: with
`H1` (build time `100`) and `H2` (build time `200`, more players) both live,
`SelectPeer` returns `H2`. -/
theorem selectPeer_freshest_least_loaded_witness :
    0 ≤ (200 : Int) ∧
    (upstream_map.SelectPeer [upstreamH1, upstreamH2]).map Upstream.FullName = some "hall/2" ∧
    ∃ c ∈ [upstreamH1, upstreamH2],
      (selectLoop (maxBuildTime [upstreamH1, upstreamH2]) [upstreamH1, upstreamH2]).2 = some c ∧
      c.buildTime = 200 :=
  ⟨by decide, by decide,
    (selectPeer_freshest_least_loaded [upstreamH1, upstreamH2] 200
      ⟨⟨upstreamH2, by simp, by decide, by decide⟩, by
        intro b hb _
        simp only [List.mem_cons, List.mem_singleton, List.not_mem_nil, or_false] at hb
        rcases hb with rfl | rfl <;> decide⟩
      (by decide)
      ⟨upstreamH2, by simp, ⟨by decide, by decide, by decide⟩, by decide⟩).imp
      (fun _ h => ⟨h.1, h.2.1, h.2.2.2.2.1⟩)⟩

/-- C5 as stated fails on a pool whose only agent has a live client handle and a
cancelled scope (closed, its goroutine not yet gone): no candidate is chosen and
`SelectPeer` returns nil although the health check would answer `OK`. -/
theorem selectPeer_skips_cancelled :
    ({ upstreamH1 with ctxDone := true } : Upstream).client.isSome = true ∧
    (selectLoop (maxBuildTime [{ upstreamH1 with ctxDone := true }])
      [{ upstreamH1 with ctxDone := true }]).2.isNone = true ∧
    (upstream_map.SelectPeer [{ upstreamH1 with ctxDone := true }]).isNone = true := by
  decide
/-! ## The word trie (C4) -/

theorem word_trie_node.eta (n : word_trie_node) :
    word_trie_node.mk n.value n.path n.set n.nodes = n := by
  cases n; rfl

theorem NodesWF_load (nodes : List (String × word_trie_node)) (h : NodesWF nodes) (k : String)
    (c : word_trie_node) (hl : GoMap.load nodes k = some c) : NodesWF c.nodes := by
  induction nodes with
  | nil => simp [GoMap.load] at hl
  | cons e t ih =>
    obtain ⟨k', c'⟩ := e
    simp only [NodesWF] at h
    by_cases hk : k' = k
    · simp only [GoMap.load, hk, if_true, Option.some.injEq] at hl
      subst hl
      cases c' with
      | mk v p s n => simpa [word_trie_node.WF, word_trie_node.nodes] using h.1
    · simp only [GoMap.load, hk, if_false] at hl
      exact ih h.2.2 hl

theorem NodesWF_store (nodes : List (String × word_trie_node)) (h : NodesWF nodes) (k : String)
    (c : word_trie_node) (hc : NodesWF c.nodes) : NodesWF (GoMap.store nodes k c) := by
  induction nodes with
  | nil =>
    cases c with
    | mk v p s n => simpa [GoMap.store, NodesWF, word_trie_node.WF, GoMap.load] using hc
  | cons e t ih =>
    obtain ⟨k', c'⟩ := e
    simp only [NodesWF] at h
    by_cases hk : k' = k
    · subst hk
      simp only [GoMap.store, if_true, NodesWF]
      refine ⟨?_, h.2.1, h.2.2⟩
      cases c with
      | mk v p s n => simpa [word_trie_node.WF, word_trie_node.nodes] using hc
    · simp only [GoMap.store, hk, if_false, NodesWF]
      refine ⟨h.1, ?_, ih h.2.2⟩
      rw [GoMap.load_store]
      have : ¬ k = k' := fun e => hk e.symm
      simp only [this, if_false]
      exact h.2.1

theorem NodesWF_delete (nodes : List (String × word_trie_node)) (h : NodesWF nodes)
    (k : String) : NodesWF (GoMap.delete nodes k) := by
  induction nodes with
  | nil => simp [GoMap.delete, NodesWF]
  | cons e t ih =>
    obtain ⟨k', c'⟩ := e
    simp only [NodesWF] at h
    by_cases hk : k' = k
    · simp only [GoMap.delete, hk, if_true]
      exact ih h.2.2
    · simp only [GoMap.delete, hk, if_false, NodesWF]
      refine ⟨h.1, ?_, ih h.2.2⟩
      rw [GoMap.load_delete]
      by_cases hkk : k = k'
      · simp [hkk]
      · simp only [hkk, if_false]
        exact h.2.1
theorem word_trie_node.liveAt_mk (v p : String) (s : Bool)
    (nodes : List (String × word_trie_node)) (x : String) :
    (∃ ws, (word_trie_node.mk v p s nodes).liveAt ws = some x) ↔
      (s = true ∧ p = x) ∨ ∃ ws, nodesLiveAt nodes ws = some x := by
  constructor
  · rintro ⟨ws, h⟩
    cases ws with
    | nil =>
      left
      cases s <;> simp_all [word_trie_node.liveAt, word_trie_node.set, word_trie_node.path]
    | cons w r =>
      right
      exact ⟨w :: r, by simpa [word_trie_node.liveAt, nodesLiveAt, word_trie_node.nodes] using h⟩
  · rintro (⟨hs, hp⟩ | ⟨ws, h⟩)
    · exact ⟨[], by simp [word_trie_node.liveAt, word_trie_node.set, word_trie_node.path, hs, hp]⟩
    · cases ws with
      | nil => simp [nodesLiveAt] at h
      | cons w r =>
        exact ⟨w :: r, by
          simpa [word_trie_node.liveAt, nodesLiveAt, word_trie_node.nodes] using h⟩

theorem nodesLiveAt_cons (k : String) (c : word_trie_node)
    (rest : List (String × word_trie_node)) (hk : GoMap.load rest k = none) (x : String) :
    (∃ ws, nodesLiveAt ((k, c) :: rest) ws = some x) ↔
      (∃ ws, c.liveAt ws = some x) ∨ ∃ ws, nodesLiveAt rest ws = some x := by
  constructor
  · rintro ⟨ws, h⟩
    cases ws with
    | nil => simp [nodesLiveAt] at h
    | cons w r =>
      by_cases hw : k = w
      · left
        exact ⟨r, by simpa [nodesLiveAt, GoMap.load, hw] using h⟩
      · right
        exact ⟨w :: r, by simpa [nodesLiveAt, GoMap.load, hw] using h⟩
  · rintro (⟨ws, h⟩ | ⟨ws, h⟩)
    · exact ⟨k :: ws, by simpa [nodesLiveAt, GoMap.load] using h⟩
    · cases ws with
      | nil => simp [nodesLiveAt] at h
      | cons w r =>
        have hw : ¬ k = w := by
          intro e
          subst e
          simp [nodesLiveAt, hk] at h
        exact ⟨w :: r, by simpa [nodesLiveAt, GoMap.load, hw] using h⟩

mutual
theorem word_trie_node.node_mem_collect : ∀ (n : word_trie_node) (res : List String) (x : String),
    n.WF → (x ∈ n.collect res ↔ x ∈ res ∨ ∃ ws, n.liveAt ws = some x)
  | .mk v p s nodes, res, x, h => by
    have hn : NodesWF nodes := by simpa [word_trie_node.WF] using h
    rw [word_trie_node.collect, mem_collectNodes nodes _ x hn, word_trie_node.liveAt_mk]
    cases s <;> simp [or_assoc, eq_comm]
theorem mem_collectNodes : ∀ (nodes : List (String × word_trie_node)) (res : List String)
    (x : String), NodesWF nodes →
      (x ∈ collectNodes nodes res ↔ x ∈ res ∨ ∃ ws, nodesLiveAt nodes ws = some x)
  | [], res, x, _ => by
    simp only [collectNodes]
    constructor
    · exact Or.inl
    · rintro (h | ⟨ws, h⟩)
      · exact h
      · cases ws <;> simp [nodesLiveAt, GoMap.load] at h
  | (k, c) :: rest, res, x, h => by
    simp only [NodesWF] at h
    rw [collectNodes, mem_collectNodes rest _ x h.2.2, word_trie_node.node_mem_collect c res x h.1,
      nodesLiveAt_cons k c rest h.2.1, or_assoc]
end
theorem word_trie_node.nodes_mk (v p : String) (s : Bool)
    (n : List (String × word_trie_node)) : (word_trie_node.mk v p s n).nodes = n := rfl

theorem word_trie_node.set_mk (v p : String) (s : Bool)
    (n : List (String × word_trie_node)) : (word_trie_node.mk v p s n).set = s := rfl

theorem word_trie_node.path_mk (v p : String) (s : Bool)
    (n : List (String × word_trie_node)) : (word_trie_node.mk v p s n).path = p := rfl

theorem word_trie_node.liveAt_cons (n : word_trie_node) (w : String) (r : List String) :
    n.liveAt (w :: r) = nodesLiveAt n.nodes (w :: r) := rfl

theorem nodesLiveAt_store (nodes : List (String × word_trie_node)) (v : String)
    (n : word_trie_node) (w : String) (r : List String) :
    nodesLiveAt (GoMap.store nodes v n) (w :: r) =
      if v = w then n.liveAt r else nodesLiveAt nodes (w :: r) := by
  simp only [nodesLiveAt, GoMap.load_store]
  by_cases h : v = w <;> simp [h]

theorem lookupOrNew_nodes (nodes : List (String × word_trie_node)) (v : String)
    (r : List String) (hr : r ≠ []) :
    nodesLiveAt (lookupOrNew nodes v).nodes r = nodesLiveAt nodes (v :: r) := by
  cases r with
  | nil => exact absurd rfl hr
  | cons a b =>
    cases hl : GoMap.load nodes v with
    | none => simp [lookupOrNew, nodesLiveAt, hl, word_trie_node.nodes_mk, GoMap.load]
    | some n => simp [lookupOrNew, nodesLiveAt, hl, word_trie_node.liveAt]

theorem lookupOrNew_set (nodes : List (String × word_trie_node)) (v : String) :
    (if (lookupOrNew nodes v).set then some (lookupOrNew nodes v).path else none) =
      nodesLiveAt nodes [v] := by
  cases hl : GoMap.load nodes v with
  | none => simp [lookupOrNew, nodesLiveAt, hl, word_trie_node.set_mk]
  | some n => simp [lookupOrNew, nodesLiveAt, hl, word_trie_node.liveAt]

theorem lookupOrNew_WF (nodes : List (String × word_trie_node)) (h : NodesWF nodes)
    (v : String) : NodesWF (lookupOrNew nodes v).nodes := by
  cases hl : GoMap.load nodes v with
  | none => simp [lookupOrNew, hl, word_trie_node.nodes_mk, NodesWF]
  | some n =>
    simp only [lookupOrNew, hl]
    exact NodesWF_load nodes h v n hl

theorem addWords_liveAt (path : String) (ws : List String) :
    ∀ (nodes : List (String × word_trie_node)) (ws' : List String), ws ≠ [] →
      nodesLiveAt (addWords path nodes ws) ws' =
        if ws' = ws then some path else nodesLiveAt nodes ws' := by
  induction ws with
  | nil => intro nodes ws' h; exact absurd rfl h
  | cons v rest ih =>
    intro nodes ws' _
    cases ws' with
    | nil => simp [nodesLiveAt]
    | cons w r =>
      cases rest with
      | nil =>
        rw [addWords, nodesLiveAt_store]
        by_cases hvw : v = w
        · subst hvw
          simp only [if_true]
          cases r with
          | nil => simp [word_trie_node.liveAt, word_trie_node.set_mk, word_trie_node.path_mk]
          | cons a b =>
            rw [word_trie_node.liveAt_cons]
            simp only [word_trie_node.nodes_mk]
            rw [lookupOrNew_nodes nodes v (a :: b) (by simp)]
            simp
        · have : ¬ w = v := fun e => hvw e.symm
          simp [hvw, this]
      | cons a b =>
        rw [addWords, nodesLiveAt_store]
        by_cases hvw : v = w
        · subst hvw
          simp only [if_true]
          cases r with
          | nil =>
            simp only [word_trie_node.liveAt, word_trie_node.set_mk, word_trie_node.path_mk]
            rw [lookupOrNew_set]
            simp
          | cons c d =>
            rw [word_trie_node.liveAt_cons]
            simp only [word_trie_node.nodes_mk]
            rw [ih _ (c :: d) (by simp), lookupOrNew_nodes nodes v (c :: d) (by simp)]
            simp
        · have : ¬ w = v := fun e => hvw e.symm
          simp [hvw, this]

theorem addWords_WF (path : String) (ws : List String) :
    ∀ nodes : List (String × word_trie_node), NodesWF nodes →
      NodesWF (addWords path nodes ws) := by
  induction ws with
  | nil => intro nodes h; simpa [addWords] using h
  | cons v rest ih =>
    intro nodes h
    cases rest with
    | nil =>
      rw [addWords]
      exact NodesWF_store nodes h v _
        (by simpa only [word_trie_node.nodes_mk] using lookupOrNew_WF nodes h v)
    | cons a b =>
      rw [addWords]
      exact NodesWF_store nodes h v _
        (by simpa only [word_trie_node.nodes_mk] using ih _ (lookupOrNew_WF nodes h v))
theorem nodesLiveAt_delete (nodes : List (String × word_trie_node)) (v w : String)
    (r : List String) :
    nodesLiveAt (GoMap.delete nodes v) (w :: r) =
      if v = w then none else nodesLiveAt nodes (w :: r) := by
  simp only [nodesLiveAt, GoMap.load_delete]
  by_cases h : v = w <;> simp [h]

theorem word_trie_node.node_liveAt_empty (n : word_trie_node) (hn : n.nodes.length ≤ 0)
    (hs : n.set = false) (r : List String) : n.liveAt r = none := by
  have hnil : n.nodes = [] := by
    cases hm : n.nodes with
    | nil => rfl
    | cons a b => rw [hm] at hn; simp at hn
  cases r with
  | nil => simp [word_trie_node.liveAt, hs]
  | cons a b => simp [word_trie_node.liveAt, hnil, GoMap.load]

theorem word_trie_node.node_delete_liveAt (ws : List String) :
    ∀ (n : word_trie_node) (ws' : List String),
      (n.delete ws).1.liveAt ws' = if ws' = ws then none else n.liveAt ws' := by
  induction ws with
  | nil =>
    intro n ws'
    cases ws' with
    | nil => simp [word_trie_node.delete, word_trie_node.liveAt, word_trie_node.set_mk]
    | cons a b =>
      simp [word_trie_node.delete, word_trie_node.liveAt, word_trie_node.nodes_mk]
  | cons w rest ih =>
    intro n ws'
    cases hl : GoMap.load n.nodes w with
    | none =>
      simp only [word_trie_node.delete, hl]
      by_cases he : ws' = w :: rest
      · subst he
        simp [word_trie_node.liveAt, hl]
      · simp [he]
    | some c =>
      have hi := ih c
      cases ws' with
      | nil =>
        simp only [word_trie_node.delete, hl]
        cases (word_trie_node.delete c rest).2 with
        | some e => simp [word_trie_node.liveAt, word_trie_node.set_mk, word_trie_node.path_mk]
        | none =>
          by_cases hp : ((word_trie_node.delete c rest).1.nodes.length ≤ 0 &&
              !(word_trie_node.delete c rest).1.set) = true
          · simp [hp, word_trie_node.liveAt, word_trie_node.set_mk, word_trie_node.path_mk]
          · simp [hp, word_trie_node.liveAt, word_trie_node.set_mk, word_trie_node.path_mk]
      | cons w' r' =>
        have hstore : (word_trie_node.mk n.value n.path n.set
            (GoMap.store n.nodes w (word_trie_node.delete c rest).1)).liveAt (w' :: r') =
            if w' :: r' = w :: rest then none else n.liveAt (w' :: r') := by
          rw [word_trie_node.liveAt_cons, word_trie_node.nodes_mk, nodesLiveAt_store]
          by_cases hw : w = w'
          · subst hw
            simp only [if_true, hi r', List.cons.injEq, true_and]
            simp [word_trie_node.liveAt, hl]
          · have : ¬ w' = w := fun e => hw e.symm
            simp [hw, this, word_trie_node.liveAt_cons]
        simp only [word_trie_node.delete, hl]
        cases (word_trie_node.delete c rest).2 with
        | some e => exact hstore
        | none =>
          simp only
          by_cases hp : ((word_trie_node.delete c rest).1.nodes.length ≤ 0 &&
              !(word_trie_node.delete c rest).1.set) = true
          · simp only [hp, if_true]
            rw [word_trie_node.liveAt_cons, word_trie_node.nodes_mk, nodesLiveAt_delete]
            by_cases hw : w = w'
            · subst hw
              simp only [if_true, List.cons.injEq, true_and]
              by_cases hr : r' = rest
              · simp [hr]
              · simp only [hr, if_false]
                simp only [Bool.and_eq_true, decide_eq_true_eq, Bool.not_eq_true'] at hp
                have hnone := word_trie_node.node_liveAt_empty _ hp.1 hp.2 r'
                rw [hi r'] at hnone
                simp only [hr, if_false] at hnone
                simp [word_trie_node.liveAt, hl, hnone]
            · have : ¬ w' = w := fun e => hw e.symm
              simp [hw, this, word_trie_node.liveAt_cons]
          · simp only [hp, Bool.false_eq_true, if_false]
            exact hstore

theorem word_trie_node.node_delete_WF (ws : List String) :
    ∀ n : word_trie_node, NodesWF n.nodes → NodesWF (n.delete ws).1.nodes := by
  induction ws with
  | nil => intro n h; simpa [word_trie_node.delete, word_trie_node.nodes_mk] using h
  | cons w rest ih =>
    intro n h
    cases hl : GoMap.load n.nodes w with
    | none => simpa [word_trie_node.delete, hl] using h
    | some c =>
      have hc := ih c (NodesWF_load n.nodes h w c hl)
      simp only [word_trie_node.delete, hl]
      cases (word_trie_node.delete c rest).2 with
      | some e =>
        simp only [word_trie_node.nodes_mk]
        exact NodesWF_store _ h _ _ hc
      | none =>
        simp only
        by_cases hp : ((word_trie_node.delete c rest).1.nodes.length ≤ 0 &&
            !(word_trie_node.delete c rest).1.set) = true
        · simp only [hp, if_true, word_trie_node.nodes_mk]
          exact NodesWF_delete _ h _
        · simp only [hp, Bool.false_eq_true, if_false, word_trie_node.nodes_mk]
          exact NodesWF_store _ h _ _ hc
theorem HeadersWF_load (headers : List (String × word_trie_header_node))
    (h : HeadersWF headers) (k : String) (hd : word_trie_header_node)
    (hl : GoMap.load headers k = some hd) : NodesWF hd.nodes := by
  induction headers with
  | nil => simp [GoMap.load] at hl
  | cons e t ih =>
    obtain ⟨k', c'⟩ := e
    simp only [HeadersWF] at h
    by_cases hk : k' = k
    · simp only [GoMap.load, hk, if_true, Option.some.injEq] at hl
      subst hl
      exact h.1
    · simp only [GoMap.load, hk, if_false] at hl
      exact ih h.2.2 hl

theorem HeadersWF_store (headers : List (String × word_trie_header_node))
    (h : HeadersWF headers) (k : String) (hd : word_trie_header_node)
    (hc : NodesWF hd.nodes) : HeadersWF (GoMap.store headers k hd) := by
  induction headers with
  | nil => simpa [GoMap.store, HeadersWF, GoMap.load] using hc
  | cons e t ih =>
    obtain ⟨k', c'⟩ := e
    simp only [HeadersWF] at h
    by_cases hk : k' = k
    · subst hk
      simp only [GoMap.store, if_true, HeadersWF]
      exact ⟨hc, h.2.1, h.2.2⟩
    · simp only [GoMap.store, hk, if_false, HeadersWF]
      refine ⟨h.1, ?_, ih h.2.2⟩
      rw [GoMap.load_store]
      have : ¬ k = k' := fun e => hk e.symm
      simp only [this, if_false]
      exact h.2.1

theorem HeadersWF_delete (headers : List (String × word_trie_header_node))
    (h : HeadersWF headers) (k : String) : HeadersWF (GoMap.delete headers k) := by
  induction headers with
  | nil => simp [GoMap.delete, HeadersWF]
  | cons e t ih =>
    obtain ⟨k', c'⟩ := e
    simp only [HeadersWF] at h
    by_cases hk : k' = k
    · simp only [GoMap.delete, hk, if_true]
      exact ih h.2.2
    · simp only [GoMap.delete, hk, if_false, HeadersWF]
      refine ⟨h.1, ?_, ih h.2.2⟩
      rw [GoMap.load_delete]
      by_cases hkk : k = k'
      · simp [hkk]
      · simp only [hkk, if_false]
        exact h.2.1

theorem word_trie_header_node.header_add_liveAt (header : word_trie_header_node) (path : String)
    (ws r : List String) :
    (header.add path ws).1.liveAt r = if r = ws then some path else header.liveAt r := by
  cases ws with
  | nil =>
    cases r with
    | nil => simp [word_trie_header_node.add, word_trie_header_node.liveAt]
    | cons a b => simp [word_trie_header_node.add, word_trie_header_node.liveAt]
  | cons w rest =>
    cases r with
    | nil => simp [word_trie_header_node.add, word_trie_header_node.liveAt]
    | cons a b =>
      simp only [word_trie_header_node.add, word_trie_header_node.liveAt]
      exact addWords_liveAt path (w :: rest) header.nodes (a :: b) (by simp)

theorem word_trie_header_node.header_add_WF (header : word_trie_header_node) (path : String)
    (ws : List String) (h : NodesWF header.nodes) : NodesWF (header.add path ws).1.nodes := by
  cases ws with
  | nil => simpa [word_trie_header_node.add] using h
  | cons w rest =>
    simp only [word_trie_header_node.add]
    exact addWords_WF path (w :: rest) header.nodes h

theorem word_trie_header_node.header_liveAt_empty (hd : word_trie_header_node)
    (hn : hd.nodes.length ≤ 0) (hs : hd.set = false) (r : List String) : hd.liveAt r = none := by
  have hnil : hd.nodes = [] := by
    cases hm : hd.nodes with
    | nil => rfl
    | cons a b => rw [hm] at hn; simp at hn
  cases r with
  | nil => simp [word_trie_header_node.liveAt, hs]
  | cons a b => simp [word_trie_header_node.liveAt, nodesLiveAt, hnil, GoMap.load]

theorem word_trie_header_node.header_delete_liveAt (header : word_trie_header_node)
    (ws r : List String) :
    (header.delete ws).1.liveAt r = if r = ws then none else header.liveAt r := by
  cases ws with
  | nil =>
    cases r with
    | nil => simp [word_trie_header_node.delete, word_trie_header_node.liveAt]
    | cons a b => simp [word_trie_header_node.delete, word_trie_header_node.liveAt]
  | cons w rest =>
    cases hl : GoMap.load header.nodes w with
    | none =>
      simp only [word_trie_header_node.delete, hl]
      by_cases he : r = w :: rest
      · subst he
        simp [word_trie_header_node.liveAt, nodesLiveAt, hl]
      · simp [he]
    | some c =>
      have hi := word_trie_node.node_delete_liveAt rest c
      cases r with
      | nil =>
        simp only [word_trie_header_node.delete, hl]
        by_cases hp : ((word_trie_node.delete c rest).1.nodes.length ≤ 0 &&
            !(word_trie_node.delete c rest).1.set) = true
        · simp [hp, word_trie_header_node.liveAt]
        · simp [hp, word_trie_header_node.liveAt]
      | cons w' r' =>
        simp only [word_trie_header_node.delete, hl]
        by_cases hp : ((word_trie_node.delete c rest).1.nodes.length ≤ 0 &&
            !(word_trie_node.delete c rest).1.set) = true
        · simp only [hp, if_true, word_trie_header_node.liveAt]
          rw [nodesLiveAt_delete]
          by_cases hw : w = w'
          · subst hw
            simp only [if_true, List.cons.injEq, true_and]
            by_cases hr : r' = rest
            · simp [hr]
            · simp only [hr, if_false]
              simp only [Bool.and_eq_true, decide_eq_true_eq, Bool.not_eq_true'] at hp
              have hnone := word_trie_node.node_liveAt_empty _ hp.1 hp.2 r'
              rw [hi r'] at hnone
              simp only [hr, if_false] at hnone
              simp [nodesLiveAt, hl, hnone]
          · have : ¬ w' = w := fun e => hw e.symm
            simp [hw, this]
        · simp only [hp, Bool.false_eq_true, if_false, word_trie_header_node.liveAt]
          rw [nodesLiveAt_store]
          by_cases hw : w = w'
          · subst hw
            simp only [if_true, hi r', List.cons.injEq, true_and]
            simp [nodesLiveAt, hl]
          · have : ¬ w' = w := fun e => hw e.symm
            simp [hw, this]

theorem word_trie_header_node.header_delete_WF (header : word_trie_header_node) (ws : List String)
    (h : NodesWF header.nodes) : NodesWF (header.delete ws).1.nodes := by
  cases ws with
  | nil => simpa [word_trie_header_node.delete] using h
  | cons w rest =>
    cases hl : GoMap.load header.nodes w with
    | none => simpa [word_trie_header_node.delete, hl] using h
    | some c =>
      have hc := word_trie_node.node_delete_WF rest c (NodesWF_load header.nodes h w c hl)
      simp only [word_trie_header_node.delete, hl]
      by_cases hp : ((word_trie_node.delete c rest).1.nodes.length ≤ 0 &&
          !(word_trie_node.delete c rest).1.set) = true
      · simp only [hp, if_true]
        exact NodesWF_delete _ h _
      · simp only [hp, Bool.false_eq_true, if_false]
        exact NodesWF_store _ h _ _ hc
theorem word_trie.liveAt_store (t : word_trie) (w0 : String) (hd : word_trie_header_node)
    (ws : List String) :
    word_trie.liveAt { headers := GoMap.store t.headers w0 hd } ws =
      match ws with
      | [] => none
      | w :: r => if w0 = w then hd.liveAt r else t.liveAt (w :: r) := by
  cases ws with
  | nil => rfl
  | cons w r =>
    simp only [word_trie.liveAt, GoMap.load_store]
    by_cases h : w0 = w <;> simp [h]

theorem word_trie.liveAt_delete (t : word_trie) (w0 : String) (ws : List String) :
    word_trie.liveAt { headers := GoMap.delete t.headers w0 } ws =
      match ws with
      | [] => none
      | w :: r => if w0 = w then none else t.liveAt (w :: r) := by
  cases ws with
  | nil => rfl
  | cons w r =>
    simp only [word_trie.liveAt, GoMap.load_delete]
    by_cases h : w0 = w <;> simp [h]

theorem word_trie.trie_add_liveAt (t : word_trie) (path : String) (ws : List String) :
    (t.add path).1.liveAt ws = addedStep t.liveAt (.add path) ws := by
  cases hw : pathWords path with
  | nil => simp only [word_trie.add, addedStep, hw]
  | cons w0 rest =>
    simp only [word_trie.add, addedStep, hw]
    by_cases hv : (rest.any fun w => decide (w.length ≤ 0)) = true
    · simp only [hv, if_true]
    · simp only [hv, Bool.false_eq_true, if_false]
      cases hl : GoMap.load t.headers w0 with
      | none =>
        simp only
        rw [word_trie.liveAt_store]
        cases ws with
        | nil => simp [word_trie.liveAt]
        | cons w r =>
          simp only
          by_cases h : w0 = w
          · subst h
            simp only [if_true, word_trie_header_node.header_add_liveAt, List.cons.injEq, true_and]
            by_cases hr : r = rest
            · simp [hr]
            · simp only [hr, if_false]
              have : (word_trie_header_node.liveAt
                  { value := w0, path := "", set := false, nodes := [] } r) = none :=
                word_trie_header_node.header_liveAt_empty _ (by simp) rfl r
              rw [this]
              simp [word_trie.liveAt, hl]
          · have : ¬ w = w0 := fun e => h e.symm
            simp [h, this]
      | some header =>
        simp only
        rw [word_trie.liveAt_store]
        cases ws with
        | nil => simp [word_trie.liveAt]
        | cons w r =>
          simp only
          by_cases h : w0 = w
          · subst h
            simp only [if_true, word_trie_header_node.header_add_liveAt, List.cons.injEq, true_and]
            by_cases hr : r = rest
            · simp [hr]
            · simp [hr, word_trie.liveAt, hl]
          · have : ¬ w = w0 := fun e => h e.symm
            simp [h, this]

theorem word_trie.trie_add_WF (t : word_trie) (path : String) (h : HeadersWF t.headers) :
    HeadersWF (t.add path).1.headers := by
  cases hw : pathWords path with
  | nil => simpa only [word_trie.add, hw] using h
  | cons w0 rest =>
    simp only [word_trie.add, hw]
    by_cases hv : (rest.any fun w => decide (w.length ≤ 0)) = true
    · simpa only [hv, if_true] using h
    · simp only [hv, Bool.false_eq_true, if_false]
      cases hl : GoMap.load t.headers w0 with
      | none =>
        exact HeadersWF_store _ h _ _
          (word_trie_header_node.header_add_WF _ path rest (by simp [NodesWF]))
      | some header =>
        exact HeadersWF_store _ h _ _
          (word_trie_header_node.header_add_WF _ path rest (HeadersWF_load _ h _ _ hl))

theorem word_trie.trie_delete_liveAt (t : word_trie) (path : String) (ws : List String) :
    (t.delete path).1.liveAt ws = addedStep t.liveAt (.delete path) ws := by
  cases hw : pathWords path with
  | nil => simp only [word_trie.delete, addedStep, hw]
  | cons w0 rest =>
    simp only [word_trie.delete, addedStep, hw]
    cases hl : GoMap.load t.headers w0 with
    | none =>
      simp only
      by_cases he : ws = w0 :: rest
      · subst he
        simp [word_trie.liveAt, hl]
      · simp [he]
    | some header =>
      have hstore : word_trie.liveAt
          { headers := GoMap.store t.headers w0 (header.delete rest).1 } ws =
          if ws = w0 :: rest then none else t.liveAt ws := by
        rw [word_trie.liveAt_store]
        cases ws with
        | nil => simp [word_trie.liveAt]
        | cons w r =>
          simp only
          by_cases h : w0 = w
          · subst h
            simp only [if_true, word_trie_header_node.header_delete_liveAt, List.cons.injEq, true_and]
            by_cases hr : r = rest
            · simp [hr]
            · simp [hr, word_trie.liveAt, hl]
          · have : ¬ w = w0 := fun e => h e.symm
            simp [h, this]
      simp only
      cases (header.delete rest).2 with
      | some e => exact hstore
      | none =>
        simp only
        by_cases hp : ((header.delete rest).1.nodes.length ≤ 0 &&
            !(header.delete rest).1.set) = true
        · simp only [hp, if_true]
          rw [word_trie.liveAt_delete]
          cases ws with
          | nil => simp [word_trie.liveAt]
          | cons w r =>
            simp only
            by_cases h : w0 = w
            · subst h
              simp only [if_true, List.cons.injEq, true_and]
              by_cases hr : r = rest
              · simp [hr]
              · simp only [hr, if_false]
                simp only [Bool.and_eq_true, decide_eq_true_eq, Bool.not_eq_true'] at hp
                have hnone := word_trie_header_node.header_liveAt_empty _ hp.1 hp.2 r
                rw [word_trie_header_node.header_delete_liveAt] at hnone
                simp only [hr, if_false] at hnone
                simp [word_trie.liveAt, hl, hnone]
            · have : ¬ w = w0 := fun e => h e.symm
              simp [h, this]
        · simp only [hp, Bool.false_eq_true, if_false]
          exact hstore

theorem word_trie.trie_delete_WF (t : word_trie) (path : String) (h : HeadersWF t.headers) :
    HeadersWF (t.delete path).1.headers := by
  cases hw : pathWords path with
  | nil => simpa only [word_trie.delete, hw] using h
  | cons w0 rest =>
    simp only [word_trie.delete, hw]
    cases hl : GoMap.load t.headers w0 with
    | none => exact h
    | some header =>
      have hc := word_trie_header_node.header_delete_WF header rest (HeadersWF_load _ h _ _ hl)
      simp only
      cases (header.delete rest).2 with
      | some e => exact HeadersWF_store _ h _ _ hc
      | none =>
        simp only
        by_cases hp : ((header.delete rest).1.nodes.length ≤ 0 &&
            !(header.delete rest).1.set) = true
        · simp only [hp, if_true]
          exact HeadersWF_delete _ h _
        · simp only [hp, Bool.false_eq_true, if_false]
          exact HeadersWF_store _ h _ _ hc

theorem word_trie.run_spec (ops : List TrieOp) :
    ∀ t : word_trie, HeadersWF t.headers →
      HeadersWF (t.run ops).headers ∧
      ∀ ws, (t.run ops).liveAt ws = ops.foldl addedStep t.liveAt ws := by
  induction ops with
  | nil => intro t h; exact ⟨h, fun _ => rfl⟩
  | cons op ops ih =>
    intro t h
    have hstep : HeadersWF (t.apply op).headers ∧ (t.apply op).liveAt = addedStep t.liveAt op := by
      cases op with
      | add path =>
        exact ⟨word_trie.trie_add_WF t path h, funext (word_trie.trie_add_liveAt t path)⟩
      | delete path =>
        exact ⟨word_trie.trie_delete_WF t path h, funext (word_trie.trie_delete_liveAt t path)⟩
    obtain ⟨i1, i2⟩ := ih (t.apply op) hstep.1
    refine ⟨i1, ?_⟩
    intro ws
    have := i2 ws
    rw [hstep.2] at this
    simpa [word_trie.run] using this

theorem word_trie.run_new (ops : List TrieOp) :
    HeadersWF (newWordTrie.run ops).headers ∧
      ∀ ws, (newWordTrie.run ops).liveAt ws = currentlyAdded ops ws := by
  obtain ⟨h1, h2⟩ := word_trie.run_spec ops newWordTrie (by simp [newWordTrie, HeadersWF])
  refine ⟨h1, ?_⟩
  intro ws
  rw [h2 ws]
  have : newWordTrie.liveAt = fun _ => none := by
    funext ws
    cases ws <;> simp [word_trie.liveAt, newWordTrie, GoMap.load]
  rw [this]
  rfl
theorem searchWalk_eq (words : List String) :
    ∀ nodes : List (String × word_trie_node),
      searchWalk nodes words = nodesAt nodes (stripLastEmpty words) := by
  induction words with
  | nil => intro nodes; rfl
  | cons v rest ih =>
    intro nodes
    by_cases hc : rest.length = 0 ∧ v.length ≤ 0
    · simp [searchWalk, stripLastEmpty, hc, nodesAt]
    · simp only [searchWalk, stripLastEmpty, hc, if_false, nodesAt]
      cases GoMap.load nodes v with
      | none => rfl
      | some c => exact ih c.nodes

theorem nodesAt_liveAt (base : List String) :
    ∀ (nodes : List (String × word_trie_node)) (ext : List String), ext ≠ [] →
      nodesLiveAt nodes (base ++ ext) =
        match nodesAt nodes base with
        | none => none
        | some below => nodesLiveAt below ext := by
  induction base with
  | nil => intro nodes ext _; rfl
  | cons v b ih =>
    intro nodes ext hext
    simp only [List.cons_append, nodesLiveAt, nodesAt]
    cases GoMap.load nodes v with
    | none => rfl
    | some c =>
      simp only
      have hne : b ++ ext ≠ [] := by simp [hext]
      cases hbe : b ++ ext with
      | nil => exact absurd hbe hne
      | cons x y =>
        rw [word_trie_node.liveAt_cons, ← hbe]
        exact ih c.nodes ext hext

theorem nodesAt_WF (base : List String) :
    ∀ (nodes below : List (String × word_trie_node)), NodesWF nodes →
      nodesAt nodes base = some below → NodesWF below := by
  induction base with
  | nil =>
    intro nodes below h e
    simp only [nodesAt, Option.some.injEq] at e
    exact e ▸ h
  | cons v b ih =>
    intro nodes below h e
    simp only [nodesAt] at e
    cases hl : GoMap.load nodes v with
    | none => rw [hl] at e; exact Option.noConfusion e
    | some c =>
      rw [hl] at e
      exact ih c.nodes below (NodesWF_load nodes h v c hl) e

theorem word_trie_header_node.header_mem_search (header : word_trie_header_node)
    (h : NodesWF header.nodes) (words : List String) (x : String) :
    x ∈ header.search words [] ↔
      ∃ ext, ext ≠ [] ∧ nodesLiveAt header.nodes (stripLastEmpty words ++ ext) = some x := by
  unfold word_trie_header_node.search
  rw [searchWalk_eq]
  cases hb : nodesAt header.nodes (stripLastEmpty words) with
  | none =>
    simp only [List.not_mem_nil, false_iff, not_exists, not_and]
    intro ext hext
    rw [nodesAt_liveAt _ _ _ hext, hb]
    simp
  | some below =>
    simp only
    rw [mem_collectNodes below [] x (nodesAt_WF _ _ _ h hb)]
    simp only [List.not_mem_nil, false_or]
    constructor
    · rintro ⟨ws, hws⟩
      refine ⟨ws, ?_, ?_⟩
      · intro e
        subst e
        simp [nodesLiveAt] at hws
      · rw [nodesAt_liveAt _ _ _ (by intro e; subst e; simp [nodesLiveAt] at hws), hb]
        exact hws
    · rintro ⟨ext, hext, he⟩
      rw [nodesAt_liveAt _ _ _ hext, hb] at he
      exact ⟨ext, he⟩

theorem word_trie_header_node.header_mem_collect (header : word_trie_header_node)
    (h : NodesWF header.nodes) (res : List String) (x : String) :
    x ∈ header.collect res ↔ x ∈ res ∨ ∃ ws, header.liveAt ws = some x := by
  unfold word_trie_header_node.collect
  rw [mem_collectNodes header.nodes _ x h]
  constructor
  · rintro (hx | ⟨ws, hws⟩)
    · by_cases hs : header.set = true
      · simp only [hs, if_true, List.mem_append, List.mem_singleton] at hx
        rcases hx with hx | hx
        · exact Or.inl hx
        · exact Or.inr ⟨[], by simp [word_trie_header_node.liveAt, hs, hx]⟩
      · simp only [hs, Bool.false_eq_true, if_false] at hx
        exact Or.inl hx
    · cases ws with
      | nil => simp [nodesLiveAt] at hws
      | cons a b => exact Or.inr ⟨a :: b, hws⟩
  · rintro (hx | ⟨ws, hws⟩)
    · left
      by_cases hs : header.set = true
      · simp [hs, hx]
      · simpa [hs] using hx
    · cases ws with
      | nil =>
        left
        by_cases hs : header.set = true
        · simp only [word_trie_header_node.liveAt, hs, if_true, Option.some.injEq] at hws
          simp [hs, hws]
        · simp [word_trie_header_node.liveAt, hs] at hws
      | cons a b => exact Or.inr ⟨a :: b, hws⟩

theorem mem_collectHeaders (headers : List (String × word_trie_header_node)) :
    ∀ (res : List String) (x : String), HeadersWF headers →
      (x ∈ collectHeaders headers res ↔
        x ∈ res ∨ ∃ ws, word_trie.liveAt { headers := headers } ws = some x) := by
  induction headers with
  | nil =>
    intro res x _
    simp only [collectHeaders]
    constructor
    · exact Or.inl
    · rintro (h | ⟨ws, h⟩)
      · exact h
      · cases ws <;> simp [word_trie.liveAt, GoMap.load] at h
  | cons e t ih =>
    obtain ⟨k, hd⟩ := e
    intro res x h
    simp only [HeadersWF] at h
    rw [collectHeaders, ih _ x h.2.2, word_trie_header_node.header_mem_collect hd h.1, or_assoc]
    apply or_congr_right
    constructor
    · rintro (⟨ws, hws⟩ | ⟨ws, hws⟩)
      · exact ⟨k :: ws, by simpa [word_trie.liveAt, GoMap.load] using hws⟩
      · cases ws with
        | nil => simp [word_trie.liveAt] at hws
        | cons w r =>
          have hw : ¬ k = w := by
            intro e
            subst e
            simp [word_trie.liveAt, h.2.1] at hws
          exact ⟨w :: r, by simpa [word_trie.liveAt, GoMap.load, hw] using hws⟩
    · rintro ⟨ws, hws⟩
      cases ws with
      | nil => simp [word_trie.liveAt] at hws
      | cons w r =>
        by_cases hw : k = w
        · left
          exact ⟨r, by simpa [word_trie.liveAt, GoMap.load, hw] using hws⟩
        · right
          exact ⟨w :: r, by simpa [word_trie.liveAt, GoMap.load, hw] using hws⟩

theorem word_trie.trie_mem_search (t : word_trie) (h : HeadersWF t.headers) (p x : String) :
    (x ∈ t.search p → ∃ ws, t.liveAt ws = some x) ∧
    (firstWordNonempty p →
      (x ∈ t.search p ↔
        ∃ ext, ext ≠ [] ∧ t.liveAt (stripLastEmpty (pathWords p) ++ ext) = some x)) := by
  cases hw : pathWords p with
  | nil =>
    simp only [word_trie.search, firstWordNonempty, hw]
    simp
  | cons w0 rest =>
    by_cases h0 : w0.length ≤ 0
    · simp only [word_trie.search, firstWordNonempty, hw, h0, if_true]
      constructor
      · intro hx
        have := (mem_collectHeaders t.headers [] x h).mp hx
        simpa using this
      · intro hpos
        omega
    · have hkey : ∀ ext, ext ≠ [] →
          t.liveAt (stripLastEmpty (w0 :: rest) ++ ext) =
            match GoMap.load t.headers w0 with
            | none => none
            | some header => nodesLiveAt header.nodes (stripLastEmpty rest ++ ext) := by
        intro ext hext
        have hs : stripLastEmpty (w0 :: rest) = w0 :: stripLastEmpty rest := by
          simp [stripLastEmpty, h0]
        rw [hs]
        simp only [List.cons_append, word_trie.liveAt]
        cases GoMap.load t.headers w0 with
        | none => rfl
        | some header =>
          simp only
          have hne : stripLastEmpty rest ++ ext ≠ [] := by simp [hext]
          cases hbe : stripLastEmpty rest ++ ext with
          | nil => exact absurd hbe hne
          | cons a b => rfl
      have hiff : x ∈ t.search p ↔
          ∃ ext, ext ≠ [] ∧ t.liveAt (stripLastEmpty (w0 :: rest) ++ ext) = some x := by
        simp only [word_trie.search, hw, h0, if_false]
        cases hl : GoMap.load t.headers w0 with
        | none =>
          simp only [List.not_mem_nil, false_iff, not_exists, not_and]
          intro ext hext
          rw [hkey ext hext, hl]
          simp
        | some header =>
          simp only
          rw [word_trie_header_node.header_mem_search header (HeadersWF_load _ h _ _ hl)]
          constructor
          · rintro ⟨ext, hext, he⟩
            exact ⟨ext, hext, by rw [hkey ext hext, hl]; exact he⟩
          · rintro ⟨ext, hext, he⟩
            rw [hkey ext hext, hl] at he
            exact ⟨ext, hext, he⟩
      exact ⟨fun hx => (hiff.mp hx).imp (fun ext he => he.2) |>.elim
        (fun ext he => ⟨_, he⟩), fun _ => hiff⟩
/-- C4, amended: for every sequence of add and delete calls applied to an empty
trie, a path being known by its words (the pieces between slashes, a leading
empty piece dropped): every path that `search(p)` returns is currently added,
for every `p`; and when the first word of `p` is not empty, `search(p)` returns
exactly the currently added paths whose words are the words of `p` (an empty last
word dropped) followed by at least one more word.  The path whose words are those
of `p` itself is not returned. -/
theorem search_returns_live_below (ops : List TrieOp) (p x : String) :
    (x ∈ (newWordTrie.run ops).search p → ∃ ws, currentlyAdded ops ws = some x) ∧
    (firstWordNonempty p →
      (x ∈ (newWordTrie.run ops).search p ↔
        ∃ ext, ext ≠ [] ∧
          currentlyAdded ops (stripLastEmpty (pathWords p) ++ ext) = some x)) := by
  obtain ⟨hwf, hlive⟩ := word_trie.run_new ops
  obtain ⟨h1, h2⟩ := word_trie.trie_mem_search (newWordTrie.run ops) hwf p x
  constructor
  · intro hx
    obtain ⟨ws, hws⟩ := h1 hx
    exact ⟨ws, by rw [← hlive]; exact hws⟩
  · intro hp
    rw [h2 hp]
    constructor
    · rintro ⟨ext, hext, he⟩
      exact ⟨ext, hext, by rw [← hlive]; exact he⟩
    · rintro ⟨ext, hext, he⟩
      exact ⟨ext, hext, by rw [hlive]; exact he⟩

/-- Witness of `search_returns_live_below`: with `a/b/1`, `a/b/2` and `a/c/3`
added and `a/b/2` deleted, `search("a/b")` returns `a/b/1`. -/
theorem search_returns_live_below_witness :
    firstWordNonempty "a/b" ∧
    "a/b/1" ∈ (newWordTrie.run
      [.add "a/b/1", .add "a/b/2", .add "a/c/3", .delete "a/b/2"]).search "a/b" ∧
    ("a/b/1" ∈ (newWordTrie.run
        [.add "a/b/1", .add "a/b/2", .add "a/c/3", .delete "a/b/2"]).search "a/b" ↔
      ∃ ext, ext ≠ [] ∧
        currentlyAdded [.add "a/b/1", .add "a/b/2", .add "a/c/3", .delete "a/b/2"]
          (stripLastEmpty (pathWords "a/b") ++ ext) = some "a/b/1") :=
  ⟨by decide, by decide,
    (search_returns_live_below [.add "a/b/1", .add "a/b/2", .add "a/c/3", .delete "a/b/2"]
      "a/b" "a/b/1").2 (by decide)⟩

/-- C4 as stated fails for a path equal to the prefix and for the empty prefix:
with `a/b` added and not deleted, `search("a/b")` and `search("")` return nothing,
while `search("a")` returns it. -/
theorem search_misses_equal_path :
    currentlyAdded [.add "a/b"] (pathWords "a/b") = some "a/b" ∧
    (newWordTrie.run [.add "a/b"]).search "a/b" = [] ∧
    (newWordTrie.run [.add "a/b"]).search "" = [] ∧
    (newWordTrie.run [.add "a/b"]).search "a" = ["a/b"] := by
  decide
/-! ## The selection policy without a usable agent (C13) -/

theorem selectLoop_no_live (M : Int) (peers : List Upstream)
    (h : ∀ a ∈ peers, a.client.isSome = false) :
    ∀ acc : Int × Option Upstream,
      peers.foldl
        (fun (acc : Int × Option Upstream) server =>
          if server.client.isSome && decide (server.buildTime = M) &&
              decide (server.playerCount < acc.1) then
            if server.ctxDone then acc else (server.playerCount, some server)
          else acc) acc = acc := by
  induction peers with
  | nil => intro acc; rfl
  | cons s rest ih =>
    intro acc
    have hs : s.client.isSome = false := h s (List.mem_cons_self _ _)
    simp only [List.foldl_cons, hs, Bool.false_and, Bool.false_eq_true, if_false]
    exact ih (fun a ha => h a (List.mem_cons_of_mem _ ha)) acc

/-- C13: `SelectPeer` returns nil when no agent of the pool has a live client
handle; and when the health check of the one candidate it chose fails, by an
error of the call or by a status other than `OK`, it returns nil, whatever the
other agents of the pool are. -/
theorem selectPeer_nil_without_fallback (peers : List Upstream) :
    ((∀ a ∈ peers, a.client.isSome = false) → upstream_map.SelectPeer peers = none) ∧
    (∀ (c : Upstream) (cl : HallClient),
      (selectLoop (maxBuildTime peers) peers).2 = some c → c.client = some cl →
      ((∃ e, cl.HealthCheck = .error e) ∨
        ∃ resp, cl.HealthCheck = .ok resp ∧ resp.Status ≠ .OK) →
      upstream_map.SelectPeer peers = none) := by
  constructor
  · intro h
    unfold upstream_map.SelectPeer selectLoop
    rw [selectLoop_no_live _ peers h]
  · intro c cl hsel hcl hfail
    unfold upstream_map.SelectPeer
    rw [hsel]
    rcases hfail with ⟨e, he⟩ | ⟨resp, hr, hst⟩
    · simp [Upstream.HealthCheck, hcl, he]
    · simp [Upstream.HealthCheck, hcl, hr, hst]

/-- Witness of `selectPeer_nil_without_fallback`: the chosen agent fails its
health check and `SelectPeer` returns nil although `H2` is live and healthy; and
a pool of agents without a client handle gives nil. -/
theorem selectPeer_nil_without_fallback_witness :
    (∀ a ∈ [{ upstreamH1 with client := none }], a.client.isSome = false) ∧
    upstream_map.SelectPeer [{ upstreamH1 with client := none }] = none ∧
    ((selectLoop (maxBuildTime [upstreamH2, upstreamBroken])
      [upstreamH2, upstreamBroken]).2.map Upstream.FullName = some "hall/3") ∧
    upstream_map.SelectPeer [upstreamH2, upstreamBroken] = none :=
  ⟨by simp, (selectPeer_nil_without_fallback [{ upstreamH1 with client := none }]).1 (by simp),
    by decide,
    (selectPeer_nil_without_fallback [upstreamH2, upstreamBroken]).2 upstreamBroken failingClient
      (by rfl) rfl (Or.inl ⟨_, rfl⟩)⟩

/-! ## The count of WhereIsService (C16) -/

theorem whereLoop_eq (services : List (String × ServiceName)) (arr : List String) :
    ∀ (m : Int) (peers : List (Option Peer)),
      whereLoop services arr m peers =
        peers ++ (if m > 0 then (presentPeers services arr).take m.toNat
          else presentPeers services arr) := by
  induction arr with
  | nil => intro m peers; simp [whereLoop, presentPeers]
  | cons name rest ih =>
    intro m peers
    cases hl : GoMap.load services name with
    | none =>
      rw [whereLoop]
      simp only [hl]
      rw [ih]
      simp [presentPeers, hl]
    | some service =>
      have hp : presentPeers services (name :: rest) =
          service.Peer :: presentPeers services rest := by
        simp [presentPeers, hl]
      rw [whereLoop]
      simp only [hl]
      by_cases hm : m > 0
      · simp only [hm, if_true]
        by_cases h1 : m - 1 ≤ 0
        · have : m = 1 := by omega
          subst this
          simp [hp]
        · simp only [h1, if_false]
          rw [ih]
          have hpos : m - 1 > 0 := by omega
          have hnat : m.toNat = (m - 1).toNat + 1 := by omega
          rw [if_pos hpos, hp, hnat, List.take_succ_cons]
          simp
      · simp only [hm, if_false]
        rw [ih]
        simp [hm, hp]

/-- C16: in catalog or prefix mode `WhereIsService` returns, in the order of the
trie search, the peer of every name that the search yields and that is in the
service map, cut to the first `MaxCount` of them when `MaxCount > 0` and not cut
otherwise, so that its length is the smaller of `MaxCount` and the number of such
names, or that number when `MaxCount = 0`; in exact mode it returns at most one
peer. -/
theorem whereIsService_count (self : service_registry) (name : String) (catalog pfx : Bool)
    (m : Int) :
    self.WhereIsService name true pfx m =
      (if m > 0 then
        (presentPeers self.services (self.prefixIndex.search name)).take m.toNat
      else presentPeers self.services (self.prefixIndex.search name)) ∧
    self.WhereIsService name catalog true m =
      (if m > 0 then
        (presentPeers self.services (self.prefixIndex.search name)).take m.toNat
      else presentPeers self.services (self.prefixIndex.search name)) ∧
    (self.WhereIsService name true pfx m).length =
      (if m > 0 then
        min m.toNat (presentPeers self.services (self.prefixIndex.search name)).length
      else (presentPeers self.services (self.prefixIndex.search name)).length) ∧
    (self.WhereIsService name true pfx 0).length =
      (presentPeers self.services (self.prefixIndex.search name)).length ∧
    (self.WhereIsService name false false m).length ≤ 1 := by
  have h1 : self.WhereIsService name true pfx m =
      (if m > 0 then
        (presentPeers self.services (self.prefixIndex.search name)).take m.toNat
      else presentPeers self.services (self.prefixIndex.search name)) := by
    simp only [service_registry.WhereIsService, Bool.true_or, if_true, whereLoop_eq,
      List.nil_append]
  have h2 : self.WhereIsService name catalog true m =
      (if m > 0 then
        (presentPeers self.services (self.prefixIndex.search name)).take m.toNat
      else presentPeers self.services (self.prefixIndex.search name)) := by
    simp only [service_registry.WhereIsService, Bool.or_true, if_true, whereLoop_eq,
      List.nil_append]
  refine ⟨h1, h2, ?_, ?_, ?_⟩
  · rw [h1]
    by_cases hm : m > 0
    · simp [hm, List.length_take]
    · simp [hm]
  · simp only [service_registry.WhereIsService, Bool.true_or, if_true, whereLoop_eq,
      List.nil_append]
    simp
  · simp only [service_registry.WhereIsService, Bool.or_self, Bool.false_eq_true, if_false]
    cases GoMap.load self.services name <;> simp
/-! ## The word trie: delete of an unknown path, the empty prefix, add twice
(C14, C15, C18, C19) -/

theorem word_trie.search_congr (t u : word_trie) (ht : HeadersWF t.headers)
    (hu : HeadersWF u.headers) (h : ∀ ws, t.liveAt ws = u.liveAt ws) (q x : String) :
    x ∈ t.search q ↔ x ∈ u.search q := by
  cases hw : pathWords q with
  | nil => simp [word_trie.search, hw]
  | cons w0 rest =>
    by_cases h0 : w0.length ≤ 0
    · simp only [word_trie.search, hw, h0, if_true]
      rw [mem_collectHeaders t.headers [] x ht, mem_collectHeaders u.headers [] x hu]
      simp only [List.not_mem_nil, false_or]
      constructor
      · rintro ⟨ws, hws⟩
        exact ⟨ws, by rw [← h ws] at *; exact hws⟩
      · rintro ⟨ws, hws⟩
        exact ⟨ws, by rw [← h ws] at hws; exact hws⟩
    · have hp : firstWordNonempty q := by
        simp only [firstWordNonempty, hw]
        omega
      rw [(word_trie.trie_mem_search t ht q x).2 hp, (word_trie.trie_mem_search u hu q x).2 hp]
      constructor
      · rintro ⟨ext, hext, he⟩
        exact ⟨ext, hext, by rw [← h]; exact he⟩
      · rintro ⟨ext, hext, he⟩
        exact ⟨ext, hext, by rw [h]; exact he⟩

/-- C14: for every trie reached from the empty one by add and delete calls and
every path `p` under whose words no path is currently added, `delete(p)` leaves
the set of paths that `search(q)` returns as it was, for every prefix `q`. -/
theorem delete_unknown_keeps_search (ops : List TrieOp) (p q x : String)
    (h : currentlyAdded ops (pathWords p) = none) :
    x ∈ ((newWordTrie.run ops).delete p).1.search q ↔ x ∈ (newWordTrie.run ops).search q := by
  obtain ⟨hwf, hlive⟩ := word_trie.run_new ops
  apply word_trie.search_congr _ _ (word_trie.trie_delete_WF _ p hwf) hwf
  intro ws
  rw [word_trie.trie_delete_liveAt]
  cases hw : pathWords p with
  | nil => simp only [addedStep, hw]
  | cons w0 rest =>
    simp only [addedStep, hw]
    by_cases he : ws = w0 :: rest
    · subst he
      rw [hw] at h
      simp only [if_true]
      rw [hlive, h]
    · simp only [he, if_false]

/-- Witness of `delete_unknown_keeps_search`: deleting `a/b`, an ancestor that
was never added, keeps `a/b/1` in `search("a")`. -/
theorem delete_unknown_keeps_search_witness :
    currentlyAdded [.add "a/b/1", .add "a/c"] (pathWords "a/b") = none ∧
    ("a/b/1" ∈ ((newWordTrie.run [.add "a/b/1", .add "a/c"]).delete "a/b").1.search "a" ↔
      "a/b/1" ∈ (newWordTrie.run [.add "a/b/1", .add "a/c"]).search "a") ∧
    "a/b/1" ∈ ((newWordTrie.run [.add "a/b/1", .add "a/c"]).delete "a/b").1.search "a" :=
  ⟨by decide,
    delete_unknown_keeps_search [.add "a/b/1", .add "a/c"] "a/b" "a" "a/b/1" (by decide),
    by decide⟩

theorem GoMap.store_store {β : Type} (m : List (String × β)) (k : String) (v w : β) :
    GoMap.store (GoMap.store m k v) k w = GoMap.store m k w := by
  induction m with
  | nil => simp [GoMap.store]
  | cons e t ih =>
    obtain ⟨a, b⟩ := e
    by_cases h : a = k
    · simp [GoMap.store, h]
    · simp [GoMap.store, h, ih]

theorem lookupOrNew_store (nodes : List (String × word_trie_node)) (v : String)
    (n : word_trie_node) : lookupOrNew (GoMap.store nodes v n) v = n := by
  simp [lookupOrNew, GoMap.load_store]

theorem addWords_twice (path : String) (ws : List String) :
    ∀ nodes, addWords path (addWords path nodes ws) ws = addWords path nodes ws := by
  induction ws with
  | nil => intro nodes; simp [addWords]
  | cons v rest ih =>
    intro nodes
    cases rest with
    | nil =>
      rw [addWords, addWords, lookupOrNew_store, GoMap.store_store]
      simp only [word_trie_node.nodes_mk, word_trie_node.value]
    | cons w rest =>
      rw [addWords, addWords, lookupOrNew_store, GoMap.store_store]
      simp only [word_trie_node.nodes_mk, word_trie_node.value, word_trie_node.path,
        word_trie_node.set, ih]

theorem word_trie_header_node.header_add_twice (header : word_trie_header_node) (path : String)
    (words : List String) : (header.add path words).1.add path words = header.add path words := by
  cases words with
  | nil => simp [word_trie_header_node.add]
  | cons w rest => simp [word_trie_header_node.add, addWords_twice]

/-- C19: for every trie and every path `p`, a second `add(p)` returns what the
first returned and leaves the trie that the first left, so every search gives
the same result after two calls as after one. -/
theorem add_idempotent (t : word_trie) (p : String) :
    (t.add p).1.add p = t.add p ∧
    ∀ q, ((t.add p).1.add p).1.search q = (t.add p).1.search q := by
  have key : (t.add p).1.add p = t.add p := by
    cases hw : pathWords p with
    | nil => simp [word_trie.add, hw]
    | cons w0 rest =>
      by_cases hv : rest.any (fun w => decide (w.length ≤ 0)) = true
      · simp only [word_trie.add, hw, hv, if_true]
      · cases hl : GoMap.load t.headers w0 with
        | none =>
          simp only [word_trie.add, hw, hv, hl, if_false, GoMap.load_store, if_true,
            word_trie_header_node.header_add_twice, GoMap.store_store, Bool.false_eq_true]
        | some header =>
          simp only [word_trie.add, hw, hv, hl, if_false, GoMap.load_store, if_true,
            word_trie_header_node.header_add_twice, GoMap.store_store, Bool.false_eq_true]
  exact ⟨key, fun q => by rw [key]⟩

theorem word_trie.add_refuses_later_empty (t : word_trie) (p w0 : String) (rest : List String)
    (hw : pathWords p = w0 :: rest) (h : "" ∈ rest) : t.add p = (t, some .ErrInvalidArgs) := by
  have hv : rest.any (fun w => decide (w.length ≤ 0)) = true := by
    rw [List.any_eq_true]
    exact ⟨"", h, by decide⟩
  simp only [word_trie.add, hw, hv, if_true]

/-- C15: after every sequence of add and delete calls on an empty trie,
`search("")` returns nothing, and it is `search("/")` that returns the currently
added paths, all of them and nothing else. -/
theorem search_slash_enumerates_all (ops : List TrieOp) (x : String) :
    (newWordTrie.run ops).search "" = [] ∧
    (x ∈ (newWordTrie.run ops).search "/" ↔ ∃ ws, currentlyAdded ops ws = some x) := by
  obtain ⟨hwf, hlive⟩ := word_trie.run_new ops
  have h0 : pathWords "" = [] := by decide
  have h1 : pathWords "/" = [""] := by decide
  refine ⟨by simp only [word_trie.search, h0], ?_⟩
  simp only [word_trie.search, h1, String.length_empty, le_refl, if_true]
  rw [mem_collectHeaders _ [] x hwf]
  simp only [List.not_mem_nil, false_or]
  constructor
  · rintro ⟨ws, hws⟩
    exact ⟨ws, by rw [← hlive ws]; exact hws⟩
  · rintro ⟨ws, hws⟩
    exact ⟨ws, by rw [← hlive ws] at hws; exact hws⟩

/-- Counterexample to C15 as stated: with `a/b` added, `search("")` returns
nothing although `a/b` is currently added. -/
theorem search_empty_returns_nothing :
    currentlyAdded [.add "a/b"] ["a", "b"] = some "a/b" ∧
    (newWordTrie.run [.add "a/b"]).search "" = [] ∧
    (newWordTrie.run [.add "a/b"]).search "/" = ["a/b"] := by
  decide

/-- C18: the path `//a` has the words `""` and `a` once the leading empty word
is dropped; `add` accepts it on the empty trie, returns no error and creates a
header under the empty word, so that `search("/")` returns `//a`.  An empty word
after the first is refused and leaves the trie as it was. -/
theorem add_accepts_empty_first_word :
    pathWords "//a" = ["", "a"] ∧
    (newWordTrie.add "//a").2 = none ∧
    (GoMap.load (newWordTrie.add "//a").1.headers "").isSome = true ∧
    (newWordTrie.add "//a").1.search "/" = ["//a"] ∧
    pathWords "a//b" = ["a", "", "b"] ∧
    (newWordTrie.add "a//b").2 = some .ErrInvalidArgs ∧
    (newWordTrie.add "a//b").1.headers.length = 0 := by
  decide

/-! ## The upstream to client flow (C12) -/

theorem thenRegister_free (r : Registry) (o : Out service_registry) (n w0 w1 : String)
    (hp : o.self.servicePrefix = "/service/")
    (hs : Split n = [w0, w1])
    (h : GoMap.load o.etcd.kvs ("/service/" ++ n) = none) :
    (r.isNotify = 0 ∨ (r.GetPeer r.appFullName).isSome = true →
      (thenRegister r o n).reply = .ret none none) ∧
    (thenRegister r o n).self =
      { o.self with
        services := GoMap.loadOrStore o.self.services n
          { IsSelf := true, ServiceFullName := n, ServiceTypeName := w0,
            Peer := r.GetPeer r.appFullName, CreateRevision := o.etcd.revision + 1 }
        prefixIndex := (o.self.prefixIndex.add n).1
        selfServices := GoMap.store o.self.selfServices n
          { IsSelf := true, ServiceFullName := n, ServiceTypeName := w0,
            Peer := r.GetPeer r.appFullName, CreateRevision := o.etcd.revision + 1 } } ∧
    ∀ k, GoMap.load (thenRegister r o n).etcd.kvs k =
      [Op.OpPut ("/service/" ++ n) r.appFullName 0,
        Op.OpPut (o.self.peerServicePrefix ++ n) r.appFullName 0].foldl
        (Op.effect (o.etcd.revision + 1) k) (GoMap.load o.etcd.kvs k) := by
  have e : thenRegister r o n =
      o.self.registerTxn r o.etcd ("/service/" ++ n) (o.self.peerServicePrefix ++ n) n w0 := by
    simp only [thenRegister, service_registry.RegisterService, service_registry.NewServiceName,
      Bool.false_eq_true, if_false, hs, hp]
    rw [Split_two n w0 w1 hs]
  rw [e]
  exact service_registry.registerTxn_free o.self r o.etcd _ _ _ w0 h

theorem thenRegister_next (r : Registry) (o : Out service_registry) (n w0 w1 : String)
    (hp : o.self.servicePrefix = "/service/")
    (hpp : o.self.peerServicePrefix = "/peer/service/" ++ r.appFullName ++ "/")
    (hs : Split n = [w0, w1])
    (h : GoMap.load o.etcd.kvs ("/service/" ++ n) = none) :
    (thenRegister r o n).self.servicePrefix = "/service/" ∧
    (thenRegister r o n).self.peerServicePrefix = "/peer/service/" ++ r.appFullName ++ "/" ∧
    (thenRegister r o n).self.services = GoMap.loadOrStore o.self.services n
          { IsSelf := true, ServiceFullName := n, ServiceTypeName := w0,
            Peer := r.GetPeer r.appFullName, CreateRevision := o.etcd.revision + 1 } ∧
    (thenRegister r o n).self.prefixIndex = (o.self.prefixIndex.add n).1 ∧
    ∀ m, m ≠ n →
      GoMap.load (thenRegister r o n).etcd.kvs ("/service/" ++ m) =
        GoMap.load o.etcd.kvs ("/service/" ++ m) := by
  obtain ⟨_, hself, hk⟩ := thenRegister_free r o n w0 w1 hp hs h
  refine ⟨by rw [hself]; exact hp, by rw [hself]; exact hpp, by rw [hself], by rw [hself], ?_⟩
  intro m hm
  rw [hk, hpp]
  have e1 : ¬ "/service/" ++ n = "/service/" ++ m :=
    fun e => hm (key_inj _ _ _ e).symm
  have e2 : ¬ "/peer/service/" ++ r.appFullName ++ "/" ++ n = "/service/" ++ m :=
    fun e => ne_service_peerService _ _ _ e.symm
  simp only [List.foldl_cons, List.foldl_nil, Op.effect, e1, e2, if_false]

/-- C17: a fresh service registry of a peer whose discovery set holds a peer
under its own full name registers `a/1`, `a/2` and `c/3` through
`RegisterService`, none of the three owned in the store beforehand.  All three
calls succeed, and `WhereIsService("a")` in prefix mode returns the peers of
`a/1` and `a/2` and nothing else when `max_count = 0`, and exactly one of the two
when `max_count = 1`; these peers are the one found under the own full name.  A
name of three words such as `a/b/1` is refused by `RegisterService` with
`ErrInvalidService`, whatever the store holds. -/
theorem whereIs_prefix_after_three (r : Registry) (etcd : Etcd) (peer : Peer)
    (hself : r.GetPeer r.appFullName = some peer)
    (h1 : GoMap.load etcd.kvs "/service/a/1" = none)
    (h2 : GoMap.load etcd.kvs "/service/a/2" = none)
    (h3 : GoMap.load etcd.kvs "/service/c/3" = none) :
    (thenRegister r (freshServices r etcd) "a/1").reply = .ret none none ∧
    (thenRegister r (thenRegister r (freshServices r etcd) "a/1") "a/2").reply =
      .ret none none ∧
    (thenRegister r (thenRegister r (thenRegister r (freshServices r etcd) "a/1") "a/2")
      "c/3").reply = .ret none none ∧
    (∃ s1 s2,
      GoMap.load (thenRegister r (thenRegister r (thenRegister r (freshServices r etcd) "a/1")
        "a/2") "c/3").self.services "a/1" = some s1 ∧
      GoMap.load (thenRegister r (thenRegister r (thenRegister r (freshServices r etcd) "a/1")
        "a/2") "c/3").self.services "a/2" = some s2 ∧
      s1.Peer = some peer ∧ s2.Peer = some peer ∧
      ((thenRegister r (thenRegister r (thenRegister r (freshServices r etcd) "a/1")
        "a/2") "c/3").self.WhereIsService "a" false true 0).Perm [s1.Peer, s2.Peer] ∧
      ((thenRegister r (thenRegister r (thenRegister r (freshServices r etcd) "a/1")
          "a/2") "c/3").self.WhereIsService "a" false true 1 = [s1.Peer] ∨
        (thenRegister r (thenRegister r (thenRegister r (freshServices r etcd) "a/1")
          "a/2") "c/3").self.WhereIsService "a" false true 1 = [s2.Peer])) ∧
    (thenRegister r (freshServices r etcd) "a/b/1").reply =
      .ret none (some .ErrInvalidService) := by
  have hp0 : (freshServices r etcd).self.servicePrefix = "/service/" := rfl
  have hpp0 : (freshServices r etcd).self.peerServicePrefix =
      "/peer/service/" ++ r.appFullName ++ "/" := rfl
  have hS0 : (freshServices r etcd).self.services = [] := rfl
  have hT0 : (freshServices r etcd).self.prefixIndex = newWordTrie := rfl
  have k1 : GoMap.load (freshServices r etcd).etcd.kvs ("/service/" ++ "a/1") = none := h1
  have k2 : GoMap.load (freshServices r etcd).etcd.kvs ("/service/" ++ "a/2") = none := h2
  have k3 : GoMap.load (freshServices r etcd).etcd.kvs ("/service/" ++ "c/3") = none := h3
  have hknown : r.isNotify = 0 ∨ (r.GetPeer r.appFullName).isSome = true :=
    Or.inr (by rw [hself]; rfl)
  obtain ⟨r1, -, -⟩ := thenRegister_free r _ "a/1" "a" "1" hp0 (by decide) k1
  have r1 := r1 hknown
  obtain ⟨hp1, hpp1, hS1, hT1, f1⟩ := thenRegister_next r _ "a/1" "a" "1" hp0 hpp0 (by decide) k1
  have k2' := (f1 "a/2" (by decide)).trans k2
  have k3' := (f1 "c/3" (by decide)).trans k3
  obtain ⟨r2, -, -⟩ := thenRegister_free r _ "a/2" "a" "2" hp1 (by decide) k2'
  have r2 := r2 hknown
  obtain ⟨hp2, hpp2, hS2, hT2, f2⟩ := thenRegister_next r _ "a/2" "a" "2" hp1 hpp1 (by decide) k2'
  have k3'' := (f2 "c/3" (by decide)).trans k3'
  obtain ⟨r3, -, -⟩ := thenRegister_free r _ "c/3" "c" "3" hp2 (by decide) k3''
  have r3 := r3 hknown
  obtain ⟨-, -, hS3, hT3, -⟩ := thenRegister_next r _ "c/3" "c" "3" hp2 hpp2 (by decide) k3''
  rw [hS0] at hS1
  rw [hS1] at hS2
  rw [hS2] at hS3
  rw [hT0] at hT1
  rw [hT1] at hT2
  rw [hT2] at hT3
  have hsearch : ((((newWordTrie.add "a/1").1.add "a/2").1.add "c/3").1).search "a" =
      ["a/1", "a/2"] := by decide
  refine ⟨r1, r2, r3, ?_, ?_⟩
  · simp only [service_registry.WhereIsService, hS3, hT3, hsearch, Bool.or_true, if_true]
    simp [GoMap.loadOrStore, GoMap.load, GoMap.store, whereLoop, hself]
  · have hw : Split "a/b/1" = ["a", "b", "1"] := by decide
    simp only [thenRegister, service_registry.RegisterService, service_registry.NewServiceName,
      Bool.false_eq_true, if_false, hw]

/-- Witness of `whereIs_prefix_after_three`: the peer `hall/1` on the empty
store. -/
theorem whereIs_prefix_after_three_witness :
    (registryOf hall1).GetPeer (registryOf hall1).appFullName = some hall1 ∧
    GoMap.load Etcd.empty.kvs "/service/a/1" = none ∧
    GoMap.load Etcd.empty.kvs "/service/a/2" = none ∧
    GoMap.load Etcd.empty.kvs "/service/c/3" = none ∧
    (thenRegister (registryOf hall1) (freshServices (registryOf hall1) Etcd.empty) "a/1").reply =
      .ret none none ∧
    (thenRegister (registryOf hall1) (thenRegister (registryOf hall1)
      (thenRegister (registryOf hall1) (freshServices (registryOf hall1) Etcd.empty) "a/1")
        "a/2") "c/3").self.WhereIsService "a" false true 0 = [some hall1, some hall1] :=
  ⟨by decide, rfl, rfl, rfl,
    (whereIs_prefix_after_three (registryOf hall1) Etcd.empty hall1 (by decide) rfl rfl rfl).1,
    by decide⟩

/-- Counterexample to C17 as stated: on the empty store `RegisterService` refuses
`a/b/1`, `a/b/2` and `a/c/3` with `ErrInvalidService` and writes nothing, so that
`WhereIsService("a/b")` in prefix mode returns no peer, for `max_count = 0` and
for `max_count = 1`. -/
theorem three_word_names_are_refused :
    (thenRegister (registryOf hall1) (freshServices (registryOf hall1) Etcd.empty) "a/b/1").reply
      = .ret none (some .ErrInvalidService) ∧
    (thenRegister (registryOf hall1) (thenRegister (registryOf hall1)
      (thenRegister (registryOf hall1) (freshServices (registryOf hall1) Etcd.empty) "a/b/1")
        "a/b/2") "a/c/3").reply = .ret none (some .ErrInvalidService) ∧
    (thenRegister (registryOf hall1) (thenRegister (registryOf hall1)
      (thenRegister (registryOf hall1) (freshServices (registryOf hall1) Etcd.empty) "a/b/1")
        "a/b/2") "a/c/3").etcd.kvs.length = 0 ∧
    (thenRegister (registryOf hall1) (thenRegister (registryOf hall1)
      (thenRegister (registryOf hall1) (freshServices (registryOf hall1) Etcd.empty) "a/b/1")
        "a/b/2") "a/c/3").self.WhereIsService "a/b" false true 0 = [] ∧
    (thenRegister (registryOf hall1) (thenRegister (registryOf hall1)
      (thenRegister (registryOf hall1) (freshServices (registryOf hall1) Etcd.empty) "a/b/1")
        "a/b/2") "a/c/3").self.WhereIsService "a/b" false true 1 = [] := by
  decide

/-! ## Leases (C20) -/

theorem GoMap.mem_store {β : Type} (m : List (String × β)) (k : String) (v : β)
    (p : String × β) (h : p ∈ GoMap.store m k v) : p ∈ m ∨ p = (k, v) := by
  induction m with
  | nil =>
    simp only [GoMap.store, List.mem_singleton] at h
    exact Or.inr h
  | cons e t ih =>
    obtain ⟨a, b⟩ := e
    by_cases hk : a = k
    · simp only [GoMap.store, hk, if_true, List.mem_cons] at h
      rcases h with h | h
      · exact Or.inr h
      · exact Or.inl (List.mem_cons_of_mem _ h)
    · simp only [GoMap.store, hk, if_false, List.mem_cons] at h
      rcases h with h | h
      · exact Or.inl (h ▸ List.mem_cons_self _ _)
      · rcases ih h with h | h
        · exact Or.inl (List.mem_cons_of_mem _ h)
        · exact Or.inr h

theorem GoMap.mem_delete {β : Type} (m : List (String × β)) (k : String)
    (p : String × β) (h : p ∈ GoMap.delete m k) : p ∈ m := by
  induction m with
  | nil => simp [GoMap.delete] at h
  | cons e t ih =>
    obtain ⟨a, b⟩ := e
    by_cases hk : a = k
    · simp only [GoMap.delete, hk, if_true] at h
      exact List.mem_cons_of_mem _ (ih h)
    · simp only [GoMap.delete, hk, if_false, List.mem_cons] at h
      rcases h with h | h
      · exact h ▸ List.mem_cons_self _ _
      · exact List.mem_cons_of_mem _ (ih h)

theorem GoMap.mem_of_load {β : Type} (m : List (String × β)) (k : String) (v : β)
    (h : GoMap.load m k = some v) : ∃ a, (a, v) ∈ m := by
  induction m with
  | nil => simp [GoMap.load] at h
  | cons e t ih =>
    obtain ⟨a, b⟩ := e
    by_cases hk : a = k
    · simp only [GoMap.load, hk, if_true, Option.some.injEq] at h
      exact ⟨a, by rw [h]; exact List.mem_cons_self _ _⟩
    · simp only [GoMap.load, hk, if_false] at h
      obtain ⟨c, hc⟩ := ih h
      exact ⟨c, List.mem_cons_of_mem _ hc⟩

theorem KeyValue.put_lease (rev : Nat) (cur : Option KeyValue) (key val : String) (lease : Nat) :
    (KeyValue.put rev cur key val lease).Lease = lease := by
  cases cur <;> rfl

theorem Op.apply_noLease (rev : Nat) (kvs : List (String × KeyValue)) (op : Op)
    (hop : op.lease = 0) (h : ∀ p ∈ kvs, p.2.Lease = 0) :
    ∀ p ∈ (Op.apply rev kvs op).1, p.2.Lease = 0 := by
  intro p hp
  cases op with
  | OpPut key val lease =>
    simp only [Op.apply] at hp
    rcases GoMap.mem_store _ _ _ _ hp with hp | hp
    · exact h p hp
    · rw [hp]
      simp only [Op.lease] at hop
      rw [KeyValue.put_lease, hop]
  | OpDelete key =>
    simp only [Op.apply] at hp
    cases hl : GoMap.load kvs key with
    | none =>
      rw [hl] at hp
      exact h p hp
    | some kv =>
      rw [hl] at hp
      exact h p (GoMap.mem_delete _ _ _ hp)
  | OpGet key =>
    simp only [Op.apply] at hp
    cases hl : GoMap.load kvs key with
    | none =>
      rw [hl] at hp
      exact h p hp
    | some kv =>
      rw [hl] at hp
      exact h p hp

theorem Op.applyAll_noLease (rev : Nat) (ops : List Op) (hops : ∀ op ∈ ops, op.lease = 0) :
    ∀ kvs : List (String × KeyValue), (∀ p ∈ kvs, p.2.Lease = 0) →
      ∀ p ∈ (Op.applyAll rev kvs ops).1, p.2.Lease = 0 := by
  induction ops with
  | nil =>
    intro kvs h
    simpa [Op.applyAll] using h
  | cons op rest ih =>
    intro kvs h
    simp only [Op.applyAll]
    exact ih (fun o ho => hops o (List.mem_cons_of_mem _ ho)) _
      (Op.apply_noLease rev kvs op (hops op (List.mem_cons_self _ _)) h)

theorem Etcd.Txn_noLease (s : Etcd) (cmps : List Cmp) (thenOps elseOps : List Op)
    (h1 : ∀ op ∈ thenOps, op.lease = 0) (h2 : ∀ op ∈ elseOps, op.lease = 0)
    (h : s.NoLease) : (s.Txn cmps thenOps elseOps).1.NoLease := by
  unfold Etcd.NoLease Etcd.Txn
  by_cases hc : cmps.all (Cmp.holds s.kvs) = true
  · simp only [hc, if_true]
    exact Op.applyAll_noLease _ _ h1 _ h
  · simp only [hc, if_false]
    exact Op.applyAll_noLease _ _ h2 _ h

theorem player_registry.LockLocalUser_noLease (self : player_registry) (r : Registry)
    (etcd : Etcd) (t : Int) (u : String) (h : etcd.NoLease) :
    (self.LockLocalUser r etcd t u).etcd.NoLease := by
  have key := Etcd.Txn_noLease etcd [Cmp.CreateRevision (self.peerTypePrefix ++ u) .equal 0]
    [Op.OpPut (self.userPrefix ++ u) r.appFullName 0,
      Op.OpPut (self.peerPrefix ++ u) (toString t) 0,
      Op.OpPut (self.peerTypePrefix ++ u) r.appFullName 0]
    [Op.OpGet (self.peerTypePrefix ++ u)] (by simp [Op.lease]) (by simp [Op.lease]) h
  unfold player_registry.LockLocalUser
  simp only []
  split
  · split <;> exact key
  · split <;> exact key

theorem player_registry.UnlockLocalUser_noLease (self : player_registry) (r : Registry)
    (etcd : Etcd) (u : String) (h : etcd.NoLease) :
    (self.UnlockLocalUser r etcd u).etcd.NoLease := by
  unfold player_registry.UnlockLocalUser
  simp only []
  split
  · exact h
  · rename_i player _
    have key := Etcd.Txn_noLease etcd
      [Cmp.CreateRevision (self.userPrefix ++ u) .equal player.CreateRevision]
      [Op.OpDelete (self.peerPrefix ++ u), Op.OpDelete (self.peerTypePrefix ++ u),
        Op.OpDelete (self.userPrefix ++ u)]
      [Op.OpGet (self.peerTypePrefix ++ u)] (by simp [Op.lease]) (by simp [Op.lease]) h
    split
    · exact key
    · split <;> exact key

theorem service_registry.registerTxn_noLease (self : service_registry) (r : Registry)
    (etcd : Etcd) (serviceKey peerKey full ty : String) (h : etcd.NoLease) :
    (self.registerTxn r etcd serviceKey peerKey full ty).etcd.NoLease := by
  have key := Etcd.Txn_noLease etcd [Cmp.CreateRevision serviceKey .equal 0]
    [Op.OpPut serviceKey r.appFullName 0, Op.OpPut peerKey r.appFullName 0]
    [Op.OpGet serviceKey] (by simp [Op.lease]) (by simp [Op.lease]) h
  unfold service_registry.registerTxn
  simp only []
  split
  · split
    · split <;> exact key
    · exact key
  · split <;> exact key

theorem service_registry.RegisterService_noLease (self : service_registry) (r : Registry)
    (etcd : Etcd) (n : String) (a : Bool) (h : etcd.NoLease) :
    (self.RegisterService r etcd n a).etcd.NoLease := by
  unfold service_registry.RegisterService
  simp only []
  split
  · exact service_registry.registerTxn_noLease _ _ _ _ _ _ _ h
  · exact service_registry.registerTxn_noLease _ _ _ _ _ _ _ h
  · exact h

theorem service_registry.UnregisterService_noLease (self : service_registry) (r : Registry)
    (etcd : Etcd) (n : String) (h : etcd.NoLease) :
    (self.UnregisterService r etcd n).etcd.NoLease := by
  have key := Etcd.Txn_noLease etcd
    [Cmp.Value (self.servicePrefix ++ n) .equal r.appFullName,
      Cmp.CreateRevision (self.servicePrefix ++ n) .notEqual 0]
    [Op.OpDelete (self.peerServicePrefix ++ n), Op.OpDelete (self.servicePrefix ++ n)]
    [Op.OpGet (self.servicePrefix ++ n)] (by simp [Op.lease]) (by simp [Op.lease]) h
  unfold service_registry.UnregisterService
  simp only []
  split
  · exact key
  · split <;> exact key

theorem Fleet.noLease_step (cfg : Nat → Registry) (f : Fleet) (c : Call) (h : f.etcd.NoLease) :
    (f.step cfg c).1.etcd.NoLease := by
  cases c with
  | LockLocalUser i t u => exact player_registry.LockLocalUser_noLease _ _ _ _ _ h
  | UnlockLocalUser i u => exact player_registry.UnlockLocalUser_noLease _ _ _ _ h
  | RegisterService i n a => exact service_registry.RegisterService_noLease _ _ _ _ _ h
  | UnregisterService i n => exact service_registry.UnregisterService_noLease _ _ _ _ h

theorem Fleet.noLease_run (cfg : Nat → Registry) (calls : List Call) :
    ∀ f : Fleet, f.etcd.NoLease → (Fleet.run cfg f calls).etcd.NoLease := by
  induction calls with
  | nil => intro f h; exact h
  | cons c cs ih =>
    intro f h
    exact ih _ (Fleet.noLease_step cfg f c h)

/-- C20: after every sequence of registry calls on the fleet, from the empty
store, no key of the store is attached to a lease (the puts of `RegisterService`
and `LockLocalUser` carry none), and the expiry of a lease removes no key. -/
theorem registry_keys_carry_no_lease (cfg : Nat → Registry) (calls : List Call)
    (lease : Nat) :
    (Fleet.run cfg (Fleet.init cfg) calls).etcd.kvs.all (fun p => decide (p.2.Lease = 0)) = true ∧
    ((Fleet.run cfg (Fleet.init cfg) calls).etcd.expireLease (lease + 1)).kvs =
      (Fleet.run cfg (Fleet.init cfg) calls).etcd.kvs := by
  have h := Fleet.noLease_run cfg calls (Fleet.init cfg) (by
    intro p hp
    simp [Fleet.init, Etcd.empty] at hp)
  refine ⟨?_, ?_⟩
  · rw [List.all_eq_true]
    intro p hp
    simpa using h p hp
  · simp only [Etcd.expireLease]
    rw [List.filter_eq_self]
    intro p hp
    have := h p hp
    simp only [decide_eq_true_eq]
    omega

/-- Counterexample to C20 as stated: after `hall/1` has registered `chat` and
locked the user `u`, the three keys of the claim carry the lease `0`, that is
none, and all of them are still there after the lease `7` has expired. -/
theorem registered_keys_survive_lease_expiry :
    (GoMap.load chatAndUserStore.kvs "/service/chat").map KeyValue.Lease = some 0 ∧
    (GoMap.load chatAndUserStore.kvs "/peer/service/hall/1/chat").map KeyValue.Lease = some 0 ∧
    (GoMap.load chatAndUserStore.kvs "/user/u").map KeyValue.Lease = some 0 ∧
    (GoMap.load (chatAndUserStore.expireLease 7).kvs "/service/chat").isSome = true ∧
    (GoMap.load (chatAndUserStore.expireLease 7).kvs "/peer/service/hall/1/chat").isSome = true ∧
    (GoMap.load (chatAndUserStore.expireLease 7).kvs "/user/u").isSome = true := by
  decide

/-! ## Keys of the service registry (C11) -/

theorem splitChars_append_sep (xs ys : List Char) :
    splitChars '/' (xs ++ '/' :: ys) = splitChars '/' xs ++ splitChars '/' ys := by
  induction xs with
  | nil => simp [splitChars]
  | cons c cs ih =>
    by_cases h : c = '/'
    · subst h
      simp [splitChars, ih]
    · have hne := splitChars_ne_nil '/' cs
      cases hs : splitChars '/' cs with
      | nil => exact absurd hs hne
      | cons w ws =>
        have e : (c :: cs) ++ '/' :: ys = c :: (cs ++ '/' :: ys) := rfl
        rw [e]
        simp only [splitChars, h, if_false]
        rw [ih, hs]
        rfl

theorem splitChars_noSlash (xs : List Char) (h : '/' ∉ xs) : splitChars '/' xs = [xs] := by
  induction xs with
  | nil => simp [splitChars]
  | cons c cs ih =>
    have hc : ¬ c = '/' := fun e => h (e ▸ List.mem_cons_self _ _)
    have hcs : '/' ∉ cs := fun e => h (List.mem_cons_of_mem _ e)
    simp [splitChars, hc, ih hcs]

theorem Split_peer_key (P n : String) (hP : noSlash P) :
    Split (peerServiceKey P n) = "" :: "peer" :: "service" :: P :: Split n := by
  unfold Split peerServiceKey
  have hd : ("/peer/service/" ++ P ++ "/" ++ n).data =
      [] ++ '/' :: (['p', 'e', 'e', 'r'] ++ '/' ::
        (['s', 'e', 'r', 'v', 'i', 'c', 'e'] ++ '/' :: (P.data ++ '/' :: n.data))) := by
    simp [String.data_append]
  rw [hd, splitChars_append_sep, splitChars_append_sep, splitChars_append_sep,
    splitChars_append_sep, splitChars_noSlash P.data hP]
  simp [splitChars]

theorem initServiceName_peer_key (P n : String) (hP : noSlash P) (hv : validServiceName n) :
    initServiceName (peerServiceKey P n) = n := by
  unfold initServiceName
  rw [Split_peer_key P n hP]
  unfold validServiceName at hv
  rcases hs : Split n with _ | ⟨w0, _ | ⟨w1, _ | ⟨w2, l⟩⟩⟩
  · rw [hs] at hv; simp at hv
  · have := Join_Split n
    rw [hs] at this
    simpa [Join] using this
  · simp only
    exact Split_two _ _ _ hs
  · rw [hs] at hv; simp at hv

theorem slash_inj_chars (xs ys as bs : List Char) (hx : '/' ∉ xs) (hy : '/' ∉ ys)
    (h : xs ++ '/' :: as = ys ++ '/' :: bs) : xs = ys ∧ as = bs := by
  induction xs generalizing ys with
  | nil =>
    cases ys with
    | nil => simpa using h
    | cons y ys =>
      simp only [List.nil_append, List.cons_append, List.cons.injEq] at h
      exact absurd (h.1 ▸ List.mem_cons_self _ _) hy
  | cons x xs ih =>
    cases ys with
    | nil =>
      simp only [List.nil_append, List.cons_append, List.cons.injEq] at h
      exact absurd (h.1 ▸ List.mem_cons_self _ _) hx
    | cons y ys =>
      simp only [List.cons_append, List.cons.injEq] at h
      obtain ⟨e1, e2⟩ := ih ys (fun e => hx (List.mem_cons_of_mem _ e))
        (fun e => hy (List.mem_cons_of_mem _ e)) h.2
      exact ⟨by rw [h.1, e1], e2⟩

theorem peerServiceKey_inj (P Q n m : String) (hP : noSlash P) (hQ : noSlash Q)
    (h : peerServiceKey P n = peerServiceKey Q m) : P = Q ∧ n = m := by
  unfold peerServiceKey at h
  rw [String.append_assoc, String.append_assoc, String.append_assoc, String.append_assoc] at h
  have h' := congrArg String.data (key_inj _ _ _ h)
  simp only [String.data_append] at h'
  obtain ⟨e1, e2⟩ := slash_inj_chars P.data Q.data n.data m.data hP hQ h'
  exact ⟨String.ext e1, String.ext e2⟩

theorem ne_service_peerServiceKey (a P n : String) : "/service/" ++ a ≠ peerServiceKey P n :=
  ne_service_peerService a P n

theorem isPrefixOf_data (pfx k : String) (h : pfx.data.isPrefixOf k.data = true) :
    ∃ rest : String, k = pfx ++ rest := by
  rw [List.isPrefixOf_iff_prefix] at h
  obtain ⟨t, ht⟩ := h
  exact ⟨String.mk t, String.ext (by simp [String.data_append, ht])⟩

theorem ServiceStore.delete_pair (cfg : Nat → Registry)
    (hcfg : ∀ i, noSlash (cfg i).appFullName) (s s' : Etcd) (i : Nat) (n : String)
    (hs : ServiceStore cfg s)
    (hown : ∀ kv, GoMap.load s.kvs ("/service/" ++ n) = some kv →
      kv.Value = (cfg i).appFullName)
    (hrev : s.revision ≤ s'.revision)
    (hload : ∀ k, GoMap.load s'.kvs k =
      if k = "/service/" ++ n ∨ k = peerServiceKey (cfg i).appFullName n then none
      else GoMap.load s.kvs k) :
    ServiceStore cfg s' := by
  have keep : ∀ k kv, GoMap.load s'.kvs k = some kv →
      GoMap.load s.kvs k = some kv ∧
        ¬ (k = "/service/" ++ n ∨ k = peerServiceKey (cfg i).appFullName n) := by
    intro k kv h
    rw [hload] at h
    by_cases hk : k = "/service/" ++ n ∨ k = peerServiceKey (cfg i).appFullName n
    · simp [hk] at h
    · simp only [hk, if_false] at h
      exact ⟨h, hk⟩
  have keepHas : ∀ k, s'.has k →
      s.has k ∧ ¬ (k = "/service/" ++ n ∨ k = peerServiceKey (cfg i).appFullName n) := by
    intro k h
    unfold Etcd.has at h ⊢
    cases hl : GoMap.load s'.kvs k with
    | none => rw [hl] at h; simp at h
    | some kv =>
      obtain ⟨h1, h2⟩ := keep k kv hl
      exact ⟨by rw [h1]; rfl, h2⟩
  constructor
  · intro k kv h
    obtain ⟨h1, h2⟩ := hs.rev k kv (keep k kv h).1
    exact ⟨h1, le_trans h2 hrev⟩
  · intro k h
    exact hs.form k (keepHas k h).1
  · intro m kv h
    exact hs.owner m kv (keep _ kv h).1
  · intro j m h
    obtain ⟨h1, h2⟩ := keepHas _ h
    obtain ⟨kv, hkv, hval⟩ := hs.peer_service j m h1
    refine ⟨kv, ?_, hval⟩
    rw [hload]
    have hne : ¬ ("/service/" ++ m = "/service/" ++ n ∨
        "/service/" ++ m = peerServiceKey (cfg i).appFullName n) := by
      rintro (e | e)
      · have hm := key_inj _ _ _ e
        subst hm
        have hP : (cfg j).appFullName = (cfg i).appFullName := by
          rw [← hval]
          exact hown kv hkv
        apply h2
        right
        rw [hP]
      · exact ne_service_peerServiceKey _ _ _ e
    simp only [hne, if_false]
    exact hkv
  · intro j m h
    obtain ⟨kv, hkv, hval⟩ := h
    obtain ⟨h1, h2⟩ := keep _ kv hkv
    have hp := hs.service_peer j m ⟨kv, h1, hval⟩
    unfold Etcd.has at hp ⊢
    rw [hload]
    have hne : ¬ (peerServiceKey (cfg j).appFullName m = "/service/" ++ n ∨
        peerServiceKey (cfg j).appFullName m = peerServiceKey (cfg i).appFullName n) := by
      rintro (e | e)
      · exact ne_service_peerServiceKey _ _ _ e.symm
      · obtain ⟨_, e2⟩ := peerServiceKey_inj _ _ _ _ (hcfg j) (hcfg i) e
        apply h2
        left
        rw [e2]
    simp only [hne, if_false]
    exact hp

theorem ServiceStore.peer_absent (cfg : Nat → Registry) (s : Etcd) (i : Nat) (n : String)
    (hs : ServiceStore cfg s) (hfree : GoMap.load s.kvs ("/service/" ++ n) = none) :
    GoMap.load s.kvs (peerServiceKey (cfg i).appFullName n) = none := by
  cases hl : GoMap.load s.kvs (peerServiceKey (cfg i).appFullName n) with
  | none => rfl
  | some kv =>
    have hh : s.has (peerServiceKey (cfg i).appFullName n) := by
      unfold Etcd.has
      rw [hl]
      rfl
    obtain ⟨kv', h1, _⟩ := hs.peer_service i n hh
    rw [hfree] at h1
    exact absurd h1 (by simp)

theorem ServiceStore.put_pair (cfg : Nat → Registry)
    (hcfg : ∀ i, noSlash (cfg i).appFullName) (s s' : Etcd) (i : Nat) (n : String)
    (hs : ServiceStore cfg s) (hv : validServiceName n)
    (hfree : GoMap.load s.kvs ("/service/" ++ n) = none)
    (hrev : s'.revision = s.revision + 1)
    (hload : ∀ k, GoMap.load s'.kvs k =
      [Op.OpPut ("/service/" ++ n) (cfg i).appFullName 0,
        Op.OpPut (peerServiceKey (cfg i).appFullName n) (cfg i).appFullName 0].foldl
        (Op.effect (s.revision + 1) k) (GoMap.load s.kvs k)) :
    ServiceStore cfg s' ∧
    (∃ kv, GoMap.load s'.kvs ("/service/" ++ n) = some kv ∧
      kv.Value = (cfg i).appFullName ∧ kv.CreateRevision = s.revision + 1) ∧
    ∀ m, m ≠ n → GoMap.load s'.kvs ("/service/" ++ m) = GoMap.load s.kvs ("/service/" ++ m) := by
  have hpfree := ServiceStore.peer_absent cfg s i n hs hfree
  have hsp : ¬ "/service/" ++ n = peerServiceKey (cfg i).appFullName n :=
    ne_service_peerServiceKey _ _ _
  have hps : ¬ peerServiceKey (cfg i).appFullName n = "/service/" ++ n :=
    fun e => hsp e.symm
  have lS : GoMap.load s'.kvs ("/service/" ++ n) =
      some (KeyValue.put (s.revision + 1) none ("/service/" ++ n) (cfg i).appFullName 0) := by
    rw [hload]
    simp only [List.foldl_cons, List.foldl_nil, Op.effect, if_true, hps, if_false, hfree]
  have lP : GoMap.load s'.kvs (peerServiceKey (cfg i).appFullName n) =
      some (KeyValue.put (s.revision + 1) none (peerServiceKey (cfg i).appFullName n)
        (cfg i).appFullName 0) := by
    rw [hload]
    simp only [List.foldl_cons, List.foldl_nil, Op.effect, if_true, hsp, if_false, hpfree]
  have lO : ∀ k, k ≠ "/service/" ++ n → k ≠ peerServiceKey (cfg i).appFullName n →
      GoMap.load s'.kvs k = GoMap.load s.kvs k := by
    intro k h1 h2
    rw [hload]
    have h1' : ¬ "/service/" ++ n = k := fun e => h1 e.symm
    have h2' : ¬ peerServiceKey (cfg i).appFullName n = k := fun e => h2 e.symm
    simp only [List.foldl_cons, List.foldl_nil, Op.effect, h1', h2', if_false]
  have lSm : ∀ m, m ≠ n →
      GoMap.load s'.kvs ("/service/" ++ m) = GoMap.load s.kvs ("/service/" ++ m) := by
    intro m hm
    exact lO _ (fun e => hm (key_inj _ _ _ e)) (ne_service_peerServiceKey _ _ _)
  have grow : ∀ k, s.has k → s'.has k := by
    intro k h
    unfold Etcd.has at h ⊢
    by_cases h1 : k = "/service/" ++ n
    · rw [h1, lS]; rfl
    · by_cases h2 : k = peerServiceKey (cfg i).appFullName n
      · rw [h2, lP]; rfl
      · rw [lO k h1 h2]; exact h
  refine ⟨?_, ⟨_, lS, rfl, rfl⟩, lSm⟩
  constructor
  · intro k kv h
    by_cases h1 : k = "/service/" ++ n
    · rw [h1, lS] at h
      injection h with h
      rw [← h, hrev]
      exact ⟨Nat.succ_ne_zero _, le_refl _⟩
    · by_cases h2 : k = peerServiceKey (cfg i).appFullName n
      · rw [h2, lP] at h
        injection h with h
        rw [← h, hrev]
        exact ⟨Nat.succ_ne_zero _, le_refl _⟩
      · rw [lO k h1 h2] at h
        obtain ⟨r1, r2⟩ := hs.rev k kv h
        exact ⟨r1, by rw [hrev]; exact Nat.le_succ_of_le r2⟩
  · intro k h
    by_cases h1 : k = "/service/" ++ n
    · exact Or.inl ⟨n, h1⟩
    · by_cases h2 : k = peerServiceKey (cfg i).appFullName n
      · exact Or.inr ⟨i, n, hv, h2⟩
      · unfold Etcd.has at h
        rw [lO k h1 h2] at h
        exact hs.form k h
  · intro m kv h
    by_cases hm : m = n
    · rw [hm, lS] at h
      injection h with h
      exact ⟨i, by rw [← h]; rfl⟩
    · rw [lSm m hm] at h
      exact hs.owner m kv h
  · intro j m h
    by_cases hk : peerServiceKey (cfg j).appFullName m = peerServiceKey (cfg i).appFullName n
    · obtain ⟨e1, e2⟩ := peerServiceKey_inj _ _ _ _ (hcfg j) (hcfg i) hk
      rw [e1, e2]
      exact ⟨_, lS, rfl⟩
    · unfold Etcd.has at h
      rw [lO _ (fun e => ne_service_peerServiceKey _ _ _ e.symm) hk] at h
      obtain ⟨kv, hkv, hval⟩ := hs.peer_service j m h
      have hm : m ≠ n := by
        intro e
        rw [e, hfree] at hkv
        exact absurd hkv (by simp)
      exact ⟨kv, by rw [lSm m hm]; exact hkv, hval⟩
  · intro j m h
    obtain ⟨kv, hkv, hval⟩ := h
    by_cases hm : m = n
    · rw [hm, lS] at hkv
      injection hkv with hkv
      have hP : (cfg i).appFullName = (cfg j).appFullName := by
        rw [← hval, ← hkv]
        rfl
      unfold Etcd.has
      rw [hm, ← hP, lP]
      rfl
    · rw [lSm m hm] at hkv
      exact grow _ (hs.service_peer j m ⟨kv, hkv, hval⟩)

theorem Etcd.Txn_revision_le (s : Etcd) (cmps : List Cmp) (thenOps elseOps : List Op) :
    s.revision ≤ (s.Txn cmps thenOps elseOps).1.revision := by
  simp only [Etcd.Txn]
  by_cases h : (Op.applyAll (s.revision + 1) s.kvs
      (if cmps.all (Cmp.holds s.kvs) = true then thenOps else elseOps)).2.2 = true
  · simp only [h, if_true]
    omega
  · simp only [h, if_false]
    exact le_refl _

theorem Etcd.Txn_else_nil (s : Etcd) (cmps : List Cmp) (thenOps : List Op)
    (h : cmps.all (Cmp.holds s.kvs) = false) : (s.Txn cmps thenOps []).1 = s := by
  simp [Etcd.Txn, h, Op.applyAll]

theorem Etcd.Txn_delete_two (s : Etcd) (cmps : List Cmp) (a b : String) (elseOps : List Op)
    (h : cmps.all (Cmp.holds s.kvs) = true) (k : String) :
    GoMap.load (s.Txn cmps [Op.OpDelete a, Op.OpDelete b] elseOps).1.kvs k =
      if k = a ∨ k = b then none else GoMap.load s.kvs k := by
  rw [Etcd.Txn_then_load s cmps _ elseOps h k]
  by_cases ha : a = k <;> by_cases hb : b = k <;>
    simp [Op.effect, ha, hb, eq_comm]

/-- The store after a transaction that deletes the two keys of the name `n` for
the peer `i`, in either order, with an empty or a reading alternative. -/
theorem ServiceStore.txn_delete_pair (cfg : Nat → Registry)
    (hcfg : ∀ i, noSlash (cfg i).appFullName) (s : Etcd) (i : Nat) (n : String)
    (hs : ServiceStore cfg s) (cmps : List Cmp) (ops elseOps : List Op)
    (hops : ops = [Op.OpDelete (peerServiceKey (cfg i).appFullName n),
        Op.OpDelete ("/service/" ++ n)] ∨
      ops = [Op.OpDelete ("/service/" ++ n),
        Op.OpDelete (peerServiceKey (cfg i).appFullName n)])
    (hels : elseOps = [] ∨ ∃ k, elseOps = [Op.OpGet k])
    (hguard : cmps.all (Cmp.holds s.kvs) = true →
      ∀ kv, GoMap.load s.kvs ("/service/" ++ n) = some kv → kv.Value = (cfg i).appFullName) :
    ServiceStore cfg (s.Txn cmps ops elseOps).1 ∧
    ((s.Txn cmps ops elseOps).1 = s ∨
      ∀ k, GoMap.load (s.Txn cmps ops elseOps).1.kvs k =
        if k = "/service/" ++ n ∨ k = peerServiceKey (cfg i).appFullName n then none
        else GoMap.load s.kvs k) := by
  by_cases hg : cmps.all (Cmp.holds s.kvs) = true
  · have hload : ∀ k, GoMap.load (s.Txn cmps ops elseOps).1.kvs k =
        if k = "/service/" ++ n ∨ k = peerServiceKey (cfg i).appFullName n then none
        else GoMap.load s.kvs k := by
      intro k
      rcases hops with e | e
      · rw [e, Etcd.Txn_delete_two s cmps _ _ elseOps hg k]
        by_cases h1 : k = "/service/" ++ n <;>
          by_cases h2 : k = peerServiceKey (cfg i).appFullName n <;> simp [h1, h2]
      · rw [e, Etcd.Txn_delete_two s cmps _ _ elseOps hg k]
    exact ⟨ServiceStore.delete_pair cfg hcfg s _ i n hs (hguard hg)
      (Etcd.Txn_revision_le _ _ _ _) hload, Or.inr hload⟩
  · have hg' : cmps.all (Cmp.holds s.kvs) = false := by simpa using hg
    have e : (s.Txn cmps ops elseOps).1 = s := by
      rcases hels with e | ⟨k, e⟩
      · rw [e]
        exact Etcd.Txn_else_nil s cmps ops hg'
      · rw [e, Etcd.Txn_else_get s cmps ops k hg']
    rw [e]
    exact ⟨hs, Or.inl rfl⟩

theorem Etcd.Later_refl (s : Etcd) : s.Later s :=
  ⟨le_refl _, fun _ _ h => Or.inl h⟩

theorem Etcd.Later_trans (s t u : Etcd) (h1 : s.Later t) (h2 : t.Later u) : s.Later u := by
  refine ⟨le_trans h1.1 h2.1, ?_⟩
  intro k kv h
  rcases h2.2 k kv h with h | h
  · exact h1.2 k kv h
  · exact Or.inr (lt_of_le_of_lt h1.1 h)

theorem Etcd.Later_of_delete (s t : Etcd) (a b : String) (hrev : s.revision ≤ t.revision)
    (h : t = s ∨ ∀ k, GoMap.load t.kvs k = if k = a ∨ k = b then none else GoMap.load s.kvs k) :
    s.Later t := by
  rcases h with h | h
  · rw [h]
    exact Etcd.Later_refl s
  · refine ⟨hrev, ?_⟩
    intro k kv hk
    rw [h] at hk
    by_cases hab : k = a ∨ k = b
    · simp [hab] at hk
    · simp only [hab, if_false] at hk
      exact Or.inl hk

theorem Etcd.Later_of_put_pair (cfg : Nat → Registry) (s s' : Etcd) (i : Nat) (n : String)
    (hs : ServiceStore cfg s)
    (hfree : GoMap.load s.kvs ("/service/" ++ n) = none)
    (hrev : s'.revision = s.revision + 1)
    (hload : ∀ k, GoMap.load s'.kvs k =
      [Op.OpPut ("/service/" ++ n) (cfg i).appFullName 0,
        Op.OpPut (peerServiceKey (cfg i).appFullName n) (cfg i).appFullName 0].foldl
        (Op.effect (s.revision + 1) k) (GoMap.load s.kvs k)) :
    s.Later s' := by
  have hpfree := ServiceStore.peer_absent cfg s i n hs hfree
  refine ⟨by omega, ?_⟩
  intro k kv hk
  rw [hload] at hk
  simp only [List.foldl_cons, List.foldl_nil, Op.effect] at hk
  by_cases h2 : peerServiceKey (cfg i).appFullName n = k
  · simp only [h2, if_true, Option.some.injEq] at hk
    by_cases h1 : "/service/" ++ n = k
    · exact absurd (h1.trans h2.symm) (ne_service_peerServiceKey _ _ _)
    · simp only [h1, if_false] at hk
      rw [← h2, hpfree] at hk
      right
      rw [← hk]
      exact Nat.lt_succ_self _
  · simp only [h2, if_false] at hk
    by_cases h1 : "/service/" ++ n = k
    · simp only [h1, if_true, Option.some.injEq] at hk
      rw [← h1, hfree] at hk
      right
      rw [← hk]
      exact Nat.lt_succ_self _
    · simp only [h1, if_false] at hk
      exact Or.inl hk

theorem ServiceNode.mono (cfg : Nat → Registry) (s t : Etcd) (j : Nat) (self : service_registry)
    (h : ServiceNode cfg s j self) (hl : s.Later t) : ServiceNode cfg t j self := by
  refine ⟨h.servicePrefix_eq, h.peerServicePrefix_eq, ?_⟩
  intro e he
  obtain ⟨h1, h2⟩ := h.own e he
  refine ⟨le_trans h1 hl.1, ?_⟩
  intro kv hkv hc
  rcases hl.2 _ kv hkv with h3 | h3
  · exact h2 kv h3 hc
  · omega

theorem ServiceNode.store_zero (cfg : Nat → Registry) (s : Etcd) (i : Nat)
    (reg : service_registry) (hs : ServiceStore cfg s) (h : ServiceNode cfg s i reg)
    (services : List (String × ServiceName)) (prefixIndex : word_trie) (name : String)
    (service : ServiceName) (hc : service.CreateRevision = 0) :
    ServiceNode cfg s i
      { reg with
        services := services
        prefixIndex := prefixIndex
        selfServices := GoMap.store reg.selfServices name service } := by
  refine ⟨h.servicePrefix_eq, h.peerServicePrefix_eq, ?_⟩
  intro e he
  rcases GoMap.mem_store _ _ _ _ he with he | he
  · exact h.own e he
  · rw [he]
    simp only [hc]
    refine ⟨Nat.zero_le _, ?_⟩
    intro kv hkv h0
    exact absurd h0 (hs.rev _ kv hkv).1

theorem ServiceNode.same_own (cfg : Nat → Registry) (s : Etcd) (i : Nat)
    (reg : service_registry) (h : ServiceNode cfg s i reg)
    (services : List (String × ServiceName)) (prefixIndex : word_trie) (w : Nat) :
    ServiceNode cfg s i
      { reg with services := services, prefixIndex := prefixIndex, watchStartRevision := w } :=
  ⟨h.servicePrefix_eq, h.peerServicePrefix_eq, h.own⟩

theorem ServiceNode.delete_own (cfg : Nat → Registry) (s : Etcd) (i : Nat)
    (reg : service_registry) (h : ServiceNode cfg s i reg)
    (services : List (String × ServiceName)) (prefixIndex : word_trie) (name : String) :
    ServiceNode cfg s i
      { reg with
        services := services
        prefixIndex := prefixIndex
        selfServices := GoMap.delete reg.selfServices name } :=
  ⟨h.servicePrefix_eq, h.peerServicePrefix_eq,
    fun e he => h.own e (GoMap.mem_delete _ _ _ he)⟩

theorem ServiceNode.add_zero (cfg : Nat → Registry) (s : Etcd) (i : Nat)
    (reg : service_registry) (hs : ServiceStore cfg s) (h : ServiceNode cfg s i reg)
    (services : List (String × ServiceName)) (prefixIndex : word_trie) (name : String)
    (service : ServiceName) (hc : service.CreateRevision = 0) (b : Bool) :
    ServiceNode cfg s i
      { reg with
        services := services
        prefixIndex := prefixIndex
        selfServices :=
          if b = true then GoMap.store reg.selfServices name service else reg.selfServices } := by
  cases b with
  | true =>
    simp only [if_true]
    exact ServiceNode.store_zero cfg s i reg hs h _ _ _ _ hc
  | false =>
    simp only [Bool.false_eq_true, if_false]
    exact ServiceNode.same_own cfg s i reg h _ _ _

theorem ServiceNode.of_onKvAdd (cfg : Nat → Registry) (s : Etcd) (i : Nat)
    (reg : service_registry) (r : Registry) (kv : KeyValue) (hs : ServiceStore cfg s)
    (h : ServiceNode cfg s i reg) : ServiceNode cfg s i (reg.onKvAdd r kv).self := by
  unfold service_registry.onKvAdd
  simp only []
  split
  · exact h
  · split
    · exact h
    · exact h
    · split
      · exact h
      · split
        · exact h
        · split <;> exact ServiceNode.add_zero cfg s i reg hs h _ _ _ _ rfl _

theorem ServiceNode.of_onKvDelete (cfg : Nat → Registry) (s : Etcd) (i : Nat)
    (reg : service_registry) (r : Registry) (key : String)
    (h : ServiceNode cfg s i reg) : ServiceNode cfg s i (reg.onKvDelete r key).self := by
  unfold service_registry.onKvDelete
  simp only []
  split
  · exact h
  · split
    · rename_i lastService _
      split
      · exact h
      · split
        · exact ServiceNode.same_own cfg s i reg h _ _ _
        · by_cases hp : lastService.IsSelf = true
          · simp only [hp, if_true]
            exact ServiceNode.delete_own cfg s i reg h _ _ _
          · simp only [hp, if_false]
            exact ServiceNode.same_own cfg s i reg h _ _ _
    · exact h

theorem ServiceNode.of_addAll (cfg : Nat → Registry) (s : Etcd) (i : Nat) (r : Registry)
    (hs : ServiceStore cfg s) (kvs : List KeyValue) :
    ∀ reg : service_registry, ServiceNode cfg s i reg →
      ServiceNode cfg s i (addAll r kvs reg).self := by
  induction kvs with
  | nil => intro reg h; exact h
  | cons kv rest ih =>
    intro reg h
    have h1 := ServiceNode.of_onKvAdd cfg s i reg r kv hs h
    simp only [addAll]
    split
    · exact ih _ h1
    · exact h1

theorem ServiceNode.of_loadServices (cfg : Nat → Registry) (s : Etcd) (i : Nat) (r : Registry)
    (hs : ServiceStore cfg s) (reg : service_registry) (h : ServiceNode cfg s i reg) :
    ServiceNode cfg s i (reg.loadServices r s).self := by
  have hnode := ServiceNode.of_addAll cfg s i r hs (s.getPrefix reg.servicePrefix) reg h
  unfold service_registry.loadServices
  simp only []
  split
  · exact ⟨hnode.servicePrefix_eq, hnode.peerServicePrefix_eq, hnode.own⟩
  · exact hnode

theorem ServiceNode.fresh (cfg : Nat → Registry) (s : Etcd) (i : Nat) :
    ServiceNode cfg s i (newConfigServiceRegistry (cfg i)) :=
  ⟨rfl, rfl, fun e he => by simp [newConfigServiceRegistry] at he⟩

theorem service_registry.unregisterOne_spec (cfg : Nat → Registry)
    (hcfg : ∀ i, noSlash (cfg i).appFullName) (i : Nat) (reg : service_registry)
    (hp1 : reg.servicePrefix = "/service/")
    (hp2 : reg.peerServicePrefix = "/peer/service/" ++ (cfg i).appFullName ++ "/")
    (s : Etcd) (hs : ServiceStore cfg s) (e : String × ServiceName)
    (he : ∀ kv, GoMap.load s.kvs ("/service/" ++ e.1) = some kv →
      kv.CreateRevision = e.2.CreateRevision → kv.Value = (cfg i).appFullName) :
    ServiceStore cfg (reg.unregisterOne s e) ∧ s.Later (reg.unregisterOne s e) := by
  have hk : reg.peerServicePrefix ++ e.1 = peerServiceKey (cfg i).appFullName e.1 := by
    rw [hp2]
    rfl
  unfold service_registry.unregisterOne
  simp only [hp1, hk]
  have key := ServiceStore.txn_delete_pair cfg hcfg s i e.1 hs
    [Cmp.CreateRevision ("/service/" ++ e.1) .equal e.2.CreateRevision]
    [Op.OpDelete ("/service/" ++ e.1), Op.OpDelete (peerServiceKey (cfg i).appFullName e.1)] []
    (Or.inr rfl) (Or.inl rfl) (by
      intro hg kv hkv
      apply he kv hkv
      simpa [Cmp.holds, createRevisionOf, hkv] using hg)
  exact ⟨key.1, Etcd.Later_of_delete s _ _ _ (Etcd.Txn_revision_le _ _ _ _) key.2⟩

theorem service_registry.cleanupOne_spec (cfg : Nat → Registry)
    (hcfg : ∀ i, noSlash (cfg i).appFullName) (i : Nat) (reg : service_registry)
    (hp1 : reg.servicePrefix = "/service/")
    (hp2 : reg.peerServicePrefix = "/peer/service/" ++ (cfg i).appFullName ++ "/")
    (s : Etcd) (hs : ServiceStore cfg s) (v : KeyValue) (n : String)
    (hv : validServiceName n) (hkey : v.Key = peerServiceKey (cfg i).appFullName n)
    (hpres : s.has v.Key ∨ GoMap.load s.kvs ("/service/" ++ n) = none) :
    ServiceStore cfg (reg.cleanupOne s v) ∧
    (reg.cleanupOne s v = s ∨
      ∀ k, GoMap.load (reg.cleanupOne s v).kvs k =
        if k = "/service/" ++ n ∨ k = peerServiceKey (cfg i).appFullName n then none
        else GoMap.load s.kvs k) := by
  have hname : initServiceName v.Key = n := by
    rw [hkey]
    exact initServiceName_peer_key _ _ (hcfg i) hv
  have hk : reg.peerServicePrefix ++ n = peerServiceKey (cfg i).appFullName n := by
    rw [hp2]
    rfl
  unfold service_registry.cleanupOne
  simp only [hp1, hname, hk]
  exact ServiceStore.txn_delete_pair cfg hcfg s i n hs
    [Cmp.CreateRevision ("/service/" ++ n) .notEqual 0]
    [Op.OpDelete (peerServiceKey (cfg i).appFullName n), Op.OpDelete ("/service/" ++ n)] []
    (Or.inl rfl) (Or.inl rfl) (by
      intro hg kv hkv
      rcases hpres with hp | hp
      · rw [hkey] at hp
        obtain ⟨kv', h1, h2⟩ := hs.peer_service i n hp
        rw [hkv] at h1
        injection h1 with h1
        rw [h1]
        exact h2
      · rw [hp] at hkv
        exact absurd hkv (by simp))

theorem GoMap.load_isSome_of_mem {β : Type} (m : List (String × β)) (p : String × β)
    (h : p ∈ m) : (GoMap.load m p.1).isSome = true := by
  induction m with
  | nil => simp at h
  | cons e t ih =>
    obtain ⟨a, b⟩ := e
    by_cases hk : a = p.1
    · simp [GoMap.load, hk]
    · simp only [GoMap.load, hk, if_false]
      rcases List.mem_cons.1 h with h | h
      · exact absurd (by rw [h]) hk
      · exact ih h

theorem Etcd.mem_getPrefix (s : Etcd) (pfx : String) (v : KeyValue)
    (h : v ∈ s.getPrefix pfx) : s.has v.Key ∧ ∃ rest : String, v.Key = pfx ++ rest := by
  unfold Etcd.getPrefix at h
  rw [List.mem_insertionSort, List.mem_map] at h
  obtain ⟨p, hp, e⟩ := h
  rw [List.mem_filter] at hp
  have hkey : v.Key = p.1 := by rw [← e]
  rw [hkey]
  exact ⟨GoMap.load_isSome_of_mem _ _ hp.1, isPrefixOf_data _ _ hp.2⟩

theorem service_registry.registerTxn_free_revision (self : service_registry) (r : Registry)
    (etcd : Etcd) (serviceKey peerKey full ty : String)
    (h : GoMap.load etcd.kvs serviceKey = none) :
    (self.registerTxn r etcd serviceKey peerKey full ty).etcd.revision = etcd.revision + 1 := by
  have hg : [Cmp.CreateRevision serviceKey .equal 0].all (Cmp.holds etcd.kvs) = true := by
    simp [Cmp.holds, createRevisionOf, h]
  by_cases h0 : r.isNotify = 0 <;> cases hp : r.GetPeer r.appFullName <;>
    simp [service_registry.registerTxn, service_registry.onServiceAdd, Etcd.Txn, hg,
      Op.applyAll, Op.apply, hp, h0]

theorem service_registry.UnregisterService_etcd (self : service_registry) (r : Registry)
    (etcd : Etcd) (n : String) :
    (self.UnregisterService r etcd n).etcd =
      (etcd.Txn
        [Cmp.Value (self.servicePrefix ++ n) .equal r.appFullName,
          Cmp.CreateRevision (self.servicePrefix ++ n) .notEqual 0]
        [Op.OpDelete (self.peerServicePrefix ++ n), Op.OpDelete (self.servicePrefix ++ n)]
        [Op.OpGet (self.servicePrefix ++ n)]).1 ∧
    (self.UnregisterService r etcd n).self = self := by
  unfold service_registry.UnregisterService
  simp only []
  split
  · exact ⟨rfl, rfl⟩
  · split <;> exact ⟨rfl, rfl⟩

/-! ### Distinct keys of the store -/

theorem GoMap.keys_store {β : Type} (m : List (String × β)) (k : String) (v : β)
    (h : (m.map Prod.fst).Nodup) : ((GoMap.store m k v).map Prod.fst).Nodup := by
  induction m with
  | nil => simp [GoMap.store]
  | cons e t ih =>
    obtain ⟨a, b⟩ := e
    simp only [List.map_cons, List.nodup_cons] at h
    by_cases hk : a = k
    · simp only [GoMap.store, hk, if_true, List.map_cons, List.nodup_cons]
      rw [← hk]
      exact h
    · simp only [GoMap.store, hk, if_false, List.map_cons, List.nodup_cons]
      refine ⟨?_, ih h.2⟩
      intro hmem
      rw [List.mem_map] at hmem
      obtain ⟨p, hp, e⟩ := hmem
      rcases GoMap.mem_store _ _ _ _ hp with hp | hp
      · exact h.1 (List.mem_map.2 ⟨p, hp, e⟩)
      · rw [hp] at e
        exact hk e.symm

theorem GoMap.keys_delete {β : Type} (m : List (String × β)) (k : String)
    (h : (m.map Prod.fst).Nodup) : ((GoMap.delete m k).map Prod.fst).Nodup := by
  induction m with
  | nil => simp [GoMap.delete]
  | cons e t ih =>
    obtain ⟨a, b⟩ := e
    simp only [List.map_cons, List.nodup_cons] at h
    by_cases hk : a = k
    · simp only [GoMap.delete, hk, if_true]
      exact ih h.2
    · simp only [GoMap.delete, hk, if_false, List.map_cons, List.nodup_cons]
      refine ⟨?_, ih h.2⟩
      intro hmem
      rw [List.mem_map] at hmem
      obtain ⟨p, hp, e⟩ := hmem
      exact h.1 (List.mem_map.2 ⟨p, GoMap.mem_delete _ _ _ hp, e⟩)

theorem Op.apply_keys (rev : Nat) (kvs : List (String × KeyValue)) (op : Op)
    (h : (kvs.map Prod.fst).Nodup) : ((Op.apply rev kvs op).1.map Prod.fst).Nodup := by
  cases op with
  | OpPut key val lease => exact GoMap.keys_store _ _ _ h
  | OpDelete key =>
    simp only [Op.apply]
    cases hl : GoMap.load kvs key with
    | none => exact h
    | some kv => exact GoMap.keys_delete _ _ h
  | OpGet key =>
    simp only [Op.apply]
    cases hl : GoMap.load kvs key <;> exact h

theorem Op.applyAll_keys (rev : Nat) (ops : List Op) :
    ∀ kvs : List (String × KeyValue), (kvs.map Prod.fst).Nodup →
      ((Op.applyAll rev kvs ops).1.map Prod.fst).Nodup := by
  induction ops with
  | nil => intro kvs h; simpa [Op.applyAll] using h
  | cons op rest ih =>
    intro kvs h
    simp only [Op.applyAll]
    exact ih _ (Op.apply_keys rev kvs op h)

theorem Etcd.Txn_keys (s : Etcd) (cmps : List Cmp) (thenOps elseOps : List Op)
    (h : (s.kvs.map Prod.fst).Nodup) :
    ((s.Txn cmps thenOps elseOps).1.kvs.map Prod.fst).Nodup := by
  unfold Etcd.Txn
  exact Op.applyAll_keys _ _ _ h

theorem service_registry.registerTxn_keys (self : service_registry) (r : Registry)
    (etcd : Etcd) (serviceKey peerKey full ty : String) (h : (etcd.kvs.map Prod.fst).Nodup) :
    ((self.registerTxn r etcd serviceKey peerKey full ty).etcd.kvs.map Prod.fst).Nodup := by
  have key := Etcd.Txn_keys etcd [Cmp.CreateRevision serviceKey .equal 0]
    [Op.OpPut serviceKey r.appFullName 0, Op.OpPut peerKey r.appFullName 0]
    [Op.OpGet serviceKey] h
  unfold service_registry.registerTxn
  simp only []
  split
  · split
    · split <;> exact key
    · exact key
  · split <;> exact key

theorem service_registry.RegisterService_keys (self : service_registry) (r : Registry)
    (etcd : Etcd) (n : String) (a : Bool) (h : (etcd.kvs.map Prod.fst).Nodup) :
    ((self.RegisterService r etcd n a).etcd.kvs.map Prod.fst).Nodup := by
  unfold service_registry.RegisterService
  simp only []
  split
  · exact service_registry.registerTxn_keys _ _ _ _ _ _ _ h
  · exact service_registry.registerTxn_keys _ _ _ _ _ _ _ h
  · exact h

theorem Etcd.getPrefix_keys (s : Etcd) (pfx : String) (h : (s.kvs.map Prod.fst).Nodup) :
    ((s.getPrefix pfx).map KeyValue.Key).Nodup := by
  unfold Etcd.getPrefix
  have hperm := (List.perm_insertionSort (fun v w : KeyValue => keyLe v.Key.data w.Key.data = true)
    ((s.kvs.filter (fun p => pfx.data.isPrefixOf p.1.data)).map
      (fun p => { p.2 with Key := p.1 }))).map KeyValue.Key
  rw [hperm.nodup_iff, List.map_map]
  have e : (KeyValue.Key ∘ fun p : String × KeyValue => { p.2 with Key := p.1 }) = Prod.fst := by
    funext p
    rfl
  rw [e]
  exact h.sublist ((List.filter_sublist _).map _)

/-! ### The steps of the service registries keep the pairing -/

theorem Etcd.has_of_put_pair (s s' : Etcd) (rev : Nat) (a b va vb : String)
    (hload : ∀ k, GoMap.load s'.kvs k =
      [Op.OpPut a va 0, Op.OpPut b vb 0].foldl (Op.effect rev k) (GoMap.load s.kvs k))
    (k : String) (h : s.has k) : s'.has k := by
  unfold Etcd.has at h ⊢
  rw [hload]
  simp only [List.foldl_cons, List.foldl_nil, Op.effect]
  by_cases hb : b = k
  · simp [hb]
  · by_cases ha : a = k
    · simp [hb, ha]
    · simp only [hb, ha, if_false]
      exact h

theorem Etcd.has_of_delete_pair (cfg : Nat → Registry)
    (hcfg : ∀ i, noSlash (cfg i).appFullName)
    (hinj : ∀ i j, (cfg i).appFullName = (cfg j).appFullName → i = j)
    (s s' : Etcd) (i : Nat) (n : String)
    (h : s' = s ∨ ∀ k, GoMap.load s'.kvs k =
      if k = "/service/" ++ n ∨ k = peerServiceKey (cfg i).appFullName n then none
      else GoMap.load s.kvs k)
    (j : Nat) (m : String) (hne : j ≠ i ∨ m ≠ n)
    (hhas : s.has (peerServiceKey (cfg j).appFullName m)) :
    s'.has (peerServiceKey (cfg j).appFullName m) := by
  rcases h with h | h
  · rw [h]
    exact hhas
  · unfold Etcd.has at hhas ⊢
    rw [h]
    have hk : ¬ (peerServiceKey (cfg j).appFullName m = "/service/" ++ n ∨
        peerServiceKey (cfg j).appFullName m = peerServiceKey (cfg i).appFullName n) := by
      rintro (e | e)
      · exact ne_service_peerServiceKey _ _ _ e.symm
      · obtain ⟨e1, e2⟩ := peerServiceKey_inj _ _ _ _ (hcfg j) (hcfg i) e
        rcases hne with hne | hne
        · exact hne (hinj j i e1)
        · exact hne e2
    simp only [hk, if_false]
    exact hhas

theorem CleanupPending.of_nil (cfg : Nat → Registry) (s : Etcd) (i : Nat) :
    CleanupPending cfg s i [] :=
  ⟨List.nodup_nil, fun v hv => absurd hv (List.not_mem_nil v)⟩

theorem CleanupPending.of_keep (cfg : Nat → Registry) (s s' : Etcd) (j : Nat) (l : List KeyValue)
    (h : CleanupPending cfg s j l)
    (hkeep : ∀ n, s.has (peerServiceKey (cfg j).appFullName n) →
      s'.has (peerServiceKey (cfg j).appFullName n)) :
    CleanupPending cfg s' j l := by
  refine ⟨h.nodup, ?_⟩
  intro v hv
  obtain ⟨n, h1, h2, h3⟩ := h.owned v hv
  refine ⟨n, h1, h2, ?_⟩
  rw [h2] at h3 ⊢
  exact hkeep n h3

/-- The fleet `g` after a step of peer `i` on the fleet `f`, described by what
the step leaves alone. -/
theorem ServiceFleet.paired_of (cfg : Nat → Registry) (f g : ServiceFleet)
    (hg : ServiceFleet.Good cfg f) (i : Nat)
    (hs : ServiceStore cfg g.etcd) (hk : (g.etcd.kvs.map Prod.fst).Nodup)
    (hl : f.etcd.Later g.etcd)
    (hsv : ∀ j, j ≠ i → g.services j = f.services j)
    (hcl : ∀ j, j ≠ i → g.cleanup j = f.cleanup j)
    (hn : ServiceNode cfg g.etcd i (g.services i))
    (hkeep : ∀ j, j ≠ i → ∀ n, f.etcd.has (peerServiceKey (cfg j).appFullName n) →
      g.etcd.has (peerServiceKey (cfg j).appFullName n))
    (hp : CleanupPending cfg g.etcd i (g.cleanup i)) :
    ServiceFleet.Good cfg g := by
  refine ⟨hs, hk, ?_, ?_⟩
  · intro j
    by_cases hj : j = i
    · rw [hj]
      exact hn
    · rw [hsv j hj]
      exact ServiceNode.mono cfg f.etcd g.etcd j _ (hg.node j) hl
  · intro j
    by_cases hj : j = i
    · rw [hj]
      exact hp
    · rw [hcl j hj]
      exact CleanupPending.of_keep cfg f.etcd g.etcd j _ (hg.pending j) (hkeep j hj)

theorem Function.update_other {α : Type} (f : Nat → α) (i j : Nat) (v : α) (h : j ≠ i) :
    Function.update f i v j = f j := by
  simp [Function.update_apply, h]

theorem ServiceFleet.paired_register (cfg : Nat → Registry)
    (hcfg : ∀ i, noSlash (cfg i).appFullName) (f : ServiceFleet)
    (hg : ServiceFleet.Good cfg f) (i : Nat) (n : String) (a : Bool) :
    ServiceFleet.Good cfg (f.step cfg (.RegisterService i n a)) := by
  have hp1 := (hg.node i).servicePrefix_eq
  have hp2 := (hg.node i).peerServicePrefix_eq
  have hkeys := service_registry.RegisterService_keys (f.services i) (cfg i) f.etcd n a hg.keys
  have hother : ∀ j, j ≠ i → (f.step cfg (.RegisterService i n a)).services j = f.services j :=
    fun j hj => Function.update_other _ _ _ _ hj
  have hself : (f.step cfg (.RegisterService i n a)).services i =
      ((f.services i).RegisterService (cfg i) f.etcd n a).self := by
    simp [ServiceFleet.step]
  have hetcd : (f.step cfg (.RegisterService i n a)).etcd =
      ((f.services i).RegisterService (cfg i) f.etcd n a).etcd := rfl
  have hclean : ∀ j, (f.step cfg (.RegisterService i n a)).cleanup j = f.cleanup j :=
    fun j => rfl
  have same : ((f.services i).RegisterService (cfg i) f.etcd n a).etcd = f.etcd →
      ((f.services i).RegisterService (cfg i) f.etcd n a).self = f.services i →
      ServiceFleet.Good cfg (f.step cfg (.RegisterService i n a)) := by
    intro e1 e2
    apply ServiceFleet.paired_of cfg f _ hg i
    · rw [hetcd, e1]; exact hg.store
    · rw [hetcd]; exact hkeys
    · rw [hetcd, e1]; exact Etcd.Later_refl _
    · exact hother
    · exact fun j _ => hclean j
    · rw [hetcd, hself, e1, e2]; exact hg.node i
    · intro j _ m hm
      rw [hetcd, e1]
      exact hm
    · rw [hetcd, hclean, e1]
      exact hg.pending i
  by_cases hv : validServiceName (service_registry.NewServiceName (cfg i) n a)
  · obtain ⟨ty, e⟩ := service_registry.RegisterService_valid (f.services i) (cfg i)
      f.etcd n a hv
    have hk : (f.services i).peerServicePrefix ++
        service_registry.NewServiceName (cfg i) n a =
        peerServiceKey (cfg i).appFullName (service_registry.NewServiceName (cfg i) n a) := by
      rw [hp2]
      rfl
    rw [hp1, hk] at e
    cases hK : GoMap.load f.etcd.kvs
        ("/service/" ++ service_registry.NewServiceName (cfg i) n a) with
    | some kv =>
      rw [service_registry.registerTxn_locked _ _ _ _ _ _ _ kv hK (hg.store.rev _ kv hK).1] at e
      exact same (by rw [e]) (by rw [e])
    | none =>
      obtain ⟨_, hs, hl⟩ := service_registry.registerTxn_free (f.services i) (cfg i)
        f.etcd _ (peerServiceKey (cfg i).appFullName
          (service_registry.NewServiceName (cfg i) n a))
        (service_registry.NewServiceName (cfg i) n a) ty hK
      have hr := service_registry.registerTxn_free_revision (f.services i) (cfg i)
        f.etcd _ (peerServiceKey (cfg i).appFullName
          (service_registry.NewServiceName (cfg i) n a))
        (service_registry.NewServiceName (cfg i) n a) ty hK
      rw [← e] at hs hl hr
      obtain ⟨h1, ⟨kv, hkv, hval, hc⟩, _⟩ := ServiceStore.put_pair cfg hcfg f.etcd _ i _
        hg.store hv hK hr hl
      have hlater := Etcd.Later_of_put_pair cfg f.etcd _ i _ hg.store hK hr hl
      have hgrow := Etcd.has_of_put_pair f.etcd _ _ _ _ _ _ hl
      apply ServiceFleet.paired_of cfg f _ hg i
      · rw [hetcd]; exact h1
      · rw [hetcd]; exact hkeys
      · rw [hetcd]; exact hlater
      · exact hother
      · exact fun j _ => hclean j
      · rw [hetcd, hself, hs]
        refine ⟨hp1, hp2, ?_⟩
        intro e' he'
        rcases GoMap.mem_store _ _ _ _ he' with he' | he'
        · exact (ServiceNode.mono cfg f.etcd _ i _ (hg.node i) hlater).own e' he'
        · rw [he']
          simp only
          refine ⟨by rw [hr], ?_⟩
          intro kv' hkv' _
          rw [hkv] at hkv'
          injection hkv' with hkv'
          rw [← hkv']
          exact hval
      · intro j _ m hm
        rw [hetcd]
        exact hgrow _ hm
      · rw [hetcd, hclean]
        exact CleanupPending.of_keep cfg f.etcd _ i _ (hg.pending i) (fun m hm => hgrow _ hm)
  · have e := service_registry.RegisterService_invalid (f.services i) (cfg i) f.etcd n a hv
    exact same (by rw [e]) (by rw [e])

/-- A step of peer `i` that leaves the store as it was, or takes the two keys of
the name `n` of that peer from it, while no record of the peer's own startup read
waits for its transaction, or with the record of `n` just taken from those. -/
theorem ServiceFleet.paired_delete (cfg : Nat → Registry)
    (hcfg : ∀ i, noSlash (cfg i).appFullName)
    (hinj : ∀ i j, (cfg i).appFullName = (cfg j).appFullName → i = j)
    (f g : ServiceFleet) (hg : ServiceFleet.Good cfg f) (i : Nat) (n : String)
    (hs : ServiceStore cfg g.etcd) (hk : (g.etcd.kvs.map Prod.fst).Nodup)
    (hrev : f.etcd.revision ≤ g.etcd.revision)
    (hload : g.etcd = f.etcd ∨ ∀ k, GoMap.load g.etcd.kvs k =
      if k = "/service/" ++ n ∨ k = peerServiceKey (cfg i).appFullName n then none
      else GoMap.load f.etcd.kvs k)
    (hsv : ∀ j, g.services j = f.services j)
    (hcl : ∀ j, j ≠ i → g.cleanup j = f.cleanup j)
    (hp : CleanupPending cfg g.etcd i (g.cleanup i)) :
    ServiceFleet.Good cfg g := by
  have hlater := Etcd.Later_of_delete f.etcd g.etcd _ _ hrev hload
  apply ServiceFleet.paired_of cfg f g hg i hs hk hlater (fun j _ => hsv j) hcl
  · rw [hsv i]
    exact ServiceNode.mono cfg f.etcd _ i _ (hg.node i) hlater
  · intro j hj m hm
    exact Etcd.has_of_delete_pair cfg hcfg hinj f.etcd g.etcd i n hload j m (Or.inl hj) hm
  · exact hp

theorem ServiceFleet.paired_unregister (cfg : Nat → Registry)
    (hcfg : ∀ i, noSlash (cfg i).appFullName)
    (hinj : ∀ i j, (cfg i).appFullName = (cfg j).appFullName → i = j)
    (f : ServiceFleet) (hg : ServiceFleet.Good cfg f) (i : Nat) (n : String)
    (hidle : f.cleanup i = []) :
    ServiceFleet.Good cfg (f.step cfg (.UnregisterService i n)) := by
  have hp1 := (hg.node i).servicePrefix_eq
  have hp2 := (hg.node i).peerServicePrefix_eq
  obtain ⟨he, hself⟩ := service_registry.UnregisterService_etcd (f.services i) (cfg i)
    f.etcd n
  have hk : (f.services i).peerServicePrefix ++ n =
      peerServiceKey (cfg i).appFullName n := by
    rw [hp2]
    rfl
  rw [hp1, hk] at he
  have key := ServiceStore.txn_delete_pair cfg hcfg f.etcd i n hg.store
    [Cmp.Value ("/service/" ++ n) .equal (cfg i).appFullName,
      Cmp.CreateRevision ("/service/" ++ n) .notEqual 0]
    [Op.OpDelete (peerServiceKey (cfg i).appFullName n), Op.OpDelete ("/service/" ++ n)]
    [Op.OpGet ("/service/" ++ n)] (Or.inl rfl) (Or.inr ⟨_, rfl⟩) (by
      intro hgd kv hkv
      simp only [List.all_cons, List.all_nil, Bool.and_true, Bool.and_eq_true, Cmp.holds,
        hkv, decide_eq_true_eq] at hgd
      exact hgd.1)
  have hetcd : (f.step cfg (.UnregisterService i n)).etcd =
      (f.etcd.Txn
        [Cmp.Value ("/service/" ++ n) .equal (cfg i).appFullName,
          Cmp.CreateRevision ("/service/" ++ n) .notEqual 0]
        [Op.OpDelete (peerServiceKey (cfg i).appFullName n), Op.OpDelete ("/service/" ++ n)]
        [Op.OpGet ("/service/" ++ n)]).1 := he
  apply ServiceFleet.paired_delete cfg hcfg hinj f _ hg i n
  · rw [hetcd]; exact key.1
  · rw [hetcd]; exact Etcd.Txn_keys _ _ _ _ hg.keys
  · rw [hetcd]; exact Etcd.Txn_revision_le _ _ _ _
  · rw [hetcd]; exact key.2
  · intro j
    by_cases hj : j = i
    · rw [hj]
      simp [ServiceFleet.step, hself]
    · exact Function.update_other _ _ _ _ hj
  · exact fun j _ => rfl
  · have e : (f.step cfg (.UnregisterService i n)).cleanup i = [] := hidle
    rw [e]
    exact CleanupPending.of_nil cfg _ i

theorem GoMap.mem_of_load_key {β : Type} (m : List (String × β)) (k : String) (v : β)
    (h : GoMap.load m k = some v) : (k, v) ∈ m := by
  induction m with
  | nil => simp [GoMap.load] at h
  | cons e t ih =>
    obtain ⟨a, b⟩ := e
    by_cases hk : a = k
    · simp only [GoMap.load, hk, if_true, Option.some.injEq] at h
      rw [hk, h]
      exact List.mem_cons_self _ _
    · simp only [GoMap.load, hk, if_false] at h
      exact List.mem_cons_of_mem _ (ih h)

theorem ServiceFleet.paired_unregisterTxn (cfg : Nat → Registry)
    (hcfg : ∀ i, noSlash (cfg i).appFullName)
    (hinj : ∀ i j, (cfg i).appFullName = (cfg j).appFullName → i = j)
    (f : ServiceFleet) (hg : ServiceFleet.Good cfg f) (i : Nat) (n : String)
    (hidle : f.cleanup i = []) :
    ServiceFleet.Good cfg (f.step cfg (.unregisterTxn i n)) := by
  have hp1 := (hg.node i).servicePrefix_eq
  have hp2 := (hg.node i).peerServicePrefix_eq
  cases hload : GoMap.load (f.services i).selfServices n with
  | none =>
    have e : f.step cfg (.unregisterTxn i n) = f := by
      simp only [ServiceFleet.step, hload]
    rw [e]
    exact hg
  | some service =>
    have e : f.step cfg (.unregisterTxn i n) =
        { f with etcd := (f.services i).unregisterOne f.etcd (n, service) } := by
      simp only [ServiceFleet.step, hload]
    rw [e]
    have hmem := GoMap.mem_of_load_key _ _ _ hload
    have hk : (f.services i).peerServicePrefix ++ n = peerServiceKey (cfg i).appFullName n := by
      rw [hp2]
      rfl
    have key := ServiceStore.txn_delete_pair cfg hcfg f.etcd i n hg.store
      [Cmp.CreateRevision ("/service/" ++ n) .equal service.CreateRevision]
      [Op.OpDelete ("/service/" ++ n), Op.OpDelete (peerServiceKey (cfg i).appFullName n)] []
      (Or.inr rfl) (Or.inl rfl) (by
        intro hgd kv hkv
        apply ((hg.node i).own (n, service) hmem).2 kv hkv
        simpa [Cmp.holds, createRevisionOf, hkv] using hgd)
    have hu : (f.services i).unregisterOne f.etcd (n, service) =
        (f.etcd.Txn [Cmp.CreateRevision ("/service/" ++ n) .equal service.CreateRevision]
          [Op.OpDelete ("/service/" ++ n), Op.OpDelete (peerServiceKey (cfg i).appFullName n)]
          []).1 := by
      unfold service_registry.unregisterOne
      simp only [hp1, hk]
    rw [hu]
    apply ServiceFleet.paired_delete cfg hcfg hinj f _ hg i n
    · exact key.1
    · exact Etcd.Txn_keys _ _ _ _ hg.keys
    · exact Etcd.Txn_revision_le _ _ _ _
    · exact key.2
    · exact fun j => rfl
    · exact fun j _ => rfl
    · show CleanupPending cfg _ i (f.cleanup i)
      rw [hidle]
      exact CleanupPending.of_nil cfg _ i

theorem ServiceFleet.paired_initGet (cfg : Nat → Registry)
    (hcfg : ∀ i, noSlash (cfg i).appFullName) (f : ServiceFleet)
    (hg : ServiceFleet.Good cfg f) (i : Nat) :
    ServiceFleet.Good cfg (f.step cfg (.initGet i)) := by
  have hp2 := (hg.node i).peerServicePrefix_eq
  apply ServiceFleet.paired_of cfg f (f.step cfg (.initGet i)) hg i hg.store hg.keys
    (Etcd.Later_refl _) (fun j _ => rfl) (fun j hj => Function.update_other _ _ _ _ hj)
    (hg.node i) (fun j _ m hm => hm)
  have e : (f.step cfg (.initGet i)).cleanup i =
      f.etcd.getPrefix (f.services i).peerServicePrefix := by
    simp [ServiceFleet.step]
  rw [e]
  refine ⟨Etcd.getPrefix_keys _ _ hg.keys, ?_⟩
  intro v hv
  obtain ⟨hhas, rest, hrest⟩ := Etcd.mem_getPrefix _ _ _ hv
  have hkey : v.Key = peerServiceKey (cfg i).appFullName rest := by
    rw [hrest, hp2]
    rfl
  rcases hg.store.form v.Key hhas with ⟨m, hm⟩ | ⟨j, m, hvm, hm⟩
  · rw [hkey] at hm
    exact absurd hm.symm (ne_service_peerServiceKey _ _ _)
  · rw [hkey] at hm
    obtain ⟨_, e2⟩ := peerServiceKey_inj _ _ _ _ (hcfg i) (hcfg j) hm
    exact ⟨rest, by rw [e2]; exact hvm, hkey, hhas⟩

theorem ServiceFleet.paired_initTxn (cfg : Nat → Registry)
    (hcfg : ∀ i, noSlash (cfg i).appFullName)
    (hinj : ∀ i j, (cfg i).appFullName = (cfg j).appFullName → i = j)
    (f : ServiceFleet) (hg : ServiceFleet.Good cfg f) (i : Nat) :
    ServiceFleet.Good cfg (f.step cfg (.initTxn i)) := by
  have hp1 := (hg.node i).servicePrefix_eq
  have hp2 := (hg.node i).peerServicePrefix_eq
  cases hc : f.cleanup i with
  | nil =>
    have e : f.step cfg (.initTxn i) = f := by
      simp only [ServiceFleet.step, hc]
    rw [e]
    exact hg
  | cons v rest =>
    have e : f.step cfg (.initTxn i) =
        { f with
          etcd := (f.services i).cleanupOne f.etcd v
          cleanup := Function.update f.cleanup i rest } := by
      simp only [ServiceFleet.step, hc]
    rw [e]
    have hpend := hg.pending i
    rw [hc] at hpend
    obtain ⟨n, hv, hkey, hhas⟩ := hpend.owned v (List.mem_cons_self _ _)
    obtain ⟨h1, h2⟩ := service_registry.cleanupOne_spec cfg hcfg i (f.services i) hp1 hp2
      f.etcd hg.store v n hv hkey (Or.inl hhas)
    apply ServiceFleet.paired_delete cfg hcfg hinj f _ hg i n h1
    · unfold service_registry.cleanupOne
      exact Etcd.Txn_keys _ _ _ _ hg.keys
    · unfold service_registry.cleanupOne
      exact Etcd.Txn_revision_le _ _ _ _
    · exact h2
    · exact fun j => rfl
    · exact fun j hj => Function.update_other _ _ _ _ hj
    · have ec : Function.update f.cleanup i rest i = rest := by simp
      show CleanupPending cfg ((f.services i).cleanupOne f.etcd v) i
        (Function.update f.cleanup i rest i)
      rw [ec]
      have hnd := hpend.nodup
      simp only [List.map_cons, List.nodup_cons] at hnd
      refine ⟨hnd.2, ?_⟩
      intro w hw
      obtain ⟨m, hm1, hm2, hm3⟩ := hpend.owned w (List.mem_cons_of_mem _ hw)
      refine ⟨m, hm1, hm2, ?_⟩
      have hmn : m ≠ n := by
        intro emn
        apply hnd.1
        rw [hkey, ← emn, ← hm2]
        exact List.mem_map.2 ⟨w, hw, rfl⟩
      rw [hm2] at hm3 ⊢
      exact Etcd.has_of_delete_pair cfg hcfg hinj f.etcd _ i n h2 i m (Or.inr hmn) hm3

/-- A step of peer `i` that changes nothing but the registry of the peer in
memory. -/
theorem ServiceFleet.paired_local (cfg : Nat → Registry) (f : ServiceFleet)
    (hg : ServiceFleet.Good cfg f) (i : Nat) (reg : service_registry)
    (hn : ServiceNode cfg f.etcd i reg) :
    ServiceFleet.Good cfg { f with services := Function.update f.services i reg } := by
  apply ServiceFleet.paired_of cfg f { f with services := Function.update f.services i reg } hg i
    hg.store hg.keys (Etcd.Later_refl _)
    (fun j hj => Function.update_other _ _ _ _ hj) (fun j _ => rfl)
  · show ServiceNode cfg f.etcd i (Function.update f.services i reg i)
    simp only [Function.update_same]
    exact hn
  · exact fun j _ m hm => hm
  · exact hg.pending i

theorem ServiceFleet.paired_step (cfg : Nat → Registry)
    (hcfg : ∀ i, noSlash (cfg i).appFullName)
    (hinj : ∀ i j, (cfg i).appFullName = (cfg j).appFullName → i = j)
    (f : ServiceFleet) (hg : ServiceFleet.Good cfg f) (c : ServiceCall)
    (hidle : ∀ i, c.unregisters = some i → f.cleanup i = []) :
    ServiceFleet.Good cfg (f.step cfg c) := by
  cases c with
  | RegisterService i n a => exact ServiceFleet.paired_register cfg hcfg f hg i n a
  | UnregisterService i n =>
    exact ServiceFleet.paired_unregister cfg hcfg hinj f hg i n (hidle i rfl)
  | unregisterTxn i n =>
    exact ServiceFleet.paired_unregisterTxn cfg hcfg hinj f hg i n (hidle i rfl)
  | initGet i => exact ServiceFleet.paired_initGet cfg hcfg f hg i
  | initTxn i => exact ServiceFleet.paired_initTxn cfg hcfg hinj f hg i
  | initLoad i =>
    exact ServiceFleet.paired_local cfg f hg i _
      (ServiceNode.of_loadServices cfg f.etcd i (cfg i) hg.store _ (hg.node i))
  | restart i =>
    apply ServiceFleet.paired_of cfg f (f.step cfg (.restart i)) hg i hg.store hg.keys
      (Etcd.Later_refl _) (fun j hj => Function.update_other _ _ _ _ hj)
      (fun j hj => Function.update_other _ _ _ _ hj)
    · show ServiceNode cfg f.etcd i
        (Function.update f.services i (newConfigServiceRegistry (cfg i)) i)
      simp only [Function.update_same]
      exact ServiceNode.fresh cfg f.etcd i
    · exact fun j _ m hm => hm
    · show CleanupPending cfg f.etcd i (Function.update f.cleanup i [] i)
      simp only [Function.update_same]
      exact CleanupPending.of_nil cfg _ i
  | onKvAdd i kv =>
    exact ServiceFleet.paired_local cfg f hg i _
      (ServiceNode.of_onKvAdd cfg f.etcd i _ (cfg i) kv hg.store (hg.node i))
  | onKvDelete i key =>
    exact ServiceFleet.paired_local cfg f hg i _
      (ServiceNode.of_onKvDelete cfg f.etcd i _ (cfg i) key (hg.node i))

theorem ServiceFleet.paired_start (cfg : Nat → Registry) :
    ServiceFleet.Good cfg (ServiceFleet.init cfg) := by
  refine ⟨⟨?_, ?_, ?_, ?_, ?_⟩, ?_, fun i => ServiceNode.fresh cfg _ i,
    fun i => CleanupPending.of_nil cfg _ i⟩
  · intro k kv h
    simp [ServiceFleet.init, Etcd.empty, GoMap.load] at h
  · intro k h
    simp [ServiceFleet.init, Etcd.empty, Etcd.has, GoMap.load] at h
  · intro n kv h
    simp [ServiceFleet.init, Etcd.empty, GoMap.load] at h
  · intro i n h
    simp [ServiceFleet.init, Etcd.empty, Etcd.has, GoMap.load] at h
  · intro i n h
    obtain ⟨kv, h, _⟩ := h
    simp [ServiceFleet.init, Etcd.empty, GoMap.load] at h
  · simp [ServiceFleet.init, Etcd.empty]

theorem ServiceFleet.paired_run (cfg : Nat → Registry)
    (hcfg : ∀ i, noSlash (cfg i).appFullName)
    (hinj : ∀ i j, (cfg i).appFullName = (cfg j).appFullName → i = j)
    (calls : List ServiceCall) :
    ∀ f, ServiceFleet.Good cfg f → f.orderly cfg calls = true →
      ServiceFleet.Good cfg (ServiceFleet.run cfg f calls) := by
  induction calls with
  | nil => intro f h _; exact h
  | cons c cs ih =>
    intro f h ho
    simp only [ServiceFleet.orderly, Bool.and_eq_true] at ho
    have hidle : ∀ i, c.unregisters = some i → f.cleanup i = [] := by
      intro i hi
      have h1 := ho.1
      rw [hi] at h1
      simpa using h1
    exact ih _ (ServiceFleet.paired_step cfg hcfg hinj f h c hidle) ho.2

theorem distinctFleet_noSlash (i : Nat) : noSlash (distinctFleet i).appFullName := by
  unfold noSlash
  show '/' ∉ (distinctPeer i).FullName.data
  unfold distinctPeer
  by_cases h0 : i = 0
  · simp only [h0, if_true]
    decide
  · by_cases h1 : i = 1
    · simp only [h1]
      decide
    · simp only [h0, h1, if_false, idlePlain, String.data_append]
      intro hmem
      rcases List.mem_append.1 hmem with hm | hm
      · revert hm
        decide
      · have := List.eq_of_mem_replicate hm
        revert this
        decide

theorem distinctFleet_injective (i j : Nat)
    (h : (distinctFleet i).appFullName = (distinctFleet j).appFullName) : i = j := by
  have hd : (distinctPeer i).FullName.data = (distinctPeer j).FullName.data :=
    congrArg String.data h
  have idle : ∀ k, k ≠ 0 → k ≠ 1 →
      (distinctPeer k).FullName.data = 'i' :: 'd' :: 'l' :: 'e' :: '_' :: List.replicate k 'x' := by
    intro k k0 k1
    simp [distinctPeer, k0, k1, idlePlain, String.data_append]
  have hall : (distinctPeer 0).FullName.data = ['h', 'a', 'l', 'l', '_', '1'] := by decide
  have game : (distinctPeer 1).FullName.data = ['g', 'a', 'm', 'e', '_', '1'] := by decide
  by_cases i0 : i = 0
  · by_cases j0 : j = 0
    · rw [i0, j0]
    · by_cases j1 : j = 1
      · rw [i0, j1, hall, game] at hd
        exact absurd hd (by decide)
      · rw [i0, hall, idle j j0 j1] at hd
        simp at hd
  · by_cases i1 : i = 1
    · by_cases j0 : j = 0
      · rw [i1, j0, hall, game] at hd
        exact absurd hd (by decide)
      · by_cases j1 : j = 1
        · rw [i1, j1]
        · rw [i1, game, idle j j0 j1] at hd
          simp at hd
    · by_cases j0 : j = 0
      · rw [j0, hall, idle i i0 i1] at hd
        simp at hd
      · by_cases j1 : j = 1
        · rw [j1, game, idle i i0 i1] at hd
          simp at hd
        · rw [idle i i0 i1, idle j j0 j1] at hd
          have hlen := congrArg List.length hd
          simpa using hlen

theorem ServiceFleet.run_initTxn (cfg : Nat → Registry) (i : Nat) (l : List KeyValue) :
    ∀ f : ServiceFleet, f.cleanup i = l →
      (ServiceFleet.run cfg f (List.replicate l.length (.initTxn i))).etcd =
        l.foldl (f.services i).cleanupOne f.etcd ∧
      (ServiceFleet.run cfg f (List.replicate l.length (.initTxn i))).services = f.services ∧
      (ServiceFleet.run cfg f (List.replicate l.length (.initTxn i))).cleanup i = [] := by
  induction l with
  | nil => intro f h; exact ⟨rfl, rfl, h⟩
  | cons v rest ih =>
    intro f h
    have e : f.step cfg (.initTxn i) =
        { f with
          etcd := (f.services i).cleanupOne f.etcd v
          cleanup := Function.update f.cleanup i rest } := by
      simp only [ServiceFleet.step, h]
    obtain ⟨i1, i2, i3⟩ := ih (f.step cfg (.initTxn i)) (by rw [e]; simp)
    simp only [List.length_cons, List.replicate_succ, ServiceFleet.run, List.foldl_cons] at i1 i2 i3 ⊢
    rw [i1, i2, i3, e]
    exact ⟨rfl, rfl, rfl⟩

/-- The method `initServices`, run with no step of another peer in between, is
the run of its first read, one transaction for each record read, and its second
read. -/
theorem initServices_is_a_run (cfg : Nat → Registry) (f : ServiceFleet) (i : Nat) :
    (ServiceFleet.run cfg f
      (.initGet i ::
        (List.replicate (f.etcd.getPrefix (f.services i).peerServicePrefix).length (.initTxn i) ++
          [.initLoad i]))).etcd = ((f.services i).initServices (cfg i) f.etcd).etcd ∧
    (ServiceFleet.run cfg f
      (.initGet i ::
        (List.replicate (f.etcd.getPrefix (f.services i).peerServicePrefix).length (.initTxn i) ++
          [.initLoad i]))).services i = ((f.services i).initServices (cfg i) f.etcd).self := by
  obtain ⟨h1, h2, _⟩ := ServiceFleet.run_initTxn cfg i
    (f.etcd.getPrefix (f.services i).peerServicePrefix) (f.step cfg (.initGet i))
    (by simp [ServiceFleet.step])
  have e1 : (f.step cfg (.initGet i)).etcd = f.etcd := rfl
  have e2 : (f.step cfg (.initGet i)).services = f.services := rfl
  rw [e1, e2] at h1
  rw [e2] at h2
  have hetcd : ∀ g : ServiceFleet, (g.step cfg (.initLoad i)).etcd = g.etcd := fun g => rfl
  have hself : ∀ g : ServiceFleet, (g.step cfg (.initLoad i)).services i =
      ((g.services i).loadServices (cfg i) g.etcd).self := by
    intro g
    simp [ServiceFleet.step]
  have hload : ∀ (self : service_registry) (r : Registry) (s : Etcd),
      (self.loadServices r s).etcd = s := by
    intro self r s
    unfold service_registry.loadServices
    simp only []
    split <;> rfl
  simp only [ServiceFleet.run, List.foldl_cons, List.foldl_append, List.foldl_nil] at h1 h2 ⊢
  refine ⟨?_, ?_⟩
  · rw [hetcd, h1]
    unfold service_registry.initServices
    rw [hload]
  · rw [hself, h1, h2]
    rfl

theorem GoMap.load_of_mem {β : Type} (m : List (String × β)) (e : String × β)
    (hk : (m.map Prod.fst).Nodup) (he : e ∈ m) : GoMap.load m e.1 = some e.2 := by
  induction m with
  | nil => simp at he
  | cons a t ih =>
    obtain ⟨k, v⟩ := a
    simp only [List.map_cons, List.nodup_cons] at hk
    rcases List.mem_cons.1 he with h | h
    · rw [h]
      simp [GoMap.load]
    · have hne : ¬ k = e.1 := by
        intro ek
        apply hk.1
        rw [ek]
        exact List.mem_map.2 ⟨e, h, rfl⟩
      simp only [GoMap.load, hne, if_false]
      exact ih hk.2 h

theorem ServiceFleet.run_unregisterTxn (cfg : Nat → Registry) (i : Nat)
    (l : List (String × ServiceName)) :
    ∀ f : ServiceFleet, (∀ e ∈ l, GoMap.load (f.services i).selfServices e.1 = some e.2) →
      (ServiceFleet.run cfg f (l.map (fun e => .unregisterTxn i e.1))).etcd =
        l.foldl (f.services i).unregisterOne f.etcd ∧
      (ServiceFleet.run cfg f (l.map (fun e => .unregisterTxn i e.1))).services = f.services := by
  induction l with
  | nil => intro f _; exact ⟨rfl, rfl⟩
  | cons e rest ih =>
    intro f h
    have he := h e (List.mem_cons_self _ _)
    have es : f.step cfg (.unregisterTxn i e.1) =
        { f with etcd := (f.services i).unregisterOne f.etcd (e.1, e.2) } := by
      simp only [ServiceFleet.step, he]
    obtain ⟨i1, i2⟩ := ih (f.step cfg (.unregisterTxn i e.1)) (by
      intro e' he'
      rw [es]
      exact h e' (List.mem_cons_of_mem _ he'))
    simp only [List.map_cons, ServiceFleet.run, List.foldl_cons] at i1 i2 ⊢
    rw [i1, i2, es]
    exact ⟨rfl, rfl⟩

/-- The shutdown pass `unregisterServices`, run with no step of another peer in
between, is the run of one transaction for each binding of the own services. -/
theorem unregisterServices_is_a_run (cfg : Nat → Registry) (f : ServiceFleet) (i : Nat)
    (hk : ((f.services i).selfServices.map Prod.fst).Nodup) :
    (ServiceFleet.run cfg f
      ((f.services i).selfServices.map (fun e => .unregisterTxn i e.1))).etcd =
      ((f.services i).unregisterServices f.etcd).etcd :=
  (ServiceFleet.run_unregisterTxn cfg i (f.services i).selfServices f
    (fun e he => GoMap.load_of_mem _ e hk he)).1

/-- C11: for peers whose full names have no slash and differ from each other,
after every sequence of steps of the service registries from the empty store, at
the grain of single requests to the store and in any interleaving of the peers
(the transactions of RegisterService and UnregisterService, each transaction of
the shutdown pass `unregisterServices`, the first read of `initServices`, each
transaction of its cleanup and its second read, a start anew, watch events), in
which no peer unregisters while records of its own startup read still wait for
their transaction: the key `/peer/service/<P>/<n>` of a peer `P` is in the store
exactly when `/service/<n>` is there with the value `P`; the value of a service
key is the full name of a peer, and a name has one owner value. -/
theorem service_keys_stay_paired (cfg : Nat → Registry)
    (hcfg : ∀ i, noSlash (cfg i).appFullName)
    (hinj : ∀ i j, (cfg i).appFullName = (cfg j).appFullName → i = j)
    (calls : List ServiceCall)
    (horder : (ServiceFleet.init cfg).orderly cfg calls = true) (i : Nat) (n : String) :
    ((ServiceFleet.run cfg (ServiceFleet.init cfg) calls).etcd.has
        (peerServiceKey (cfg i).appFullName n) ↔
      (ServiceFleet.run cfg (ServiceFleet.init cfg) calls).etcd.serviceOwner n
        (cfg i).appFullName) ∧
    (∀ kv, GoMap.load (ServiceFleet.run cfg (ServiceFleet.init cfg) calls).etcd.kvs
        ("/service/" ++ n) = some kv → ∃ j, kv.Value = (cfg j).appFullName) ∧
    (∀ P Q, (ServiceFleet.run cfg (ServiceFleet.init cfg) calls).etcd.serviceOwner n P →
      (ServiceFleet.run cfg (ServiceFleet.init cfg) calls).etcd.serviceOwner n Q → P = Q) := by
  have hg := ServiceFleet.paired_run cfg hcfg hinj calls _ (ServiceFleet.paired_start cfg) horder
  refine ⟨⟨hg.store.peer_service i n, hg.store.service_peer i n⟩, hg.store.owner n, ?_⟩
  rintro P Q ⟨kv, h1, h2⟩ ⟨kv', h3, h4⟩
  rw [h1] at h3
  injection h3 with h3
  rw [← h2, ← h4, h3]

/-- Witness of `service_keys_stay_paired`: the peers of `distinctFleet` and the
steps of `plainCalls`; after them the two keys of `1/chat` are there for
`game_1` and the two keys of `chat` are gone. -/
theorem service_keys_stay_paired_witness :
    (∀ i, noSlash (distinctFleet i).appFullName) ∧
    (∀ i j, (distinctFleet i).appFullName = (distinctFleet j).appFullName → i = j) ∧
    (ServiceFleet.init distinctFleet).orderly distinctFleet plainCalls = true ∧
    ((ServiceFleet.run distinctFleet (ServiceFleet.init distinctFleet) plainCalls).etcd.has
        (peerServiceKey (distinctFleet 1).appFullName "1/chat") ↔
      (ServiceFleet.run distinctFleet (ServiceFleet.init distinctFleet) plainCalls).etcd.serviceOwner
        "1/chat" (distinctFleet 1).appFullName) ∧
    (ServiceFleet.run distinctFleet (ServiceFleet.init distinctFleet) plainCalls).etcd.has
        (peerServiceKey "game_1" "1/chat") ∧
    GoMap.load (ServiceFleet.run distinctFleet (ServiceFleet.init distinctFleet) plainCalls).etcd.kvs
      "/service/chat" = none ∧
    GoMap.load (ServiceFleet.run distinctFleet (ServiceFleet.init distinctFleet) plainCalls).etcd.kvs
      (peerServiceKey "hall_1" "chat") = none :=
  ⟨distinctFleet_noSlash, distinctFleet_injective, by decide,
    (service_keys_stay_paired distinctFleet distinctFleet_noSlash distinctFleet_injective
      plainCalls (by decide) 1 "1/chat").1, by decide, by decide, by decide⟩

/-- Counterexample to C11 as stated, in three sequences of steps.  First, the
peers `hall/1` and `game/1`, whose full names have the form `<type>/<id>`:
`game/1` registers `1/chat` with success, `hall/1` registers `chat`, then
`hall/1` starts anew and runs `initServices`, with no step of another peer in
between.  The cleanup reads the name `1/chat` from its own key
`/peer/service/hall/1/chat` and deletes `/service/1/chat`, so that
`/peer/service/game/1/1/chat` is left without `/service/1/chat`, while
`/service/chat` and `/peer/service/hall/1/chat` stay.  Second, the peers `hall_1`
and `game_1` and the steps of `staleCalls`, in which `hall_1` unregisters `chat`
between the read and the transaction of its own cleanup: the transaction, issued
for the key read before, deletes `/service/chat` of `game_1`, and
`/peer/service/game_1/chat` is left alone.  Third, two peers under the full name
`game_1` and the steps of `twinCalls`: the cleanup of the second one deletes
`/service/chat` of `hall_1`, and `/peer/service/hall_1/chat` is left alone. -/
theorem startup_cleanup_breaks_pairing :
    ((((ServiceFleet.init mixedFleet).services 1).RegisterService (mixedFleet 1)
        (ServiceFleet.init mixedFleet).etcd "1/chat" false).reply = .ret none none ∧
      (GoMap.load slashFleetAfterInit.etcd.kvs (peerServiceKey "game/1" "1/chat")).isSome = true ∧
      GoMap.load slashFleetAfterInit.etcd.kvs "/service/1/chat" = none ∧
      (GoMap.load slashFleetAfterInit.etcd.kvs "/service/chat").map KeyValue.Value
        = some "hall/1" ∧
      (GoMap.load slashFleetAfterInit.etcd.kvs (peerServiceKey "hall/1" "chat")).isSome = true) ∧
    ((ServiceFleet.run distinctFleet (ServiceFleet.init distinctFleet) staleCalls).etcd.has
        (peerServiceKey "game_1" "chat") ∧
      GoMap.load (ServiceFleet.run distinctFleet (ServiceFleet.init distinctFleet) staleCalls).etcd.kvs
        "/service/chat" = none) ∧
    ((ServiceFleet.run twinFleet (ServiceFleet.init twinFleet) twinCalls).etcd.has
        (peerServiceKey "hall_1" "chat") ∧
      GoMap.load (ServiceFleet.run twinFleet (ServiceFleet.init twinFleet) twinCalls).etcd.kvs
        "/service/chat" = none) := by
  decide

/-- The two sequences of the counterexample without a slash in the names are
the ones that the conditions of C11 exclude: in `staleCalls` a peer unregisters
while a record of its own startup read waits, and in `twinCalls`, which is
orderly, two peers have the same full name. -/
theorem excluded_sequences :
    (ServiceFleet.init distinctFleet).orderly distinctFleet staleCalls = false ∧
    (ServiceFleet.init twinFleet).orderly twinFleet twinCalls = true ∧
    (twinFleet 1).appFullName = (twinFleet 2).appFullName := by
  decide

/-! ## Player watch events (C21) -/

/-- C21: a put event whose key has five words, whose value is a decimal login
time and whose user id is already in the local player map returns no error,
leaves the registry as it is and fires nothing; a delete event whose key has
five words and whose user id is not in the map does the same. -/
theorem player_watch_events_idempotent (self : player_registry) (r : Registry)
    (kvAdd kvDelete : KeyValue) (u v : String) (t : Int) (p : LocalPlayer)
    (hu : playerKeyUser kvAdd.Key = some u) (ht : Atoi kvAdd.Value = .ok t)
    (hp : GoMap.load self.localPlayers u = some p)
    (hv : playerKeyUser kvDelete.Key = some v)
    (hn : GoMap.load self.localPlayers v = none) :
    self.onLocalKvAdd r kvAdd = (self, [], none) ∧
    self.onLocalKvDelete r kvDelete = (self, [], none) := by
  constructor
  · unfold playerKeyUser at hu
    unfold player_registry.onLocalKvAdd
    split at hu
    · rename_i a b c d userId hs
      injection hu with hu
      subst hu
      simp only [hs, ht, hp]
    · exact absurd hu (by simp)
  · unfold playerKeyUser at hv
    unfold player_registry.onLocalKvDelete
    split at hv
    · rename_i a b c d userId hs
      injection hv with hv
      subst hv
      simp only [hs, hn]
    · exact absurd hv (by simp)

/-- Witness of `player_watch_events_idempotent`: `hall_1` knows `u` and not `v`. -/
theorem player_watch_events_idempotent_witness :
    knowsU.onLocalKvAdd (registryOf hallPlain)
        { Key := "/peer/user/hall_1/u", CreateRevision := 9, ModRevision := 9, Version := 1,
          Value := "250", Lease := 0 } = (knowsU, [], none) ∧
    knowsU.onLocalKvDelete (registryOf hallPlain)
        { Key := "/peer/user/hall_1/v", CreateRevision := 9, ModRevision := 9, Version := 1,
          Value := "", Lease := 0 } = (knowsU, [], none) :=
  player_watch_events_idempotent knowsU (registryOf hallPlain) _ _ "u" "v" 250
    { LoginTime := 100, UserId := "u", CreateRevision := 2 } (by decide) rfl (by decide)
    (by decide) (by decide)

/-- Counterexample to C21 as stated: `hall_1` knows `u`; a put event for the key
of `u` whose value is not a number returns the error of `Atoi`. -/
theorem put_event_with_bad_value_is_an_error :
    GoMap.load knowsU.localPlayers "u" =
      some { LoginTime := 100, UserId := "u", CreateRevision := 2 } ∧
    (knowsU.onLocalKvAdd (registryOf hallPlain)
        { Key := "/peer/user/hall_1/u", CreateRevision := 9, ModRevision := 9, Version := 1,
          Value := "abc", Lease := 0 }).2.2 = some .ErrAtoi ∧
    (knowsU.onLocalKvAdd (registryOf hallPlain)
        { Key := "/peer/user/hall_1/u", CreateRevision := 9, ModRevision := 9, Version := 1,
          Value := "abc", Lease := 0 }).1.localPlayers = knowsU.localPlayers := by
  decide

/-! ## Startup recovery of the players (C25) -/

theorem Split_player_key (P u : String) (hP : noSlash P) (hu : noSlash u) :
    Split ("/peer/user/" ++ P ++ "/" ++ u) = ["", "peer", "user", P, u] := by
  unfold Split
  have hd : ("/peer/user/" ++ P ++ "/" ++ u).data =
      [] ++ '/' :: (['p', 'e', 'e', 'r'] ++ '/' ::
        (['u', 's', 'e', 'r'] ++ '/' :: (P.data ++ '/' :: u.data))) := by
    simp [String.data_append]
  rw [hd, splitChars_append_sep, splitChars_append_sep, splitChars_append_sep,
    splitChars_append_sep, splitChars_noSlash P.data hP, splitChars_noSlash u.data hu]
  simp [splitChars]

theorem player_registry.onLocalKvAdd_good (self : player_registry) (r : Registry)
    (kv : KeyValue) (P u : String) (hP : noSlash P) (hu : noSlash u)
    (hk : kv.Key = "/peer/user/" ++ P ++ "/" ++ u) (t : Int) (ht : Atoi kv.Value = .ok t) :
    (self.onLocalKvAdd r kv).2.2 = none ∧
    (self.onLocalKvAdd r kv).1.localPlayers =
      match GoMap.load self.localPlayers u with
      | some _ => self.localPlayers
      | none => GoMap.store self.localPlayers u (playerOf u kv) := by
  have hl : loginTimeOf kv.Value = t := by simp [loginTimeOf, ht]
  unfold player_registry.onLocalKvAdd
  rw [hk, Split_player_key P u hP hu]
  simp only [ht]
  cases hload : GoMap.load self.localPlayers u with
  | some p => exact ⟨rfl, rfl⟩
  | none => exact ⟨rfl, by simp only [playerOf, hl]⟩

theorem recoverLoop_spec (r : Registry) (P : String) (hP : noSlash P) (l : List KeyValue) :
    ∀ reg : player_registry,
      (∀ v ∈ l, ∃ u t, noSlash u ∧ v.Key = "/peer/user/" ++ P ++ "/" ++ u ∧
        Atoi v.Value = .ok t) →
      (recoverLoop r l reg).2.2 = none ∧
      ∀ u, GoMap.load (recoverLoop r l reg).1.localPlayers u =
        match GoMap.load reg.localPlayers u with
        | some p => some p
        | none =>
          (l.find? (fun v => decide (v.Key = "/peer/user/" ++ P ++ "/" ++ u))).map (playerOf u) := by
  induction l with
  | nil =>
    intro reg _
    refine ⟨rfl, ?_⟩
    intro u
    simp only [recoverLoop, List.find?_nil, Option.map_none']
    cases GoMap.load reg.localPlayers u <;> rfl
  | cons v rest ih =>
    intro reg hl
    obtain ⟨u0, t, hu0, hk, ht⟩ := hl v (List.mem_cons_self _ _)
    obtain ⟨h1, h2⟩ := player_registry.onLocalKvAdd_good reg r v P u0 hP hu0 hk t ht
    obtain ⟨h3, h4⟩ := ih (reg.onLocalKvAdd r v).1 (fun v' hv' => hl v' (List.mem_cons_of_mem _ hv'))
    have hstep : recoverLoop r (v :: rest) reg =
        ((recoverLoop r rest (reg.onLocalKvAdd r v).1).1,
          (reg.onLocalKvAdd r v).2.1 ++ (recoverLoop r rest (reg.onLocalKvAdd r v).1).2.1,
          (recoverLoop r rest (reg.onLocalKvAdd r v).1).2.2) := by
      rw [recoverLoop]
      split
      · rename_i e
        rw [e] at h1
        exact absurd h1 (by simp)
      · rename_i e
        rw [e]
    rw [hstep]
    refine ⟨h3, ?_⟩
    intro u
    simp only
    rw [h4 u, h2]
    by_cases hu : u0 = u
    · subst hu
      cases hload : GoMap.load reg.localPlayers u0 with
      | some p => simp only [hload]
      | none =>
        simp only [GoMap.load_store, if_true, List.find?_cons, hk, decide_True,
          Option.map_some']
    · have hne : ¬ v.Key = "/peer/user/" ++ P ++ "/" ++ u := by
        rw [hk]
        intro e
        exact hu (key_inj _ _ _ e)
      cases hload : GoMap.load reg.localPlayers u0 with
      | some p => simp only [List.find?_cons, hne, decide_False]
      | none => simp only [GoMap.load_store, hu, if_false, List.find?_cons, hne, decide_False]

theorem isPrefixOf_append (pfx u : String) : pfx.data.isPrefixOf (pfx ++ u).data = true := by
  rw [List.isPrefixOf_iff_prefix, String.data_append]
  exact List.prefix_append _ _

theorem keyLe_refl (a : List Char) : keyLe a a = true := by
  induction a with
  | nil => rfl
  | cons c cs ih => simp [keyLe, ih]

theorem find_orderedInsert (k : String) (v : KeyValue) (l : List KeyValue) :
    (l.orderedInsert (fun v w => keyLe v.Key.data w.Key.data = true) v).find?
        (fun x => decide (x.Key = k)) =
      if v.Key = k then some v else l.find? (fun x => decide (x.Key = k)) := by
  induction l with
  | nil => by_cases h : v.Key = k <;> simp [List.orderedInsert, h]
  | cons w l ih =>
    by_cases hle : keyLe v.Key.data w.Key.data = true
    · simp only [List.orderedInsert, hle, if_true, List.find?_cons]
      by_cases h : v.Key = k <;> simp [h]
    · have e : List.orderedInsert (fun v w => keyLe v.Key.data w.Key.data = true) v (w :: l) =
          w :: List.orderedInsert (fun v w => keyLe v.Key.data w.Key.data = true) v l := by
        simp [List.orderedInsert, hle]
      rw [e, List.find?_cons, List.find?_cons]
      by_cases hw : w.Key = k
      · have hv : ¬ v.Key = k := by
          intro e
          apply hle
          rw [e, hw]
          exact keyLe_refl _
        simp [hw, hv]
      · simp only [hw, decide_False]
        exact ih

theorem find_insertionSort (k : String) (l : List KeyValue) :
    (l.insertionSort (fun v w => keyLe v.Key.data w.Key.data = true)).find?
        (fun x => decide (x.Key = k)) =
      l.find? (fun x => decide (x.Key = k)) := by
  induction l with
  | nil => rfl
  | cons v l ih =>
    simp only [List.insertionSort, find_orderedInsert, ih, List.find?_cons]
    by_cases h : v.Key = k <;> simp [h]

theorem Etcd.find_getPrefix (s : Etcd) (pfx u : String) :
    (s.getPrefix pfx).find? (fun v => decide (v.Key = pfx ++ u)) =
      (GoMap.load s.kvs (pfx ++ u)).map (fun kv => { kv with Key := pfx ++ u }) := by
  unfold Etcd.getPrefix
  rw [find_insertionSort]
  induction s.kvs with
  | nil => rfl
  | cons e t ih =>
    obtain ⟨k, kv⟩ := e
    by_cases hk : k = pfx ++ u
    · subst hk
      simp [List.filter_cons, isPrefixOf_append, GoMap.load]
    · by_cases hp : pfx.data.isPrefixOf k.data = true
      · simp only [List.filter_cons, hp, if_true, List.map_cons, List.find?_cons, hk,
          decide_False, GoMap.load, if_false]
        exact ih
      · simp only [List.filter_cons, hp, if_false, GoMap.load, hk]
        exact ih

theorem recoverable_good (pfx : String) (p : String × KeyValue)
    (hp : pfx.data.isPrefixOf p.1.data = true) (h : recoverable pfx p = true) :
    ∃ u t, noSlash u ∧ p.1 = pfx ++ u ∧ Atoi p.2.Value = .ok t := by
  obtain ⟨rest, hrest⟩ := isPrefixOf_data pfx p.1 hp
  simp only [recoverable, hp, Bool.not_true, Bool.false_or, Bool.and_eq_true,
    decide_eq_true_eq] at h
  obtain ⟨h1, h2⟩ := h
  have hd : p.1.data.drop pfx.data.length = rest.data := by
    rw [hrest, String.data_append, List.drop_left]
  rw [hd] at h1
  cases ha : Atoi p.2.Value with
  | error e => rw [ha] at h2; exact absurd h2 (by simp)
  | ok t => exact ⟨rest, t, h1, hrest, rfl⟩

/-- C25: for a peer whose full name has no slash, and a store in which every key
under `/peer/user/<full_name>/` has a user id without a slash and a decimal login
time as its value, the startup recovery of a fresh player registry returns no
error and turns the key of every user `u` into a LocalPlayer with the user id
`u`, the login time of the value and the create revision of the key, stored in
the local map under `u`. -/
theorem recovery_synthesizes_players (r : Registry) (s : Etcd) (hP : noSlash r.appFullName)
    (hkeys : s.kvs.all (recoverable (newConfigPlayerRegistry r).peerPrefix) = true)
    (u : String) (kv : KeyValue)
    (hkv : GoMap.load s.kvs ("/peer/user/" ++ r.appFullName ++ "/" ++ u) = some kv) :
    ((newConfigPlayerRegistry r).recoverSelfPeerPlayers r s).reply = .ret none none ∧
    GoMap.load ((newConfigPlayerRegistry r).recoverSelfPeerPlayers r s).self.localPlayers u =
      some { LoginTime := loginTimeOf kv.Value, UserId := u,
             CreateRevision := kv.CreateRevision } ∧
    Atoi kv.Value = .ok (loginTimeOf kv.Value) := by
  have hpfx : (newConfigPlayerRegistry r).peerPrefix = "/peer/user/" ++ r.appFullName ++ "/" :=
    rfl
  have hgood : ∀ v ∈ s.getPrefix (newConfigPlayerRegistry r).peerPrefix,
      ∃ u t, noSlash u ∧ v.Key = "/peer/user/" ++ r.appFullName ++ "/" ++ u ∧
        Atoi v.Value = .ok t := by
    intro v hv
    unfold Etcd.getPrefix at hv
    rw [List.mem_insertionSort, List.mem_map] at hv
    obtain ⟨p, hp, e⟩ := hv
    rw [List.mem_filter] at hp
    rw [List.all_eq_true] at hkeys
    obtain ⟨u', t, h1, h2, h3⟩ := recoverable_good _ p hp.2 (hkeys p hp.1)
    refine ⟨u', t, h1, ?_, ?_⟩
    · rw [← e, ← hpfx]
      exact h2
    · rw [← e]
      exact h3
  obtain ⟨h1, h2⟩ := recoverLoop_spec r r.appFullName hP _ (newConfigPlayerRegistry r) hgood
  have hfind := Etcd.find_getPrefix s (newConfigPlayerRegistry r).peerPrefix u
  rw [hpfx, hkv] at hfind
  have hres : ((newConfigPlayerRegistry r).recoverSelfPeerPlayers r s).reply = .ret none none ∧
      ((newConfigPlayerRegistry r).recoverSelfPeerPlayers r s).self.localPlayers =
        (recoverLoop r (s.getPrefix (newConfigPlayerRegistry r).peerPrefix)
          (newConfigPlayerRegistry r)).1.localPlayers := by
    unfold player_registry.recoverSelfPeerPlayers
    simp only [h1, and_self]
  refine ⟨hres.1, ?_, ?_⟩
  · rw [hres.2, h2 u]
    have he : GoMap.load (newConfigPlayerRegistry r).localPlayers u = none := rfl
    rw [he]
    simp only
    rw [hpfx, hfind]
    rfl
  · have hmem : ∃ v ∈ s.getPrefix (newConfigPlayerRegistry r).peerPrefix,
        v.Value = kv.Value := by
      rw [Option.map_some'] at hfind
      exact ⟨{ kv with Key := "/peer/user/" ++ r.appFullName ++ "/" ++ u },
        by rw [hpfx]; exact List.mem_of_find?_eq_some hfind, rfl⟩
    obtain ⟨v, hv, hval⟩ := hmem
    obtain ⟨_, t, _, _, ht⟩ := hgood v hv
    rw [hval] at ht
    simp [loginTimeOf, ht]

/-- Witness of `recovery_synthesizes_players`: `hall_1` has locked `u` and `v`;
the recovery of a fresh registry finds `v` with the login time `101`. -/
theorem recovery_synthesizes_players_witness :
    noSlash (registryOf hallPlain).appFullName ∧
    plainLockedStore.kvs.all
      (recoverable (newConfigPlayerRegistry (registryOf hallPlain)).peerPrefix) = true ∧
    GoMap.load plainLockedStore.kvs
        ("/peer/user/" ++ (registryOf hallPlain).appFullName ++ "/" ++ "v") =
      some { Key := "/peer/user/hall_1/v", CreateRevision := 3, ModRevision := 3, Version := 1,
             Value := "101", Lease := 0 } ∧
    GoMap.load ((newConfigPlayerRegistry (registryOf hallPlain)).recoverSelfPeerPlayers
        (registryOf hallPlain) plainLockedStore).self.localPlayers "v" =
      some { LoginTime := loginTimeOf "101", UserId := "v", CreateRevision := 3 } :=
  ⟨by decide, by decide, by decide,
    (recovery_synthesizes_players (registryOf hallPlain) plainLockedStore (by decide)
      (by decide) "v"
      { Key := "/peer/user/hall_1/v", CreateRevision := 3, ModRevision := 3, Version := 1,
        Value := "101", Lease := 0 } (by decide)).2.1⟩

/-- Counterexample to C25 as stated: the peer `hall/1`, whose full name has the
form `<type>/<id>`, has locked `u`, so that `/peer/user/hall/1/u` holds the
decimal login time `100`; the key has six words, `onLocalKvAdd` refuses it as an
invalid key, and the recovery returns that error with an empty local map. -/
theorem recovery_refuses_keys_of_slash_names :
    (GoMap.load slashLockedStore.kvs "/peer/user/hall/1/u").map KeyValue.Value = some "100" ∧
    ((newConfigPlayerRegistry (registryOf hall1)).recoverSelfPeerPlayers (registryOf hall1)
      slashLockedStore).reply = .ret none (some .ErrInvalidPlayerKey) ∧
    ((newConfigPlayerRegistry (registryOf hall1)).recoverSelfPeerPlayers (registryOf hall1)
      slashLockedStore).self.localPlayers.length = 0 := by
  decide

/-! ## The service container (C22, C29) -/

/-- C22: for every container and every worker that it holds with the status
started, the first `StopService` returns no error, sets the status to stopped
and calls the cancel function once; the second `StopService` returns the error
of a worker already stopped and leaves the container as the first call left it,
so that the cancel function has been called exactly once. -/
theorem stopService_idempotent (self : ServiceContainer) (service : Worker) (s : Service)
    (hs : GoMap.load self.Services service.id = some s)
    (hstarted : s.status = service_status_started) :
    (self.StopService service).2 = none ∧
    GoMap.load (self.StopService service).1.Services service.id =
      some { s with status := service_status_stopped, cancelCalls := s.cancelCalls + 1 } ∧
    ((self.StopService service).1.StopService service).1 = (self.StopService service).1 ∧
    ((self.StopService service).1.StopService service).2 = some (.alreadyStop s.name) := by
  have h1 : self.StopService service =
      ({ self with
          Services := GoMap.store self.Services service.id
            { s with status := service_status_stopped, cancelCalls := s.cancelCalls + 1 } },
        none) := by
    simp only [ServiceContainer.StopService, hs, hstarted, if_true]
  rw [h1]
  have hl : GoMap.load (GoMap.store self.Services service.id
      { s with status := service_status_stopped, cancelCalls := s.cancelCalls + 1 }) service.id =
      some { s with status := service_status_stopped, cancelCalls := s.cancelCalls + 1 } := by
    rw [GoMap.load_store]
    simp
  refine ⟨rfl, hl, ?_, ?_⟩
  · simp only [ServiceContainer.StopService, hl]
    have : ¬ service_status_stopped = service_status_started := by decide
    simp only [this, if_false]
  · simp only [ServiceContainer.StopService, hl]
    have : ¬ service_status_stopped = service_status_started := by decide
    simp only [this, if_false]

/-- Witness of `stopService_idempotent`: a container that has started
`goodWorker`. -/
theorem stopService_idempotent_witness :
    GoMap.load (NewContainer.StartService "w" goodWorker).1.Services goodWorker.id =
      some { status := 1, name := "w", handler := goodWorker, hasCtx := true, cancelCalls := 0 } ∧
    GoMap.load ((NewContainer.StartService "w" goodWorker).1.StopService goodWorker).1.Services
        goodWorker.id =
      some { status := 2, name := "w", handler := goodWorker, hasCtx := true, cancelCalls := 1 } ∧
    (((NewContainer.StartService "w" goodWorker).1.StopService goodWorker).1.StopService
      goodWorker).1 = ((NewContainer.StartService "w" goodWorker).1.StopService goodWorker).1 :=
  ⟨by decide,
    (stopService_idempotent (NewContainer.StartService "w" goodWorker).1 goodWorker
      { status := 1, name := "w", handler := goodWorker, hasCtx := true, cancelCalls := 0 }
      (by decide) (by decide)).2.1,
    by decide⟩

/-- C29: on the new container, `StartService` of a worker whose `OnStart` returns
an error returns that error and launches nothing, but leaves the worker in the
map of the container, with the status `0` and its scope created; a second
`StartService` of the same instance is refused as already started, and
`StopService` reports it as already stopped. -/
theorem startService_failure_leaves_worker_registered :
    (NewContainer.StartService "w" failingWorker).2 = some (.onStart .ErrNullPointer) ∧
    (NewContainer.StartService "w" failingWorker).1.launched = [] ∧
    GoMap.load (NewContainer.StartService "w" failingWorker).1.Services failingWorker.id =
      some { status := 0, name := "w", handler := failingWorker, hasCtx := true,
             cancelCalls := 0 } ∧
    (NewContainer.StartService "w" failingWorker).1 ≠ NewContainer ∧
    ((NewContainer.StartService "w" failingWorker).1.StartService "w" failingWorker).2 =
      some (.alreadyStart "w") ∧
    ((NewContainer.StartService "w" failingWorker).1.StopService failingWorker).2 =
      some (.alreadyStop "w") := by
  decide

/-! ## Login without an upstream (C23) -/

/-- C23: when `SelectPeer` yields no upstream for the login frame, `serve`
returns `ErrUpstreamUnavailable` before its flows start; it has answered the
login frame with a login error response that carries `ErrUpstreamUnavailable`,
and nothing else, has asked for no client stream and has left the session count
as it was. -/
theorem serve_without_upstream (hall : Server) (ClientStream : Option Err)
    (message : GatewayMessage) (h : hall.SelectPeer = none) :
    ∃ after, client_session.serveOpen hall ClientStream message =
        .refused after .ErrUpstreamUnavailable ∧
      after.loginErrors = hall.loginErrors ++ [(message, .ErrUpstreamUnavailable)] ∧
      after.streams = hall.streams ∧
      after.SessionCount = hall.SessionCount := by
  refine ⟨hall.loginErrResponse message .ErrUpstreamUnavailable, ?_, rfl, rfl, rfl⟩
  simp only [client_session.serveOpen, h]

/-- Witness of `serve_without_upstream`: a gateway without an upstream and with
three open sessions. -/
theorem serve_without_upstream_witness :
    idleHall.SelectPeer = none ∧
    ∃ after, client_session.serveOpen idleHall none loginFrame =
        .refused after .ErrUpstreamUnavailable ∧
      after.loginErrors = idleHall.loginErrors ++ [(loginFrame, .ErrUpstreamUnavailable)] ∧
      after.streams = idleHall.streams ∧
      after.SessionCount = idleHall.SessionCount :=
  ⟨rfl, serve_without_upstream idleHall none loginFrame rfl⟩

/-! ## Peer events on the upstream pool (C24) -/

theorem upstream_map.Load_append_new (servers : List (Int × Upstream)) (id : Int)
    (server : Upstream) (h : upstream_map.Load servers id = none) :
    upstream_map.Load (servers ++ [(id, server)]) id = some server := by
  induction servers with
  | nil => simp [upstream_map.Load]
  | cons e t ih =>
    obtain ⟨k, v⟩ := e
    by_cases hk : k = id
    · simp [upstream_map.Load, hk] at h
    · simp only [upstream_map.Load, hk, if_false] at h
      simp only [List.cons_append, upstream_map.Load, hk, if_false]
      exact ih h

theorem upstream_map.OnPeerAdd_new (pool : UpstreamPool) (ctxDone : Bool) (peer : Peer)
    (h : upstream_map.Load pool.servers peer.Id = none) :
    upstream_map.Load (upstream_map.OnPeerAdd pool ctxDone peer).servers peer.Id =
      some (newUpstream ctxDone peer) := by
  simp only [upstream_map.OnPeerAdd, h]
  exact upstream_map.Load_append_new _ _ _ h

/-- C24: the first peer event for `hall/1` puts the new agent, with a live
scope, under the id `1`.  A second peer event for the same id, with a new
address, leaves the first agent under the id, now with its scope cancelled and
with the old address; the agent made for the second event is started but is not
in the pool, and `SelectPeer` finds no agent. -/
theorem onPeerAdd_keeps_closed_agent :
    (upstream_map.Load poolAfterFirstAdd.servers 1).map Upstream.ctxDone = some false ∧
    (upstream_map.Load poolAfterFirstAdd.servers 1).map Upstream.Address =
      some "10.0.0.1:9000" ∧
    (upstream_map.Load poolAfterSecondAdd.servers 1).map Upstream.ctxDone = some true ∧
    (upstream_map.Load poolAfterSecondAdd.servers 1).map Upstream.Address =
      some "10.0.0.1:9000" ∧
    poolAfterSecondAdd.servers.length = 1 ∧
    poolAfterSecondAdd.serving.map Upstream.Address = ["10.0.0.1:9000", "10.0.0.9:9000"] ∧
    (upstream_map.SelectPeer (poolAfterSecondAdd.servers.map Prod.snd)).isNone = true := by
  decide

/-! ## Unregister of a name that no key holds (C26) -/

/-- C26: on the empty store, `UnregisterService("chat")` of a fresh registry
takes the failure branch with an empty key list in the first response; the guarded
read leaves the owner empty, and the log line that follows reads `Kvs[0]` of the
same list, which is a run-time panic: the call does not return. -/
theorem unregister_of_absent_name_panics :
    ((newConfigServiceRegistry (registryOf hall1)).UnregisterService (registryOf hall1)
      Etcd.empty "chat").reply = .panic ∧
    GoMap.load Etcd.empty.kvs "/service/chat" = none := by
  decide

/-! ## The registry client (C27, C28) -/

/-- C27: the store holds the address attributes of `hall_1` and of `hall_10`;
`UnregisterPeer("hall_1")` deletes by the prefix `/peer/attribute/hall_1`, which
the key of `hall_10` starts with too, and both keys are gone. -/
theorem unregisterPeer_deletes_longer_names :
    (GoMap.load attributeStore.kvs "/peer/attribute/hall_10/grpc").map KeyValue.Value =
      some "10.0.0.10:9000" ∧
    GoMap.load (newConfigPeerRegistry.UnregisterPeer attributeStore "hall_1").1.kvs
      "/peer/attribute/hall_1/grpc" = none ∧
    GoMap.load (newConfigPeerRegistry.UnregisterPeer attributeStore "hall_1").1.kvs
      "/peer/attribute/hall_10/grpc" = none ∧
    (newConfigPeerRegistry.UnregisterPeer attributeStore "hall_1").1.kvs.length = 0 := by
  decide

/-- C28: the client of the application `gate_1` asks for `hall_1` in a store that
holds the address attributes of `hall_1` and of `hall_10`.  The peer returned has
the type and the id parsed from `hall_1`, but its full name is `gate_1`, that of
the client, and its address is that of `hall_10`, whose key the read by the
prefix `/peer/attribute/hall_1` returns as well. -/
theorem getPeer_describes_another_peer :
    (newConfigPeerRegistry.GetPeer { appFullName := "gate_1" } parseExample attributeStore
      "hall_1").map Peer.Name = some "hall" ∧
    (newConfigPeerRegistry.GetPeer { appFullName := "gate_1" } parseExample attributeStore
      "hall_1").map Peer.Id = some 1 ∧
    (newConfigPeerRegistry.GetPeer { appFullName := "gate_1" } parseExample attributeStore
      "hall_1").map Peer.FullName = some "gate_1" ∧
    (newConfigPeerRegistry.GetPeer { appFullName := "gate_1" } parseExample attributeStore
      "hall_1").map Peer.Address = some "10.0.0.10:9000" ∧
    (GoMap.load attributeStore.kvs "/peer/attribute/hall_1/grpc").map KeyValue.Value =
      some "10.0.0.1:9000" := by
  decide

/-! ## The word trie: add then delete (C30) -/

theorem word_trie_node.Live_iff (n : word_trie_node) :
    n.Live ↔ (n.set = true ∨ n.nodes ≠ []) ∧ AllLive n.nodes := by
  cases n with
  | mk v p s nodes => simp [word_trie_node.Live, word_trie_node.set, word_trie_node.nodes]

theorem AllLive_iff (nodes : List (String × word_trie_node)) :
    AllLive nodes ↔ ∀ e ∈ nodes, e.2.Live := by
  induction nodes with
  | nil => simp [AllLive]
  | cons e t ih =>
    obtain ⟨k, c⟩ := e
    simp only [AllLive, ih, List.mem_cons, forall_eq_or_imp]

theorem AllLive_load (nodes : List (String × word_trie_node)) (h : AllLive nodes) (k : String)
    (c : word_trie_node) (hl : GoMap.load nodes k = some c) : c.Live := by
  obtain ⟨a, ha⟩ := GoMap.mem_of_load nodes k c hl
  exact (AllLive_iff nodes).1 h _ ha

theorem AllLive_store (nodes : List (String × word_trie_node)) (h : AllLive nodes) (k : String)
    (c : word_trie_node) (hc : c.Live) : AllLive (GoMap.store nodes k c) := by
  rw [AllLive_iff] at h ⊢
  intro e he
  rcases GoMap.mem_store _ _ _ _ he with he | he
  · exact h e he
  · rw [he]
    exact hc

theorem AllLive_delete (nodes : List (String × word_trie_node)) (h : AllLive nodes)
    (k : String) : AllLive (GoMap.delete nodes k) := by
  rw [AllLive_iff] at h ⊢
  intro e he
  exact h e (GoMap.mem_delete _ _ _ he)

theorem GoMap.store_ne_nil {β : Type} (m : List (String × β)) (k : String) (v : β) :
    GoMap.store m k v ≠ [] := by
  cases m with
  | nil => simp [GoMap.store]
  | cons e t =>
    obtain ⟨a, b⟩ := e
    by_cases h : a = k <;> simp [GoMap.store, h]

theorem addWords_cons (path : String) (nodes : List (String × word_trie_node)) (w : String)
    (rest : List String) :
    addWords path nodes (w :: rest) =
      GoMap.store nodes w (addAt path (lookupOrNew nodes w) rest) := by
  cases rest with
  | nil => rw [addWords]; rfl
  | cons w' rest' => rw [addWords]; rfl

theorem lookupOrNew_AllLive (nodes : List (String × word_trie_node)) (h : AllLive nodes)
    (w : String) : AllLive (lookupOrNew nodes w).nodes := by
  cases hl : GoMap.load nodes w with
  | none =>
    simp only [lookupOrNew, hl, word_trie_node.nodes_mk, AllLive]
  | some c =>
    simp only [lookupOrNew, hl]
    exact ((word_trie_node.Live_iff c).1 (AllLive_load _ h w c hl)).2

theorem addAt_Live (path : String) (ws : List String) :
    ∀ n : word_trie_node, AllLive n.nodes → (addAt path n ws).Live := by
  induction ws with
  | nil =>
    intro n h
    have e : addAt path n [] = .mk n.value path true n.nodes := rfl
    rw [e, word_trie_node.Live_iff]
    simp only [word_trie_node.set_mk, word_trie_node.nodes_mk, true_or, true_and]
    exact h
  | cons w rest ih =>
    intro n h
    have hi := ih (lookupOrNew n.nodes w) (lookupOrNew_AllLive _ h w)
    have e : addAt path n (w :: rest) =
        .mk n.value n.path n.set (addWords path n.nodes (w :: rest)) := rfl
    rw [e, word_trie_node.Live_iff]
    simp only [word_trie_node.set_mk, word_trie_node.nodes_mk]
    rw [addWords_cons]
    exact ⟨Or.inr (GoMap.store_ne_nil _ _ _), AllLive_store _ h _ _ hi⟩

theorem addWords_AllLive (path : String) (nodes : List (String × word_trie_node))
    (h : AllLive nodes) (w : String) (rest : List String) :
    AllLive (addWords path nodes (w :: rest)) := by
  rw [addWords_cons]
  exact AllLive_store _ h _ _ (addAt_Live path rest _ (lookupOrNew_AllLive _ h w))

theorem not_dead_iff (n : word_trie_node) :
    ¬ ((n.nodes.length ≤ 0 && !n.set) = true) ↔ (n.set = true ∨ n.nodes ≠ []) := by
  cases hs : n.set <;> cases hn : n.nodes <;> simp

theorem word_trie_node.node_delete_Live (ws : List String) :
    ∀ n : word_trie_node, AllLive n.nodes →
      AllLive (n.delete ws).1.nodes ∧
      ∀ e, (n.delete ws).2 = some e →
        (n.delete ws).1.set = n.set ∧ (n.nodes ≠ [] → (n.delete ws).1.nodes ≠ []) := by
  induction ws with
  | nil =>
    intro n h
    simp only [word_trie_node.delete, word_trie_node.nodes_mk]
    exact ⟨h, fun e he => absurd he (by simp)⟩
  | cons w rest ih =>
    intro n h
    cases hl : GoMap.load n.nodes w with
    | none =>
      simp only [word_trie_node.delete, hl]
      exact ⟨h, fun e _ => ⟨trivial, fun hn => hn⟩⟩
    | some c =>
      have hcl := (word_trie_node.Live_iff c).1 (AllLive_load _ h w c hl)
      obtain ⟨h1, h2⟩ := ih c hcl.2
      simp only [word_trie_node.delete, hl]
      cases hr : (word_trie_node.delete c rest).2 with
      | some e =>
        simp only [word_trie_node.nodes_mk, word_trie_node.set_mk]
        obtain ⟨h3, h4⟩ := h2 e hr
        refine ⟨AllLive_store _ h _ _ ?_, fun _ _ => ⟨trivial, fun _ => GoMap.store_ne_nil _ _ _⟩⟩
        rw [word_trie_node.Live_iff]
        refine ⟨?_, h1⟩
        rcases hcl.1 with hs | hn
        · exact Or.inl (by rw [h3]; exact hs)
        · exact Or.inr (h4 hn)
      | none =>
        simp only
        by_cases hp : ((word_trie_node.delete c rest).1.nodes.length ≤ 0 &&
            !(word_trie_node.delete c rest).1.set) = true
        · simp only [hp, if_true, word_trie_node.nodes_mk]
          exact ⟨AllLive_delete _ h _, fun e he => absurd he (by simp)⟩
        · simp only [hp, Bool.false_eq_true, if_false, word_trie_node.nodes_mk]
          refine ⟨AllLive_store _ h _ _ ?_, fun e he => absurd he (by simp)⟩
          rw [word_trie_node.Live_iff]
          exact ⟨(not_dead_iff _).1 hp, h1⟩

theorem HeadersLive_iff (headers : List (String × word_trie_header_node)) :
    HeadersLive headers ↔ ∀ e ∈ headers, e.2.Live := by
  induction headers with
  | nil => simp [HeadersLive]
  | cons e t ih =>
    obtain ⟨k, c⟩ := e
    simp only [HeadersLive, ih, List.mem_cons, forall_eq_or_imp]

theorem HeadersLive_load (headers : List (String × word_trie_header_node))
    (h : HeadersLive headers) (k : String) (hd : word_trie_header_node)
    (hl : GoMap.load headers k = some hd) : hd.Live := by
  obtain ⟨a, ha⟩ := GoMap.mem_of_load headers k hd hl
  exact (HeadersLive_iff headers).1 h _ ha

theorem HeadersLive_store (headers : List (String × word_trie_header_node))
    (h : HeadersLive headers) (k : String) (hd : word_trie_header_node) (hc : hd.Live) :
    HeadersLive (GoMap.store headers k hd) := by
  rw [HeadersLive_iff] at h ⊢
  intro e he
  rcases GoMap.mem_store _ _ _ _ he with he | he
  · exact h e he
  · rw [he]
    exact hc

theorem HeadersLive_delete (headers : List (String × word_trie_header_node))
    (h : HeadersLive headers) (k : String) : HeadersLive (GoMap.delete headers k) := by
  rw [HeadersLive_iff] at h ⊢
  intro e he
  exact h e (GoMap.mem_delete _ _ _ he)

theorem word_trie_header_node.header_add_Live (header : word_trie_header_node) (path : String)
    (words : List String) (h : AllLive header.nodes) : (header.add path words).1.Live := by
  cases words with
  | nil =>
    simp only [word_trie_header_node.add, word_trie_header_node.Live, true_or, true_and]
    exact h
  | cons w rest =>
    simp only [word_trie_header_node.add, word_trie_header_node.Live]
    rw [addWords_cons]
    exact ⟨Or.inr (GoMap.store_ne_nil _ _ _),
      AllLive_store _ h _ _ (addAt_Live path rest _ (lookupOrNew_AllLive _ h w))⟩

theorem word_trie.trie_add_Pruned (t : word_trie) (path : String) (h : t.Pruned) :
    (t.add path).1.Pruned := by
  unfold word_trie.Pruned at h ⊢
  unfold word_trie.add
  split
  · exact h
  · split
    · exact h
    · split
      · exact HeadersLive_store _ h _ _
          (word_trie_header_node.header_add_Live _ _ _ (by simp [AllLive]))
      · rename_i header hl
        exact HeadersLive_store _ h _ _
          (word_trie_header_node.header_add_Live _ _ _ (HeadersLive_load _ h _ _ hl).2)

theorem word_trie_header_node.header_delete_AllLive (header : word_trie_header_node)
    (words : List String) (h : AllLive header.nodes) :
    AllLive (header.delete words).1.nodes := by
  cases words with
  | nil => exact h
  | cons w rest =>
    simp only [word_trie_header_node.delete]
    cases hl : GoMap.load header.nodes w with
    | none => exact h
    | some c =>
      have hcl := (word_trie_node.Live_iff c).1 (AllLive_load _ h w c hl)
      obtain ⟨h1, _⟩ := word_trie_node.node_delete_Live rest c hcl.2
      simp only
      by_cases hp : ((word_trie_node.delete c rest).1.nodes.length ≤ 0 &&
          !(word_trie_node.delete c rest).1.set) = true
      · simp only [hp, if_true]
        exact AllLive_delete _ h _
      · simp only [hp, Bool.false_eq_true, if_false]
        refine AllLive_store _ h _ _ ?_
        rw [word_trie_node.Live_iff]
        exact ⟨(not_dead_iff _).1 hp, h1⟩

theorem header_not_dead_iff (hd : word_trie_header_node) :
    ¬ ((hd.nodes.length ≤ 0 && !hd.set) = true) ↔ (hd.set = true ∨ hd.nodes ≠ []) := by
  cases hs : hd.set <;> cases hn : hd.nodes <;> simp

theorem word_trie_header_node.header_delete_noerr (header : word_trie_header_node)
    (words : List String) : (header.delete words).2 = none := by
  cases words with
  | nil => rfl
  | cons w rest =>
    simp only [word_trie_header_node.delete]
    cases GoMap.load header.nodes w with
    | none => rfl
    | some c =>
      simp only
      split <;> rfl

theorem word_trie.trie_delete_Pruned (t : word_trie) (path : String) (h : t.Pruned) :
    (t.delete path).1.Pruned := by
  unfold word_trie.Pruned at h ⊢
  cases hw : pathWords path with
  | nil =>
    simp only [word_trie.delete, hw]
    exact h
  | cons w0 rest =>
    cases hl : GoMap.load t.headers w0 with
    | none =>
      simp only [word_trie.delete, hw, hl]
      exact h
    | some header =>
      have h1 := word_trie_header_node.header_delete_AllLive header rest
        (HeadersLive_load _ h _ _ hl).2
      simp only [word_trie.delete, hw, hl, word_trie_header_node.header_delete_noerr]
      by_cases hp : ((header.delete rest).1.nodes.length ≤ 0 && !(header.delete rest).1.set) = true
      · simp only [hp, if_true]
        exact HeadersLive_delete _ h _
      · simp only [hp, Bool.false_eq_true, if_false]
        exact HeadersLive_store _ h _ _ ⟨(header_not_dead_iff _).1 hp, h1⟩

theorem word_trie.run_Pruned (ops : List TrieOp) :
    ∀ t : word_trie, t.Pruned → (t.run ops).Pruned := by
  induction ops with
  | nil => intro t h; exact h
  | cons op rest ih =>
    intro t h
    simp only [word_trie.run, List.foldl_cons]
    cases op with
    | add path => exact ih _ (word_trie.trie_add_Pruned t path h)
    | delete path => exact ih _ (word_trie.trie_delete_Pruned t path h)

theorem word_trie_node.flagAt_nil (n : word_trie_node) : n.flagAt [] = some n.set := by
  cases n; rfl

theorem word_trie_node.flagAt_cons (n : word_trie_node) (w : String) (r : List String) :
    n.flagAt (w :: r) = nodesFlagAt n.nodes (w :: r) := by
  cases n; rfl

theorem flag_eq_set (a b : word_trie_node) (h : ∀ ws, a.flagAt ws = b.flagAt ws) :
    a.set = b.set := by
  have := h []
  rw [word_trie_node.flagAt_nil, word_trie_node.flagAt_nil] at this
  exact Option.some.inj this

theorem flag_eq_nil (a b : word_trie_node) (h : ∀ ws, a.flagAt ws = b.flagAt ws)
    (hb : b.nodes = []) : a.nodes = [] := by
  cases ha : a.nodes with
  | nil => rfl
  | cons e t =>
    obtain ⟨k, c⟩ := e
    have := h [k]
    rw [word_trie_node.flagAt_cons, word_trie_node.flagAt_cons, ha, hb] at this
    simp [nodesFlagAt, GoMap.load, word_trie_node.flagAt_nil] at this

theorem flag_eq_dead (a b : word_trie_node) (h : ∀ ws, a.flagAt ws = b.flagAt ws) :
    ((a.nodes.length ≤ 0 && !a.set) = true) ↔ ((b.nodes.length ≤ 0 && !b.set) = true) := by
  have hs := flag_eq_set a b h
  have h1 := flag_eq_nil a b h
  have h2 := flag_eq_nil b a (fun ws => (h ws).symm)
  constructor
  · intro hd
    have hn : a.nodes = [] := by
      cases ha : a.nodes with
      | nil => rfl
      | cons e t => rw [ha] at hd; simp at hd
    rw [h2 hn, ← hs]
    rw [hn] at hd
    simpa using hd
  · intro hd
    have hn : b.nodes = [] := by
      cases hb : b.nodes with
      | nil => rfl
      | cons e t => rw [hb] at hd; simp at hd
    rw [h1 hn, hs]
    rw [hn] at hd
    simpa using hd

theorem lookupOrNew_liveAt (nodes : List (String × word_trie_node)) (w : String)
    (rest : List String) (h : nodesLiveAt nodes (w :: rest) = none) :
    (lookupOrNew nodes w).liveAt rest = none := by
  cases hl : GoMap.load nodes w with
  | none =>
    simp only [lookupOrNew, hl]
    exact word_trie_node.node_liveAt_empty _ (by simp [word_trie_node.nodes_mk])
      (by simp [word_trie_node.set_mk]) rest
  | some c =>
    simp only [nodesLiveAt, hl] at h
    simp only [lookupOrNew, hl]
    exact h

theorem lookupOrNew_flagAt (nodes : List (String × word_trie_node)) (w : String)
    (c : word_trie_node) (hl : GoMap.load nodes w = some c) : lookupOrNew nodes w = c := by
  simp only [lookupOrNew, hl]

theorem addAt_delete_flag (path : String) (ws : List String) :
    ∀ n : word_trie_node, AllLive n.nodes → n.liveAt ws = none →
      ((addAt path n ws).delete ws).2 = none ∧
      ∀ ws', ((addAt path n ws).delete ws).1.flagAt ws' = n.flagAt ws' := by
  induction ws with
  | nil =>
    intro n h hlive
    have hset : n.set = false := by
      cases hs : n.set with
      | false => rfl
      | true => simp [word_trie_node.liveAt, hs] at hlive
    have e : (addAt path n []).delete [] = (.mk n.value path false n.nodes, none) := by
      cases n with
      | mk v p s nodes => rfl
    rw [e]
    refine ⟨rfl, ?_⟩
    intro ws'
    cases ws' with
    | nil => simp only [word_trie_node.flagAt_nil, word_trie_node.set_mk, hset]
    | cons k r => simp only [word_trie_node.flagAt_cons, word_trie_node.nodes_mk]
  | cons w rest ih =>
    intro n h hlive
    rw [word_trie_node.liveAt_cons] at hlive
    obtain ⟨h1, h2⟩ := ih (lookupOrNew n.nodes w) (lookupOrNew_AllLive _ h w)
      (lookupOrNew_liveAt _ _ _ hlive)
    have e : addAt path n (w :: rest) =
        .mk n.value n.path n.set
          (GoMap.store n.nodes w (addAt path (lookupOrNew n.nodes w) rest)) := by
      rw [← addWords_cons]
      rfl
    have hload : GoMap.load (GoMap.store n.nodes w (addAt path (lookupOrNew n.nodes w) rest)) w =
        some (addAt path (lookupOrNew n.nodes w) rest) := by
      rw [GoMap.load_store]
      simp
    rw [e]
    simp only [word_trie_node.delete, word_trie_node.nodes_mk, hload, h1, word_trie_node.value,
      word_trie_node.path_mk, word_trie_node.set_mk, GoMap.store_store]
    have hdead := flag_eq_dead _ _ h2
    by_cases hp : (((addAt path (lookupOrNew n.nodes w) rest).delete rest).1.nodes.length ≤ 0 &&
        !((addAt path (lookupOrNew n.nodes w) rest).delete rest).1.set) = true
    · simp only [hp, if_true]
      refine ⟨trivial, ?_⟩
      have hnone : GoMap.load n.nodes w = none := by
        cases hl : GoMap.load n.nodes w with
        | none => rfl
        | some c =>
          have hc := (word_trie_node.Live_iff c).1 (AllLive_load _ h w c hl)
          rw [lookupOrNew_flagAt _ _ c hl] at hdead hp
          exact absurd (hdead.1 hp) ((not_dead_iff c).2 hc.1)
      intro ws'
      cases ws' with
      | nil => simp only [word_trie_node.flagAt_nil, word_trie_node.set_mk]
      | cons k r =>
        simp only [word_trie_node.flagAt_cons, word_trie_node.nodes_mk, nodesFlagAt,
          GoMap.load_delete, GoMap.load_store]
        by_cases hk : w = k
        · subst hk
          simp only [if_true, hnone]
        · simp only [hk, if_false]
    · simp only [hp, Bool.false_eq_true, if_false]
      refine ⟨trivial, ?_⟩
      intro ws'
      cases ws' with
      | nil => simp only [word_trie_node.flagAt_nil, word_trie_node.set_mk]
      | cons k r =>
        simp only [word_trie_node.flagAt_cons, word_trie_node.nodes_mk, nodesFlagAt,
          GoMap.load_store]
        by_cases hk : w = k
        · subst hk
          simp only [if_true, h2]
          cases hl : GoMap.load n.nodes w with
          | some c => simp only [lookupOrNew, hl]
          | none =>
            have hfresh : ((lookupOrNew n.nodes w).nodes.length ≤ 0 &&
                !(lookupOrNew n.nodes w).set) = true := by
              simp [lookupOrNew, hl, word_trie_node.nodes_mk, word_trie_node.set_mk]
            exact absurd (hdead.2 hfresh) hp
        · simp only [hk, if_false]

theorem word_trie_header_node.asNode_add (header : word_trie_header_node) (path : String)
    (ws : List String) : (header.add path ws).1.asNode = addAt path header.asNode ws := by
  cases ws with
  | nil => rfl
  | cons w rest => rfl

theorem word_trie_header_node.asNode_delete (header : word_trie_header_node) (ws : List String)
    (h : (header.asNode.delete ws).2 = none) :
    (header.delete ws).1.asNode = (header.asNode.delete ws).1 := by
  cases ws with
  | nil => rfl
  | cons w rest =>
    have hn : header.asNode.nodes = header.nodes := rfl
    cases hl : GoMap.load header.nodes w with
    | none =>
      simp only [word_trie_node.delete, hn, hl] at h
      exact absurd h (by simp)
    | some c =>
      simp only [word_trie_node.delete, hn, hl] at h ⊢
      simp only [word_trie_header_node.delete, hl]
      cases hr : (word_trie_node.delete c rest).2 with
      | some e =>
        rw [hr] at h
        exact absurd h (by simp)
      | none =>
        simp only
        by_cases hp : ((word_trie_node.delete c rest).1.nodes.length ≤ 0 &&
            !(word_trie_node.delete c rest).1.set) = true
        · simp only [hp, if_true]
          rfl
        · simp only [hp, Bool.false_eq_true, if_false]
          rfl

theorem word_trie_header_node.asNode_flagAt (header : word_trie_header_node)
    (ws : List String) : header.asNode.flagAt ws = header.flagAt ws := by
  cases ws with
  | nil => rfl
  | cons w rest => rfl

theorem word_trie_header_node.asNode_liveAt (header : word_trie_header_node)
    (ws : List String) : header.asNode.liveAt ws = header.liveAt ws := by
  cases ws with
  | nil => rfl
  | cons w rest => rfl

theorem word_trie_header_node.header_add_delete_flag (header : word_trie_header_node)
    (path : String) (ws : List String) (h : AllLive header.nodes)
    (hlive : header.liveAt ws = none) :
    (∀ ws', ((header.add path ws).1.delete ws).1.flagAt ws' = header.flagAt ws') ∧
    ((((header.add path ws).1.delete ws).1.nodes.length ≤ 0 &&
        !((header.add path ws).1.delete ws).1.set) = true ↔
      (header.nodes.length ≤ 0 && !header.set) = true) := by
  have hn : AllLive header.asNode.nodes := h
  rw [← word_trie_header_node.asNode_liveAt] at hlive
  obtain ⟨h1, h2⟩ := addAt_delete_flag path ws header.asNode hn hlive
  rw [← word_trie_header_node.asNode_add] at h1 h2
  have e := word_trie_header_node.asNode_delete (header.add path ws).1 ws h1
  have hflag : ∀ ws', ((header.add path ws).1.delete ws).1.asNode.flagAt ws' =
      header.asNode.flagAt ws' := by
    intro ws'
    rw [e]
    exact h2 ws'
  refine ⟨?_, ?_⟩
  · intro ws'
    rw [← word_trie_header_node.asNode_flagAt, ← word_trie_header_node.asNode_flagAt]
    exact hflag ws'
  · exact flag_eq_dead _ _ hflag

theorem String.length_le_zero (w : String) (h : w.length ≤ 0) : w = "" := by
  have hl : w.data.length = 0 := by
    have : w.length = w.data.length := rfl
    omega
  exact String.ext (List.length_eq_zero.1 hl)

theorem word_trie.add_valid (t : word_trie) (p w0 : String) (rest : List String)
    (hw : pathWords p = w0 :: rest) (hv : validPath p) :
    t.add p =
      ({ headers := GoMap.store t.headers w0
          ((match GoMap.load t.headers w0 with
            | some header => header
            | none => { value := w0, path := "", set := false, nodes := [] }).add p rest).1 },
        none) := by
  have hany : rest.any (fun w => decide (w.length ≤ 0)) = false := by
    rw [List.any_eq_false]
    intro w hwm hle
    have hle' : w.length ≤ 0 := by simpa using hle
    exact hv.2 w (by rw [hw]; exact List.mem_cons_of_mem _ hwm) (String.length_le_zero w hle')
  have hnoerr : ∀ (h : word_trie_header_node), (h.add p rest).2 = none := by
    intro h
    cases rest <;> rfl
  simp only [word_trie.add, hw, hany, Bool.false_eq_true, if_false]
  cases hl : GoMap.load t.headers w0 with
  | none => simp only [hnoerr]
  | some header => simp only [hnoerr]

theorem word_trie.trie_add_delete_flag (t : word_trie) (p : String) (hpr : t.Pruned)
    (hv : validPath p) (hlive : t.liveAt (pathWords p) = none) :
    (t.add p).2 = none ∧ ((t.add p).1.delete p).2 = none ∧
    ∀ ws, ((t.add p).1.delete p).1.flagAt ws = t.flagAt ws := by
  cases hw : pathWords p with
  | nil => exact absurd hw hv.1
  | cons w0 rest =>
    rw [hw] at hlive
    rw [word_trie.add_valid t p w0 rest hw hv]
    have hfresh : AllLive ({ value := w0, path := "", set := false, nodes := [] } :
        word_trie_header_node).nodes := by simp [AllLive]
    have h0 : AllLive (match GoMap.load t.headers w0 with
        | some header => header
        | none => { value := w0, path := "", set := false, nodes := [] }).nodes ∧
        (match GoMap.load t.headers w0 with
        | some header => header
        | none => ({ value := w0, path := "", set := false, nodes := [] } :
            word_trie_header_node)).liveAt rest = none := by
      cases hl : GoMap.load t.headers w0 with
      | none =>
        exact ⟨hfresh, word_trie_header_node.header_liveAt_empty _ (by simp) rfl rest⟩
      | some header =>
        refine ⟨(HeadersLive_load _ hpr _ _ hl).2, ?_⟩
        simpa only [word_trie.liveAt, hl] using hlive
    obtain ⟨h1, h2⟩ := word_trie_header_node.header_add_delete_flag _ p rest h0.1 h0.2
    have hload : ∀ hd : word_trie_header_node,
        GoMap.load (GoMap.store t.headers w0 hd) w0 = some hd := by
      intro hd
      rw [GoMap.load_store]
      simp
    refine ⟨rfl, ?_, ?_⟩
    · simp only [word_trie.delete, hw, hload, word_trie_header_node.header_delete_noerr]
      split <;> rfl
    · intro ws
      simp only [word_trie.delete, hw, hload, word_trie_header_node.header_delete_noerr]
      split
      · rename_i hp
        have hdead0 := h2.1 hp
        have hnone : GoMap.load t.headers w0 = none := by
          cases hl : GoMap.load t.headers w0 with
          | none => rfl
          | some header =>
            rw [hl] at hdead0
            exact absurd hdead0 ((header_not_dead_iff header).2 (HeadersLive_load _ hpr _ _ hl).1)
        cases ws with
        | nil => rfl
        | cons k r =>
          simp only [word_trie.flagAt, GoMap.load_delete, GoMap.load_store]
          by_cases hk : w0 = k
          · subst hk
            simp only [if_true, hnone]
          · simp only [hk, if_false]
      · rename_i hp
        cases ws with
        | nil => rfl
        | cons k r =>
          simp only [word_trie.flagAt, GoMap.store_store, GoMap.load_store]
          by_cases hk : w0 = k
          · subst hk
            simp only [if_true, h1]
            cases hl : GoMap.load t.headers w0 with
            | some header => rfl
            | none =>
              rw [hl] at h2 hp
              exact absurd (h2.2 (by simp)) hp
          · simp only [hk, if_false]

/-- C30: on every trie reached from the empty one by add and delete calls, for
every path `p` with at least one word and no empty word that is not currently
added, `add(p)` and then `delete(p)` both return no error and restore the trie:
every search returns the same paths as before, the trie has a header or node
under a list of words exactly when it had one before, with the same set bit (so
every node that the add created is gone), and no header or node that is unset and
childless is left. -/
theorem add_then_delete_restores (ops : List TrieOp) (p q x : String) (ws : List String)
    (hv : validPath p) (hnot : currentlyAdded ops (pathWords p) = none) :
    ((newWordTrie.run ops).add p).2 = none ∧
    (((newWordTrie.run ops).add p).1.delete p).2 = none ∧
    (x ∈ (((newWordTrie.run ops).add p).1.delete p).1.search q ↔
      x ∈ (newWordTrie.run ops).search q) ∧
    (((newWordTrie.run ops).add p).1.delete p).1.flagAt ws = (newWordTrie.run ops).flagAt ws ∧
    (((newWordTrie.run ops).add p).1.delete p).1.Pruned := by
  obtain ⟨hwf, hlive⟩ := word_trie.run_new ops
  have hpr : (newWordTrie.run ops).Pruned :=
    word_trie.run_Pruned ops newWordTrie (by simp [word_trie.Pruned, newWordTrie, HeadersLive])
  have hl : (newWordTrie.run ops).liveAt (pathWords p) = none := by
    rw [hlive]
    exact hnot
  obtain ⟨h1, h2, h3⟩ := word_trie.trie_add_delete_flag _ p hpr hv hl
  refine ⟨h1, h2, ?_, h3 ws, ?_⟩
  · apply word_trie.search_congr _ _
      (word_trie.trie_delete_WF _ p (word_trie.trie_add_WF _ p hwf)) hwf
    intro ws'
    rw [word_trie.trie_delete_liveAt]
    cases hw : pathWords p with
    | nil => exact absurd hw hv.1
    | cons w0 rest =>
      have hany : rest.any (fun w => decide (w.length ≤ 0)) = false := by
        rw [List.any_eq_false]
        intro w hwm hle
        have hle' : w.length ≤ 0 := by simpa using hle
        exact hv.2 w (by rw [hw]; exact List.mem_cons_of_mem _ hwm)
          (String.length_le_zero w hle')
      simp only [addedStep, hw]
      by_cases he : ws' = w0 :: rest
      · subst he
        simp only [if_true]
        rw [← hw]
        exact hl.symm
      · simp only [he, if_false]
        rw [word_trie.trie_add_liveAt]
        simp only [addedStep, hw, hany, Bool.false_eq_true, if_false, he]
  · exact word_trie.trie_delete_Pruned _ p (word_trie.trie_add_Pruned _ p hpr)

/-- Witness of `add_then_delete_restores`: with `a/b` added, `a/c/d` is added
and deleted again; `a/b` is still found under `a`, and no node is left under
`a/c`. -/
theorem add_then_delete_restores_witness :
    validPath "a/c/d" ∧ currentlyAdded [.add "a/b"] (pathWords "a/c/d") = none ∧
    ("a/b" ∈ (((newWordTrie.run [.add "a/b"]).add "a/c/d").1.delete "a/c/d").1.search "a" ↔
      "a/b" ∈ (newWordTrie.run [.add "a/b"]).search "a") ∧
    (((newWordTrie.run [.add "a/b"]).add "a/c/d").1.delete "a/c/d").1.flagAt ["a", "c"] =
      (newWordTrie.run [.add "a/b"]).flagAt ["a", "c"] ∧
    ((newWordTrie.run [.add "a/b"]).add "a/c/d").1.flagAt ["a", "c"] = some false ∧
    (((newWordTrie.run [.add "a/b"]).add "a/c/d").1.delete "a/c/d").1.flagAt ["a", "c"] = none :=
  ⟨by decide, by decide,
    (add_then_delete_restores [.add "a/b"] "a/c/d" "a" "a/b" ["a", "c"] (by decide)
      (by decide)).2.2.1,
    (add_then_delete_restores [.add "a/b"] "a/c/d" "a" "a/b" ["a", "c"] (by decide)
      (by decide)).2.2.2.1,
    by decide, by decide⟩

end Gira
